import Mathlib

/-!
# The per-staff notation store of Power Tab Editor

A shallow embedding of `source/powertabdocument/staff.cpp`.

Memory model.  The staff owns every `Position` stored in its voice vectors
(the destructor deletes each stored pointer exactly once) and a position owns
its notes, so a voice vector is embedded as the list of the objects it points
to, and a pointer to a stored object is the slot that owns it (`PositionPtr`,
`NotePtr`).  Mutating member functions pass the staff explicitly: they return
the outcome of the call together with the staff after the call, or, where the
staff after a throw is of no interest, the staff after a call that returns.  A
thrown exception is an `Except.error`, and so is undefined behaviour.
-/

namespace PowerTab

/-! ## Data model -/

/-- Modelled from the spec: the `Note` class (note.h is not among the sources).
A pitched event bound to one string with a fret number and technique flags;
the flags are stored as separate attributes.  That hammer-on and pull-off are
complementary is the predicate `HammerPullExclusive` below. -/
structure Note where
  string : Nat := 0
  fretNumber : Nat := 0
  hammerOn : Bool := false
  pullOff : Bool := false
  tied : Bool := false
  slideIntoType : Nat := 0
  slideOutOfType : Nat := 0
  slideOutOfSteps : Int := 0
  naturalHarmonic : Bool := false
  artificialHarmonic : Bool := false
  tappedHarmonic : Bool := false
  trill : Bool := false
deriving DecidableEq, Repr

/-- Modelled from the spec: the `Position` class (position.h is not among the
sources).  A timed event of a voice: its position index, its duration type
(1 whole, 2 half, 4 quarter, 8 eighth, 16, 32, 64), its symbol flags, its
beaming flags and the notes it owns. -/
structure Position where
  position : Nat := 0
  durationType : Nat := 8
  isRest : Bool := false
  pickStrokeDown : Bool := false
  pickStrokeUp : Bool := false
  tap : Bool := false
  letRing : Bool := false
  volumeSwell : Bool := false
  vibrato : Bool := false
  wideVibrato : Bool := false
  palmMuting : Bool := false
  tremoloPicking : Bool := false
  tremoloBar : Bool := false
  beamStart : Bool := false
  beamEnd : Bool := false
  fractionalLeftBeam : Bool := false
  fractionalRightBeam : Bool := false
  previousBeamDurationType : Nat := 0
  notes : List Note := []
deriving DecidableEq, Repr

/-- Modelled from the spec: `NUM_STAFF_VOICES` (staff.h is not among the
sources), the small fixed number of voices of a staff. -/
def NUM_STAFF_VOICES : Nat := 2

/-- Clef constant `Staff::TREBLE_CLEF`. -/
def TREBLE_CLEF : Nat := 0

/-- Clef constant `Staff::BASS_CLEF`. -/
def BASS_CLEF : Nat := 1

/-- Constant `Staff::DEFAULT_CLEF`. -/
def DEFAULT_CLEF : Nat := TREBLE_CLEF

/-- Constant `Staff::DEFAULT_TABLATURE_STAFF_TYPE`. -/
def DEFAULT_TABLATURE_STAFF_TYPE : Nat := 6

/-- Constant `Staff::DEFAULT_DATA`, the packed clef and tablature type. -/
def DEFAULT_DATA : Nat := ((DEFAULT_CLEF <<< 4) ||| DEFAULT_TABLATURE_STAFF_TYPE) % 256

/-- Constant `Staff::DEFAULT_STANDARD_NOTATION_STAFF_ABOVE_SPACING`. -/
def DEFAULT_STANDARD_NOTATION_STAFF_ABOVE_SPACING : Nat := 9

/-- Constant `Staff::DEFAULT_STANDARD_NOTATION_STAFF_BELOW_SPACING`. -/
def DEFAULT_STANDARD_NOTATION_STAFF_BELOW_SPACING : Nat := 9

/-- Constant `Staff::DEFAULT_SYMBOL_SPACING`. -/
def DEFAULT_SYMBOL_SPACING : Nat := 0

/-- Constant `Staff::DEFAULT_TABLATURE_STAFF_BELOW_SPACING`. -/
def DEFAULT_TABLATURE_STAFF_BELOW_SPACING : Nat := 0

/-- Constant `Staff::TAB_SYMBOL_HEIGHT`. -/
def TAB_SYMBOL_HEIGHT : Nat := 10

/-- The class `Staff`: the packed byte, the four spacing bytes and one vector
of owned positions per voice.  The default values are those of the default
constructor. -/
structure Staff where
  m_data : Nat := DEFAULT_DATA
  m_standardNotationStaffAboveSpacing : Nat := DEFAULT_STANDARD_NOTATION_STAFF_ABOVE_SPACING
  m_standardNotationStaffBelowSpacing : Nat := DEFAULT_STANDARD_NOTATION_STAFF_BELOW_SPACING
  m_symbolSpacing : Nat := DEFAULT_SYMBOL_SPACING
  m_tablatureStaffBelowSpacing : Nat := DEFAULT_TABLATURE_STAFF_BELOW_SPACING
  positionArrays : Fin NUM_STAFF_VOICES → List Position := fun _ => []

/-- How a call on the staff can fail: the two exceptions the staff throws, and
undefined behaviour (a failed `assert`, a dereferenced pointer that is not into
the staff). -/
inductive StaffError where
  | out_of_range
  | logic_error
  | undefined_behaviour
deriving DecidableEq, Repr

/-- A `Position*` into a staff: the voice whose vector owns the object and the
slot of that vector holding it. -/
structure PositionPtr where
  voice : Nat
  slot : Nat
deriving DecidableEq, Repr

/-- A `Note*` into a staff: the position owning the note and the slot of the
position's note vector holding it. -/
structure NotePtr where
  owner : PositionPtr
  slot : Nat
deriving DecidableEq, Repr

/-- Modelled from the spec: `Position::CloneObject` (position.h is not among the
sources): a deep copy of the position, its notes included.  A copy has the
value of the original. -/
def Position.CloneObject (p : Position) : Position := p

namespace Staff

/-! ## Note/Position store -/

/-- The function `Staff::IsValidVoice`. -/
def IsValidVoice (voice : Nat) : Bool := decide (voice < NUM_STAFF_VOICES)

/-- The vector `positionArrays[voice]`; `none` for an index outside the array. -/
def voiceArray (s : Staff) (voice : Nat) : Option (List Position) :=
  if h : voice < NUM_STAFF_VOICES then some (s.positionArrays ⟨voice, h⟩) else none

/-- Assignment to `positionArrays[voice]`. -/
def setVoiceArray (s : Staff) (voice : Fin NUM_STAFF_VOICES) (arr : List Position) : Staff :=
  { s with positionArrays := Function.update s.positionArrays voice arr }

/-- The loop of `Staff::GetPositionByPosition`: the slot of the first stored
position whose position index is `index`. -/
def findSlotByPosition (positionArray : List Position) (index : Nat) : Option Nat :=
  positionArray.findIdx? (fun p => p.position == index)

/-- The function `Staff::GetPositionByPosition`: a pointer to the first position of the voice
at the given position index, `none` for `NULL`. -/
def GetPositionByPosition (s : Staff) (voice index : Nat) :
    Except StaffError (Option PositionPtr) :=
  if h : voice < NUM_STAFF_VOICES then
    .ok ((findSlotByPosition (s.positionArrays ⟨voice, h⟩) index).map
      (fun k => { voice := voice, slot := k }))
  else .error .out_of_range

/-- The library call `std::find(positionArray.begin(), positionArray.end(), position)` on the
vector of voice `voice`: the slot of a pointer into that vector, `none` (the
end iterator) for any other pointer. -/
def stdFind (positionArray : List Position) (voice : Nat) (position : PositionPtr) :
    Option Nat :=
  if position.voice = voice ∧ position.slot < positionArray.length then some position.slot
  else none

/-- The object a `Position*` points to; `none` for a pointer that is not into
the staff. -/
def deref (s : Staff) (position : PositionPtr) : Option Position :=
  (s.voiceArray position.voice).bind (fun arr => arr[position.slot]?)

/-- The comparator `SortByPosition`. -/
def SortByPosition (pos1 pos2 : Position) : Bool := decide (pos1.position < pos2.position)

/-- Insertion of one element into a vector ordered by `SortByPosition`. -/
def orderedInsert (p : Position) : List Position → List Position
  | [] => [p]
  | q :: qs => if SortByPosition p q then p :: q :: qs else q :: orderedInsert p qs

/-- The library call `std::sort(positionArray.begin(), positionArray.end(), SortByPosition())`.
The library leaves the order of equivalent elements open; this is one ordered
permutation, and the theorems below rely on nothing else. -/
def stdSort : List Position → List Position
  | [] => []
  | p :: ps => orderedInsert p (stdSort ps)

/-- The function `Staff::InsertPosition`: the outcome of the call and the staff after it. -/
def InsertPosition (s : Staff) (voice : Nat) (position : Position) :
    Except StaffError Bool × Staff :=
  if h : voice < NUM_STAFF_VOICES then
    match findSlotByPosition (s.positionArrays ⟨voice, h⟩) position.position with
    | some _ => (.ok false, s)
    | none =>
      (.ok true, s.setVoiceArray ⟨voice, h⟩ (stdSort (s.positionArrays ⟨voice, h⟩ ++ [position])))
  else (.error .out_of_range, s)

/-- The function `Staff::RemovePosition`: the outcome of the call and the staff after it. -/
def RemovePosition (s : Staff) (voice index : Nat) : Except StaffError Bool × Staff :=
  if h : voice < NUM_STAFF_VOICES then
    match findSlotByPosition (s.positionArrays ⟨voice, h⟩) index with
    | none => (.ok false, s)
    | some k =>
      match stdFind (s.positionArrays ⟨voice, h⟩) voice { voice := voice, slot := k } with
      | none => (.ok false, s)
      | some location =>
        (.ok true, s.setVoiceArray ⟨voice, h⟩ ((s.positionArrays ⟨voice, h⟩).eraseIdx location))
  else (.error .out_of_range, s)

/-- A voice vector is sorted ascending by position index. -/
def SortedByPosition (positionArray : List Position) : Prop :=
  positionArray.Pairwise (fun a b => a.position ≤ b.position)

instance (positionArray : List Position) : Decidable (SortedByPosition positionArray) := by
  unfold SortedByPosition; infer_instance

/-- No two positions of a voice vector share a position index. -/
def DistinctPositions (positionArray : List Position) : Prop :=
  positionArray.Pairwise (fun a b => a.position ≠ b.position)

instance (positionArray : List Position) : Decidable (DistinctPositions positionArray) := by
  unfold DistinctPositions; infer_instance

/-- An editing operation on the store. -/
inductive StoreOp where
  | insert (voice : Nat) (position : Position)
  | remove (voice : Nat) (index : Nat)

/-- The staff after one editing operation. -/
def applyOp (s : Staff) : StoreOp → Staff
  | .insert voice position => (s.InsertPosition voice position).2
  | .remove voice index => (s.RemovePosition voice index).2

/-- The staff after a sequence of editing operations, first operation first. -/
def applyOps (s : Staff) (ops : List StoreOp) : Staff := ops.foldl applyOp s

/-- A staff with three positions in voice 0 and one in voice 1, used to
evaluate the operations on concrete input. -/
def sampleStaff : Staff :=
  { positionArrays := fun v =>
      if v.val = 0 then
        [{ position := 1, notes := [{ string := 2, fretNumber := 3 }] },
         { position := 4, notes := [{ string := 2, fretNumber := 5 }] },
         { position := 9, durationType := 4 }]
      else [{ position := 4, isRest := true }] }

/-! ## Serialization codec -/

/-- Modelled from the spec: `PowerTabOutputStream` (not among the sources).
The bytes written so far and the stream state reported by `CheckState`. -/
structure PowerTabOutputStream where
  bytes : List Nat := []
  good : Bool := true
deriving DecidableEq, Repr

/-- Modelled from the spec: `PowerTabInputStream` (not among the sources).
The bytes still to be read and the stream state reported by `CheckState`. -/
structure PowerTabInputStream where
  bytes : List Nat := []
  good : Bool := true
deriving DecidableEq, Repr

/-- Modelled from the spec: the record layer of the binary format, which the
stream classes and `Position::Serialize`/`Position::Deserialize` implement
(not among the sources): how an element count and a position record (its
scalar fields and its count-prefixed notes) are written and read back.  A
writer gives `none` for a value it cannot encode, a reader for bytes it cannot
decode; the reader of a position record is given the file version. -/
structure RecordFormat where
  writeCount : Nat → Option (List Nat)
  readCount : List Nat → Option (Nat × List Nat)
  writePosition : Position → Option (List Nat)
  readPosition : Nat → List Nat → Option (Position × List Nat)

/-- Modelled from the spec: a count that was written is read back, whatever
follows it in the stream. -/
def RecordFormat.CountRoundTrip (fmt : RecordFormat) : Prop :=
  ∀ n bs rest, fmt.writeCount n = some bs → fmt.readCount (bs ++ rest) = some (n, rest)

/-- Modelled from the spec: a position record that was written is read back at
the given file version, whatever follows it in the stream. -/
def RecordFormat.PositionRoundTrip (fmt : RecordFormat) (version : Nat) : Prop :=
  ∀ p bs rest, fmt.writePosition p = some bs →
    fmt.readPosition version (bs ++ rest) = some (p, rest)

/-- Modelled from the spec: `operator<<` for one `uint8_t`.  A stream that has
failed ignores the write. -/
def PowerTabOutputStream.writeByte (st : PowerTabOutputStream) (b : Nat) :
    PowerTabOutputStream :=
  if st.good then { st with bytes := st.bytes ++ [b % 256] } else st

/-- Modelled from the spec: a run of encoded bytes is appended to a good
stream; a value that cannot be encoded fails the stream. -/
def PowerTabOutputStream.writeEncoded (st : PowerTabOutputStream) (enc : Option (List Nat)) :
    PowerTabOutputStream :=
  if st.good then
    match enc with
    | some bs => { st with bytes := st.bytes ++ bs }
    | none => { st with good := false }
  else st

/-- Modelled from the spec: `PowerTabOutputStream::WriteVector`, the element
count followed by one record per position, in order. -/
def PowerTabOutputStream.WriteVector (fmt : RecordFormat) (st : PowerTabOutputStream)
    (vect : List Position) : PowerTabOutputStream :=
  vect.foldl (fun acc p => acc.writeEncoded (fmt.writePosition p))
    (st.writeEncoded (fmt.writeCount vect.length))

/-- Modelled from the spec: `operator>>` for one `uint8_t`: the byte read, if
any, and the stream afterwards.  Reading past the end fails the stream; a
stream that has failed reads nothing. -/
def PowerTabInputStream.readByte (st : PowerTabInputStream) : Option Nat × PowerTabInputStream :=
  if st.good then
    match st.bytes with
    | b :: rest => (some b, { st with bytes := rest })
    | [] => (none, { st with good := false })
  else (none, st)

/-- Modelled from the spec: the record loop of `ReadVector`: `count` records
are read and pushed onto the vector; the loop stops at the first record that
cannot be read, with the stream failed. -/
def PowerTabInputStream.readRecords (fmt : RecordFormat) (version : Nat) :
    Nat → List Position → PowerTabInputStream → List Position × PowerTabInputStream
  | 0, vect, st => (vect, st)
  | count + 1, vect, st =>
    match fmt.readPosition version st.bytes with
    | some (p, rest) => readRecords fmt version count (vect ++ [p]) { st with bytes := rest }
    | none => (vect, { st with good := false })

/-- Modelled from the spec: `PowerTabInputStream::ReadVector`: the vector is
replaced by the records announced by the count prefix.  A stream that has
failed reads nothing. -/
def PowerTabInputStream.ReadVector (fmt : RecordFormat) (version : Nat)
    (st : PowerTabInputStream) (vect : List Position) : List Position × PowerTabInputStream :=
  if st.good then
    match fmt.readCount st.bytes with
    | some (count, rest) => readRecords fmt version count [] { st with bytes := rest }
    | none => (vect, { st with good := false })
  else (vect, st)

/-- The voice loop of `Staff::Serialize` from voice `i` on, `fuel` voices to
go: each vector is written and the stream state checked. -/
def serializeVoices (fmt : RecordFormat) (s : Staff) :
    Nat → Nat → PowerTabOutputStream → Bool × PowerTabOutputStream
  | 0, _, stream => (stream.good, stream)
  | fuel + 1, i, stream =>
    if h : i < NUM_STAFF_VOICES then
      let stream1 := stream.WriteVector fmt (s.positionArrays ⟨i, h⟩)
      if stream1.good then serializeVoices fmt s fuel (i + 1) stream1 else (false, stream1)
    else (stream.good, stream)

/-- The function `Staff::Serialize`: the return value and the stream after the call. -/
def Serialize (fmt : RecordFormat) (s : Staff) (stream : PowerTabOutputStream) :
    Bool × PowerTabOutputStream :=
  let stream1 := ((((stream.writeByte s.m_data).writeByte
    s.m_standardNotationStaffAboveSpacing).writeByte
    s.m_standardNotationStaffBelowSpacing).writeByte s.m_symbolSpacing).writeByte
    s.m_tablatureStaffBelowSpacing
  if stream1.good then serializeVoices fmt s NUM_STAFF_VOICES 0 stream1 else (false, stream1)

/-- The voice loop of `Staff::Deserialize` from voice `i` on, `fuel` voices to
go: each vector is read and the stream state checked. -/
def deserializeVoices (fmt : RecordFormat) (version : Nat) :
    Nat → Nat → Staff → PowerTabInputStream → Bool × Staff × PowerTabInputStream
  | 0, _, s, stream => (stream.good, s, stream)
  | fuel + 1, i, s, stream =>
    if h : i < NUM_STAFF_VOICES then
      let r := stream.ReadVector fmt version (s.positionArrays ⟨i, h⟩)
      let s1 := s.setVoiceArray ⟨i, h⟩ r.1
      if r.2.good then deserializeVoices fmt version fuel (i + 1) s1 r.2 else (false, s1, r.2)
    else (stream.good, s, stream)

/-- The function `Staff::Deserialize`: the return value, the staff after the call and the
stream after the call.  A byte that could not be read leaves its field as it
was. -/
def Deserialize (fmt : RecordFormat) (version : Nat) (s : Staff) (stream : PowerTabInputStream) :
    Bool × Staff × PowerTabInputStream :=
  let r1 := stream.readByte
  let r2 := r1.2.readByte
  let r3 := r2.2.readByte
  let r4 := r3.2.readByte
  let r5 := r4.2.readByte
  let s1 : Staff :=
    { s with
      m_data := r1.1.getD s.m_data
      m_standardNotationStaffAboveSpacing := r2.1.getD s.m_standardNotationStaffAboveSpacing
      m_standardNotationStaffBelowSpacing := r3.1.getD s.m_standardNotationStaffBelowSpacing
      m_symbolSpacing := r4.1.getD s.m_symbolSpacing
      m_tablatureStaffBelowSpacing := r5.1.getD s.m_tablatureStaffBelowSpacing }
  if r5.2.good then deserializeVoices fmt version NUM_STAFF_VOICES 0 s1 r5.2
  else (false, s1, r5.2)

/-- Modelled from the spec: `Position::operator==` (not among the sources),
deep structural equality of two positions, notes included. -/
def positionEq (pos1 pos2 : Position) : Bool := decide (pos1 = pos2)

/-- The library call `std::equal` over the first vector with `ComparePositionPointers`; the
second vector is at least as long whenever the staff calls it. -/
def stdEqual : List Position → List Position → Bool
  | [], _ => true
  | _ :: _, [] => false
  | a :: as, b :: bs => positionEq a b && stdEqual as bs

/-- The function `Staff::operator==`. -/
def operatorEq (this staff : Staff) : Bool :=
  if (List.finRange NUM_STAFF_VOICES).all (fun i =>
      decide ((staff.positionArrays i).length = (this.positionArrays i).length) &&
        stdEqual (this.positionArrays i) (staff.positionArrays i)) then
    decide (this.m_data = staff.m_data) &&
      decide (this.m_standardNotationStaffAboveSpacing =
        staff.m_standardNotationStaffAboveSpacing) &&
      decide (this.m_standardNotationStaffBelowSpacing =
        staff.m_standardNotationStaffBelowSpacing) &&
      decide (this.m_symbolSpacing = staff.m_symbolSpacing) &&
      decide (this.m_tablatureStaffBelowSpacing = staff.m_tablatureStaffBelowSpacing)
  else false

/-- A small record format used to evaluate the codec on concrete input: a
count is one byte, and a position record is the position index and the
duration type of a position that has no other attribute set. -/
def sampleFormat : RecordFormat where
  writeCount := fun n => if n < 256 then some [n] else none
  readCount := fun bs =>
    match bs with
    | n :: rest => some (n, rest)
    | [] => none
  writePosition := fun p =>
    if p = { position := p.position, durationType := p.durationType } then
      some [p.position, p.durationType]
    else none
  readPosition := fun _ bs =>
    match bs with
    | a :: b :: rest => some ({ position := a, durationType := b }, rest)
    | _ => none

/-- A staff the sample record format can encode. -/
def plainStaff : Staff :=
  { positionArrays := fun v =>
      if v.val = 0 then [{ position := 1 }, { position := 4, durationType := 16 }]
      else [{ position := 2, durationType := 4 }] }

/-! ## Adjacency and technique validator -/

/-- Modelled from the spec: the enumeration `Staff::SearchDirection` (staff.h is
not among the sources): previous is -1, next is +1. -/
inductive SearchDirection where
  | PrevNote
  | NextNote
deriving DecidableEq, Repr

/-- The integer value of a search direction. -/
def SearchDirection.toInt : SearchDirection → Int
  | .PrevNote => -1
  | .NextNote => 1

/-- Modelled from the spec: `Position::GetNoteByString` (not among the
sources): the slot of the note of the position on the given string, `none`
when the position has no note there. -/
def noteSlotByString (p : Position) (string : Nat) : Option Nat :=
  p.notes.findIdx? (fun n => n.string == string)

/-- Modelled from the spec: `Position::GetNoteByString` (not among the
sources): the note of the position on the given string, `none` for `NULL`. -/
def GetNoteByString (p : Position) (string : Nat) : Option Note :=
  p.notes.find? (fun n => n.string == string)

/-- The object a `Note*` points to; `none` for a pointer that is not into the
staff. -/
def derefNote (s : Staff) (note : NotePtr) : Option Note :=
  (s.deref note.owner).bind (fun p => p.notes[note.slot]?)

/-- A write through slot `k` of a vector: the element there is replaced by its
image under `f`; other slots, and a vector without slot `k`, are unchanged. -/
def modifyAt {α : Type} (l : List α) (k : Nat) (f : α → α) : List α :=
  match l[k]? with
  | some a => l.set k (f a)
  | none => l

/-- A write through a `Position*`. -/
def modifyPosition (s : Staff) (position : PositionPtr) (f : Position → Position) : Staff :=
  if h : position.voice < NUM_STAFF_VOICES then
    s.setVoiceArray ⟨position.voice, h⟩
      (modifyAt (s.positionArrays ⟨position.voice, h⟩) position.slot f)
  else s

/-- A write through a `Note*`. -/
def modifyNote (s : Staff) (note : NotePtr) (f : Note → Note) : Staff :=
  s.modifyPosition note.owner (fun p => { p with notes := modifyAt p.notes note.slot f })

/-- The function `Staff::GetAdjacentNoteOnString`: the note on the string of `note` in the
position next to `position` in the given direction, `none` for `NULL`.  Of
`note` only its string is read. -/
def GetAdjacentNoteOnString (s : Staff) (searchDirection : SearchDirection)
    (position : PositionPtr) (note : Note) (voice : Nat) : Except StaffError (Option Note) :=
  if h : voice < NUM_STAFF_VOICES then
    match stdFind (s.positionArrays ⟨voice, h⟩) voice position with
    | none => .ok none
    | some location =>
      let newIndex : Int := (location : Int) + searchDirection.toInt
      if newIndex < 0 ∨ newIndex ≥ ((s.positionArrays ⟨voice, h⟩).length : Int) then .ok none
      else
        match (s.positionArrays ⟨voice, h⟩)[newIndex.toNat]? with
        | some nextPosition => .ok (GetNoteByString nextPosition note.string)
        | none => .error .undefined_behaviour
  else .error .out_of_range

/-- Modelled from the spec: the template `Staff::CompareWithNote` (staff.h is
not among the sources): false when the neighbouring position has no note on
the string, otherwise the comparison of the fret number of `note` with the
fret number of that note.  The neighbour is looked up in voice 0. -/
def CompareWithNote (s : Staff) (searchDirection : SearchDirection) (position : PositionPtr)
    (note : Note) (comp : Nat → Nat → Bool) : Except StaffError Bool :=
  match s.GetAdjacentNoteOnString searchDirection position note 0 with
  | .error e => .error e
  | .ok none => .ok false
  | .ok (some nextNote) => .ok (comp note.fretNumber nextNote.fretNumber)

/-- The function `Staff::CanHammerOn`: the note must be lower than the next. -/
def CanHammerOn (s : Staff) (position : PositionPtr) (note : Note) : Except StaffError Bool :=
  s.CompareWithNote .NextNote position note (fun a b => decide (a < b))

/-- The function `Staff::CanPullOff`: the note must be higher than the next. -/
def CanPullOff (s : Staff) (position : PositionPtr) (note : Note) : Except StaffError Bool :=
  s.CompareWithNote .NextNote position note (fun a b => decide (a > b))

/-- The function `Staff::CanTieNote`: the note must be the same as the previous. -/
def CanTieNote (s : Staff) (position : PositionPtr) (note : Note) : Except StaffError Bool :=
  s.CompareWithNote .PrevNote position note (fun a b => decide (a = b))

/-- The function `Staff::CanSlideBetweenNotes`: the next note must exist and be at a
different fret. -/
def CanSlideBetweenNotes (s : Staff) (position : PositionPtr) (note : Note) :
    Except StaffError Bool :=
  s.CompareWithNote .NextNote position note (fun a b => decide (a ≠ b))

/-- The conversion of an `int` to `int8_t`. -/
def toInt8 (x : Int) : Int := (x + 128) % 256 - 128

/-- The function `Staff::GetSlideSteps`. -/
def GetSlideSteps (s : Staff) (position : PositionPtr) (note : Note) : Except StaffError Int :=
  match s.GetAdjacentNoteOnString .NextNote position note 0 with
  | .error e => .error e
  | .ok none => .error .logic_error
  | .ok (some nextNote) => .ok (toInt8 ((nextNote.fretNumber : Int) - (note.fretNumber : Int)))

/-- Modelled from the spec: the constant `Note::slideOutOfNone` (note.h is not
among the sources). -/
def slideOutOfNone : Nat := 0

/-- The hammer-on and pull-off repair of `Staff::UpdateNote`, as a function of
`previousNote` and of the two legality tests made before it. -/
def repairHammerPull (canPull canHammer : Bool) (previousNote : Note) : Note :=
  if previousNote.pullOff && !canPull then
    if canHammer then { previousNote with pullOff := false, hammerOn := true }
    else { previousNote with pullOff := false }
  else if previousNote.hammerOn && !canHammer then
    if canPull then { previousNote with hammerOn := false, pullOff := true }
    else { previousNote with hammerOn := false }
  else previousNote

/-- Reads the object a `Note*` points to; undefined behaviour for a pointer
that is not into the staff. -/
def readNote (s : Staff) (note : NotePtr) : Except StaffError Note :=
  match s.derefNote note with
  | some n => .ok n
  | none => .error .undefined_behaviour

/-- The slide repair of `Staff::UpdateNote`: a slide out of `previousNote` is
removed when the notes can no longer slide, and gets its steps recomputed
otherwise. -/
def updateSlide (s : Staff) (prevPosition : PositionPtr) (previousNote : NotePtr) :
    Except StaffError Staff :=
  match s.readNote previousNote with
  | .error e => .error e
  | .ok prev =>
    if prev.slideOutOfType ≠ slideOutOfNone then
      match s.CanSlideBetweenNotes prevPosition prev with
      | .error e => .error e
      | .ok false =>
        .ok (s.modifyNote previousNote
          (fun n => { n with slideOutOfType := slideOutOfNone, slideOutOfSteps := 0 }))
      | .ok true =>
        match s.GetSlideSteps prevPosition prev with
        | .error e => .error e
        | .ok newSteps =>
          .ok (s.modifyNote previousNote
            (fun n => { n with slideOutOfType := prev.slideOutOfType,
                                slideOutOfSteps := newSteps }))
    else .ok s

/-- The tie repair of `Staff::UpdateNote`: a tie of `nextNote` is removed when
the two fret numbers differ. -/
def updateTie (s : Staff) (previousNote nextNote : NotePtr) : Except StaffError Staff :=
  match s.readNote nextNote, s.readNote previousNote with
  | .ok next, .ok prev =>
    if next.tied && next.fretNumber != prev.fretNumber then
      .ok (s.modifyNote nextNote (fun n => { n with tied := false }))
    else .ok s
  | _, _ => .error .undefined_behaviour

/-- The function `Staff::UpdateNote`: the staff after a call that returns. -/
def UpdateNote (s : Staff) (prevPosition : PositionPtr) (previousNote nextNote : NotePtr) :
    Except StaffError Staff :=
  match s.readNote previousNote with
  | .error e => .error e
  | .ok prev =>
    match s.CanPullOff prevPosition prev, s.CanHammerOn prevPosition prev with
    | .ok canPull, .ok canHammer =>
      match (s.modifyNote previousNote (repairHammerPull canPull canHammer)).updateSlide
          prevPosition previousNote with
      | .error e => .error e
      | .ok s2 => s2.updateTie previousNote nextNote
    | .error e, _ => .error e
    | _, .error e => .error e

/-- The first half of `Staff::UpdateTabNumber`: the note before this note, at
slot `k - 1` of voice 0, is updated when there is one. -/
def updatePrevious (s : Staff) (k : Nat) (note : NotePtr) (string : Nat) :
    Except StaffError Staff :=
  if k ≠ 0 then
    match (s.positionArrays ⟨0, by decide⟩)[k - 1]? with
    | none => .error .undefined_behaviour
    | some prevPosition =>
      match noteSlotByString prevPosition string with
      | some j =>
        s.UpdateNote { voice := 0, slot := k - 1 }
          { owner := { voice := 0, slot := k - 1 }, slot := j } note
      | none => .ok s
  else .ok s

/-- The second half of `Staff::UpdateTabNumber`: this note is updated against
the note after it, at slot `k + 1` of voice 0, when there is one. -/
def updateNext (s : Staff) (k : Nat) (note : NotePtr) (string : Nat) :
    Except StaffError Staff :=
  if k + 1 ≠ (s.positionArrays ⟨0, by decide⟩).length then
    match (s.positionArrays ⟨0, by decide⟩)[k + 1]? with
    | none => .error .undefined_behaviour
    | some nextPosition =>
      match noteSlotByString nextPosition string with
      | some j =>
        s.UpdateNote { voice := 0, slot := k } note
          { owner := { voice := 0, slot := k + 1 }, slot := j }
      | none => .ok s
  else .ok s

/-- The function `Staff::UpdateTabNumber`: the staff after a call that returns. -/
def UpdateTabNumber (s : Staff) (position : PositionPtr) (note : NotePtr) (fretNumber : Nat) :
    Except StaffError Staff :=
  match stdFind (s.positionArrays ⟨0, by decide⟩) 0 position with
  | none => .error .undefined_behaviour
  | some k =>
    match s.readNote note with
    | .error e => .error e
    | .ok n =>
      match (s.modifyNote note (fun m => { m with fretNumber := fretNumber })).updatePrevious
          k note n.string with
      | .error e => .error e
      | .ok s2 => s2.updateNext k note n.string

/-- The sample staff with the two notes of voice 0 exchanged: fret 5 on string
2, then fret 3 on string 2. -/
def reversedStaff : Staff :=
  { positionArrays := fun v =>
      if v.val = 0 then
        [{ position := 1, notes := [{ string := 2, fretNumber := 5 }] },
         { position := 4, notes := [{ string := 2, fretNumber := 3 }] }]
      else [] }

/-- The note `previousNote` after `Staff::UpdateNote`, in closed form, when the
next position holds `nextNote` on the same string: the hammer-on and pull-off
repair followed by the slide repair. -/
def updatedPrevious (previousNote nextNote : Note) : Note :=
  let repaired := repairHammerPull (decide (previousNote.fretNumber > nextNote.fretNumber))
    (decide (previousNote.fretNumber < nextNote.fretNumber)) previousNote
  if repaired.slideOutOfType ≠ slideOutOfNone then
    if previousNote.fretNumber ≠ nextNote.fretNumber then
      { repaired with
        slideOutOfSteps := toInt8 ((nextNote.fretNumber : Int) - (previousNote.fretNumber : Int)) }
    else { repaired with slideOutOfType := slideOutOfNone, slideOutOfSteps := 0 }
  else repaired

/-- The note `nextNote` after `Staff::UpdateNote`, in closed form: its tie is
removed when the two fret numbers differ. -/
def updatedNext (previousNote nextNote : Note) : Note :=
  if nextNote.tied && nextNote.fretNumber != previousNote.fretNumber then
    { nextNote with tied := false }
  else nextNote

/-- The position `p` with the note in slot `j` replaced by `n`. -/
def withNote (p : Position) (j : Nat) (n : Note) : Position :=
  { p with notes := p.notes.set j n }

/-- The vector of voice 0 after the first half of `Staff::UpdateTabNumber`, in
closed form, for the note in slot `j` of the position in slot `k`: when the
position before it has a note on the same string, that note and this note are
replaced by their values after `Staff::UpdateNote`. -/
def previousUpdated (arr : List Position) (k j : Nat) : List Position :=
  match arr[k]? with
  | some p =>
    match p.notes[j]? with
    | some n =>
      if k ≠ 0 then
        match arr[k - 1]? with
        | some q =>
          match noteSlotByString q n.string with
          | some ja =>
            match q.notes[ja]? with
            | some a =>
              (arr.set (k - 1) (withNote q ja (updatedPrevious a n))).set k
                (withNote p j (updatedNext a n))
            | none => arr
          | none => arr
        | none => arr
      else arr
    | none => arr
  | none => arr

/-- The vector of voice 0 after the second half of `Staff::UpdateTabNumber`,
in closed form, for the note in slot `j` of the position in slot `k`: when the
position after it has a note on the same string, this note and that note are
replaced by their values after `Staff::UpdateNote`. -/
def nextUpdated (arr : List Position) (k j : Nat) : List Position :=
  match arr[k]? with
  | some p =>
    match p.notes[j]? with
    | some n =>
      match arr[k + 1]? with
      | some r =>
        match noteSlotByString r n.string with
        | some jb =>
          match r.notes[jb]? with
          | some b =>
            (arr.set k (withNote p j (updatedPrevious n b))).set (k + 1)
              (withNote r jb (updatedNext n b))
          | none => arr
        | none => arr
      | none => arr
    | none => arr
  | none => arr

/-- The vector of voice 0 after `Staff::UpdateTabNumber`, in closed form, for
the note in slot `j` of the position in slot `k`: the fret number is set, then
the pair with the previous position and the pair with the next position are
updated. -/
def tabNumberUpdated (arr : List Position) (k j fretNumber : Nat) : List Position :=
  nextUpdated (previousUpdated
    (modifyAt arr k (fun p =>
      { p with notes := modifyAt p.notes j (fun m => { m with fretNumber := fretNumber }) }))
    k j) k j

/-- A staff whose voice 0 holds fret 3 with a hammer-on, then fret 5, on
string 2. -/
def hammerStaff : Staff :=
  { positionArrays := fun v =>
      if v.val = 0 then
        [{ position := 1, notes := [{ string := 2, fretNumber := 3, hammerOn := true }] },
         { position := 4, notes := [{ string := 2, fretNumber := 5 }] }]
      else [] }

/-- Modelled from the spec: hammer-on and pull-off are complementary techniques
of a note (the class `Note` is not among the sources): a note carries at most
one of the two flags. -/
def HammerPullExclusive (n : Note) : Prop := ¬ (n.hammerOn = true ∧ n.pullOff = true)

/-- Every note stored in the staff carries at most one of the hammer-on and the
pull-off flag. -/
def ExclusiveTechniques (s : Staff) : Prop :=
  ∀ v, ∀ q ∈ s.positionArrays v, ∀ m ∈ q.notes, HammerPullExclusive m

/-! ## Beaming engine -/

/-- Modelled from the spec: `Position::IsBeamable` (not among the sources): a
rest, or a note of a quarter or longer, is not beamable. -/
def IsBeamable (p : Position) : Bool := !p.isRest && decide (p.durationType ≥ 8)

/-- Modelled from the spec: `Position::ClearBeam` (not among the sources): all
beaming information of the position is cleared. -/
def ClearBeam (p : Position) : Position :=
  { p with beamStart := false, beamEnd := false, fractionalLeftBeam := false,
           fractionalRightBeam := false, previousBeamDurationType := 0 }

/-- The library call `std::find_if(first, last, pred)` on a vector, with iterators as offsets:
the first offset from `first` on whose element satisfies `pred`, the length of
the vector when there is none. -/
def findIf (pred : Position → Bool) (positions : List Position) (first : Nat) : Nat :=
  first + (positions.drop first).findIdx pred

/-- The body of the `for` loop of `Staff::CalculateBeamingForGroup` for the
position at offset `i` of a beamable run that starts at `beamableGroupStart`. -/
def beamStep (beamableGroupStart : Nat) (positions : List Position) (i : Nat) : List Position :=
  if i = beamableGroupStart then
    modifyAt positions i (fun currentPos => { currentPos with previousBeamDurationType := 0 })
  else
    match positions[i]?, positions[i - 1]? with
    | some currentPos, some prevPos =>
      let differ : Bool := currentPos.durationType != prevPos.durationType
      let prevDuration : Nat := if differ then 8 else prevPos.durationType
      let prevPos1 : Position :=
        if differ then prevPos
        else { prevPos with fractionalLeftBeam := false, fractionalRightBeam := false }
      let currentPos1 : Position := { currentPos with previousBeamDurationType := prevDuration }
      if currentPos.durationType > prevPos.durationType then
        (positions.set (i - 1) prevPos1).set i { currentPos1 with fractionalRightBeam := true }
      else if currentPos.durationType < prevPos.durationType then
        if !prevPos1.fractionalRightBeam then
          (positions.set (i - 1) { prevPos1 with fractionalLeftBeam := true }).set i currentPos1
        else (positions.set (i - 1) prevPos1).set i currentPos1
      else (positions.set (i - 1) prevPos1).set i currentPos1
    | _, _ => positions

/-- One pass of the `while` loop of `Staff::CalculateBeamingForGroup`, entered
with the end of the previous run: the next run of beamable positions is
located, its positions are processed in order, and its first and last
positions are flagged.  The result is the vector and the two iterators. -/
def beamPass (positions : List Position) (beamableGroupEnd : Nat) :
    List Position × Nat × Nat :=
  let start := findIf IsBeamable positions beamableGroupEnd
  let stop := findIf (fun p => !IsBeamable p) positions start
  let processed := (List.range' start (stop - start)).foldl (beamStep start) positions
  if start ≠ positions.length then
    (modifyAt (modifyAt processed start (fun p => { p with beamStart := true })) (stop - 1)
      (fun p => { p with beamEnd := true }), start, stop)
  else (processed, start, stop)

/-- The `while` loop of `Staff::CalculateBeamingForGroup`; `none` when the
fuel runs out before the loop ends. -/
def beamLoop : Nat → List Position → Nat → Nat → Option (List Position)
  | 0, positions, beamableGroupStart, _ =>
    if beamableGroupStart ≠ positions.length then none else some positions
  | fuel + 1, positions, beamableGroupStart, beamableGroupEnd =>
    if beamableGroupStart ≠ positions.length then
      beamLoop fuel (beamPass positions beamableGroupEnd).1
        (beamPass positions beamableGroupEnd).2.1 (beamPass positions beamableGroupEnd).2.2
    else some positions

/-- The function `Staff::CalculateBeamingForGroup` on the objects the vector
points to: the objects after the call.  The vector is a slice of the positions
collected from one voice, so its pointers are pairwise distinct.  The loop is
given one pass per position and one more. -/
def CalculateBeamingForGroup (positions : List Position) : Option (List Position) :=
  beamLoop (positions.length + 1) (positions.map ClearBeam) 0 0

/-- Modelled from the spec: `TimeSignature` (not among the sources), of which
the beaming engine reads the four-entry beaming pattern. -/
structure TimeSignature where
  beamingPattern1 : Nat := 4
  beamingPattern2 : Nat := 0
  beamingPattern3 : Nat := 0
  beamingPattern4 : Nat := 0
deriving DecidableEq, Repr

/-- Modelled from the spec: `Barline` (not among the sources): its position
index and its time signature. -/
structure Barline where
  position : Nat := 0
  timeSignature : TimeSignature := {}
deriving DecidableEq, Repr

/-- Modelled from the spec: `Position::GetDuration` (not among the sources),
the length of the position in beats, a quarter note being one beat.  The
`double` is embedded as a rational. -/
def GetDuration (p : Position) : ℚ := 4 / (p.durationType : ℚ)

/-- The loop of `Staff::GetPositionsInRange`: the slots of the positions whose
position index lies in the inclusive range, in stored order. -/
def slotsInRange (positionArray : List Position) (startPos endPos : Nat) : List Nat :=
  (List.range positionArray.length).filter (fun i =>
    match positionArray[i]? with
    | some currentPosition =>
      decide (currentPosition.position ≥ startPos) && decide (currentPosition.position ≤ endPos)
    | none => false)

/-- The function `Staff::GetPositionsInRange`: pointers to the positions in the range. -/
def GetPositionsInRange (s : Staff) (voice startPos endPos : Nat) :
    Except StaffError (List PositionPtr) :=
  if h : voice < NUM_STAFF_VOICES then
    .ok ((slotsInRange (s.positionArrays ⟨voice, h⟩) startPos endPos).map
      (fun i => { voice := voice, slot := i }))
  else .error .out_of_range

/-- The library call `std::partial_sum`: the running sums of a vector. -/
def partialSums : ℚ → List ℚ → List ℚ
  | _, [] => []
  | acc, d :: ds => (acc + d) :: partialSums (acc + d) ds

/-- The library call `std::lower_bound(first, last, value)` on the timestamps, with iterators as
offsets: the first offset from `first` on whose element is not less than
`value`.  The timestamps are running sums of durations, hence ordered. -/
def lowerBound (durations : List ℚ) (first : Nat) (value : ℚ) : Nat :=
  first + (durations.drop first).findIdx (fun d => !decide (d < value))

/-- The library call `std::upper_bound(first, last, value)` on the timestamps, with iterators as
offsets: the first offset from `first` on whose element is greater than
`value`. -/
def upperBound (durations : List ℚ) (first : Nat) (value : ℚ) : Nat :=
  first + (durations.drop first).findIdx (fun d => decide (value < d))

/-- The `while` loop of `Staff::CalculateBeamingForBar` on the collected
positions: `none` when the fuel runs out, undefined behaviour when the pattern
iterator is dereferenced on an empty pattern vector. -/
def barLoop (beamGroupPatterns : List Nat) (durations : List ℚ) :
    Nat → List Position → Nat → ℚ → Nat → Option (Except StaffError (List Position))
  | 0, positions, _, _, groupEnd =>
    if groupEnd ≠ durations.length then none else some (.ok positions)
  | fuel + 1, positions, pattern, groupBeginTime, groupEnd =>
    if groupEnd ≠ durations.length then
      match beamGroupPatterns[pattern]? with
      | none => some (.error .undefined_behaviour)
      | some entry =>
        let groupEndTime : ℚ := (entry : ℚ) * (1 / 2) + groupBeginTime
        let groupStart := lowerBound durations groupEnd groupBeginTime
        let groupEnd1 := upperBound durations groupStart groupEndTime
        match CalculateBeamingForGroup ((positions.drop groupStart).take (groupEnd1 - groupStart)) with
        | none => none
        | some positionGroup =>
          barLoop beamGroupPatterns durations fuel
            (positions.take groupStart ++ positionGroup ++ positions.drop groupEnd1)
            (if pattern + 1 = beamGroupPatterns.length then 0 else pattern + 1)
            groupEndTime groupEnd1
    else some (.ok positions)

/-- The objects a vector of slots of a voice vector points to. -/
def derefSlots (positionArray : List Position) (slots : List Nat) : List Position :=
  slots.filterMap (fun i => positionArray[i]?)

/-- The voice vector after the objects at the given slots have taken the given
values, slot by slot. -/
def writeSlots (positionArray : List Position) : List Nat → List Position → List Position
  | i :: slots, p :: positions => writeSlots (positionArray.set i p) slots positions
  | _, _ => positionArray

/-- The function `Staff::CalculateBeamingForBar`: the staff after the call, with the given
fuel for the loop over the pattern groups. -/
def CalculateBeamingForBar (s : Staff) (fuel : Nat) (startBar endBar : Barline) :
    Option (Except StaffError Staff) :=
  let slots := slotsInRange (s.positionArrays ⟨0, by decide⟩) startBar.position endBar.position
  let positions := derefSlots (s.positionArrays ⟨0, by decide⟩) slots
  let timeSig := startBar.timeSignature
  let beamGroupPatterns := [timeSig.beamingPattern1, timeSig.beamingPattern2,
    timeSig.beamingPattern3, timeSig.beamingPattern4].filter (fun x => x != 0)
  let durations := partialSums 0 (positions.map GetDuration)
  match barLoop beamGroupPatterns durations fuel positions 0 0 0 with
  | none => none
  | some (.error e) => some (.error e)
  | some (.ok result) =>
    some (.ok (s.setVoiceArray ⟨0, by decide⟩
      (writeSlots (s.positionArrays ⟨0, by decide⟩) slots result)))

/-- A bar of four eighth notes at position indices 1 to 4. -/
def fourEighthsStaff : Staff :=
  { positionArrays := fun v =>
      if v.val = 0 then
        [{ position := 1 }, { position := 2 }, { position := 3 }, { position := 4 }]
      else [] }

/-- A bar of two eighth notes, a quarter note and two eighth notes at position
indices 1 to 5. -/
def splitBarStaff : Staff :=
  { positionArrays := fun v =>
      if v.val = 0 then
        [{ position := 1 }, { position := 2 }, { position := 3, durationType := 4 },
         { position := 4 }, { position := 5 }]
      else [] }

/-- The barline that opens the sample bars, with the beaming pattern
(4, 4, 0, 0). -/
def openingBar : Barline :=
  { position := 0, timeSignature := { beamingPattern1 := 4, beamingPattern2 := 4 } }

/-- The barline that closes the sample bars. -/
def closingBar : Barline := { position := 8 }

/-- The attributes of a position that decide the beam-start and beam-end
flags: whether it is beamable, and the two flags. -/
def beamCore (p : Position) : Bool × Bool × Bool := (IsBeamable p, p.beamStart, p.beamEnd)

/-- Offsets `a` to `b` of the group are a maximal run of consecutive beamable
positions. -/
def IsMaximalRun (positions : List Position) (a b : Nat) : Prop :=
  a ≤ b ∧ b < positions.length ∧
  (∀ i, a ≤ i → i ≤ b → ∃ p, positions[i]? = some p ∧ IsBeamable p = true) ∧
  (a = 0 ∨ ∃ p, positions[a - 1]? = some p ∧ IsBeamable p = false) ∧
  (b + 1 = positions.length ∨ ∃ p, positions[b + 1]? = some p ∧ IsBeamable p = false)

/-- The beam-start and beam-end flags and the beamable test of each position
of voice 0 of the staff a call returned, `none` when the call did not return
a staff. -/
def beamFlags (r : Option (Except StaffError Staff)) : Option (List (Bool × Bool × Bool)) :=
  match r with
  | some (.ok s) => some ((s.positionArrays ⟨0, by decide⟩).map beamCore)
  | _ => none

/-- Whether the position at offset `i` of the group is beamable; false outside
the group. -/
def beamableAt (positions : List Position) (i : Nat) : Bool :=
  match positions[i]? with
  | some p => IsBeamable p
  | none => false

/-- The loop invariant of `Staff::CalculateBeamingForGroup` when the previous
run ended at offset `e`: beamability is as in the group `orig`, no run crosses
`e`, the positions before `e` carry their final beam-start and beam-end flags,
and the positions from `e` on carry none. -/
def BeamInv (orig cur : List Position) (e : Nat) : Prop :=
  cur.length = orig.length ∧ e ≤ orig.length ∧ (e = 0 ∨ beamableAt orig e = false) ∧
  ∀ i q, cur[i]? = some q →
    IsBeamable q = beamableAt orig i ∧
    (i < e →
      (q.beamStart = true ↔
        (beamableAt orig i = true ∧ (i = 0 ∨ beamableAt orig (i - 1) = false))) ∧
      (q.beamEnd = true ↔ (beamableAt orig i = true ∧ beamableAt orig (i + 1) = false))) ∧
    (e ≤ i → q.beamStart = false ∧ q.beamEnd = false)

/-- A group of two eighth notes, a rest and an eighth note. -/
def sampleGroup : List Position := [{}, {}, { isRest := true }, {}]

/-! ## Spacing calculator -/

/-- The call `std::count_if(positionFunctions.begin(), positionFunctions.end(), pred)` for
one position: the number of predicates of the list that hold at the position.
A `PositionProperty`, a pointer to a `const` member function of `Position`
returning `bool`, is embedded as a function on positions. -/
def countProperties (positionFunctions : List (Position → Bool)) (p : Position) : Nat :=
  positionFunctions.countP (fun pred => pred p)

/-- The function `Staff::CalculateSpacingForProperties`.  The `int` arithmetic
is embedded without overflow: the count is at most the length of the list of
predicates. -/
def CalculateSpacingForProperties (s : Staff) (positionFunctions : List (Position → Bool)) :
    Nat :=
  (s.positionArrays ⟨0, by decide⟩).foldl
    (fun maxNumProperties p => max maxNumProperties (countProperties positionFunctions p)) 0 *
    TAB_SYMBOL_HEIGHT

/-- The predicates of the sample staff used to evaluate the spacing: the
position is a rest, and the position is shorter than a quarter note. -/
def samplePredicates : List (Position → Bool) :=
  [fun p => p.isRest, fun p => decide (p.durationType ≥ 8)]

/-- The sample staff with its last position of voice 0 turned into a rest of
an eighth. -/
def restStaff : Staff :=
  { positionArrays := fun v =>
      if v.val = 0 then
        [{ position := 1, notes := [{ string := 2, fretNumber := 3 }] },
         { position := 4, notes := [{ string := 2, fretNumber := 5 }] },
         { position := 9, durationType := 8, isRest := true }]
      else [{ position := 4, isRest := true }] }

/-! ## Store queries -/

/-- The function `Staff::GetPositionCount`. -/
def GetPositionCount (s : Staff) (voice : Nat) : Except StaffError Nat :=
  if h : voice < NUM_STAFF_VOICES then .ok (s.positionArrays ⟨voice, h⟩).length
  else .error .out_of_range

/-- The function `Staff::IsValidPositionIndex`. -/
def IsValidPositionIndex (s : Staff) (voice index : Nat) : Except StaffError Bool :=
  if IsValidVoice voice then
    match s.GetPositionCount voice with
    | .ok count => .ok (decide (index < count))
    | .error e => .error e
  else .ok false

/-- The function `Staff::GetPosition`: a pointer to the position in slot
`index` of the voice. -/
def GetPosition (s : Staff) (voice index : Nat) : Except StaffError PositionPtr :=
  if IsValidVoice voice then
    match s.IsValidPositionIndex voice index with
    | .error e => .error e
    | .ok false => .error .out_of_range
    | .ok true =>
      match (s.voiceArray voice).bind (fun arr => arr[index]?) with
      | some _ => .ok { voice := voice, slot := index }
      | none => .error .out_of_range
  else .error .out_of_range

/-- The call `std::max_element(first, last, comp)` with `comp` comparing the
keys of two elements: the first of the elements with the largest key. -/
def stdMaxElement {α : Type} (key : α → Nat) : List α → Option α
  | [] => none
  | x :: xs => some (xs.foldl (fun largest y => if key largest < key y then y else largest) x)

/-- The position index read through a `Position*`; 0 for a pointer that is not
into the staff. -/
def positionOf (s : Staff) (position : PositionPtr) : Nat :=
  match s.deref position with
  | some p => p.position
  | none => 0

/-- The loop of `Staff::GetLastPosition`: pointers to the last position of each
non-empty voice, in voice order. -/
def lastPositions (s : Staff) : List PositionPtr :=
  (List.finRange NUM_STAFF_VOICES).filterMap (fun i =>
    if (s.positionArrays i).isEmpty then none
    else some { voice := i.val, slot := (s.positionArrays i).length - 1 })

/-- The function `Staff::GetLastPosition`: `none` for `NULL`. -/
def GetLastPosition (s : Staff) : Option PositionPtr :=
  stdMaxElement s.positionOf s.lastPositions

/-- Modelled from the spec: the class `System` (not among the sources), of which
the staff reads the number of position columns, the ordered list of barlines,
and `GetPrecedingBarline`: a pointer to the barline preceding a position
index, given as its slot in the list of barlines (`none` for a barline that is
not in the list).  The number of columns that `GetPositionCount` returns is
taken as a non-negative `int`. -/
structure System where
  positionCount : Nat := 1
  barlines : List Barline := []
  GetPrecedingBarline : Nat → Option Nat := fun _ => none

/-- The conversion of an integer to `size_t`, taken as 64 bits wide. -/
def toSizeT (x : Int) : Nat := (x % 2 ^ 64).toNat

/-- The function `Staff::GetIndexOfNextPosition`.  The subtraction
`GetPositionCount() - 1` is made on integers and its result converted to the
return type `size_t`. -/
def GetIndexOfNextPosition (s : Staff) (voice : Nat) (system : System) (position : PositionPtr) :
    Except StaffError Nat :=
  if h : voice < NUM_STAFF_VOICES then
    match stdFind (s.positionArrays ⟨voice, h⟩) voice position with
    | none => .error .out_of_range
    | some location =>
      if location + 1 = (s.positionArrays ⟨voice, h⟩).length then
        .ok (toSizeT ((system.positionCount : Int) - 1))
      else
        match (s.positionArrays ⟨voice, h⟩)[location + 1]? with
        | some next => .ok next.position
        | none => .error .undefined_behaviour
  else .error .out_of_range

/-- The body of the loop of `Staff::IsOnlyPositionInBar` at position index `i`:
whether the loop goes on, that is, whether voice 0 has no position at `i` or
the position it finds there is the given one. -/
def onlyGivenAt (s : Staff) (position : PositionPtr) (i : Nat) : Bool :=
  match findSlotByPosition (s.positionArrays ⟨0, by decide⟩) i with
  | some k => decide (({ voice := 0, slot := k } : PositionPtr) = position)
  | none => true

/-- The function `Staff::IsOnlyPositionInBar`.  Dereferencing a pointer that is
not into the staff, or the end iterator of the barline list, is undefined
behaviour. -/
def IsOnlyPositionInBar (s : Staff) (position : PositionPtr) (system : System) :
    Except StaffError Bool :=
  match s.deref position with
  | none => .error .undefined_behaviour
  | some p =>
    match system.GetPrecedingBarline p.position with
    | none => .error .undefined_behaviour
    | some startBar =>
      match system.barlines[startBar]?, system.barlines[startBar + 1]? with
      | some first, some second =>
        .ok ((List.range' (first.position + 1) (second.position - (first.position + 1))).all
          (s.onlyGivenAt position))
      | _, _ => .error .undefined_behaviour

/-- A system of one bar, from position index 0 to position index 8. -/
def sampleSystem : System :=
  { positionCount := 9
    barlines := [{ position := 0 }, { position := 8 }]
    GetPrecedingBarline := fun _ => some 0 }

/-- A staff whose voice 0 holds fret 0 with a slide out of the note, then
fret 5, on string 2. -/
def slideStaff : Staff :=
  { positionArrays := fun v =>
      if v.val = 0 then
        [{ position := 1,
           notes := [{ string := 2, fretNumber := 0, slideOutOfType := 1, slideOutOfSteps := 5 }] },
         { position := 4, notes := [{ string := 2, fretNumber := 5 }] }]
      else [] }

/-- A staff whose voice 0 holds fret 3, then fret 3 tied to it, then fret 3
tied again, on string 2. -/
def tiedStaff : Staff :=
  { positionArrays := fun v =>
      if v.val = 0 then
        [{ position := 1, notes := [{ string := 2, fretNumber := 3 }] },
         { position := 4, notes := [{ string := 2, fretNumber := 3, tied := true }] },
         { position := 6, notes := [{ string := 2, fretNumber := 3, tied := true }] }]
      else [] }

/-- The position `q'` is the position `q` except possibly for the note that
`Position::GetNoteByString` finds on the given string, which is still on that
string: the other attributes of the position, the strings of its notes and
its other notes are those of `q`. -/
def SameButNote (string : Nat) (q q' : Position) : Prop :=
  { q' with notes := q.notes } = q ∧
  q'.notes.map (fun m => m.string) = q.notes.map (fun m => m.string) ∧
  ∀ jj, noteSlotByString q string ≠ some jj → q'.notes[jj]? = q.notes[jj]?

/-- The vector `arr'` is the vector `arr` except possibly for the notes found
on the given string in slots `k - 1`, `k` and `k + 1`. -/
def FrameAt (string k : Nat) (arr arr' : List Position) : Prop :=
  arr'.length = arr.length ∧
  ∀ i q, arr[i]? = some q →
    ∃ q', arr'[i]? = some q' ∧ SameButNote string q q' ∧ ((i + 1 < k ∨ k + 1 < i) → q' = q)

/-- The input stream after the five extractions `stream >> m_data >> ...` that
open `Staff::Deserialize`. -/
def scalarsRead (stream : PowerTabInputStream) : PowerTabInputStream :=
  stream.readByte.2.readByte.2.readByte.2.readByte.2.readByte.2

/-- The output stream after the five insertions `stream << m_data << ...` that
open `Staff::Serialize`. -/
def scalarsWritten (s : Staff) (stream : PowerTabOutputStream) : PowerTabOutputStream :=
  ((((stream.writeByte s.m_data).writeByte s.m_standardNotationStaffAboveSpacing).writeByte
    s.m_standardNotationStaffBelowSpacing).writeByte s.m_symbolSpacing).writeByte
    s.m_tablatureStaffBelowSpacing

/-! ## Packed clef and tablature staff type -/

/-- Modelled from the spec: the mask `Staff::clefMask` (staff.h is not among the
sources).  The clef is one bit of the packed byte; `SetClef` shifts it by 4. -/
def clefMask : Nat := 0x10

/-- Modelled from the spec: the mask `Staff::tablatureStaffTypeMask` (staff.h is
not among the sources).  The tablature staff type is in the lower bits of the
packed byte, below the clef. -/
def tablatureStaffTypeMask : Nat := 0x0f

/-- Modelled from the spec: `Tuning::MIN_STRING_COUNT` (tuning.h is not among
the sources). -/
def MIN_STRING_COUNT : Nat := 3

/-- Modelled from the spec: `Tuning::MAX_STRING_COUNT` (tuning.h is not among
the sources). -/
def MAX_STRING_COUNT : Nat := 7

/-- Constant `Staff::MIN_TABULATURE_STAFF_TYPE`. -/
def MIN_TABULATURE_STAFF_TYPE : Nat := MIN_STRING_COUNT

/-- Constant `Staff::MAX_TABULATURE_STAFF_TYPE`. -/
def MAX_TABULATURE_STAFF_TYPE : Nat := MAX_STRING_COUNT

/-- Modelled from the spec: `Tuning::IsValidStringCount` (tuning.h is not among
the sources): a string count from 3 to 7. -/
def IsValidStringCount (stringCount : Nat) : Bool :=
  decide (stringCount ≥ MIN_STRING_COUNT) && decide (stringCount ≤ MAX_STRING_COUNT)

/-- The function `Staff::IsValidClef`. -/
def IsValidClef (clef : Nat) : Bool := clef == TREBLE_CLEF || clef == BASS_CLEF

/-- The function `Staff::GetClef`. -/
def GetClef (s : Staff) : Nat := (s.m_data &&& clefMask) >>> 4

/-- The function `Staff::IsValidTablatureStaffType`. -/
def IsValidTablatureStaffType (type : Nat) : Bool :=
  decide (type ≥ MIN_TABULATURE_STAFF_TYPE) && decide (type ≤ MAX_TABULATURE_STAFF_TYPE)

/-- The function `Staff::GetTablatureStaffType`. -/
def GetTablatureStaffType (s : Staff) : Nat := s.m_data &&& tablatureStaffTypeMask

/-- The function `Staff::SetClef`: the return value and the staff after the
call.  The complement of the mask and the shifted clef are taken as bytes. -/
def SetClef (s : Staff) (clef : Nat) : Bool × Staff :=
  if clef ≤ 1 then
    (true, { s with m_data := (s.m_data &&& (255 ^^^ clefMask)) ||| ((clef <<< 4) % 256) })
  else (false, s)

/-- The function `Staff::SetTablatureStaffType`: the return value and the staff
after the call. -/
def SetTablatureStaffType (s : Staff) (type : Nat) : Bool × Staff :=
  if IsValidStringCount type then
    (true, { s with m_data := (s.m_data &&& (255 ^^^ tablatureStaffTypeMask)) ||| type })
  else (false, s)

/-- The function `Staff::SetStandardNotationStaffAboveSpacing`. -/
def SetStandardNotationStaffAboveSpacing (s : Staff) (spacing : Nat) : Staff :=
  { s with m_standardNotationStaffAboveSpacing := spacing }

/-- The function `Staff::SetStandardNotationStaffBelowSpacing`. -/
def SetStandardNotationStaffBelowSpacing (s : Staff) (spacing : Nat) : Staff :=
  { s with m_standardNotationStaffBelowSpacing := spacing }

/-- The function `Staff::SetSymbolSpacing`. -/
def SetSymbolSpacing (s : Staff) (spacing : Nat) : Staff :=
  { s with m_symbolSpacing := spacing }

/-- The function `Staff::SetTablatureStaffBelowSpacing`. -/
def SetTablatureStaffBelowSpacing (s : Staff) (spacing : Nat) : Staff :=
  { s with m_tablatureStaffBelowSpacing := spacing }

/-- The default constructor `Staff::Staff()`. -/
def defaultConstructor : Staff := {}

/-- The primary constructor `Staff::Staff(tablatureStaffType, clef)`: the
defaults, then the two setters, whose return values are dropped. -/
def primaryConstructor (tablatureStaffType clef : Nat) : Staff :=
  ((defaultConstructor.SetClef clef).2.SetTablatureStaffType tablatureStaffType).2

/-- A call of one of the setters of the staff. -/
inductive SetterCall where
  | setClef (clef : Nat)
  | setTablatureStaffType (type : Nat)
  | setStandardNotationStaffAboveSpacing (spacing : Nat)
  | setStandardNotationStaffBelowSpacing (spacing : Nat)
  | setSymbolSpacing (spacing : Nat)
  | setTablatureStaffBelowSpacing (spacing : Nat)

/-- The staff after one setter call. -/
def applySetter (s : Staff) : SetterCall → Staff
  | .setClef clef => (s.SetClef clef).2
  | .setTablatureStaffType type => (s.SetTablatureStaffType type).2
  | .setStandardNotationStaffAboveSpacing spacing => s.SetStandardNotationStaffAboveSpacing spacing
  | .setStandardNotationStaffBelowSpacing spacing => s.SetStandardNotationStaffBelowSpacing spacing
  | .setSymbolSpacing spacing => s.SetSymbolSpacing spacing
  | .setTablatureStaffBelowSpacing spacing => s.SetTablatureStaffBelowSpacing spacing

/-- The staff after a sequence of setter calls, first call first. -/
def applySetters (s : Staff) (calls : List SetterCall) : Staff := calls.foldl applySetter s

/-! ## Copying -/

/-- The assignment `Staff::operator=`: the staff `this` after the call.  The
flag says whether `this != &staff` holds, that is, whether the two staffs are
distinct objects. -/
def operatorAssign (this staff : Staff) (distinct : Bool) : Staff :=
  if distinct then
    { m_data := staff.m_data
      m_standardNotationStaffAboveSpacing := staff.m_standardNotationStaffAboveSpacing
      m_standardNotationStaffBelowSpacing := staff.m_standardNotationStaffBelowSpacing
      m_symbolSpacing := staff.m_symbolSpacing
      m_tablatureStaffBelowSpacing := staff.m_tablatureStaffBelowSpacing
      positionArrays := fun i =>
        this.positionArrays i ++ (staff.positionArrays i).map Position.CloneObject }
  else this

/-- The copy constructor `Staff::Staff(const Staff&)`: the defaults with empty
voice vectors, then the assignment from `staff`, a distinct object. -/
def copyConstructor (staff : Staff) : Staff := operatorAssign {} staff true

/-- The function `Staff::CloneObject`. -/
def CloneObject (s : Staff) : Staff := copyConstructor s

/-! ## Closed form of the beaming of a run -/

/-- The duration type of the position at offset `i` of a vector, 0 outside the
vector. -/
def durAt (positions : List Position) (i : Nat) : Nat :=
  match positions[i]? with
  | some p => p.durationType
  | none => 0

/-- The position `p` with the three attributes that the `for` loop of
`Staff::CalculateBeamingForGroup` writes set to the given values. -/
def setStub (p : Position) (left right : Bool) (prevDuration : Nat) : Position :=
  { p with fractionalLeftBeam := left, fractionalRightBeam := right,
           previousBeamDurationType := prevDuration }

/-- What one iteration of the `for` loop that is not the first of its run
makes of `currentPos`: the previous beam duration is recorded and the
fractional right beam is set when the position is shorter than `prevPos`. -/
def stepCur (prevPos currentPos : Position) : Position :=
  setStub currentPos currentPos.fractionalLeftBeam
    (currentPos.fractionalRightBeam || decide (currentPos.durationType > prevPos.durationType))
    (if currentPos.durationType ≠ prevPos.durationType then 8 else prevPos.durationType)

/-- What one iteration of the `for` loop that is not the first of its run
makes of `prevPos`: its fractional beams are cleared when the two duration
types are equal, and its fractional left beam is set when it is shorter than
`currentPos` and has no fractional right beam. -/
def stepPrev (prevPos currentPos : Position) : Position :=
  if currentPos.durationType = prevPos.durationType then
    setStub prevPos false false prevPos.previousBeamDurationType
  else if currentPos.durationType < prevPos.durationType ∧
      prevPos.fractionalRightBeam = false then
    setStub prevPos true prevPos.fractionalRightBeam prevPos.previousBeamDurationType
  else prevPos

/-- The position at offset `j` after the first `n` iterations of the `for` loop
over a run that starts at offset `start`, in closed form, from the position
`p` at that offset and the duration types of the vector `ps` before the loop,
when the positions of the run carried no fractional beams. -/
def runStep (ps : List Position) (start n j : Nat) (p : Position) : Position :=
  if start ≤ j ∧ j < start + n then
    setStub p
      ((decide (j + 1 < start + n) && decide (durAt ps (j + 1) < durAt ps j)) &&
        !(decide (j ≠ start) && decide (durAt ps j > durAt ps (j - 1))))
      ((decide (j ≠ start) && decide (durAt ps j > durAt ps (j - 1))) &&
        !(decide (j + 1 < start + n) && decide (durAt ps (j + 1) = durAt ps j)))
      (if j = start then 0
        else if durAt ps j ≠ durAt ps (j - 1) then 8 else durAt ps (j - 1))
  else p

/-- Whether the position at offset `i` of the group has a predecessor in its
run of beamable positions. -/
def linkedToPrev (positions : List Position) (i : Nat) : Bool :=
  decide (i ≠ 0) && (beamableAt positions i && beamableAt positions (i - 1))

/-- Whether the position at offset `i` of the group has a successor in its run
of beamable positions. -/
def linkedToNext (positions : List Position) (i : Nat) : Bool :=
  beamableAt positions i && beamableAt positions (i + 1)

/-- The fractional left beam of the position at offset `i` after the call, in
closed form: its successor in the run is longer, and it is not shorter than its
predecessor in the run. -/
def expectedLeft (positions : List Position) (i : Nat) : Bool :=
  (linkedToNext positions i && decide (durAt positions (i + 1) < durAt positions i)) &&
    !(linkedToPrev positions i && decide (durAt positions i > durAt positions (i - 1)))

/-- The fractional right beam of the position at offset `i` after the call, in
closed form: it is shorter than its predecessor in the run, and its successor
in the run does not have its duration type. -/
def expectedRight (positions : List Position) (i : Nat) : Bool :=
  (linkedToPrev positions i && decide (durAt positions i > durAt positions (i - 1))) &&
    !(linkedToNext positions i && decide (durAt positions (i + 1) = durAt positions i))

/-- The previous beam duration type of the position at offset `i` after the
call, in closed form. -/
def expectedPrevDuration (positions : List Position) (i : Nat) : Nat :=
  if linkedToPrev positions i then
    if durAt positions i ≠ durAt positions (i - 1) then 8 else durAt positions (i - 1)
  else 0

/-- The second loop invariant of `Staff::CalculateBeamingForGroup` when the
previous run ended at offset `e`: nothing but beaming attributes differs from
the group `orig`, the positions before `e` carry their final fractional beams
and previous beam duration type, and the positions from `e` on carry none. -/
def StubInv (orig cur : List Position) (e : Nat) : Prop :=
  cur.map ClearBeam = orig.map ClearBeam ∧
  ∀ i q, cur[i]? = some q →
    (e ≤ i → q.fractionalLeftBeam = false ∧ q.fractionalRightBeam = false ∧
      q.previousBeamDurationType = 0) ∧
    (i < e → q.fractionalLeftBeam = expectedLeft orig i ∧
      q.fractionalRightBeam = expectedRight orig i ∧
      q.previousBeamDurationType = expectedPrevDuration orig i)

/-- One pass of the `while` loop of `Staff::CalculateBeamingForBar`: the values
of `groupBeginTime` and `groupEndTime` in the pass, and the offsets of the
iterators `groupStart` and `groupEnd` after the two bound searches of the
pass. -/
structure BeamWindow where
  groupBeginTime : ℚ
  groupEndTime : ℚ
  groupStart : Nat
  groupEnd : Nat
deriving DecidableEq

/-- The passes of the `while` loop of `Staff::CalculateBeamingForBar` in order:
the loop of `barLoop` with the calls of `CalculateBeamingForGroup` left out and
the window of every pass recorded. -/
def barWindows (beamGroupPatterns : List Nat) (durations : List ℚ) :
    Nat → Nat → ℚ → Nat → Option (Except StaffError (List BeamWindow))
  | 0, _, _, groupEnd =>
    if groupEnd ≠ durations.length then none else some (.ok [])
  | fuel + 1, pattern, groupBeginTime, groupEnd =>
    if groupEnd ≠ durations.length then
      match beamGroupPatterns[pattern]? with
      | none => some (.error .undefined_behaviour)
      | some entry =>
        let groupEndTime : ℚ := (entry : ℚ) * (1 / 2) + groupBeginTime
        let groupStart := lowerBound durations groupEnd groupBeginTime
        let groupEnd1 := upperBound durations groupStart groupEndTime
        match barWindows beamGroupPatterns durations fuel
            (if pattern + 1 = beamGroupPatterns.length then 0 else pattern + 1)
            groupEndTime groupEnd1 with
        | none => none
        | some (.error e) => some (.error e)
        | some (.ok windows) =>
          some (.ok ({ groupBeginTime := groupBeginTime, groupEndTime := groupEndTime,
                       groupStart := groupStart, groupEnd := groupEnd1 } :: windows))
    else some (.ok [])

/-- The calls of `CalculateBeamingForGroup` of the loop of
`Staff::CalculateBeamingForBar`, window by window: each call is passed the
collected positions from offset `groupStart` up to offset `groupEnd`. -/
def beamWindows : List Position → List BeamWindow → Option (List Position)
  | positions, [] => some positions
  | positions, w :: windows =>
    match CalculateBeamingForGroup
        ((positions.drop w.groupStart).take (w.groupEnd - w.groupStart)) with
    | none => none
    | some positionGroup =>
      beamWindows (positions.take w.groupStart ++ positionGroup ++ positions.drop w.groupEnd)
        windows

/-- The vector `positions` of `Staff::CalculateBeamingForBar`: the objects of
the positions collected between the two barlines. -/
def collectedPositions (s : Staff) (startBar endBar : Barline) : List Position :=
  derefSlots (s.positionArrays ⟨0, by decide⟩)
    (slotsInRange (s.positionArrays ⟨0, by decide⟩) startBar.position endBar.position)

/-- The vector `beamGroupPatterns` of `Staff::CalculateBeamingForBar` after the
entries of size 0 have been erased. -/
def beamGroupPatternsOf (timeSig : TimeSignature) : List Nat :=
  [timeSig.beamingPattern1, timeSig.beamingPattern2,
    timeSig.beamingPattern3, timeSig.beamingPattern4].filter (fun x => x != 0)

/-- The vector `durations` of `Staff::CalculateBeamingForBar` after the call of
`std::partial_sum`: the cumulative timestamp of every collected position. -/
def collectedTimestamps (s : Staff) (startBar endBar : Barline) : List ℚ :=
  partialSums 0 ((collectedPositions s startBar endBar).map GetDuration)

/-- The windows that the loop of `Staff::CalculateBeamingForBar` forms for the
bar between the two barlines, with the given fuel. -/
def CalculateBeamingForBar_windows (s : Staff) (fuel : Nat) (startBar endBar : Barline) :
    Option (Except StaffError (List BeamWindow)) :=
  barWindows (beamGroupPatternsOf startBar.timeSignature)
    (collectedTimestamps s startBar endBar) fuel 0 0 0

/-- The windows `ws` are the passes of the loop of
`Staff::CalculateBeamingForBar` from the loop head with the given pattern
offset, `groupBeginTime` and `groupEnd` up to the exit of the loop. -/
def WindowsFrom (beamGroupPatterns : List Nat) (durations : List ℚ) :
    Nat → ℚ → Nat → List BeamWindow → Prop
  | _, _, groupEnd, [] => groupEnd = durations.length
  | pattern, groupBeginTime, groupEnd, w :: ws =>
    groupEnd ≠ durations.length ∧ w.groupBeginTime = groupBeginTime ∧
    (∃ entry, beamGroupPatterns[pattern]? = some entry ∧
      w.groupEndTime = (entry : ℚ) * (1 / 2) + groupBeginTime) ∧
    w.groupStart = lowerBound durations groupEnd groupBeginTime ∧
    w.groupEnd = upperBound durations w.groupStart w.groupEndTime ∧
    WindowsFrom beamGroupPatterns durations
      (if pattern + 1 = beamGroupPatterns.length then 0 else pattern + 1)
      w.groupEndTime w.groupEnd ws

/-- The windows are consecutive ranges of offsets that start at offset `first`
and end at offset `n`. -/
def ChainFrom (n : Nat) : Nat → List BeamWindow → Prop
  | first, [] => first = n
  | first, w :: ws =>
    w.groupStart = first ∧ w.groupStart ≤ w.groupEnd ∧ w.groupEnd ≤ n ∧ ChainFrom n w.groupEnd ws

end Staff

/-! # Theorems -/

namespace Staff

/-! ## Facts about the library calls -/

theorem orderedInsert_perm (p : Position) (l : List Position) :
    (orderedInsert p l).Perm (p :: l) := by
  induction l with
  | nil => simp [orderedInsert]
  | cons q qs ih =>
    simp only [orderedInsert]
    split
    · exact List.Perm.refl _
    · exact ((List.Perm.cons q ih).trans (List.Perm.swap p q qs))

theorem stdSort_perm (l : List Position) : (stdSort l).Perm l := by
  induction l with
  | nil => simp [stdSort]
  | cons p ps ih =>
    simp only [stdSort]
    exact (orderedInsert_perm p _).trans (List.Perm.cons p ih)

theorem orderedInsert_sorted (p : Position) (l : List Position)
    (hl : SortedByPosition l) : SortedByPosition (orderedInsert p l) := by
  induction l with
  | nil => simp [orderedInsert, SortedByPosition]
  | cons q qs ih =>
    unfold SortedByPosition at hl ih ⊢
    rw [List.pairwise_cons] at hl
    simp only [orderedInsert]
    split
    · rename_i hlt
      simp only [SortByPosition, decide_eq_true_eq] at hlt
      refine List.pairwise_cons.2 ⟨?_, List.pairwise_cons.2 hl⟩
      intro a ha
      rcases List.mem_cons.1 ha with rfl | ha
      · omega
      · have := hl.1 a ha
        omega
    · rename_i hlt
      simp only [SortByPosition, decide_eq_true_eq] at hlt
      refine List.pairwise_cons.2 ⟨?_, ih hl.2⟩
      intro a ha
      rcases List.mem_cons.1 ((orderedInsert_perm p qs).subset ha) with rfl | ha
      · omega
      · exact hl.1 a ha

theorem stdSort_sorted (l : List Position) : SortedByPosition (stdSort l) := by
  induction l with
  | nil => simp [stdSort, SortedByPosition]
  | cons p ps ih => exact orderedInsert_sorted p _ ih

theorem findSlotByPosition_eq_none (arr : List Position) (index : Nat) :
    findSlotByPosition arr index = none ↔ ∀ q ∈ arr, q.position ≠ index := by
  simp [findSlotByPosition, List.findIdx?_eq_none_iff]

theorem setVoiceArray_same (s : Staff) (v : Fin NUM_STAFF_VOICES) (arr : List Position) :
    (s.setVoiceArray v arr).positionArrays v = arr := by
  simp [setVoiceArray]

theorem setVoiceArray_other (s : Staff) (v w : Fin NUM_STAFF_VOICES) (arr : List Position)
    (h : w ≠ v) : (s.setVoiceArray v arr).positionArrays w = s.positionArrays w := by
  simp [setVoiceArray, Function.update_noteq h]

theorem findSlotByPosition_eq_some (arr : List Position) (index k : Nat)
    (h : findSlotByPosition arr index = some k) :
    ∃ hk : k < arr.length, (arr.get ⟨k, hk⟩).position = index ∧
      ∀ j (hj : j < arr.length), j < k → (arr.get ⟨j, hj⟩).position ≠ index := by
  unfold findSlotByPosition at h
  rw [List.findIdx?_eq_some_iff_getElem] at h
  obtain ⟨hk, hp, hlt⟩ := h
  refine ⟨hk, by simpa using hp, ?_⟩
  intro j hj hjk
  have := hlt j hjk
  simpa using this

theorem findSlotByPosition_first (arr : List Position) (index k : Nat) (hk : k < arr.length)
    (hidx : (arr.get ⟨k, hk⟩).position = index)
    (hfirst : ∀ j (hj : j < arr.length), j < k → (arr.get ⟨j, hj⟩).position ≠ index) :
    findSlotByPosition arr index = some k := by
  unfold findSlotByPosition
  rw [List.findIdx?_eq_some_iff_getElem]
  refine ⟨hk, by simpa using hidx, ?_⟩
  intro j hjk
  have := hfirst j (by omega) hjk
  simpa using this

theorem insertPosition_sorted (s : Staff) (voice : Nat) (position : Position)
    (hs : ∀ v, SortedByPosition (s.positionArrays v)) (v : Fin NUM_STAFF_VOICES) :
    SortedByPosition ((s.InsertPosition voice position).2.positionArrays v) := by
  unfold InsertPosition
  split
  · rename_i h
    split
    · exact hs v
    · by_cases hv : v = ⟨voice, h⟩
      · subst hv
        rw [setVoiceArray_same]
        exact stdSort_sorted _
      · rw [setVoiceArray_other _ _ _ _ hv]
        exact hs v
  · exact hs v

theorem removePosition_sublist (s : Staff) (voice index : Nat) (v : Fin NUM_STAFF_VOICES) :
    ((s.RemovePosition voice index).2.positionArrays v).Sublist (s.positionArrays v) := by
  unfold RemovePosition
  split
  · rename_i h
    split
    · exact List.Sublist.refl _
    · split
      · exact List.Sublist.refl _
      · by_cases hv : v = ⟨voice, h⟩
        · subst hv
          rw [setVoiceArray_same]
          exact List.eraseIdx_sublist _ _
        · rw [setVoiceArray_other _ _ _ _ hv]
  · exact List.Sublist.refl _

theorem insertPosition_distinct (s : Staff) (voice : Nat) (position : Position)
    (hs : ∀ v, DistinctPositions (s.positionArrays v)) (v : Fin NUM_STAFF_VOICES) :
    DistinctPositions ((s.InsertPosition voice position).2.positionArrays v) := by
  unfold InsertPosition
  split
  · rename_i h
    split
    · exact hs v
    · rename_i hnone
      by_cases hv : v = ⟨voice, h⟩
      · subst hv
        rw [setVoiceArray_same]
        unfold DistinctPositions
        have hsymm : ∀ a b : Position, a.position ≠ b.position → b.position ≠ a.position :=
          fun _ _ hab => Ne.symm hab
        rw [(stdSort_perm _).pairwise_iff (fun {a b} hab => hsymm a b hab)]
        rw [List.pairwise_append]
        refine ⟨hs _, by simp, ?_⟩
        intro a ha b hb
        rw [List.mem_singleton] at hb
        subst hb
        exact (findSlotByPosition_eq_none _ _).1 hnone a ha
      · rw [setVoiceArray_other _ _ _ _ hv]
        exact hs v
  · exact hs v

theorem removePosition_not_found (s : Staff) (voice : Nat) (h : voice < NUM_STAFF_VOICES)
    (index : Nat) (hnone : findSlotByPosition (s.positionArrays ⟨voice, h⟩) index = none) :
    s.RemovePosition voice index = (.ok false, s) := by
  unfold RemovePosition
  rw [dif_pos h, hnone]

theorem removePosition_found (s : Staff) (voice : Nat) (h : voice < NUM_STAFF_VOICES)
    (index k : Nat) (hsome : findSlotByPosition (s.positionArrays ⟨voice, h⟩) index = some k) :
    s.RemovePosition voice index =
      (.ok true, s.setVoiceArray ⟨voice, h⟩ ((s.positionArrays ⟨voice, h⟩).eraseIdx k)) := by
  obtain ⟨hk, _, _⟩ := findSlotByPosition_eq_some _ _ _ hsome
  unfold RemovePosition
  rw [dif_pos h, hsome]
  simp [stdFind, hk]

/-! ## The store: insertion and removal -/

/-- C1. Sorted invariant: when every voice vector is sorted ascending by
position index it is still so after `InsertPosition` and after `RemovePosition`,
whatever the outcome of the call; hence every staff reached from the empty
staff by a finite sequence of insertions and removals has sorted vectors. -/
theorem sorted_invariant :
    (∀ (s : Staff) (voice : Nat) (position : Position),
      (∀ v, SortedByPosition (s.positionArrays v)) →
      ∀ v, SortedByPosition ((s.InsertPosition voice position).2.positionArrays v)) ∧
    (∀ (s : Staff) (voice index : Nat),
      (∀ v, SortedByPosition (s.positionArrays v)) →
      ∀ v, SortedByPosition ((s.RemovePosition voice index).2.positionArrays v)) ∧
    (∀ (ops : List StoreOp) (v : Fin NUM_STAFF_VOICES),
      SortedByPosition ((applyOps {} ops).positionArrays v)) := by
  have hins := insertPosition_sorted
  have hrem : ∀ (s : Staff) (voice index : Nat),
      (∀ v, SortedByPosition (s.positionArrays v)) →
      ∀ v, SortedByPosition ((s.RemovePosition voice index).2.positionArrays v) :=
    fun s voice index hs v => List.Pairwise.sublist (removePosition_sublist s voice index v) (hs v)
  refine ⟨hins, hrem, ?_⟩
  have key : ∀ (ops : List StoreOp) (s : Staff),
      (∀ v, SortedByPosition (s.positionArrays v)) →
      ∀ v, SortedByPosition ((applyOps s ops).positionArrays v) := by
    intro ops
    induction ops with
    | nil => intro s hs v; exact hs v
    | cons op ops ih =>
      intro s hs v
      simp only [applyOps, List.foldl_cons]
      apply ih
      cases op with
      | insert voice position => exact hins s voice position hs
      | remove voice index => exact hrem s voice index hs
  intro ops v
  exact key ops {} (fun _ => by simp [SortedByPosition]) v

/-- Witness of C1: the sample staff is sorted, and stays sorted when a
position is inserted in the middle of voice 0. -/
theorem sorted_invariant_witness :
    (∀ v, SortedByPosition (sampleStaff.positionArrays v)) ∧
    (∀ v, SortedByPosition
      ((sampleStaff.InsertPosition 0 { position := 3 }).2.positionArrays v)) :=
  ⟨by decide, sorted_invariant.1 sampleStaff 0 { position := 3 } (by decide)⟩

/-- C2. No overlap: inserting into a valid voice a position whose position
index is already held by a stored position of that voice returns false and
leaves the whole staff (every voice vector and every scalar field) as it was. -/
theorem insert_overlap_unchanged (s : Staff) (voice : Nat) (h : voice < NUM_STAFF_VOICES)
    (position q : Position) (hq : q ∈ s.positionArrays ⟨voice, h⟩)
    (hidx : q.position = position.position) :
    s.InsertPosition voice position = (.ok false, s) := by
  unfold InsertPosition
  rw [dif_pos h]
  split
  · rfl
  · rename_i hnone
    exact absurd hidx ((findSlotByPosition_eq_none _ _).1 hnone q hq)

/-- Witness of C2: index 4 is taken in voice 0 of the sample staff. -/
theorem insert_overlap_unchanged_witness :
    sampleStaff.InsertPosition 0 { position := 4, durationType := 16 } =
      (.ok false, sampleStaff) :=
  insert_overlap_unchanged sampleStaff 0 (by decide) { position := 4, durationType := 16 }
    { position := 4, notes := [{ string := 2, fretNumber := 5 }] } (by simp [sampleStaff]) rfl

/-- C4. Insert success: inserting into a valid voice a position whose position
index no stored position of that voice holds returns true; afterwards the
voice vector is a permutation of the old vector plus the new position (one
element more), looking up the new position's index in that voice gives the new
position, and the other voices and the scalar fields are unchanged. -/
theorem insert_success (s : Staff) (voice : Nat) (h : voice < NUM_STAFF_VOICES)
    (position : Position)
    (hfree : ∀ q ∈ s.positionArrays ⟨voice, h⟩, q.position ≠ position.position) :
    (s.InsertPosition voice position).1 = .ok true ∧
    ((s.InsertPosition voice position).2.positionArrays ⟨voice, h⟩).Perm
      (s.positionArrays ⟨voice, h⟩ ++ [position]) ∧
    ((s.InsertPosition voice position).2.positionArrays ⟨voice, h⟩).length =
      (s.positionArrays ⟨voice, h⟩).length + 1 ∧
    (∃ ptr, (s.InsertPosition voice position).2.GetPositionByPosition voice position.position =
        .ok (some ptr) ∧
      (s.InsertPosition voice position).2.deref ptr = some position) ∧
    (∀ v, v ≠ ⟨voice, h⟩ →
      (s.InsertPosition voice position).2.positionArrays v = s.positionArrays v) ∧
    (s.InsertPosition voice position).2.m_data = s.m_data ∧
    (s.InsertPosition voice position).2.m_standardNotationStaffAboveSpacing =
      s.m_standardNotationStaffAboveSpacing ∧
    (s.InsertPosition voice position).2.m_standardNotationStaffBelowSpacing =
      s.m_standardNotationStaffBelowSpacing ∧
    (s.InsertPosition voice position).2.m_symbolSpacing = s.m_symbolSpacing ∧
    (s.InsertPosition voice position).2.m_tablatureStaffBelowSpacing =
      s.m_tablatureStaffBelowSpacing := by
  have hnone := (findSlotByPosition_eq_none _ _).2 hfree
  have heq : s.InsertPosition voice position =
      (.ok true, s.setVoiceArray ⟨voice, h⟩ (stdSort (s.positionArrays ⟨voice, h⟩ ++ [position]))) := by
    unfold InsertPosition
    rw [dif_pos h, hnone]
  have hperm := stdSort_perm (s.positionArrays ⟨voice, h⟩ ++ [position])
  rw [heq]
  refine ⟨rfl, ?_, ?_, ?_, ?_, rfl, rfl, rfl, rfl, rfl⟩
  · simpa [setVoiceArray_same] using hperm
  · simpa [setVoiceArray_same] using hperm.length_eq
  · cases hfind : findSlotByPosition (stdSort (s.positionArrays ⟨voice, h⟩ ++ [position]))
        position.position with
    | none =>
      have := (findSlotByPosition_eq_none _ _).1 hfind position (hperm.symm.subset (by simp))
      exact absurd rfl this
    | some k =>
      obtain ⟨hk, hidx, _⟩ := findSlotByPosition_eq_some _ _ _ hfind
      refine ⟨{ voice := voice, slot := k }, ?_, ?_⟩
      · simp [GetPositionByPosition, h, setVoiceArray_same, hfind]
      · have hmem := hperm.subset (List.get_mem _ k hk)
        rw [List.mem_append, List.mem_singleton] at hmem
        rcases hmem with hmem | hmem
        · exact absurd hidx (hfree _ hmem)
        · simp only [deref, voiceArray, h, dite_true, setVoiceArray_same, Option.some_bind]
          rw [List.getElem?_eq_getElem hk]
          exact congrArg some hmem
  · intro v hv
    exact setVoiceArray_other _ _ _ _ hv

/-- Witness of C4: index 3 is free in voice 0 of the sample staff. -/
theorem insert_success_witness :
    (sampleStaff.InsertPosition 0 { position := 3 }).1 = .ok true ∧
    ((sampleStaff.InsertPosition 0 { position := 3 }).2.positionArrays ⟨0, by decide⟩).length =
      (sampleStaff.positionArrays ⟨0, by decide⟩).length + 1 :=
  have w := insert_success sampleStaff 0 (by decide) { position := 3 } (by decide)
  ⟨w.1, w.2.2.1⟩

/-- C5. Remove contract: for a valid voice, `RemovePosition` returns false and
leaves the staff unchanged exactly when no stored position of the voice has
the given position index; otherwise it returns true, the voice vector loses the
first position with that index and keeps the others in order, and the other
voices and the scalar fields are unchanged. -/
theorem remove_contract (s : Staff) (voice : Nat) (h : voice < NUM_STAFF_VOICES) (index : Nat) :
    (((s.RemovePosition voice index).1 = .ok false ∧ (s.RemovePosition voice index).2 = s) ↔
      ∀ q ∈ s.positionArrays ⟨voice, h⟩, q.position ≠ index) ∧
    (∀ (k : Nat) (hk : k < (s.positionArrays ⟨voice, h⟩).length),
      ((s.positionArrays ⟨voice, h⟩).get ⟨k, hk⟩).position = index →
      (∀ j (hj : j < (s.positionArrays ⟨voice, h⟩).length), j < k →
        ((s.positionArrays ⟨voice, h⟩).get ⟨j, hj⟩).position ≠ index) →
      (s.RemovePosition voice index).1 = .ok true ∧
      (s.RemovePosition voice index).2.positionArrays ⟨voice, h⟩ =
        (s.positionArrays ⟨voice, h⟩).take k ++ (s.positionArrays ⟨voice, h⟩).drop (k + 1) ∧
      (∀ v, v ≠ ⟨voice, h⟩ →
        (s.RemovePosition voice index).2.positionArrays v = s.positionArrays v) ∧
      (s.RemovePosition voice index).2.m_data = s.m_data ∧
      (s.RemovePosition voice index).2.m_standardNotationStaffAboveSpacing =
        s.m_standardNotationStaffAboveSpacing ∧
      (s.RemovePosition voice index).2.m_standardNotationStaffBelowSpacing =
        s.m_standardNotationStaffBelowSpacing ∧
      (s.RemovePosition voice index).2.m_symbolSpacing = s.m_symbolSpacing ∧
      (s.RemovePosition voice index).2.m_tablatureStaffBelowSpacing =
        s.m_tablatureStaffBelowSpacing) := by
  constructor
  · constructor
    · intro hres
      cases hfind : findSlotByPosition (s.positionArrays ⟨voice, h⟩) index with
      | none => exact (findSlotByPosition_eq_none _ _).1 hfind
      | some k =>
        rw [removePosition_found s voice h index k hfind] at hres
        exact absurd hres.1 (by simp)
    · intro hfree
      rw [removePosition_not_found s voice h index ((findSlotByPosition_eq_none _ _).2 hfree)]
      exact ⟨rfl, rfl⟩
  · intro k hk hidx hfirst
    rw [removePosition_found s voice h index k (findSlotByPosition_first _ _ _ hk hidx hfirst)]
    refine ⟨rfl, ?_, ?_, rfl, rfl, rfl, rfl, rfl⟩
    · rw [setVoiceArray_same, List.eraseIdx_eq_take_drop_succ]
    · intro v hv
      exact setVoiceArray_other _ _ _ _ hv

/-- Witness of C5: removing index 4 from voice 0 of the sample staff deletes
the second element. -/
theorem remove_contract_witness :
    (sampleStaff.RemovePosition 0 4).1 = .ok true ∧
    (sampleStaff.RemovePosition 0 4).2.positionArrays ⟨0, by decide⟩ =
      [{ position := 1, notes := [{ string := 2, fretNumber := 3 }] },
       { position := 9, durationType := 4 }] :=
  have w := (remove_contract sampleStaff 0 (by decide) 4).2 1 (by decide) (by decide) (by decide)
  ⟨w.1, w.2.1⟩

/-- C6. Uniqueness invariant: when no two positions of a voice share a
position index, the same holds after `InsertPosition` and after
`RemovePosition`; hence every staff reached from the empty staff by insertions
and removals has pairwise distinct position indices within each voice. -/
theorem distinct_invariant :
    (∀ (s : Staff) (voice : Nat) (position : Position),
      (∀ v, DistinctPositions (s.positionArrays v)) →
      ∀ v, DistinctPositions ((s.InsertPosition voice position).2.positionArrays v)) ∧
    (∀ (s : Staff) (voice index : Nat),
      (∀ v, DistinctPositions (s.positionArrays v)) →
      ∀ v, DistinctPositions ((s.RemovePosition voice index).2.positionArrays v)) ∧
    (∀ (ops : List StoreOp) (v : Fin NUM_STAFF_VOICES),
      DistinctPositions ((applyOps {} ops).positionArrays v)) := by
  have hins := insertPosition_distinct
  have hrem : ∀ (s : Staff) (voice index : Nat),
      (∀ v, DistinctPositions (s.positionArrays v)) →
      ∀ v, DistinctPositions ((s.RemovePosition voice index).2.positionArrays v) :=
    fun s voice index hs v => List.Pairwise.sublist (removePosition_sublist s voice index v) (hs v)
  refine ⟨hins, hrem, ?_⟩
  have key : ∀ (ops : List StoreOp) (s : Staff),
      (∀ v, DistinctPositions (s.positionArrays v)) →
      ∀ v, DistinctPositions ((applyOps s ops).positionArrays v) := by
    intro ops
    induction ops with
    | nil => intro s hs v; exact hs v
    | cons op ops ih =>
      intro s hs v
      simp only [applyOps, List.foldl_cons]
      apply ih
      cases op with
      | insert voice position => exact hins s voice position hs
      | remove voice index => exact hrem s voice index hs
  intro ops v
  exact key ops {} (fun _ => by simp [DistinctPositions]) v

/-- Witness of C6: the sample staff has distinct indices per voice, and still
has after a position is removed from voice 0. -/
theorem distinct_invariant_witness :
    (∀ v, DistinctPositions (sampleStaff.positionArrays v)) ∧
    (∀ v, DistinctPositions ((sampleStaff.RemovePosition 0 4).2.positionArrays v)) :=
  ⟨by decide, distinct_invariant.2.1 sampleStaff 0 4 (by decide)⟩

/-! ## Serialization round trip -/

theorem writeEncoded_good (st : PowerTabOutputStream) (enc : Option (List Nat))
    (h : (st.writeEncoded enc).good = true) :
    st.good = true ∧ ∃ bs, enc = some bs ∧ (st.writeEncoded enc).bytes = st.bytes ++ bs := by
  unfold PowerTabOutputStream.writeEncoded at h ⊢
  cases hg : st.good with
  | false => simp [hg] at h
  | true =>
    cases enc with
    | none => simp [hg] at h
    | some bs => simp

theorem writeByte_good (st : PowerTabOutputStream) (b : Nat) (h : st.good = true) :
    (st.writeByte b).good = true ∧ (st.writeByte b).bytes = st.bytes ++ [b % 256] := by
  simp [PowerTabOutputStream.writeByte, h]

theorem writeRecords_readRecords (fmt : RecordFormat) (version : Nat)
    (hpos : fmt.PositionRoundTrip version) :
    ∀ (vect : List Position) (st : PowerTabOutputStream),
      (vect.foldl (fun acc p => acc.writeEncoded (fmt.writePosition p)) st).good = true →
      st.good = true ∧ ∃ bs,
        (vect.foldl (fun acc p => acc.writeEncoded (fmt.writePosition p)) st).bytes =
          st.bytes ++ bs ∧
        ∀ acc rest, PowerTabInputStream.readRecords fmt version vect.length acc
          { bytes := bs ++ rest, good := true } = (acc ++ vect, { bytes := rest, good := true }) := by
  intro vect
  induction vect with
  | nil =>
    intro st h
    refine ⟨h, [], by simp, ?_⟩
    intro acc rest
    simp [PowerTabInputStream.readRecords]
  | cons p ps ih =>
    intro st h
    rw [List.foldl_cons] at h ⊢
    obtain ⟨hg1, bs1, hbytes1, hread1⟩ := ih _ h
    obtain ⟨hg0, b0, henc, hbytes0⟩ := writeEncoded_good _ _ hg1
    refine ⟨hg0, b0 ++ bs1, ?_, ?_⟩
    · rw [hbytes1, hbytes0, List.append_assoc]
    · intro acc rest
      have hp := hpos p b0 (bs1 ++ rest) henc
      simp only [List.length_cons, PowerTabInputStream.readRecords, List.append_assoc, hp]
      rw [hread1]
      simp

theorem writeVector_readVector (fmt : RecordFormat) (version : Nat)
    (hcount : fmt.CountRoundTrip) (hpos : fmt.PositionRoundTrip version)
    (vect : List Position) (st : PowerTabOutputStream)
    (h : (st.WriteVector fmt vect).good = true) :
    st.good = true ∧ ∃ bs, (st.WriteVector fmt vect).bytes = st.bytes ++ bs ∧
      ∀ old rest, PowerTabInputStream.ReadVector fmt version
        { bytes := bs ++ rest, good := true } old = (vect, { bytes := rest, good := true }) := by
  unfold PowerTabOutputStream.WriteVector at h ⊢
  obtain ⟨hg1, bs1, hbytes1, hread1⟩ := writeRecords_readRecords fmt version hpos vect _ h
  obtain ⟨hg0, b0, henc, hbytes0⟩ := writeEncoded_good _ _ hg1
  refine ⟨hg0, b0 ++ bs1, ?_, ?_⟩
  · rw [hbytes1, hbytes0, List.append_assoc]
  · intro old rest
    have hc := hcount vect.length b0 (bs1 ++ rest) henc
    simp only [PowerTabInputStream.ReadVector, List.append_assoc, hc, if_true]
    rw [hread1]
    simp

theorem serializeVoices_deserializeVoices (fmt : RecordFormat) (version : Nat)
    (hcount : fmt.CountRoundTrip) (hpos : fmt.PositionRoundTrip version) (s : Staff) :
    ∀ (fuel i : Nat) (st out : PowerTabOutputStream), st.good = true →
      serializeVoices fmt s fuel i st = (true, out) →
      ∃ bs, out.bytes = st.bytes ++ bs ∧
        ∀ (s0 : Staff) (rest : List Nat), ∃ s1,
          deserializeVoices fmt version fuel i s0 { bytes := bs ++ rest, good := true } =
            (true, s1, { bytes := rest, good := true }) ∧
          (∀ v : Fin NUM_STAFF_VOICES, i ≤ v.val → v.val < i + fuel →
            s1.positionArrays v = s.positionArrays v) ∧
          (∀ v : Fin NUM_STAFF_VOICES, v.val < i → s1.positionArrays v = s0.positionArrays v) ∧
          s1.m_data = s0.m_data ∧
          s1.m_standardNotationStaffAboveSpacing = s0.m_standardNotationStaffAboveSpacing ∧
          s1.m_standardNotationStaffBelowSpacing = s0.m_standardNotationStaffBelowSpacing ∧
          s1.m_symbolSpacing = s0.m_symbolSpacing ∧
          s1.m_tablatureStaffBelowSpacing = s0.m_tablatureStaffBelowSpacing := by
  intro fuel
  induction fuel with
  | zero =>
    intro i st out _ hser
    simp only [serializeVoices, Prod.mk.injEq] at hser
    refine ⟨[], by rw [← hser.2]; simp, ?_⟩
    intro s0 rest
    refine ⟨s0, by simp [deserializeVoices], ?_, fun _ _ => rfl, rfl, rfl, rfl, rfl, rfl⟩
    intro v h1 h2
    omega
  | succ fuel ih =>
    intro i st out hgood hser
    by_cases hi : i < NUM_STAFF_VOICES
    · simp only [serializeVoices, hi, dite_true] at hser
      by_cases hg1 : (st.WriteVector fmt (s.positionArrays ⟨i, hi⟩)).good = true
      · rw [if_pos hg1] at hser
        obtain ⟨_, bs0, hbytes0, hread0⟩ :=
          writeVector_readVector fmt version hcount hpos _ _ hg1
        obtain ⟨bs1, hbytes1, hrest⟩ := ih (i + 1) _ out hg1 hser
        refine ⟨bs0 ++ bs1, by rw [hbytes1, hbytes0, List.append_assoc], ?_⟩
        intro s0 rest
        obtain ⟨s1, hdes, hnew, hold, hd, ha, hb, hsy, ht⟩ :=
          hrest (s0.setVoiceArray ⟨i, hi⟩ (s.positionArrays ⟨i, hi⟩)) rest
        refine ⟨s1, ?_, ?_, ?_, hd, ha, hb, hsy, ht⟩
        · simp only [deserializeVoices, hi, dite_true, List.append_assoc, hread0, if_true]
          exact hdes
        · intro v h1 h2
          by_cases hv : v.val = i
          · have hvi : v = ⟨i, hi⟩ := Fin.ext hv
            rw [hold v (by omega), hvi, setVoiceArray_same]
          · exact hnew v (by omega) (by omega)
        · intro v hv
          rw [hold v (by omega)]
          exact setVoiceArray_other _ _ _ _ (fun hvi => by rw [hvi] at hv; simp at hv)
      · rw [if_neg hg1] at hser
        simp at hser
    · simp only [serializeVoices, hi, dite_false, Prod.mk.injEq] at hser
      refine ⟨[], by rw [← hser.2]; simp, ?_⟩
      intro s0 rest
      refine ⟨s0, by simp [deserializeVoices, hi], ?_, fun _ _ => rfl, rfl, rfl, rfl, rfl, rfl⟩
      intro v h1 _
      have := v.isLt
      omega

theorem stdEqual_self (l : List Position) : stdEqual l l = true := by
  induction l with
  | nil => rfl
  | cons a as ih => simp [stdEqual, positionEq, ih]

/-- C3. Serialization round trip: when the record format reads back the counts
and position records it writes, a staff whose five scalar fields are bytes and
whose serialization to an empty stream succeeds is read back from those bytes
by `Deserialize` on a freshly constructed staff, which returns true, consumes
every byte and yields a staff equal to the original under `operator==`. -/
theorem serialize_roundtrip (fmt : RecordFormat) (version : Nat)
    (hcount : fmt.CountRoundTrip) (hpos : fmt.PositionRoundTrip version) (s : Staff)
    (hdata : s.m_data < 256)
    (habove : s.m_standardNotationStaffAboveSpacing < 256)
    (hbelow : s.m_standardNotationStaffBelowSpacing < 256)
    (hsymbol : s.m_symbolSpacing < 256)
    (htab : s.m_tablatureStaffBelowSpacing < 256)
    (out : PowerTabOutputStream) (hser : s.Serialize fmt {} = (true, out)) :
    ∃ s1 : Staff,
      Deserialize fmt version {} { bytes := out.bytes, good := true } =
        (true, s1, { bytes := [], good := true }) ∧
      s.operatorEq s1 = true ∧ s1.operatorEq s = true := by
  simp only [Serialize, PowerTabOutputStream.writeByte, if_true, List.nil_append,
    List.append_assoc, List.singleton_append] at hser
  obtain ⟨bs, hbytes, hrest⟩ :=
    serializeVoices_deserializeVoices fmt version hcount hpos s NUM_STAFF_VOICES 0 _ out rfl hser
  obtain ⟨s1, hdes, hnew, -, hd, ha, hb, hsy, ht⟩ :=
    hrest { m_data := s.m_data % 256
            m_standardNotationStaffAboveSpacing := s.m_standardNotationStaffAboveSpacing % 256
            m_standardNotationStaffBelowSpacing := s.m_standardNotationStaffBelowSpacing % 256
            m_symbolSpacing := s.m_symbolSpacing % 256
            m_tablatureStaffBelowSpacing := s.m_tablatureStaffBelowSpacing % 256
            positionArrays := fun _ => [] } []
  have harr : s1.positionArrays = s.positionArrays :=
    funext (fun v => hnew v (Nat.zero_le _) (by have := v.isLt; omega))
  have heq : s1 = s := by
    cases s1
    cases s
    simp only [Staff.mk.injEq]
    simp only [Nat.mod_eq_of_lt hdata, Nat.mod_eq_of_lt habove, Nat.mod_eq_of_lt hbelow,
      Nat.mod_eq_of_lt hsymbol, Nat.mod_eq_of_lt htab] at hd ha hb hsy ht
    exact ⟨hd, ha, hb, hsy, ht, harr⟩
  have hself : s.operatorEq s = true := by
    simp [operatorEq, stdEqual_self]
  refine ⟨s1, ?_, by rw [heq]; exact hself, by rw [heq]; exact hself⟩
  rw [hbytes]
  simp only [Deserialize, PowerTabInputStream.readByte, if_true, List.cons_append,
    List.nil_append, Option.getD_some, List.append_nil] at hdes ⊢
  exact hdes

theorem sampleFormat_countRoundTrip : sampleFormat.CountRoundTrip := by
  intro n bs rest h
  simp only [sampleFormat] at h ⊢
  split at h
  · cases h
    rfl
  · cases h

theorem sampleFormat_positionRoundTrip (version : Nat) :
    sampleFormat.PositionRoundTrip version := by
  intro p bs rest h
  simp only [sampleFormat] at h ⊢
  split at h
  · rename_i hp
    cases h
    simp only [List.cons_append, List.nil_append]
    rw [← hp]
  · cases h

/-- Witness of C3: the plain staff, written in the sample record format, is
read back. -/
theorem serialize_roundtrip_witness :
    ∃ s1 : Staff,
      Deserialize sampleFormat 0 {}
        { bytes := [6, 9, 9, 0, 0, 2, 1, 8, 4, 16, 1, 2, 4], good := true } =
        (true, s1, { bytes := [], good := true }) ∧
      plainStaff.operatorEq s1 = true ∧ s1.operatorEq plainStaff = true :=
  serialize_roundtrip sampleFormat 0 sampleFormat_countRoundTrip
    (sampleFormat_positionRoundTrip 0) plainStaff (by decide) (by decide) (by decide)
    (by decide) (by decide) { bytes := [6, 9, 9, 0, 0, 2, 1, 8, 4, 16, 1, 2, 4], good := true }
    (by decide)

/-! ## Technique legality -/

theorem stdFind_stored (arr : List Position) (voice k : Nat) (hk : k < arr.length) :
    stdFind arr voice { voice := voice, slot := k } = some k := by
  simp [stdFind, hk]

theorem getAdjacentNoteOnString_next (s : Staff) (k : Nat) (n : Note)
    (hk : k < (s.positionArrays ⟨0, by decide⟩).length) :
    s.GetAdjacentNoteOnString .NextNote { voice := 0, slot := k } n 0 =
      .ok (((s.positionArrays ⟨0, by decide⟩)[k + 1]?).bind
        (fun q => GetNoteByString q n.string)) := by
  unfold GetAdjacentNoteOnString
  rw [dif_pos (by decide : 0 < NUM_STAFF_VOICES), stdFind_stored _ _ _ hk]
  simp only [SearchDirection.toInt]
  by_cases hlast : k + 1 < (s.positionArrays ⟨0, by decide⟩).length
  · have hcond : ¬ (((k : Int) + 1 < 0) ∨
        ((k : Int) + 1 ≥ ((s.positionArrays ⟨0, by decide⟩).length : Int))) := by omega
    rw [if_neg hcond]
    have htoNat : ((k : Int) + 1).toNat = k + 1 := by omega
    rw [htoNat, List.getElem?_eq_getElem hlast]
    rfl
  · have hcond : (((k : Int) + 1 < 0) ∨
        ((k : Int) + 1 ≥ ((s.positionArrays ⟨0, by decide⟩).length : Int))) := by omega
    rw [if_pos hcond, List.getElem?_eq_none (by omega)]
    rfl

theorem compareWithNote_next (s : Staff) (k : Nat) (n : Note) (comp : Nat → Nat → Bool)
    (hk : k < (s.positionArrays ⟨0, by decide⟩).length) :
    s.CompareWithNote .NextNote { voice := 0, slot := k } n comp =
      .ok (match ((s.positionArrays ⟨0, by decide⟩)[k + 1]?).bind
          (fun q => GetNoteByString q n.string) with
        | some m => comp n.fretNumber m.fretNumber
        | none => false) := by
  unfold CompareWithNote
  rw [getAdjacentNoteOnString_next s k n hk]
  cases ((s.positionArrays ⟨0, by decide⟩)[k + 1]?).bind (fun q => GetNoteByString q n.string) <;>
    rfl

/-- C7. Technique legality: for a position stored in voice 0 and a note,
`CanHammerOn` returns true exactly when the next position of the vector exists
and its note on the same string has a strictly higher fret number, and
`CanPullOff` exactly when that note has a strictly lower fret number; both
return a truth value, never both true.  With frets 3 then 5 on one string
hammer-on is legal and pull-off is not; with 5 then 3 it is the reverse. -/
theorem technique_legality :
    (∀ (s : Staff) (k : Nat) (n : Note), k < (s.positionArrays ⟨0, by decide⟩).length →
      (s.CanHammerOn { voice := 0, slot := k } n = .ok true ↔
        ∃ q m, (s.positionArrays ⟨0, by decide⟩)[k + 1]? = some q ∧
          GetNoteByString q n.string = some m ∧ n.fretNumber < m.fretNumber) ∧
      (s.CanPullOff { voice := 0, slot := k } n = .ok true ↔
        ∃ q m, (s.positionArrays ⟨0, by decide⟩)[k + 1]? = some q ∧
          GetNoteByString q n.string = some m ∧ m.fretNumber < n.fretNumber) ∧
      (s.CanHammerOn { voice := 0, slot := k } n = .ok true ∨
        s.CanHammerOn { voice := 0, slot := k } n = .ok false) ∧
      (s.CanPullOff { voice := 0, slot := k } n = .ok true ∨
        s.CanPullOff { voice := 0, slot := k } n = .ok false) ∧
      ¬ (s.CanHammerOn { voice := 0, slot := k } n = .ok true ∧
        s.CanPullOff { voice := 0, slot := k } n = .ok true)) ∧
    (sampleStaff.CanHammerOn { voice := 0, slot := 0 } { string := 2, fretNumber := 3 } = .ok true ∧
      sampleStaff.CanPullOff { voice := 0, slot := 0 } { string := 2, fretNumber := 3 } =
        .ok false) ∧
    (reversedStaff.CanHammerOn { voice := 0, slot := 0 } { string := 2, fretNumber := 5 } =
        .ok false ∧
      reversedStaff.CanPullOff { voice := 0, slot := 0 } { string := 2, fretNumber := 5 } =
        .ok true) := by
  refine ⟨?_, ⟨rfl, rfl⟩, ⟨rfl, rfl⟩⟩
  intro s k n hk
  unfold CanHammerOn CanPullOff
  rw [compareWithNote_next s k n _ hk, compareWithNote_next s k n _ hk]
  cases hq : (s.positionArrays ⟨0, by decide⟩)[k + 1]? with
  | none => simp
  | some q =>
    cases hm : GetNoteByString q n.string with
    | none => simp [hm]
    | some m =>
      simp only [Option.some_bind, hm, Except.ok.injEq, decide_eq_true_eq, Option.some.injEq,
        exists_and_left, exists_eq_left', gt_iff_lt, decide_eq_false_iff_not]
      refine ⟨trivial, trivial, ?_, ?_, ?_⟩ <;> omega

/-- Witness of C7: slot 0 of voice 0 is stored in the sample staff, and its
note on string 2 at fret 3 can be hammered on to fret 5 but not pulled off. -/
theorem technique_legality_witness :
    ¬ (sampleStaff.CanHammerOn { voice := 0, slot := 0 } { string := 2, fretNumber := 3 } =
        .ok true ∧
      sampleStaff.CanPullOff { voice := 0, slot := 0 } { string := 2, fretNumber := 3 } =
        .ok true) :=
  (technique_legality.1 sampleStaff 0 { string := 2, fretNumber := 3 } (by decide)).2.2.2.2

/-! ## Writes through pointers -/

theorem modifyAt_length {α : Type} (l : List α) (k : Nat) (f : α → α) :
    (modifyAt l k f).length = l.length := by
  unfold modifyAt
  split <;> simp

theorem modifyAt_getElem? {α : Type} (l : List α) (k i : Nat) (f : α → α) :
    (modifyAt l k f)[i]? = if i = k then (l[k]?).map f else l[i]? := by
  unfold modifyAt
  cases hk : l[k]? with
  | none =>
    by_cases hik : i = k
    · subst hik
      simp [hk]
    · simp [hik]
  | some a =>
    by_cases hik : i = k
    · subst hik
      have hlt : i < l.length := by
        rcases List.getElem?_eq_some_iff.1 hk with ⟨h, _⟩
        exact h
      simp [List.getElem?_set, hlt]
    · have hki : ¬ k = i := fun h => hik h.symm
      simp [List.getElem?_set, hik, hki]

theorem modifyAt_findIdx? {α : Type} (l : List α) (k : Nat) (f : α → α) (pred : α → Bool)
    (hpred : ∀ a, l[k]? = some a → pred (f a) = pred a) :
    (modifyAt l k f).findIdx? pred = l.findIdx? pred := by
  have hmap : (modifyAt l k f).map pred = l.map pred := by
    apply List.ext_getElem?
    intro i
    rw [List.getElem?_map, List.getElem?_map, modifyAt_getElem?]
    by_cases hik : i = k
    · subst hik
      cases h : l[i]? with
      | none => simp
      | some a => simp [hpred a h]
    · simp [hik]
  have h1 : List.findIdx? id ((modifyAt l k f).map pred) =
      (modifyAt l k f).findIdx? (id ∘ pred) := List.findIdx?_map pred _
  have h2 : List.findIdx? id (l.map pred) = l.findIdx? (id ∘ pred) := List.findIdx?_map pred _
  rw [hmap] at h1
  exact (h1.symm.trans h2)

theorem find?_eq_findIdx?_bind {α : Type} (l : List α) (pred : α → Bool) :
    l.find? pred = (l.findIdx? pred).bind (fun i => l[i]?) := by
  induction l with
  | nil => rfl
  | cons a as ih =>
    simp only [List.find?_cons, List.findIdx?_cons]
    cases hp : pred a with
    | true => simp
    | false =>
      simp only [ih, Bool.false_eq_true, if_false, List.findIdx?_succ]
      rcases h : List.findIdx? pred as with _ | i <;> simp

theorem getNoteByString_eq (q : Position) (string : Nat) :
    GetNoteByString q string = (noteSlotByString q string).bind (fun j => q.notes[j]?) :=
  find?_eq_findIdx?_bind _ _

theorem noteSlotByString_string (q : Position) (string j : Nat) (n : Note)
    (hslot : noteSlotByString q string = some j) (hn : q.notes[j]? = some n) :
    n.string = string := by
  unfold noteSlotByString at hslot
  rw [List.findIdx?_eq_some_iff_getElem] at hslot
  obtain ⟨hj, hp, _⟩ := hslot
  rw [List.getElem?_eq_getElem hj] at hn
  cases hn
  simpa using hp

theorem modifyPosition_arr (s : Staff) (v : Fin NUM_STAFF_VOICES) (k : Nat)
    (f : Position → Position) (w : Fin NUM_STAFF_VOICES) :
    (s.modifyPosition { voice := v.val, slot := k } f).positionArrays w =
      if w = v then modifyAt (s.positionArrays v) k f else s.positionArrays w := by
  unfold modifyPosition
  rw [dif_pos v.isLt]
  by_cases hw : w = v
  · subst hw
    simp [setVoiceArray_same]
  · rw [if_neg hw]
    exact setVoiceArray_other _ _ _ _ hw

theorem modifyNote_voice0 (s : Staff) (k j : Nat) (f : Note → Note) :
    (s.modifyNote { owner := { voice := 0, slot := k }, slot := j } f).positionArrays
        ⟨0, by decide⟩ =
      modifyAt (s.positionArrays ⟨0, by decide⟩) k
        (fun p => { p with notes := modifyAt p.notes j f }) := by
  unfold modifyNote
  have := modifyPosition_arr s ⟨0, by decide⟩ k
    (fun p => { p with notes := modifyAt p.notes j f }) ⟨0, by decide⟩
  simpa using this

theorem modifyNote_otherVoice (s : Staff) (k j : Nat) (f : Note → Note)
    (w : Fin NUM_STAFF_VOICES) (hw : w ≠ ⟨0, by decide⟩) :
    (s.modifyNote { owner := { voice := 0, slot := k }, slot := j } f).positionArrays w =
      s.positionArrays w := by
  unfold modifyNote
  have := modifyPosition_arr s ⟨0, by decide⟩ k
    (fun p => { p with notes := modifyAt p.notes j f }) w
  rw [if_neg hw] at this
  exact this

theorem derefNote_voice0 (s : Staff) (k j : Nat) :
    s.derefNote { owner := { voice := 0, slot := k }, slot := j } =
      ((s.positionArrays ⟨0, by decide⟩)[k]?).bind (fun p => p.notes[j]?) := by
  simp [derefNote, deref, voiceArray, NUM_STAFF_VOICES]

theorem modifyAt_eq_set {α : Type} (l : List α) (k : Nat) (f : α → α) (a : α)
    (h : l[k]? = some a) : modifyAt l k f = l.set k (f a) := by
  simp [modifyAt, h]

theorem set_getElem?_self {α : Type} (l : List α) (k : Nat) (a : α) (h : l[k]? = some a) :
    l.set k a = l := by
  apply List.ext_getElem?
  intro i
  rw [List.getElem?_set]
  by_cases hik : k = i
  · subst hik
    rcases List.getElem?_eq_some_iff.1 h with ⟨hlt, _⟩
    simp [hlt, h]
  · simp [hik]

theorem getElem?_set_same {α : Type} (l : List α) (k : Nat) (a b : α) (h : l[k]? = some a) :
    (l.set k b)[k]? = some b := by
  rcases List.getElem?_eq_some_iff.1 h with ⟨hlt, _⟩
  simp [List.getElem?_set, hlt]

theorem getElem?_set_other {α : Type} (l : List α) (k i : Nat) (b : α) (h : k ≠ i) :
    (l.set k b)[i]? = l[i]? := by
  simp [List.getElem?_set, h]

theorem setVoiceArray_setVoiceArray (s : Staff) (v : Fin NUM_STAFF_VOICES)
    (l1 l2 : List Position) :
    (s.setVoiceArray v l1).setVoiceArray v l2 = s.setVoiceArray v l2 := by
  simp [setVoiceArray]

theorem setVoiceArray_self (s : Staff) (v : Fin NUM_STAFF_VOICES) :
    s.setVoiceArray v (s.positionArrays v) = s := by
  simp [setVoiceArray]

theorem modifyNote_eq (s : Staff) (k j : Nat) (f : Note → Note) (p : Position) (n : Note)
    (hp : (s.positionArrays ⟨0, by decide⟩)[k]? = some p) (hn : p.notes[j]? = some n) :
    s.modifyNote { owner := { voice := 0, slot := k }, slot := j } f =
      s.setVoiceArray ⟨0, by decide⟩
        ((s.positionArrays ⟨0, by decide⟩).set k (withNote p j (f n))) := by
  unfold modifyNote modifyPosition
  rw [dif_pos (by decide : (0 : Nat) < NUM_STAFF_VOICES)]
  rw [modifyAt_eq_set _ _ _ p hp]
  simp only [withNote, modifyAt_eq_set _ _ _ n hn]

theorem readNote_voice0 (s : Staff) (k j : Nat) (p : Position) (n : Note)
    (hp : (s.positionArrays ⟨0, by decide⟩)[k]? = some p) (hn : p.notes[j]? = some n) :
    s.readNote { owner := { voice := 0, slot := k }, slot := j } = .ok n := by
  unfold readNote
  rw [derefNote_voice0, hp]
  simp [hn]

theorem withNote_getElem?_same (p : Position) (j : Nat) (n m : Note)
    (hn : p.notes[j]? = some n) : (withNote p j m).notes[j]? = some m :=
  getElem?_set_same _ _ _ _ hn

theorem withNote_self (p : Position) (j : Nat) (n : Note) (hn : p.notes[j]? = some n) :
    withNote p j n = p := by
  unfold withNote
  rw [set_getElem?_self _ _ _ hn]

theorem withNote_withNote (p : Position) (j : Nat) (n m : Note) :
    withNote (withNote p j n) j m = withNote p j m := by
  simp [withNote, List.set_set]

theorem compareWithNote_pair (t : Staff) (i jb : Nat) (pa pb : Position) (n b : Note)
    (comp : Nat → Nat → Bool)
    (ha : (t.positionArrays ⟨0, by decide⟩)[i]? = some pa)
    (hb : (t.positionArrays ⟨0, by decide⟩)[i + 1]? = some pb)
    (hslot : noteSlotByString pb n.string = some jb) (hnb : pb.notes[jb]? = some b) :
    t.CompareWithNote .NextNote { voice := 0, slot := i } n comp =
      .ok (comp n.fretNumber b.fretNumber) := by
  rcases List.getElem?_eq_some_iff.1 ha with ⟨hlt, _⟩
  rw [compareWithNote_next t i n comp hlt, hb]
  simp [getNoteByString_eq, hslot, hnb]

theorem getSlideSteps_pair (t : Staff) (i jb : Nat) (pa pb : Position) (n b : Note)
    (ha : (t.positionArrays ⟨0, by decide⟩)[i]? = some pa)
    (hb : (t.positionArrays ⟨0, by decide⟩)[i + 1]? = some pb)
    (hslot : noteSlotByString pb n.string = some jb) (hnb : pb.notes[jb]? = some b) :
    t.GetSlideSteps { voice := 0, slot := i } n =
      .ok (toInt8 ((b.fretNumber : Int) - (n.fretNumber : Int))) := by
  rcases List.getElem?_eq_some_iff.1 ha with ⟨hlt, _⟩
  unfold GetSlideSteps
  rw [getAdjacentNoteOnString_next t i n hlt, hb]
  simp [getNoteByString_eq, hslot, hnb]

theorem repairHammerPull_string (canPull canHammer : Bool) (n : Note) :
    (repairHammerPull canPull canHammer n).string = n.string := by
  unfold repairHammerPull
  split_ifs <;> rfl

theorem repairHammerPull_fretNumber (canPull canHammer : Bool) (n : Note) :
    (repairHammerPull canPull canHammer n).fretNumber = n.fretNumber := by
  unfold repairHammerPull
  split_ifs <;> rfl

theorem updateSlide_eq (t : Staff) (i ja jb : Nat) (pa pb : Position) (a b : Note)
    (ha : (t.positionArrays ⟨0, by decide⟩)[i]? = some pa) (hna : pa.notes[ja]? = some a)
    (hb : (t.positionArrays ⟨0, by decide⟩)[i + 1]? = some pb)
    (hslot : noteSlotByString pb a.string = some jb) (hnb : pb.notes[jb]? = some b) :
    t.updateSlide { voice := 0, slot := i } { owner := { voice := 0, slot := i }, slot := ja } =
      .ok (t.setVoiceArray ⟨0, by decide⟩ ((t.positionArrays ⟨0, by decide⟩).set i
        (withNote pa ja
          (if a.slideOutOfType ≠ slideOutOfNone then
            if a.fretNumber ≠ b.fretNumber then
              { a with
                slideOutOfSteps := toInt8 ((b.fretNumber : Int) - (a.fretNumber : Int)) }
            else { a with slideOutOfType := slideOutOfNone, slideOutOfSteps := 0 }
          else a)))) := by
  unfold updateSlide
  rw [readNote_voice0 t i ja pa a ha hna]
  simp only []
  by_cases hslide : a.slideOutOfType ≠ slideOutOfNone
  · rw [if_pos hslide, if_pos hslide]
    have hcan : t.CanSlideBetweenNotes { voice := 0, slot := i } a =
        .ok (decide (a.fretNumber ≠ b.fretNumber)) :=
      compareWithNote_pair t i jb pa pb a b _ ha hb hslot hnb
    rw [hcan]
    by_cases hne : a.fretNumber ≠ b.fretNumber
    · rw [if_pos hne, decide_eq_true hne]
      simp only []
      rw [getSlideSteps_pair t i jb pa pb a b ha hb hslot hnb]
      simp only []
      rw [modifyNote_eq t i ja _ pa a ha hna]
    · rw [if_neg hne, decide_eq_false (fun h => hne h)]
      simp only []
      rw [modifyNote_eq t i ja _ pa a ha hna]
  · rw [if_neg hslide, if_neg hslide, withNote_self pa ja a hna, set_getElem?_self _ _ _ ha,
      setVoiceArray_self]

theorem updateTie_eq (t : Staff) (i ja jb : Nat) (pa pb : Position) (a b : Note)
    (ha : (t.positionArrays ⟨0, by decide⟩)[i]? = some pa) (hna : pa.notes[ja]? = some a)
    (hb : (t.positionArrays ⟨0, by decide⟩)[i + 1]? = some pb)
    (hnb : pb.notes[jb]? = some b) :
    t.updateTie { owner := { voice := 0, slot := i }, slot := ja }
        { owner := { voice := 0, slot := i + 1 }, slot := jb } =
      .ok (t.setVoiceArray ⟨0, by decide⟩ ((t.positionArrays ⟨0, by decide⟩).set (i + 1)
        (withNote pb jb (updatedNext a b)))) := by
  unfold updateTie
  rw [readNote_voice0 t i ja pa a ha hna, readNote_voice0 t (i + 1) jb pb b hb hnb]
  simp only []
  unfold updatedNext
  by_cases htie : (b.tied && b.fretNumber != a.fretNumber) = true
  · rw [if_pos htie, if_pos htie, modifyNote_eq t (i + 1) jb _ pb b hb hnb]
  · rw [if_neg htie, if_neg htie, withNote_self pb jb b hnb, set_getElem?_self _ _ _ hb,
      setVoiceArray_self]

theorem updateNote_eq (s : Staff) (i ja jb : Nat) (pa pb : Position) (a b : Note)
    (ha : (s.positionArrays ⟨0, by decide⟩)[i]? = some pa) (hna : pa.notes[ja]? = some a)
    (hb : (s.positionArrays ⟨0, by decide⟩)[i + 1]? = some pb)
    (hslot : noteSlotByString pb a.string = some jb) (hnb : pb.notes[jb]? = some b) :
    s.UpdateNote { voice := 0, slot := i } { owner := { voice := 0, slot := i }, slot := ja }
        { owner := { voice := 0, slot := i + 1 }, slot := jb } =
      .ok (s.setVoiceArray ⟨0, by decide⟩
        (((s.positionArrays ⟨0, by decide⟩).set i (withNote pa ja (updatedPrevious a b))).set
          (i + 1) (withNote pb jb (updatedNext a b)))) := by
  unfold UpdateNote
  rw [readNote_voice0 s i ja pa a ha hna]
  simp only []
  have hcp : s.CanPullOff { voice := 0, slot := i } a =
      .ok (decide (a.fretNumber > b.fretNumber)) :=
    compareWithNote_pair s i jb pa pb a b _ ha hb hslot hnb
  have hch : s.CanHammerOn { voice := 0, slot := i } a =
      .ok (decide (a.fretNumber < b.fretNumber)) :=
    compareWithNote_pair s i jb pa pb a b _ ha hb hslot hnb
  rw [hcp, hch]
  simp only []
  rw [modifyNote_eq s i ja _ pa a ha hna]
  have hne : i ≠ i + 1 := by omega
  have ha1 : ((s.setVoiceArray ⟨0, by decide⟩ ((s.positionArrays ⟨0, by decide⟩).set i
      (withNote pa ja (repairHammerPull (decide (a.fretNumber > b.fretNumber))
        (decide (a.fretNumber < b.fretNumber)) a)))).positionArrays ⟨0, by decide⟩)[i]? =
      some (withNote pa ja (repairHammerPull (decide (a.fretNumber > b.fretNumber))
        (decide (a.fretNumber < b.fretNumber)) a)) := by
    rw [setVoiceArray_same]
    exact getElem?_set_same _ _ _ _ ha
  have hb1 : ((s.setVoiceArray ⟨0, by decide⟩ ((s.positionArrays ⟨0, by decide⟩).set i
      (withNote pa ja (repairHammerPull (decide (a.fretNumber > b.fretNumber))
        (decide (a.fretNumber < b.fretNumber)) a)))).positionArrays ⟨0, by decide⟩)[i + 1]? =
      some pb := by
    rw [setVoiceArray_same, getElem?_set_other _ _ _ _ hne]
    exact hb
  rw [updateSlide_eq _ i ja jb _ pb _ b ha1 (withNote_getElem?_same pa ja a _ hna) hb1
    (by rw [repairHammerPull_string]; exact hslot) hnb]
  simp only []
  rw [setVoiceArray_same, List.set_set, withNote_withNote, setVoiceArray_setVoiceArray]
  have hprev : (if (repairHammerPull (decide (a.fretNumber > b.fretNumber))
        (decide (a.fretNumber < b.fretNumber)) a).slideOutOfType ≠ slideOutOfNone then
      if (repairHammerPull (decide (a.fretNumber > b.fretNumber))
          (decide (a.fretNumber < b.fretNumber)) a).fretNumber ≠ b.fretNumber then
        { repairHammerPull (decide (a.fretNumber > b.fretNumber))
            (decide (a.fretNumber < b.fretNumber)) a with
          slideOutOfSteps := toInt8 ((b.fretNumber : Int) -
            ((repairHammerPull (decide (a.fretNumber > b.fretNumber))
              (decide (a.fretNumber < b.fretNumber)) a).fretNumber : Int)) }
      else { repairHammerPull (decide (a.fretNumber > b.fretNumber))
          (decide (a.fretNumber < b.fretNumber)) a with
        slideOutOfType := slideOutOfNone, slideOutOfSteps := 0 }
    else repairHammerPull (decide (a.fretNumber > b.fretNumber))
      (decide (a.fretNumber < b.fretNumber)) a) = updatedPrevious a b := by
    unfold updatedPrevious
    simp only [repairHammerPull_fretNumber]
  rw [hprev]
  have ha2 : ((s.setVoiceArray ⟨0, by decide⟩ ((s.positionArrays ⟨0, by decide⟩).set i
      (withNote pa ja (updatedPrevious a b)))).positionArrays ⟨0, by decide⟩)[i]? =
      some (withNote pa ja (updatedPrevious a b)) := by
    rw [setVoiceArray_same]
    exact getElem?_set_same _ _ _ _ ha
  have hb2 : ((s.setVoiceArray ⟨0, by decide⟩ ((s.positionArrays ⟨0, by decide⟩).set i
      (withNote pa ja (updatedPrevious a b)))).positionArrays ⟨0, by decide⟩)[i + 1]? =
      some pb := by
    rw [setVoiceArray_same, getElem?_set_other _ _ _ _ hne]
    exact hb
  rw [updateTie_eq _ i ja jb _ pb _ b ha2 (withNote_getElem?_same pa ja a _ hna) hb2 hnb]
  rw [setVoiceArray_same, setVoiceArray_setVoiceArray]
  have hfret : (updatedPrevious a b).fretNumber = a.fretNumber := by
    unfold updatedPrevious
    simp only []
    split_ifs <;> simp [repairHammerPull_fretNumber]
  have hnext : updatedNext (updatedPrevious a b) b = updatedNext a b := by
    unfold updatedNext
    rw [hfret]
  rw [hnext]

theorem noteSlotByString_withNote (p : Position) (j string : Nat) (n m : Note)
    (hn : p.notes[j]? = some n) (hstring : m.string = n.string) :
    noteSlotByString (withNote p j m) string = noteSlotByString p string := by
  unfold noteSlotByString withNote
  rw [← modifyAt_eq_set p.notes j (fun _ => m) n hn]
  apply modifyAt_findIdx?
  intro a ha
  rw [hn] at ha
  cases ha
  simp [hstring]

theorem noteSlotByString_valid (q : Position) (string j : Nat)
    (h : noteSlotByString q string = some j) : ∃ a, q.notes[j]? = some a := by
  unfold noteSlotByString at h
  rw [List.findIdx?_eq_some_iff_getElem] at h
  obtain ⟨hj, _, _⟩ := h
  exact ⟨q.notes[j], List.getElem?_eq_getElem hj⟩

theorem updatedPrevious_string (a b : Note) : (updatedPrevious a b).string = a.string := by
  unfold updatedPrevious
  simp only []
  split_ifs <;> simp [repairHammerPull_string]

theorem updatedPrevious_fretNumber (a b : Note) :
    (updatedPrevious a b).fretNumber = a.fretNumber := by
  unfold updatedPrevious
  simp only []
  split_ifs <;> simp [repairHammerPull_fretNumber]

theorem updatedNext_string (a b : Note) : (updatedNext a b).string = b.string := by
  unfold updatedNext
  split_ifs <;> rfl

theorem updatedNext_fretNumber (a b : Note) : (updatedNext a b).fretNumber = b.fretNumber := by
  unfold updatedNext
  split_ifs <;> rfl

theorem updatePrevious_eq (t : Staff) (k j : Nat) (p : Position) (n : Note)
    (hp : (t.positionArrays ⟨0, by decide⟩)[k]? = some p) (hn : p.notes[j]? = some n)
    (hfirst : noteSlotByString p n.string = some j) :
    t.updatePrevious k { owner := { voice := 0, slot := k }, slot := j } n.string =
      .ok (t.setVoiceArray ⟨0, by decide⟩
        (previousUpdated (t.positionArrays ⟨0, by decide⟩) k j)) := by
  unfold updatePrevious previousUpdated
  rw [hp]
  simp only [hn]
  by_cases hk : k = 0
  · simp only [hk, ne_eq, not_true_eq_false, if_false]
    rw [setVoiceArray_self]
  · obtain ⟨i, rfl⟩ : ∃ i, k = i + 1 := ⟨k - 1, by omega⟩
    rw [if_pos hk, if_pos hk]
    simp only [Nat.add_sub_cancel]
    rcases List.getElem?_eq_some_iff.1 hp with ⟨hlt, _⟩
    have hq : (t.positionArrays ⟨0, by decide⟩)[i]? =
        some ((t.positionArrays ⟨0, by decide⟩)[i]) := List.getElem?_eq_getElem (by omega)
    rw [hq]
    simp only []
    cases hslot : noteSlotByString ((t.positionArrays ⟨0, by decide⟩)[i]) n.string with
    | none =>
      simp only []
      rw [setVoiceArray_self]
    | some ja =>
      obtain ⟨a, ha⟩ := noteSlotByString_valid _ _ _ hslot
      simp only [ha]
      have hstr : a.string = n.string := noteSlotByString_string _ _ _ _ hslot ha
      exact updateNote_eq t i ja j _ p a n hq ha hp (by rw [hstr]; exact hfirst) hn

theorem updateNext_eq (t : Staff) (k j : Nat) (p : Position) (n : Note)
    (hp : (t.positionArrays ⟨0, by decide⟩)[k]? = some p) (hn : p.notes[j]? = some n) :
    t.updateNext k { owner := { voice := 0, slot := k }, slot := j } n.string =
      .ok (t.setVoiceArray ⟨0, by decide⟩
        (nextUpdated (t.positionArrays ⟨0, by decide⟩) k j)) := by
  unfold updateNext nextUpdated
  rw [hp]
  simp only [hn]
  by_cases hk : k + 1 = (t.positionArrays ⟨0, by decide⟩).length
  · have hnone : (t.positionArrays ⟨0, by decide⟩)[k + 1]? = none :=
      List.getElem?_eq_none (by omega)
    rw [hnone]
    simp only [hk, ne_eq, not_true_eq_false, if_false]
    rw [setVoiceArray_self]
  · rw [if_pos hk]
    rcases List.getElem?_eq_some_iff.1 hp with ⟨hlt, _⟩
    have hr : (t.positionArrays ⟨0, by decide⟩)[k + 1]? =
        some ((t.positionArrays ⟨0, by decide⟩)[k + 1]) := List.getElem?_eq_getElem (by omega)
    rw [hr]
    simp only []
    cases hslot : noteSlotByString ((t.positionArrays ⟨0, by decide⟩)[k + 1]) n.string with
    | none =>
      simp only []
      rw [setVoiceArray_self]
    | some jb =>
      obtain ⟨b, hb⟩ := noteSlotByString_valid _ _ _ hslot
      simp only [hb]
      exact updateNote_eq t k j jb p _ n b hp hn hr hslot hb

theorem previousUpdated_length (arr : List Position) (k j : Nat) :
    (previousUpdated arr k j).length = arr.length := by
  unfold previousUpdated
  repeat' split
  all_goals simp

theorem nextUpdated_length (arr : List Position) (k j : Nat) :
    (nextUpdated arr k j).length = arr.length := by
  unfold nextUpdated
  repeat' split
  all_goals simp

theorem previousUpdated_slot (arr : List Position) (k j : Nat) (p : Position) (n : Note)
    (hp : arr[k]? = some p) (hn : p.notes[j]? = some n) :
    ∃ n2, (previousUpdated arr k j)[k]? = some (withNote p j n2) ∧ n2.string = n.string ∧
      n2.fretNumber = n.fretNumber ∧ n2.hammerOn = n.hammerOn ∧ n2.pullOff = n.pullOff := by
  have hself : arr[k]? = some (withNote p j n) := by rw [withNote_self p j n hn]; exact hp
  unfold previousUpdated
  rw [hp]
  simp only [hn]
  split
  · split
    · split
      · split
        · rename_i a _
          refine ⟨updatedNext a n, ?_, updatedNext_string a n, updatedNext_fretNumber a n, ?_, ?_⟩
          · rcases List.getElem?_eq_some_iff.1 hp with ⟨hlt, _⟩
            simp [List.getElem?_set, hlt]
          · unfold updatedNext
            split_ifs <;> rfl
          · unfold updatedNext
            split_ifs <;> rfl
        · exact ⟨n, hself, rfl, rfl, rfl, rfl⟩
      · exact ⟨n, hself, rfl, rfl, rfl, rfl⟩
    · exact ⟨n, hself, rfl, rfl, rfl, rfl⟩
  · exact ⟨n, hself, rfl, rfl, rfl, rfl⟩

theorem updateTabNumber_eq (s : Staff) (k j fretNumber : Nat) (p : Position) (n : Note)
    (hp : (s.positionArrays ⟨0, by decide⟩)[k]? = some p) (hn : p.notes[j]? = some n)
    (hfirst : noteSlotByString p n.string = some j) :
    s.UpdateTabNumber { voice := 0, slot := k }
        { owner := { voice := 0, slot := k }, slot := j } fretNumber =
      .ok (s.setVoiceArray ⟨0, by decide⟩
        (tabNumberUpdated (s.positionArrays ⟨0, by decide⟩) k j fretNumber)) := by
  rcases List.getElem?_eq_some_iff.1 hp with ⟨hlt, _⟩
  unfold UpdateTabNumber tabNumberUpdated
  rw [stdFind_stored _ _ _ hlt]
  simp only []
  rw [readNote_voice0 s k j p n hp hn]
  simp only []
  rw [modifyNote_eq s k j _ p n hp hn, modifyAt_eq_set _ _ _ p hp]
  simp only [modifyAt_eq_set _ _ _ n hn]
  have h1 : ((s.setVoiceArray ⟨0, by decide⟩ ((s.positionArrays ⟨0, by decide⟩).set k
      (withNote p j { n with fretNumber := fretNumber }))).positionArrays ⟨0, by decide⟩)[k]? =
      some (withNote p j { n with fretNumber := fretNumber }) := by
    rw [setVoiceArray_same]
    exact getElem?_set_same _ _ _ _ hp
  have hfirst1 : noteSlotByString (withNote p j { n with fretNumber := fretNumber })
      ({ n with fretNumber := fretNumber } : Note).string = some j := by
    rw [noteSlotByString_withNote p j _ n { n with fretNumber := fretNumber } hn rfl]
    exact hfirst
  have hprev := updatePrevious_eq _ k j _ { n with fretNumber := fretNumber } h1
    (withNote_getElem?_same p j n _ hn) hfirst1
  have hstr : ({ n with fretNumber := fretNumber } : Note).string = n.string := rfl
  rw [hstr] at hprev
  rw [hprev]
  simp only []
  rw [setVoiceArray_same, setVoiceArray_setVoiceArray]
  obtain ⟨n2, hslot, hstr2, -, -, -⟩ := previousUpdated_slot
    ((s.positionArrays ⟨0, by decide⟩).set k (withNote p j { n with fretNumber := fretNumber }))
    k j _ { n with fretNumber := fretNumber } (getElem?_set_same _ _ _ _ hp)
    (withNote_getElem?_same p j n _ hn)
  have h2 : ((s.setVoiceArray ⟨0, by decide⟩ (previousUpdated
      ((s.positionArrays ⟨0, by decide⟩).set k
        (withNote p j { n with fretNumber := fretNumber })) k j)).positionArrays
        ⟨0, by decide⟩)[k]? =
      some (withNote (withNote p j { n with fretNumber := fretNumber }) j n2) := by
    rw [setVoiceArray_same]
    exact hslot
  have hnext := updateNext_eq _ k j _ n2 h2
    (withNote_getElem?_same _ j _ n2 (withNote_getElem?_same p j n _ hn))
  rw [hstr2] at hnext
  rw [hstr] at hnext
  rw [hnext, setVoiceArray_same, setVoiceArray_setVoiceArray]
  rfl

theorem previousUpdated_getElem?_gt (arr : List Position) (k j i : Nat) (h : k < i) :
    (previousUpdated arr k j)[i]? = arr[i]? := by
  unfold previousUpdated
  repeat' split
  all_goals first
    | rfl
    | (rw [getElem?_set_other _ _ _ _ (by omega), getElem?_set_other _ _ _ _ (by omega)])

theorem previousUpdated_getElem?_lt (arr : List Position) (k j i : Nat) (h : i + 1 < k) :
    (previousUpdated arr k j)[i]? = arr[i]? := by
  unfold previousUpdated
  repeat' split
  all_goals first
    | rfl
    | (rw [getElem?_set_other _ _ _ _ (by omega), getElem?_set_other _ _ _ _ (by omega)])

theorem nextUpdated_getElem?_lt (arr : List Position) (k j i : Nat) (h : i < k) :
    (nextUpdated arr k j)[i]? = arr[i]? := by
  unfold nextUpdated
  repeat' split
  all_goals first
    | rfl
    | (rw [getElem?_set_other _ _ _ _ (by omega), getElem?_set_other _ _ _ _ (by omega)])

theorem nextUpdated_getElem?_gt (arr : List Position) (k j i : Nat) (h : k + 1 < i) :
    (nextUpdated arr k j)[i]? = arr[i]? := by
  unfold nextUpdated
  repeat' split
  all_goals first
    | rfl
    | (rw [getElem?_set_other _ _ _ _ (by omega), getElem?_set_other _ _ _ _ (by omega)])

theorem previousUpdated_prev (arr : List Position) (i j ja : Nat) (p q : Position) (n a : Note)
    (hp : arr[i + 1]? = some p) (hn : p.notes[j]? = some n) (hq : arr[i]? = some q)
    (hslot : noteSlotByString q n.string = some ja) (ha : q.notes[ja]? = some a) :
    (previousUpdated arr (i + 1) j)[i]? = some (withNote q ja (updatedPrevious a n)) ∧
    (previousUpdated arr (i + 1) j)[i + 1]? = some (withNote p j (updatedNext a n)) := by
  unfold previousUpdated
  rw [hp]
  simp only [hn, Nat.add_sub_cancel, hq, hslot, ha, ne_eq, Nat.add_one_ne_zero,
    not_false_eq_true, if_true]
  constructor
  · rw [getElem?_set_other _ _ _ _ (by omega)]
    exact getElem?_set_same _ _ _ _ hq
  · exact getElem?_set_same _ _ _ _ (by rw [getElem?_set_other _ _ _ _ (by omega)]; exact hp)

theorem nextUpdated_pair (arr : List Position) (k j jb : Nat) (p r : Position) (n b : Note)
    (hp : arr[k]? = some p) (hn : p.notes[j]? = some n) (hr : arr[k + 1]? = some r)
    (hslot : noteSlotByString r n.string = some jb) (hb : r.notes[jb]? = some b) :
    (nextUpdated arr k j)[k]? = some (withNote p j (updatedPrevious n b)) ∧
    (nextUpdated arr k j)[k + 1]? = some (withNote r jb (updatedNext n b)) := by
  unfold nextUpdated
  rw [hp]
  simp only [hn, hr, hslot, hb]
  constructor
  · rw [getElem?_set_other _ _ _ _ (by omega)]
    exact getElem?_set_same _ _ _ _ hp
  · exact getElem?_set_same _ _ _ _ (by rw [getElem?_set_other _ _ _ _ (by omega)]; exact hr)

theorem nextUpdated_slot (arr : List Position) (k j : Nat) (p : Position) (n : Note)
    (hp : arr[k]? = some p) (hn : p.notes[j]? = some n) :
    ∃ n3, (nextUpdated arr k j)[k]? = some (withNote p j n3) ∧ n3.string = n.string ∧
      n3.fretNumber = n.fretNumber := by
  have hself : arr[k]? = some (withNote p j n) := by rw [withNote_self p j n hn]; exact hp
  unfold nextUpdated
  rw [hp]
  simp only [hn]
  split
  · split
    · split
      · rename_i b _
        refine ⟨updatedPrevious n b, ?_, updatedPrevious_string n b,
          updatedPrevious_fretNumber n b⟩
        rw [getElem?_set_other _ _ _ _ (by omega)]
        exact getElem?_set_same _ _ _ _ hp
      · exact ⟨n, hself, rfl, rfl⟩
    · exact ⟨n, hself, rfl, rfl⟩
  · exact ⟨n, hself, rfl, rfl⟩

theorem updatedPrevious_hammerOn (a b : Note) :
    (updatedPrevious a b).hammerOn =
      (repairHammerPull (decide (a.fretNumber > b.fretNumber))
        (decide (a.fretNumber < b.fretNumber)) a).hammerOn := by
  unfold updatedPrevious
  simp only []
  split_ifs <;> rfl

theorem updatedPrevious_pullOff (a b : Note) :
    (updatedPrevious a b).pullOff =
      (repairHammerPull (decide (a.fretNumber > b.fretNumber))
        (decide (a.fretNumber < b.fretNumber)) a).pullOff := by
  unfold updatedPrevious
  simp only []
  split_ifs <;> rfl

theorem repairHammerPull_flags (canPull canHammer hammerOn pullOff : Bool) (a x : Note)
    (hh : x.hammerOn = hammerOn) (hpo : x.pullOff = pullOff)
    (hah : a.hammerOn = hammerOn) (hap : a.pullOff = pullOff) :
    (repairHammerPull canPull canHammer x).hammerOn =
        (repairHammerPull canPull canHammer a).hammerOn ∧
      (repairHammerPull canPull canHammer x).pullOff =
        (repairHammerPull canPull canHammer a).pullOff := by
  unfold repairHammerPull
  subst hh
  subst hpo
  rw [hah, hap]
  split_ifs <;> simp_all

/-! ## Update propagation -/

theorem repairHammerPull_complementary (canPull canHammer : Bool) (x : Note) :
    (x.hammerOn = true → canHammer = false → ¬ (x.pullOff = true ∧ canPull = false) →
      (repairHammerPull canPull canHammer x).hammerOn = false ∧
        (canPull = true → (repairHammerPull canPull canHammer x).pullOff = true)) ∧
    (x.pullOff = true → canPull = false →
      (repairHammerPull canPull canHammer x).pullOff = false ∧
        (canHammer = true → (repairHammerPull canPull canHammer x).hammerOn = true)) := by
  unfold repairHammerPull
  cases canPull <;> cases canHammer <;> cases hh : x.hammerOn <;> cases hp : x.pullOff <;>
    simp [hh, hp]

theorem repairHammerPull_exclusive (canPull canHammer : Bool) (x : Note)
    (hx : HammerPullExclusive x) :
    HammerPullExclusive (repairHammerPull canPull canHammer x) := by
  unfold HammerPullExclusive at hx ⊢
  unfold repairHammerPull
  cases canPull <;> cases canHammer <;> cases hh : x.hammerOn <;> cases hp : x.pullOff <;>
    simp_all

/-- C8. Update propagation of the complementary technique: in a staff whose
notes carry at most one of the hammer-on and the pull-off flag, after
`UpdateTabNumber` sets the fret of a note to `f`, for the pair formed with the
same-string note of the previous position and for the pair formed with the
same-string note of the next position, with `a` the earlier and `b` the later
note of the pair: a hammer-on of `a` that is no longer valid is cleared and
replaced by a pull-off when `b` is now strictly lower; a pull-off of `a` that
is no longer valid is cleared and replaced by a hammer-on when `b` is now
strictly higher. -/
theorem update_complementary (s : Staff) (k j f : Nat) (p : Position) (n : Note)
    (hp : (s.positionArrays ⟨0, by decide⟩)[k]? = some p) (hn : p.notes[j]? = some n)
    (hfirst : noteSlotByString p n.string = some j) (hexcl : ExclusiveTechniques s) :
    ∃ s', s.UpdateTabNumber { voice := 0, slot := k }
        { owner := { voice := 0, slot := k }, slot := j } f = .ok s' ∧
      (∀ i q ja a, k = i + 1 → (s.positionArrays ⟨0, by decide⟩)[i]? = some q →
        noteSlotByString q n.string = some ja → q.notes[ja]? = some a →
        ∃ a', s'.derefNote { owner := { voice := 0, slot := i }, slot := ja } = some a' ∧
          (a.hammerOn = true → ¬ (a.fretNumber < f) →
            a'.hammerOn = false ∧ (f < a.fretNumber → a'.pullOff = true)) ∧
          (a.pullOff = true → ¬ (f < a.fretNumber) →
            a'.pullOff = false ∧ (a.fretNumber < f → a'.hammerOn = true))) ∧
      (∀ r jb b, (s.positionArrays ⟨0, by decide⟩)[k + 1]? = some r →
        noteSlotByString r n.string = some jb → r.notes[jb]? = some b →
        ∃ n', s'.derefNote { owner := { voice := 0, slot := k }, slot := j } = some n' ∧
          (n.hammerOn = true → ¬ (f < b.fretNumber) →
            n'.hammerOn = false ∧ (b.fretNumber < f → n'.pullOff = true)) ∧
          (n.pullOff = true → ¬ (b.fretNumber < f) →
            n'.pullOff = false ∧ (f < b.fretNumber → n'.hammerOn = true))) := by
  refine ⟨_, updateTabNumber_eq s k j f p n hp hn hfirst, ?_, ?_⟩
  · intro i q ja a hk hq hslot ha
    subst hk
    have hne : i + 1 ≠ i := by omega
    have hq1 : ((s.positionArrays ⟨0, by decide⟩).set (i + 1)
        (withNote p j { n with fretNumber := f }))[i]? = some q := by
      rw [getElem?_set_other _ _ _ _ hne]
      exact hq
    have hprev := (previousUpdated_prev _ i j ja _ q { n with fretNumber := f } a
      (getElem?_set_same _ _ _ _ hp) (withNote_getElem?_same p j n _ hn) hq1 hslot ha).1
    refine ⟨updatedPrevious a { n with fretNumber := f }, ?_, ?_, ?_⟩
    · rw [derefNote_voice0, setVoiceArray_same]
      unfold tabNumberUpdated
      rw [nextUpdated_getElem?_lt _ _ _ _ (by omega), modifyAt_eq_set _ _ _ p hp]
      simp only [modifyAt_eq_set _ _ _ n hn]
      rw [show (withNote p j { n with fretNumber := f }) =
        { p with notes := p.notes.set j { n with fretNumber := f } } from rfl] at hprev
      rw [hprev]
      exact withNote_getElem?_same q ja a _ ha
    · intro hh hnot
      rw [updatedPrevious_hammerOn, updatedPrevious_pullOff]
      have := (repairHammerPull_complementary (decide (a.fretNumber > f))
        (decide (a.fretNumber < f)) a).1 hh (by simpa using hnot)
        (fun hc => hexcl ⟨0, by decide⟩ q (List.getElem?_mem hq) a (List.getElem?_mem ha)
          ⟨hh, hc.1⟩)
      refine ⟨this.1, fun hlt => this.2 (by simpa using hlt)⟩
    · intro hpo hnot
      rw [updatedPrevious_hammerOn, updatedPrevious_pullOff]
      have := (repairHammerPull_complementary (decide (a.fretNumber > f))
        (decide (a.fretNumber < f)) a).2 hpo (by simpa using hnot)
      refine ⟨this.1, fun hlt => this.2 (by simpa using hlt)⟩
  · intro r jb b hr hslot hb
    obtain ⟨n2, hslot2, hstr2, hfret2, hh2, hp2⟩ := previousUpdated_slot
      ((s.positionArrays ⟨0, by decide⟩).set k (withNote p j { n with fretNumber := f }))
      k j _ { n with fretNumber := f } (getElem?_set_same _ _ _ _ hp)
      (withNote_getElem?_same p j n _ hn)
    have hr2 : (previousUpdated ((s.positionArrays ⟨0, by decide⟩).set k
        (withNote p j { n with fretNumber := f })) k j)[k + 1]? = some r := by
      rw [previousUpdated_getElem?_gt _ _ _ _ (by omega), getElem?_set_other _ _ _ _ (by omega)]
      exact hr
    have hnext := (nextUpdated_pair _ k j jb _ r n2 b hslot2
      (withNote_getElem?_same _ j _ n2 (withNote_getElem?_same p j n _ hn)) hr2
      (by rw [hstr2]; exact hslot) hb).1
    have hfr : n2.fretNumber = f := hfret2
    have hflags := repairHammerPull_flags (decide (n2.fretNumber > b.fretNumber))
      (decide (n2.fretNumber < b.fretNumber)) n.hammerOn n.pullOff n n2 hh2 hp2 rfl rfl
    refine ⟨updatedPrevious n2 b, ?_, ?_, ?_⟩
    · rw [derefNote_voice0, setVoiceArray_same]
      unfold tabNumberUpdated
      rw [modifyAt_eq_set _ _ _ p hp]
      simp only [modifyAt_eq_set _ _ _ n hn]
      rw [show (withNote p j { n with fretNumber := f }) =
        { p with notes := p.notes.set j { n with fretNumber := f } } from rfl] at hnext
      rw [hnext]
      rcases List.getElem?_eq_some_iff.1 hn with ⟨hjlt, _⟩
      simp [withNote, hjlt]
    · intro hh hnot
      rw [updatedPrevious_hammerOn, updatedPrevious_pullOff, hflags.1, hflags.2, hfr]
      have := (repairHammerPull_complementary (decide (f > b.fretNumber))
        (decide (f < b.fretNumber)) n).1 hh (by simpa using hnot)
        (fun hc => hexcl ⟨0, by decide⟩ p (List.getElem?_mem hp) n (List.getElem?_mem hn)
          ⟨hh, hc.1⟩)
      refine ⟨this.1, fun hlt => this.2 (by simpa using hlt)⟩
    · intro hpo hnot
      rw [updatedPrevious_hammerOn, updatedPrevious_pullOff, hflags.1, hflags.2, hfr]
      have := (repairHammerPull_complementary (decide (f > b.fretNumber))
        (decide (f < b.fretNumber)) n).2 hpo (by simpa using hnot)
      refine ⟨this.1, fun hlt => this.2 (by simpa using hlt)⟩

/-- Witness of C8: setting the second note of the hammer staff to fret 2 makes
the hammer-on of the first note (fret 3) invalid; it becomes a pull-off. -/
theorem update_complementary_witness :
    ∃ s' a', hammerStaff.UpdateTabNumber { voice := 0, slot := 1 }
        { owner := { voice := 0, slot := 1 }, slot := 0 } 2 = .ok s' ∧
      s'.derefNote { owner := { voice := 0, slot := 0 }, slot := 0 } = some a' ∧
      a'.hammerOn = false ∧ a'.pullOff = true := by
  obtain ⟨s', hs, hprev, _⟩ := update_complementary hammerStaff 1 0 2
    { position := 4, notes := [{ string := 2, fretNumber := 5 }] }
    { string := 2, fretNumber := 5 } rfl rfl rfl
    (by unfold ExclusiveTechniques HammerPullExclusive; decide)
  obtain ⟨a', ha, h1, _⟩ := hprev 0
    { position := 1, notes := [{ string := 2, fretNumber := 3, hammerOn := true }] } 0
    { string := 2, fretNumber := 3, hammerOn := true } rfl rfl rfl rfl
  have h2 := h1 rfl (by decide)
  exact ⟨s', a', hs, ha, h2.1, h2.2 (by decide)⟩

theorem tabNumberUpdated_eq (arr : List Position) (k j f : Nat) (p : Position) (n : Note)
    (hp : arr[k]? = some p) (hn : p.notes[j]? = some n) :
    tabNumberUpdated arr k j f =
      nextUpdated (previousUpdated (arr.set k (withNote p j { n with fretNumber := f })) k j)
        k j := by
  unfold tabNumberUpdated
  rw [modifyAt_eq_set _ _ _ p hp]
  simp only [modifyAt_eq_set _ _ _ n hn]
  rfl

theorem tabNumberUpdated_prev (arr : List Position) (i j f ja : Nat) (p q : Position)
    (n a : Note) (hp : arr[i + 1]? = some p) (hn : p.notes[j]? = some n)
    (hq : arr[i]? = some q) (hslot : noteSlotByString q n.string = some ja)
    (ha : q.notes[ja]? = some a) :
    (tabNumberUpdated arr (i + 1) j f)[i]? =
      some (withNote q ja (updatedPrevious a { n with fretNumber := f })) := by
  rw [tabNumberUpdated_eq arr (i + 1) j f p n hp hn, nextUpdated_getElem?_lt _ _ _ _ (by omega)]
  have hq1 : (arr.set (i + 1) (withNote p j { n with fretNumber := f }))[i]? = some q := by
    rw [getElem?_set_other _ _ _ _ (by omega)]
    exact hq
  exact (previousUpdated_prev _ i j ja _ q { n with fretNumber := f } a
    (getElem?_set_same _ _ _ _ hp) (withNote_getElem?_same p j n _ hn) hq1 hslot ha).1

theorem tabNumberUpdated_slot (arr : List Position) (k j f : Nat) (p : Position) (n : Note)
    (hp : arr[k]? = some p) (hn : p.notes[j]? = some n)
    (hfirst : noteSlotByString p n.string = some j) :
    ∃ pk n3, (tabNumberUpdated arr k j f)[k]? = some pk ∧ pk.notes[j]? = some n3 ∧
      noteSlotByString pk n.string = some j ∧ n3.string = n.string ∧ n3.fretNumber = f ∧
      (∀ r jb b, arr[k + 1]? = some r → noteSlotByString r n.string = some jb →
        r.notes[jb]? = some b →
        n3.hammerOn = (repairHammerPull (decide (f > b.fretNumber))
          (decide (f < b.fretNumber)) n).hammerOn ∧
        n3.pullOff = (repairHammerPull (decide (f > b.fretNumber))
          (decide (f < b.fretNumber)) n).pullOff ∧
        ∃ b', (tabNumberUpdated arr k j f)[k + 1]? = some (withNote r jb b') ∧
          b'.string = b.string ∧ b'.fretNumber = b.fretNumber) := by
  rw [tabNumberUpdated_eq arr k j f p n hp hn]
  rcases List.getElem?_eq_some_iff.1 hn with ⟨hjlt, _⟩
  obtain ⟨n2, hslot2, hstr2, hfret2, hh2, hp2⟩ := previousUpdated_slot
    (arr.set k (withNote p j { n with fretNumber := f }))
    k j _ { n with fretNumber := f } (getElem?_set_same _ _ _ _ hp)
    (withNote_getElem?_same p j n _ hn)
  have hn2 : (withNote (withNote p j { n with fretNumber := f }) j n2).notes[j]? = some n2 := by
    simp [withNote, hjlt]
  obtain ⟨n3, hslot3, hstr3, hfret3⟩ := nextUpdated_slot _ k j _ n2 hslot2 hn2
  have hstr : n3.string = n.string := by rw [hstr3, hstr2]
  have hn1 : (withNote p j { n with fretNumber := f }).notes[j]? =
      some { n with fretNumber := f } := withNote_getElem?_same p j n _ hn
  refine ⟨_, n3, hslot3, by simp [withNote, hjlt], ?_, hstr, by rw [hfret3, hfret2], ?_⟩
  · rw [noteSlotByString_withNote _ j _ n2 n3 hn2 (by rw [hstr3]),
      noteSlotByString_withNote _ j _ { n with fretNumber := f } n2 hn1 hstr2,
      noteSlotByString_withNote p j _ n { n with fretNumber := f } hn rfl]
    exact hfirst
  · intro r jb b hr hslot hb
    have hr2 : (previousUpdated (arr.set k (withNote p j { n with fretNumber := f }))
        k j)[k + 1]? = some r := by
      rw [previousUpdated_getElem?_gt _ _ _ _ (by omega), getElem?_set_other _ _ _ _ (by omega)]
      exact hr
    have hpair := nextUpdated_pair _ k j jb _ r n2 b hslot2 hn2 hr2
      (by rw [hstr2]; exact hslot) hb
    have hn3 : n3 = updatedPrevious n2 b := by
      have h1 := hpair.1
      rw [hslot3] at h1
      have h2 := congrArg (fun o => o.bind (fun (x : Position) => x.notes[j]?)) h1
      simpa [withNote, hjlt] using h2
    have hfr : n2.fretNumber = f := hfret2
    have hflags := repairHammerPull_flags (decide (n2.fretNumber > b.fretNumber))
      (decide (n2.fretNumber < b.fretNumber)) n.hammerOn n.pullOff n n2 hh2 hp2 rfl rfl
    rw [hfr] at hflags
    refine ⟨?_, ?_, updatedNext n2 b, hpair.2, updatedNext_string n2 b,
      updatedNext_fretNumber n2 b⟩
    · rw [hn3, updatedPrevious_hammerOn, hfr]
      exact hflags.1
    · rw [hn3, updatedPrevious_pullOff, hfr]
      exact hflags.2

theorem repairHammerPull_valid (canPull canHammer : Bool) (x : Note) :
    ((repairHammerPull canPull canHammer x).pullOff = true → canPull = true) ∧
    (¬ (x.hammerOn = true ∧ x.pullOff = true ∧ canPull = false ∧ canHammer = false) →
      (repairHammerPull canPull canHammer x).hammerOn = true → canHammer = true) := by
  unfold repairHammerPull
  cases canPull <;> cases canHammer <;> cases hh : x.hammerOn <;> cases hp : x.pullOff <;>
    simp [hh, hp]

/-- C9. No invalid hammer-on or pull-off survives an update: in a staff whose
notes carry at most one of the hammer-on and the pull-off flag, after
`UpdateTabNumber` sets the fret of a note to `f` the note has fret `f`, and for
the note itself (when the next position has a note on its string) and for the
same-string note of the previous position (when there is one): a set pull-off
flag implies `CanPullOff`, a set hammer-on flag implies `CanHammerOn`, and the
note still carries at most one of the two flags. -/
theorem update_no_invalid (s : Staff) (k j f : Nat) (p : Position) (n : Note)
    (hp : (s.positionArrays ⟨0, by decide⟩)[k]? = some p) (hn : p.notes[j]? = some n)
    (hfirst : noteSlotByString p n.string = some j) (hexcl : ExclusiveTechniques s) :
    ∃ s' n', s.UpdateTabNumber { voice := 0, slot := k }
        { owner := { voice := 0, slot := k }, slot := j } f = .ok s' ∧
      s'.derefNote { owner := { voice := 0, slot := k }, slot := j } = some n' ∧
      n'.fretNumber = f ∧
      (∀ r jb b, (s.positionArrays ⟨0, by decide⟩)[k + 1]? = some r →
        noteSlotByString r n.string = some jb → r.notes[jb]? = some b →
        (n'.pullOff = true → s'.CanPullOff { voice := 0, slot := k } n' = .ok true) ∧
        (n'.hammerOn = true → s'.CanHammerOn { voice := 0, slot := k } n' = .ok true) ∧
        HammerPullExclusive n') ∧
      (∀ i q ja a, k = i + 1 → (s.positionArrays ⟨0, by decide⟩)[i]? = some q →
        noteSlotByString q n.string = some ja → q.notes[ja]? = some a →
        ∃ a', s'.derefNote { owner := { voice := 0, slot := i }, slot := ja } = some a' ∧
          (a'.pullOff = true → s'.CanPullOff { voice := 0, slot := i } a' = .ok true) ∧
          (a'.hammerOn = true → s'.CanHammerOn { voice := 0, slot := i } a' = .ok true) ∧
          HammerPullExclusive a') := by
  obtain ⟨pk, n3, hFk, hpk, hfirstk, hstr3, hfret3, hnextfacts⟩ :=
    tabNumberUpdated_slot (s.positionArrays ⟨0, by decide⟩) k j f p n hp hn hfirst
  refine ⟨_, n3, updateTabNumber_eq s k j f p n hp hn hfirst, ?_, hfret3, ?_, ?_⟩
  · rw [derefNote_voice0, setVoiceArray_same, hFk]
    simpa using hpk
  · intro r jb b hr hslot hb
    obtain ⟨hh, hpo, b', hFk1, hbstr, hbfret⟩ := hnextfacts r jb b hr hslot hb
    rcases List.getElem?_eq_some_iff.1 hb with ⟨hjb, _⟩
    have hcmp : ∀ comp, (s.setVoiceArray ⟨0, by decide⟩
        (tabNumberUpdated (s.positionArrays ⟨0, by decide⟩) k j f)).CompareWithNote .NextNote
        { voice := 0, slot := k } n3 comp = .ok (comp f b.fretNumber) := by
      intro comp
      rw [compareWithNote_pair _ k jb pk (withNote r jb b') n3 b' comp
        (by rw [setVoiceArray_same]; exact hFk) (by rw [setVoiceArray_same]; exact hFk1)
        (by rw [noteSlotByString_withNote r jb _ b b' hb hbstr, hstr3]; exact hslot)
        (withNote_getElem?_same r jb b b' hb), hfret3, hbfret]
    have hvalid := repairHammerPull_valid (decide (f > b.fretNumber))
      (decide (f < b.fretNumber)) n
    have hexn : HammerPullExclusive n :=
      hexcl ⟨0, by decide⟩ p (List.getElem?_mem hp) n (List.getElem?_mem hn)
    refine ⟨?_, ?_, ?_⟩
    · intro hset
      unfold CanPullOff
      rw [hcmp]
      rw [hpo] at hset
      rw [hvalid.1 hset]
    · intro hset
      unfold CanHammerOn
      rw [hcmp]
      rw [hh] at hset
      rw [hvalid.2 (fun hc => hexn ⟨hc.1, hc.2.1⟩) hset]
    · have hrep := repairHammerPull_exclusive (decide (f > b.fretNumber))
        (decide (f < b.fretNumber)) n hexn
      unfold HammerPullExclusive at hrep ⊢
      rw [hh, hpo]
      exact hrep
  · intro i q ja a hk hq hslot ha
    subst hk
    have hFi := tabNumberUpdated_prev (s.positionArrays ⟨0, by decide⟩) i j f ja p q n a
      hp hn hq hslot ha
    have hastr : a.string = n.string := noteSlotByString_string q _ _ _ hslot ha
    have hexa : HammerPullExclusive a :=
      hexcl ⟨0, by decide⟩ q (List.getElem?_mem hq) a (List.getElem?_mem ha)
    refine ⟨updatedPrevious a { n with fretNumber := f }, ?_, ?_, ?_, ?_⟩
    · rw [derefNote_voice0, setVoiceArray_same, hFi]
      exact withNote_getElem?_same q ja a _ ha
    all_goals
      have hcmp : ∀ comp, (s.setVoiceArray ⟨0, by decide⟩
          (tabNumberUpdated (s.positionArrays ⟨0, by decide⟩) (i + 1) j f)).CompareWithNote
          .NextNote { voice := 0, slot := i } (updatedPrevious a { n with fretNumber := f })
          comp = .ok (comp a.fretNumber f) := by
        intro comp
        rw [compareWithNote_pair _ i j _ pk (updatedPrevious a { n with fretNumber := f }) n3
          comp (by rw [setVoiceArray_same]; exact hFi) (by rw [setVoiceArray_same]; exact hFk)
          (by rw [updatedPrevious_string, hastr]; exact hfirstk) hpk,
          updatedPrevious_fretNumber, hfret3]
      have hvalid := repairHammerPull_valid (decide (a.fretNumber > f))
        (decide (a.fretNumber < f)) a
    · intro hset
      unfold CanPullOff
      rw [hcmp]
      rw [updatedPrevious_pullOff] at hset
      rw [hvalid.1 hset]
    · intro hset
      unfold CanHammerOn
      rw [hcmp]
      rw [updatedPrevious_hammerOn] at hset
      rw [hvalid.2 (fun hc => hexa ⟨hc.1, hc.2.1⟩) hset]
    · have hrep := repairHammerPull_exclusive (decide (a.fretNumber > f))
        (decide (a.fretNumber < f)) a hexa
      unfold HammerPullExclusive at hrep ⊢
      rw [updatedPrevious_hammerOn, updatedPrevious_pullOff]
      exact hrep

/-- Witness of C9: in the hammer staff the second note (fret 5) is set to fret
2; the hammer-on of the first note (fret 3) is replaced by a pull-off, and
`CanPullOff` holds for the first note after the call. -/
theorem update_no_invalid_witness :
    ∃ s' a', hammerStaff.UpdateTabNumber { voice := 0, slot := 1 }
        { owner := { voice := 0, slot := 1 }, slot := 0 } 2 = .ok s' ∧
      s'.derefNote { owner := { voice := 0, slot := 0 }, slot := 0 } = some a' ∧
      a'.hammerOn = false ∧ a'.pullOff = true ∧
      s'.CanPullOff { voice := 0, slot := 0 } a' = .ok true := by
  obtain ⟨s', n', hs, -, -, -, hprev⟩ := update_no_invalid hammerStaff 1 0 2
    { position := 4, notes := [{ string := 2, fretNumber := 5 }] }
    { string := 2, fretNumber := 5 } rfl rfl rfl
    (by unfold ExclusiveTechniques HammerPullExclusive; decide)
  obtain ⟨a', ha, hpull, -, -⟩ := hprev 0
    { position := 1, notes := [{ string := 2, fretNumber := 3, hammerOn := true }] } 0
    { string := 2, fretNumber := 3, hammerOn := true } rfl rfl rfl rfl
  have heval : (hammerStaff.UpdateTabNumber { voice := 0, slot := 1 }
      { owner := { voice := 0, slot := 1 }, slot := 0 } 2).toOption.bind
      (fun t => t.derefNote { owner := { voice := 0, slot := 0 }, slot := 0 }) =
      some { string := 2, fretNumber := 3, pullOff := true } := by decide
  rw [hs] at heval
  have ha2 : s'.derefNote { owner := { voice := 0, slot := 0 }, slot := 0 } =
      some { string := 2, fretNumber := 3, pullOff := true } := heval
  rw [ha] at ha2
  have heq : a' = { string := 2, fretNumber := 3, pullOff := true } := Option.some.inj ha2
  have hpo : a'.pullOff = true := by rw [heq]
  have hho : a'.hammerOn = false := by rw [heq]
  exact ⟨s', a', hs, ha, hho, hpo, hpull hpo⟩

/-! ## Beaming -/

theorem findIf_spec (pred : Position → Bool) (ps : List Position) (first : Nat)
    (h : first ≤ ps.length) :
    first ≤ findIf pred ps first ∧ findIf pred ps first ≤ ps.length ∧
    (∀ i p, first ≤ i → i < findIf pred ps first → ps[i]? = some p → pred p = false) ∧
    (∀ p, ps[findIf pred ps first]? = some p → pred p = true) := by
  unfold findIf
  have hle : (ps.drop first).findIdx pred ≤ (ps.drop first).length := List.findIdx_le_length pred
  rw [List.length_drop] at hle
  refine ⟨Nat.le_add_right _ _, by omega, ?_, ?_⟩
  · intro i p h1 h2 hp
    have hlt : i - first < (ps.drop first).findIdx pred := by omega
    have hnot := List.not_of_lt_findIdx hlt
    have hget : (ps.drop first)[i - first]? = some p := by
      rw [List.getElem?_drop]
      rw [show first + (i - first) = i by omega]
      exact hp
    rcases List.getElem?_eq_some_iff.1 hget with ⟨hlt2, heq⟩
    rw [heq] at hnot
    simpa using hnot
  · intro p hp
    have hget : (ps.drop first)[(ps.drop first).findIdx pred]? = some p := by
      rw [List.getElem?_drop]
      exact hp
    exact List.findIdx_of_getElem?_eq_some hget

theorem map_set_same {α β : Type} (f : α → β) (l : List α) (i : Nat) (x : α)
    (h : ∀ a, l[i]? = some a → f x = f a) : (l.set i x).map f = l.map f := by
  apply List.ext_getElem?
  intro k
  rw [List.getElem?_map, List.getElem?_map, List.getElem?_set]
  by_cases hik : i = k
  · subst hik
    by_cases hlt : i < l.length
    · simp [hlt, h _ (List.getElem?_eq_getElem hlt)]
    · simp [hlt, List.getElem?_eq_none (Nat.le_of_not_lt hlt)]
  · simp [hik]

theorem modifyAt_map_same {α β : Type} (f : α → β) (l : List α) (i : Nat) (g : α → α)
    (h : ∀ a, f (g a) = f a) : (modifyAt l i g).map f = l.map f := by
  unfold modifyAt
  split
  · rename_i a ha
    exact map_set_same f l i (g a) (fun b hb => by rw [ha] at hb; cases hb; exact h a)
  · rfl

theorem beamStep_core (start : Nat) (ps : List Position) (i : Nat) :
    (beamStep start ps i).map beamCore = ps.map beamCore := by
  unfold beamStep
  split
  · exact modifyAt_map_same _ _ _ _ (fun a => rfl)
  · split
    · rename_i currentPos prevPos hcur hprev
      have hset : ∀ (P C : Position), beamCore P = beamCore prevPos →
          beamCore C = beamCore currentPos →
          ((ps.set (i - 1) P).set i C).map beamCore = ps.map beamCore := by
        intro P C hP hC
        rw [List.map_set, List.map_set]
        have h1 : (ps.map beamCore).set (i - 1) (beamCore P) = ps.map beamCore := by
          apply set_getElem?_self
          rw [List.getElem?_map, hprev, hP]
          rfl
        rw [h1]
        apply set_getElem?_self
        rw [List.getElem?_map, hcur, hC]
        rfl
      simp only []
      split_ifs <;> exact hset _ _ rfl rfl
    · rfl

theorem beamFold_core (start : Nat) (steps : List Nat) (ps : List Position) :
    (steps.foldl (beamStep start) ps).map beamCore = ps.map beamCore := by
  induction steps generalizing ps with
  | nil => rfl
  | cons i rest ih =>
    rw [List.foldl_cons, ih, beamStep_core]

theorem core_of_map_eq (l1 l2 : List Position) (h : l1.map beamCore = l2.map beamCore)
    (i : Nat) (q : Position) (hq : l1[i]? = some q) :
    ∃ p, l2[i]? = some p ∧ beamCore q = beamCore p := by
  have h1 := congrArg (fun l => l[i]?) h
  simp only [List.getElem?_map, hq, Option.map_some'] at h1
  cases hp : l2[i]? with
  | none => simp [hp] at h1
  | some p =>
    refine ⟨p, rfl, ?_⟩
    simpa [hp] using h1

theorem beamPass_iterators (ps : List Position) (e : Nat) :
    (beamPass ps e).2.1 = findIf IsBeamable ps e ∧
    (beamPass ps e).2.2 = findIf (fun p => !IsBeamable p) ps (findIf IsBeamable ps e) := by
  unfold beamPass
  simp only []
  split <;> exact ⟨rfl, rfl⟩

theorem modifyAt_getElem?_map {α : Type} (l : List α) (k i : Nat) (f : α → α) :
    (modifyAt l k f)[i]? = (l[i]?).map (fun a => if i = k then f a else a) := by
  rw [modifyAt_getElem?]
  by_cases hik : i = k
  · subst hik
    simp
  · simp [hik]

theorem marks_flags (processed : List Position) (start stop i : Nat) (q : Position)
    (hq : (modifyAt (modifyAt processed start (fun p => { p with beamStart := true }))
      (stop - 1) (fun p => { p with beamEnd := true }))[i]? = some q) :
    ∃ r, processed[i]? = some r ∧ IsBeamable q = IsBeamable r ∧
      q.beamStart = (r.beamStart || decide (i = start)) ∧
      q.beamEnd = (r.beamEnd || decide (i = stop - 1)) := by
  rw [modifyAt_getElem?_map, modifyAt_getElem?_map] at hq
  cases hr : processed[i]? with
  | none => rw [hr] at hq; simp at hq
  | some r =>
    rw [hr] at hq
    simp only [Option.map_some', Option.some.injEq] at hq
    refine ⟨r, rfl, ?_⟩
    by_cases h1 : i = stop - 1
    · by_cases h2 : i = start
      · rw [if_pos h1, if_pos h2] at hq
        subst hq
        rw [decide_eq_true h1, decide_eq_true h2]
        simp [IsBeamable]
      · rw [if_pos h1, if_neg h2] at hq
        subst hq
        rw [decide_eq_true h1, decide_eq_false h2]
        simp [IsBeamable]
    · by_cases h2 : i = start
      · rw [if_neg h1, if_pos h2] at hq
        subst hq
        rw [decide_eq_false h1, decide_eq_true h2]
        simp [IsBeamable]
      · rw [if_neg h1, if_neg h2] at hq
        subst hq
        rw [decide_eq_false h1, decide_eq_false h2]
        simp [IsBeamable]

theorem beamPass_flags (ps : List Position) (e i : Nat) (q : Position)
    (hq : (beamPass ps e).1[i]? = some q) :
    ∃ p, ps[i]? = some p ∧ IsBeamable q = IsBeamable p ∧
      q.beamStart = (p.beamStart ||
        (decide (findIf IsBeamable ps e ≠ ps.length) && decide (i = findIf IsBeamable ps e))) ∧
      q.beamEnd = (p.beamEnd ||
        (decide (findIf IsBeamable ps e ≠ ps.length) &&
          decide (i = findIf (fun p => !IsBeamable p) ps (findIf IsBeamable ps e) - 1))) := by
  unfold beamPass at hq
  simp only [] at hq
  have hcore := beamFold_core (findIf IsBeamable ps e)
    (List.range' (findIf IsBeamable ps e)
      (findIf (fun p => !IsBeamable p) ps (findIf IsBeamable ps e) - findIf IsBeamable ps e)) ps
  generalize (List.range' (findIf IsBeamable ps e)
      (findIf (fun p => !IsBeamable p) ps (findIf IsBeamable ps e) -
        findIf IsBeamable ps e)).foldl (beamStep (findIf IsBeamable ps e)) ps = processed
    at hq hcore
  generalize findIf (fun p => !IsBeamable p) ps (findIf IsBeamable ps e) = stop at hq ⊢
  generalize findIf IsBeamable ps e = start at hq ⊢
  by_cases hstart : start ≠ ps.length
  · rw [if_pos hstart] at hq
    obtain ⟨r, hr, hb, hs, he⟩ := marks_flags processed start stop i q hq
    obtain ⟨p, hp, hc⟩ := core_of_map_eq _ _ hcore i r hr
    simp only [beamCore, Prod.mk.injEq] at hc
    refine ⟨p, hp, hb.trans hc.1, ?_, ?_⟩
    · rw [hs, hc.2.1]; simp [hstart]
    · rw [he, hc.2.2]; simp [hstart]
  · rw [if_neg hstart] at hq
    obtain ⟨p, hp, hc⟩ := core_of_map_eq _ _ hcore i q hq
    simp only [beamCore, Prod.mk.injEq] at hc
    exact ⟨p, hp, hc.1, by simp [hstart, hc.2.1], by simp [hstart, hc.2.2]⟩

theorem beamPass_length (ps : List Position) (e : Nat) :
    (beamPass ps e).1.length = ps.length := by
  have hcore := beamFold_core (findIf IsBeamable ps e)
    (List.range' (findIf IsBeamable ps e)
      (findIf (fun p => !IsBeamable p) ps (findIf IsBeamable ps e) - findIf IsBeamable ps e)) ps
  have hlen := congrArg List.length hcore
  simp only [List.length_map] at hlen
  unfold beamPass
  simp only []
  split
  · rw [modifyAt_length, modifyAt_length, hlen]
  · exact hlen

theorem beamableAt_of_length_le (orig : List Position) (i : Nat) (h : orig.length ≤ i) :
    beamableAt orig i = false := by
  unfold beamableAt
  rw [List.getElem?_eq_none h]

theorem beamPass_inv (orig cur : List Position) (e : Nat) (hinv : BeamInv orig cur e) :
    BeamInv orig (beamPass cur e).1 (beamPass cur e).2.2 ∧
    ((beamPass cur e).2.1 = orig.length → (beamPass cur e).2.2 = orig.length) ∧
    ((beamPass cur e).2.1 ≠ orig.length → e < (beamPass cur e).2.2) := by
  obtain ⟨hlen, he, hbound, hpt⟩ := hinv
  rw [(beamPass_iterators cur e).1, (beamPass_iterators cur e).2]
  obtain ⟨hs1, hs2, hs3, hs4⟩ := findIf_spec IsBeamable cur e (by omega)
  obtain ⟨ht1, ht2, ht3, ht4⟩ := findIf_spec (fun p => !IsBeamable p) cur
    (findIf IsBeamable cur e) hs2
  have hflags := beamPass_flags cur e
  have hplen := beamPass_length cur e
  generalize findIf (fun p => !IsBeamable p) cur (findIf IsBeamable cur e) = stop at *
  generalize findIf IsBeamable cur e = start at *
  have hget : ∀ i, i < orig.length → ∃ p, cur[i]? = some p ∧ IsBeamable p = beamableAt orig i := by
    intro i hi
    have hlt : i < cur.length := by omega
    exact ⟨cur[i], List.getElem?_eq_getElem hlt, (hpt i _ (List.getElem?_eq_getElem hlt)).1⟩
  have F1 : ∀ i, e ≤ i → i < start → beamableAt orig i = false := by
    intro i h1 h2
    obtain ⟨p, hp, hb⟩ := hget i (by omega)
    rw [← hb]
    exact hs3 i p h1 h2 hp
  have F2 : start < orig.length → beamableAt orig start = true := by
    intro h
    obtain ⟨p, hp, hb⟩ := hget start h
    rw [← hb]
    exact hs4 p hp
  have F3 : ∀ i, start ≤ i → i < stop → beamableAt orig i = true := by
    intro i h1 h2
    obtain ⟨p, hp, hb⟩ := hget i (by omega)
    rw [← hb]
    have := ht3 i p h1 h2 hp
    simpa using this
  have F4 : beamableAt orig stop = false := by
    by_cases h : stop < orig.length
    · obtain ⟨p, hp, hb⟩ := hget stop h
      rw [← hb]
      have := ht4 p hp
      simpa using this
    · exact beamableAt_of_length_le orig stop (by omega)
  have F5 : start < orig.length → start < stop := by
    intro h
    rcases Nat.lt_or_ge start stop with h1 | h1
    · exact h1
    · have heq : stop = start := by omega
      rw [heq, F2 h] at F4
      cases F4
  refine ⟨⟨by rw [hplen, hlen], by omega, Or.inr F4, ?_⟩, by intro h; omega,
    by intro h; have := F5 (by omega); omega⟩
  intro i q hq
  obtain ⟨p, hp, hb, hbs, hbe⟩ := hflags i q hq
  obtain ⟨hpb, hplt, hpge⟩ := hpt i p hp
  have hilt : i < orig.length := by
    rcases List.getElem?_eq_some_iff.1 hp with ⟨h, _⟩
    omega
  refine ⟨hb.trans hpb, ?_, ?_⟩
  · intro histop
    rcases Nat.lt_or_ge i e with h1 | h1
    · -- before the previous end: flags were final and are untouched
      have hne1 : i ≠ start := by omega
      have hne2 : start ≠ cur.length → i ≠ stop - 1 := by
        intro h
        have := F5 (by omega)
        omega
      have hbs' : q.beamStart = p.beamStart := by
        rw [hbs, decide_eq_false hne1]; simp
      have hbe' : q.beamEnd = p.beamEnd := by
        rw [hbe]
        by_cases h : start ≠ cur.length
        · rw [decide_eq_false (hne2 h)]; simp
        · rw [decide_eq_false h]; simp
      rw [hbs', hbe']
      exact hplt h1
    · obtain ⟨hps, hpe⟩ := hpge h1
      rcases Nat.lt_or_ge i start with h2 | h2
      · -- between the previous end and the run: not beamable, no flag
        have hbi := F1 i h1 h2
        have hne1 : i ≠ start := by omega
        have hne2 : start ≠ cur.length → i ≠ stop - 1 := by
          intro h
          have := F5 (by omega)
          omega
        have hbs' : q.beamStart = false := by
          rw [hbs, hps, decide_eq_false hne1]; simp
        have hbe' : q.beamEnd = false := by
          rw [hbe, hpe]
          by_cases h : start ≠ cur.length
          · rw [decide_eq_false (hne2 h)]; simp
          · rw [decide_eq_false h]; simp
        rw [hbs', hbe', hbi]
        simp
      · -- inside the run
        have hbi := F3 i h2 histop
        have hstart : start ≠ cur.length := by omega
        rw [hbs, hbe, hps, hpe, decide_eq_true hstart, hbi]
        simp only [Bool.false_or, Bool.true_and, decide_eq_true_eq, true_and]
        constructor
        · constructor
          · intro hi
            subst hi
            rcases Nat.lt_or_ge e i with h3 | h3
            · right
              exact F1 (i - 1) (by omega) (by omega)
            · have hei : e = i := by omega
              rcases hbound with h0 | h0
              · left; omega
              · rw [hei, hbi] at h0
                cases h0
          · intro hrun
            rcases hrun with h0 | h0
            · omega
            · rcases Nat.lt_or_ge start i with h3 | h3
              · rw [F3 (i - 1) (by omega) (by omega)] at h0
                cases h0
              · omega
        · constructor
          · intro hi
            rw [hi, show stop - 1 + 1 = stop by omega]
            exact F4
          · intro hrun
            rcases Nat.lt_or_ge (i + 1) stop with h3 | h3
            · rw [F3 (i + 1) (by omega) h3] at hrun
              cases hrun
            · omega
  · intro histop
    obtain ⟨hps, hpe⟩ := hpge (by omega)
    have hne1 : start ≠ cur.length → i ≠ start := by
      intro h
      have := F5 (by omega)
      omega
    have hne2 : start ≠ cur.length → i ≠ stop - 1 := by
      intro h
      have := F5 (by omega)
      omega
    rw [hbs, hbe, hps, hpe]
    by_cases h : start ≠ cur.length
    · rw [decide_eq_false (hne1 h), decide_eq_false (hne2 h)]; simp
    · rw [decide_eq_false h]; simp

theorem beamLoop_spec (orig : List Position) :
    ∀ (fuel : Nat) (cur : List Position) (start e : Nat), BeamInv orig cur e →
      (start = cur.length → e = orig.length) →
      (start ≠ cur.length → orig.length - e + 1 ≤ fuel) →
      ∃ out, beamLoop fuel cur start e = some out ∧ BeamInv orig out orig.length := by
  intro fuel
  induction fuel with
  | zero =>
    intro cur start e hinv hexit hfuel
    by_cases hstart : start ≠ cur.length
    · have := hfuel hstart
      omega
    · refine ⟨cur, by simp [beamLoop, hstart], ?_⟩
      rw [← hexit (by omega)]
      exact hinv
  | succ fuel ih =>
    intro cur start e hinv hexit hfuel
    by_cases hstart : start ≠ cur.length
    · obtain ⟨hinv1, hexit1, hprog⟩ := beamPass_inv orig cur e hinv
      have hlen1 : (beamPass cur e).1.length = orig.length := hinv1.1
      have hle1 : (beamPass cur e).2.2 ≤ orig.length := hinv1.2.1
      obtain ⟨out, hout, hfinal⟩ := ih (beamPass cur e).1 (beamPass cur e).2.1
        (beamPass cur e).2.2 hinv1 (by rw [hlen1]; exact hexit1)
        (by
          rw [hlen1]
          intro h
          have h1 := hprog h
          have h2 := hfuel hstart
          omega)
      refine ⟨out, ?_, hfinal⟩
      simp only [beamLoop, hstart, ne_eq, not_false_eq_true, if_true]
      exact hout
    · refine ⟨cur, by simp [beamLoop, hstart], ?_⟩
      rw [← hexit (by omega)]
      exact hinv

theorem calculateBeamingForGroup_flags (positions : List Position) :
    ∃ out, CalculateBeamingForGroup positions = some out ∧
      BeamInv positions out positions.length := by
  unfold CalculateBeamingForGroup
  apply beamLoop_spec positions
  · refine ⟨by simp, Nat.zero_le _, Or.inl rfl, ?_⟩
    intro i q hq
    rw [List.getElem?_map] at hq
    cases hp : positions[i]? with
    | none => rw [hp] at hq; simp at hq
    | some p =>
      rw [hp] at hq
      simp only [Option.map_some', Option.some.injEq] at hq
      subst hq
      refine ⟨?_, fun h => absurd h (Nat.not_lt_zero _), fun _ => ⟨rfl, rfl⟩⟩
      simp [beamableAt, hp, IsBeamable, ClearBeam]
  · intro h
    simp only [List.length_map] at h
    omega
  · intro _
    omega

/-- C10. Beaming correctness: `CalculateBeamingForGroup` returns, and in the
group it returns, for every maximal run of two or more consecutive beamable
positions the beam-start flag is set on the first position of the run and on no
other position of the run, the beam-end flag is set on the last and on no
other, and a non-beamable position carries neither flag.  With the pattern
(4, 4, 0, 0), `CalculateBeamingForBar` makes one run of four consecutive
eighth notes, and two runs of two of eighth, eighth, quarter, eighth, eighth
(the triples are: beamable, beam start, beam end). -/
theorem beaming_correctness :
    (∀ positions : List Position, ∃ out, CalculateBeamingForGroup positions = some out ∧
      out.length = positions.length ∧
      (∀ a b, IsMaximalRun positions a b → a < b →
        ∀ (i : Nat) (q : Position), a ≤ i → i ≤ b → out[i]? = some q →
          (q.beamStart = true ↔ i = a) ∧ (q.beamEnd = true ↔ i = b)) ∧
      (∀ (i : Nat) (p q : Position), positions[i]? = some p → IsBeamable p = false →
        out[i]? = some q → q.beamStart = false ∧ q.beamEnd = false)) ∧
    beamFlags (fourEighthsStaff.CalculateBeamingForBar 8 openingBar closingBar) =
      some [(true, true, false), (true, false, false), (true, false, false),
        (true, false, true)] ∧
    beamFlags (splitBarStaff.CalculateBeamingForBar 8 openingBar closingBar) =
      some [(true, true, false), (true, false, true), (false, false, false),
        (true, true, false), (true, false, true)] := by
  refine ⟨?_, by with_unfolding_all decide, by with_unfolding_all decide⟩
  intro positions
  obtain ⟨out, hout, hlen, -, -, hpt⟩ := calculateBeamingForGroup_flags positions
  have hat : ∀ i p, positions[i]? = some p → beamableAt positions i = IsBeamable p := by
    intro i p hp
    simp [beamableAt, hp]
  refine ⟨out, hout, hlen, ?_, ?_⟩
  · intro a b hrun hab i q hai hib hq
    obtain ⟨_, hblt, hall, hfirst, hlast⟩ := hrun
    obtain ⟨_, hfin, _⟩ := hpt i q hq
    obtain ⟨hs, he⟩ := hfin (by omega)
    obtain ⟨p, hp, hpb⟩ := hall i hai hib
    have hbi : beamableAt positions i = true := by rw [hat i p hp]; exact hpb
    rw [hs, he, hbi]
    constructor
    · constructor
      · rintro ⟨-, h0 | h0⟩
        · omega
        · rcases Nat.lt_or_ge a i with h1 | h1
          · obtain ⟨p1, hp1, hpb1⟩ := hall (i - 1) (by omega) (by omega)
            rw [hat _ p1 hp1, hpb1] at h0
            cases h0
          · omega
      · intro hia
        subst hia
        refine ⟨rfl, ?_⟩
        rcases hfirst with h0 | ⟨p0, hp0, hpb0⟩
        · left; exact h0
        · right
          rw [hat _ p0 hp0]
          exact hpb0
    · constructor
      · rintro ⟨-, h0⟩
        rcases Nat.lt_or_ge i b with h1 | h1
        · obtain ⟨p1, hp1, hpb1⟩ := hall (i + 1) (by omega) (by omega)
          rw [hat _ p1 hp1, hpb1] at h0
          cases h0
        · omega
      · intro hib2
        subst hib2
        refine ⟨rfl, ?_⟩
        rcases hlast with h0 | ⟨p0, hp0, hpb0⟩
        · exact beamableAt_of_length_le positions _ (by omega)
        · rw [hat _ p0 hp0]
          exact hpb0
  · intro i p q hp hnb hq
    obtain ⟨_, hfin, _⟩ := hpt i q hq
    have hilt : i < positions.length := by
      rcases List.getElem?_eq_some_iff.1 hp with ⟨h, _⟩
      exact h
    obtain ⟨hs, he⟩ := hfin hilt
    have hbi : beamableAt positions i = false := by rw [hat i p hp]; exact hnb
    rw [hbi] at hs he
    constructor
    · cases hq1 : q.beamStart with
      | false => rfl
      | true => exact absurd (hs.1 hq1).1 (by simp)
    · cases hq1 : q.beamEnd with
      | false => rfl
      | true => exact absurd (he.1 hq1).1 (by simp)

/-- Witness of C10: in the sample group the first two positions are a maximal
run; the first carries the beam-start flag and not the beam-end flag. -/
theorem beaming_correctness_witness :
    IsMaximalRun sampleGroup 0 1 ∧
    ∃ out, CalculateBeamingForGroup sampleGroup = some out ∧
      ∀ q : Position, out[0]? = some q →
        (q.beamStart = true ↔ 0 = 0) ∧ (q.beamEnd = true ↔ 0 = 1) := by
  have hrun : IsMaximalRun sampleGroup 0 1 := by
    refine ⟨by decide, by decide, ?_, Or.inl rfl, Or.inr ⟨{ isRest := true }, rfl, rfl⟩⟩
    intro i _ h2
    have hi : i = 0 ∨ i = 1 := by omega
    rcases hi with rfl | rfl <;> exact ⟨{}, rfl, rfl⟩
  obtain ⟨out, hout, _, hflags, _⟩ := beaming_correctness.1 sampleGroup
  exact ⟨hrun, out, hout, fun q hq =>
    hflags 0 1 hrun (by decide) 0 q (Nat.le_refl 0) (by decide) hq⟩

/-! ## Spacing -/

theorem foldl_max_spec (f : Position → Nat) (arr : List Position) (init : Nat) :
    init ≤ arr.foldl (fun acc p => max acc (f p)) init ∧
    (∀ p ∈ arr, f p ≤ arr.foldl (fun acc p => max acc (f p)) init) ∧
    (arr.foldl (fun acc p => max acc (f p)) init = init ∨
      ∃ p ∈ arr, f p = arr.foldl (fun acc p => max acc (f p)) init) := by
  induction arr generalizing init with
  | nil => simp
  | cons a as ih =>
    rw [List.foldl_cons]
    obtain ⟨h1, h2, h3⟩ := ih (max init (f a))
    refine ⟨le_trans (le_max_left _ _) h1, ?_, ?_⟩
    · intro p hp
      rcases List.mem_cons.1 hp with rfl | hp
      · exact le_trans (le_max_right _ _) h1
      · exact h2 p hp
    · rcases h3 with h3 | ⟨p, hp, hpe⟩
      · rcases le_total init (f a) with hle | hle
        · right
          exact ⟨a, List.mem_cons_self _ _, by rw [h3, max_eq_right hle]⟩
        · left
          rw [h3, max_eq_left hle]
      · right
        exact ⟨p, List.mem_cons_of_mem _ hp, hpe⟩

theorem foldl_max_mono (f g : Position → Nat) (arr1 arr2 : List Position)
    (h : List.Forall₂ (fun p q => f p ≤ g q) arr1 arr2) (init1 init2 : Nat)
    (hinit : init1 ≤ init2) :
    arr1.foldl (fun acc p => max acc (f p)) init1 ≤
      arr2.foldl (fun acc p => max acc (g p)) init2 := by
  induction h generalizing init1 init2 with
  | nil => exact hinit
  | cons hab _ ih =>
    rw [List.foldl_cons, List.foldl_cons]
    exact ih _ _ (max_le_max hinit hab)

/-- C11. Spacing formula: `CalculateSpacingForProperties` returns
`TAB_SYMBOL_HEIGHT`, which is 10, times a number `m` that is the maximum over
the positions of voice 0 of the number of predicates of the list that hold at
the position (no position exceeds `m`, and `m` is reached when voice 0 is not
empty); it returns 0 when voice 0 is empty, and two staffs with the same voice
0 get the same result. -/
theorem spacing_formula (s : Staff) (positionFunctions : List (Position → Bool)) :
    TAB_SYMBOL_HEIGHT = 10 ∧
    (∃ m, s.CalculateSpacingForProperties positionFunctions = TAB_SYMBOL_HEIGHT * m ∧
      (∀ p ∈ s.positionArrays ⟨0, by decide⟩, countProperties positionFunctions p ≤ m) ∧
      (s.positionArrays ⟨0, by decide⟩ ≠ [] →
        ∃ p ∈ s.positionArrays ⟨0, by decide⟩, countProperties positionFunctions p = m)) ∧
    (s.positionArrays ⟨0, by decide⟩ = [] →
      s.CalculateSpacingForProperties positionFunctions = 0) ∧
    (∀ s' : Staff, s'.positionArrays ⟨0, by decide⟩ = s.positionArrays ⟨0, by decide⟩ →
      s'.CalculateSpacingForProperties positionFunctions =
        s.CalculateSpacingForProperties positionFunctions) := by
  refine ⟨rfl, ?_, ?_, ?_⟩
  · obtain ⟨_, h2, h3⟩ := foldl_max_spec (countProperties positionFunctions)
      (s.positionArrays ⟨0, by decide⟩) 0
    refine ⟨_, Nat.mul_comm _ _, h2, ?_⟩
    intro hne
    rcases h3 with h3 | h3
    · cases harr : s.positionArrays ⟨0, by decide⟩ with
      | nil => exact absurd harr hne
      | cons a as =>
        refine ⟨a, List.mem_cons_self _ _, ?_⟩
        have hle := h2 a (by rw [harr]; exact List.mem_cons_self _ _)
        rw [h3] at hle
        rw [← harr, h3]
        omega
    · exact h3
  · intro hempty
    unfold CalculateSpacingForProperties
    rw [hempty]
    rfl
  · intro s' h
    unfold CalculateSpacingForProperties
    rw [h]

/-- Witness of C11: in the rest staff the last position of voice 0 satisfies
both sample predicates, so the spacing is 20. -/
theorem spacing_formula_witness :
    restStaff.CalculateSpacingForProperties samplePredicates = 20 ∧
    ∃ p ∈ restStaff.positionArrays ⟨0, by decide⟩, countProperties samplePredicates p = 2 := by
  obtain ⟨_, ⟨m, hm, _, hreach⟩, _, _⟩ := spacing_formula restStaff samplePredicates
  have hval : restStaff.CalculateSpacingForProperties samplePredicates = 20 := by decide
  have hm2 : m = 2 := by
    rw [hval] at hm
    simp only [TAB_SYMBOL_HEIGHT] at hm
    omega
  rw [hm2] at hreach
  exact ⟨hval, hreach (by decide)⟩

/-- C12. Spacing monotonicity: when the positions of voice 0 of two staffs
correspond slot by slot and every predicate of the list that holds at a
position of the first staff holds at the corresponding position of the second,
`CalculateSpacingForProperties` on the second staff is at least its value on
the first. -/
theorem spacing_monotone (positionFunctions : List (Position → Bool)) (s1 s2 : Staff)
    (h : List.Forall₂ (fun p q => ∀ pred ∈ positionFunctions, pred p = true → pred q = true)
      (s1.positionArrays ⟨0, by decide⟩) (s2.positionArrays ⟨0, by decide⟩)) :
    s1.CalculateSpacingForProperties positionFunctions ≤
      s2.CalculateSpacingForProperties positionFunctions := by
  unfold CalculateSpacingForProperties
  apply Nat.mul_le_mul_right
  apply foldl_max_mono _ _ _ _ _ 0 0 (Nat.le_refl 0)
  refine List.Forall₂.imp ?_ h
  intro p q hpq
  unfold countProperties
  exact List.countP_mono_left (fun pred hmem hp => hpq pred hmem hp)

/-- Witness of C12: the rest staff is the sample staff with more predicates
true at the last position of voice 0; its spacing is not smaller. -/
theorem spacing_monotone_witness :
    sampleStaff.CalculateSpacingForProperties samplePredicates ≤
      restStaff.CalculateSpacingForProperties samplePredicates :=
  spacing_monotone samplePredicates sampleStaff restStaff (by
    refine List.Forall₂.cons ?_ (List.Forall₂.cons ?_ (List.Forall₂.cons ?_ List.Forall₂.nil))
    all_goals
      intro pred hmem
      simp only [samplePredicates, List.mem_cons, List.mem_singleton, List.not_mem_nil,
        or_false] at hmem
      rcases hmem with rfl | rfl <;> simp)

/-! ## Store queries -/

/-- C13. Lookup by position index: for a valid voice `GetPositionByPosition`
does not throw; a pointer it returns is into that voice, at the first slot
whose position has the given position index; it returns `NULL` exactly when no
position of the voice has that index; for a voice that is not valid it throws
`out_of_range`. -/
theorem lookup_by_position (s : Staff) (voice index : Nat) :
    (∀ h : voice < NUM_STAFF_VOICES,
      (∃ r, s.GetPositionByPosition voice index = .ok r) ∧
      (∀ ptr, s.GetPositionByPosition voice index = .ok (some ptr) ↔
        ptr.voice = voice ∧
        ∃ hk : ptr.slot < (s.positionArrays ⟨voice, h⟩).length,
          ((s.positionArrays ⟨voice, h⟩).get ⟨ptr.slot, hk⟩).position = index ∧
          ∀ j (hj : j < (s.positionArrays ⟨voice, h⟩).length), j < ptr.slot →
            ((s.positionArrays ⟨voice, h⟩).get ⟨j, hj⟩).position ≠ index) ∧
      (s.GetPositionByPosition voice index = .ok none ↔
        ∀ q ∈ s.positionArrays ⟨voice, h⟩, q.position ≠ index)) ∧
    (¬ voice < NUM_STAFF_VOICES →
      s.GetPositionByPosition voice index = .error .out_of_range) := by
  constructor
  · intro h
    unfold GetPositionByPosition
    rw [dif_pos h]
    refine ⟨⟨_, rfl⟩, ?_, ?_⟩
    · intro ptr
      constructor
      · intro hres
        cases hfind : findSlotByPosition (s.positionArrays ⟨voice, h⟩) index with
        | none => rw [hfind] at hres; simp at hres
        | some k =>
          rw [hfind] at hres
          simp only [Option.map_some', Except.ok.injEq, Option.some.injEq] at hres
          subst hres
          exact ⟨rfl, findSlotByPosition_eq_some _ _ _ hfind⟩
      · rintro ⟨hv, hk, hidx, hfirst⟩
        rw [findSlotByPosition_first _ _ _ hk hidx hfirst]
        cases ptr
        simp only at hv
        subst hv
        rfl
    · rw [← findSlotByPosition_eq_none]
      cases findSlotByPosition (s.positionArrays ⟨voice, h⟩) index <;> simp
  · intro h
    unfold GetPositionByPosition
    rw [dif_neg h]

/-- Witness of C13: index 4 is found in slot 1 of voice 0 of the sample staff,
and voice 2 is not valid. -/
theorem lookup_by_position_witness :
    sampleStaff.GetPositionByPosition 0 4 = .ok (some { voice := 0, slot := 1 }) ∧
    sampleStaff.GetPositionByPosition 2 4 = .error .out_of_range :=
  ⟨((lookup_by_position sampleStaff 0 4).1 (by decide)).2.1 { voice := 0, slot := 1 } |>.2
      ⟨rfl, by decide, by decide, by decide⟩,
    (lookup_by_position sampleStaff 2 4).2 (by decide)⟩

/-- C14. Bounds-checked array lookup: `GetPosition` throws `out_of_range`
exactly when the voice is not valid or the offset is not below the number of
positions of the voice, and throws nothing else; otherwise it returns the
pointer to that slot of the voice, whose object is the element of the vector
at that offset.  The function is a query: it returns no staff. -/
theorem get_position_bounds (s : Staff) (voice index : Nat) :
    (s.GetPosition voice index = .error .out_of_range ↔
      ¬ ∃ h : voice < NUM_STAFF_VOICES, index < (s.positionArrays ⟨voice, h⟩).length) ∧
    (∀ h : voice < NUM_STAFF_VOICES, index < (s.positionArrays ⟨voice, h⟩).length →
      s.GetPosition voice index = .ok { voice := voice, slot := index } ∧
      s.GetPositionCount voice = .ok (s.positionArrays ⟨voice, h⟩).length ∧
      s.deref { voice := voice, slot := index } = (s.positionArrays ⟨voice, h⟩)[index]?) ∧
    (∀ e, s.GetPosition voice index = .error e → e = .out_of_range) := by
  by_cases h : voice < NUM_STAFF_VOICES
  · have hvalid : IsValidVoice voice = true := by simp [IsValidVoice, h]
    by_cases hk : index < (s.positionArrays ⟨voice, h⟩).length
    · have hres : s.GetPosition voice index = .ok { voice := voice, slot := index } := by
        simp [GetPosition, IsValidPositionIndex, GetPositionCount, voiceArray, hvalid, h, hk]
      refine ⟨?_, ?_, ?_⟩
      · rw [hres]
        constructor
        · intro hc; cases hc
        · intro hc; exact absurd ⟨h, hk⟩ hc
      · intro _ _
        refine ⟨hres, by simp [GetPositionCount, h], by simp [deref, voiceArray, h]⟩
      · intro e he
        rw [hres] at he
        cases he
    · have hres : s.GetPosition voice index = .error .out_of_range := by
        simp [GetPosition, IsValidPositionIndex, GetPositionCount, hvalid, h, hk]
      refine ⟨?_, ?_, ?_⟩
      · rw [hres]
        constructor
        · rintro - ⟨_, hlt⟩
          exact hk hlt
        · intro _; rfl
      · intro _ hlt
        exact absurd hlt hk
      · intro e he
        rw [hres] at he
        cases he
        rfl
  · have hvalid : IsValidVoice voice = false := by simp [IsValidVoice, h]
    have hres : s.GetPosition voice index = .error .out_of_range := by
      simp [GetPosition, hvalid]
    refine ⟨?_, ?_, ?_⟩
    · rw [hres]
      constructor
      · rintro - ⟨hv, _⟩
        exact h hv
      · intro _; rfl
    · intro hv
      exact absurd hv h
    · intro e he
      rw [hres] at he
      cases he
      rfl

/-- Witness of C14: offset 2 of voice 0 of the sample staff is in bounds. -/
theorem get_position_bounds_witness :
    sampleStaff.GetPosition 0 2 = .ok { voice := 0, slot := 2 } ∧
    sampleStaff.deref { voice := 0, slot := 2 } = some { position := 9, durationType := 4 } :=
  have w := (get_position_bounds sampleStaff 0 2).2.1 (by decide) (by decide)
  ⟨w.1, w.2.2⟩

theorem slotsInRange_deref (arr : List Position) (startPos endPos : Nat) :
    (slotsInRange arr startPos endPos).map (fun i => arr[i]?) =
      (arr.filter (fun p => decide (p.position ≥ startPos) && decide (p.position ≤ endPos))).map
        some := by
  unfold slotsInRange
  induction arr using List.reverseRecOn with
  | nil => rfl
  | append_singleton l a ih =>
    rw [List.length_append, List.length_singleton, List.range_succ, List.filter_append,
      List.map_append, List.filter_append, List.map_append]
    congr 1
    · rw [← ih]
      have hfilter : (List.range l.length).filter (fun i =>
          match (l ++ [a])[i]? with
          | some currentPosition =>
            decide (currentPosition.position ≥ startPos) &&
              decide (currentPosition.position ≤ endPos)
          | none => false) =
          (List.range l.length).filter (fun i =>
          match l[i]? with
          | some currentPosition =>
            decide (currentPosition.position ≥ startPos) &&
              decide (currentPosition.position ≤ endPos)
          | none => false) := by
        apply List.filter_congr
        intro i hi
        rw [List.mem_range] at hi
        rw [List.getElem?_append_left hi]
      rw [hfilter]
      apply List.map_congr_left
      intro i hi
      have hlt := List.mem_range.1 (List.mem_filter.1 hi).1
      exact List.getElem?_append_left hlt
    · have hlast : (l ++ [a])[l.length]? = some a := by simp
      by_cases hp : (decide (a.position ≥ startPos) && decide (a.position ≤ endPos)) = true
      · simp [List.filter_cons, hp]
      · simp [List.filter_cons, hp]

theorem mem_slotsInRange (arr : List Position) (startPos endPos i : Nat) :
    i ∈ slotsInRange arr startPos endPos ↔
      ∃ p, arr[i]? = some p ∧ startPos ≤ p.position ∧ p.position ≤ endPos := by
  unfold slotsInRange
  rw [List.mem_filter, List.mem_range]
  constructor
  · rintro ⟨hlt, hp⟩
    rw [List.getElem?_eq_getElem hlt] at hp
    simp only [ge_iff_le, Bool.and_eq_true, decide_eq_true_eq] at hp
    exact ⟨arr[i], List.getElem?_eq_getElem hlt, hp⟩
  · rintro ⟨p, hp, h1, h2⟩
    rcases List.getElem?_eq_some_iff.1 hp with ⟨hlt, _⟩
    refine ⟨hlt, ?_⟩
    rw [hp]
    simp [h1, h2]

/-- C15. Range query: for a valid voice `GetPositionsInRange` returns pointers
into that voice, in stored order and without repetition, to exactly the
positions whose position index lies between the two bounds, both included; the
objects they point to are the positions of the voice in that range, in stored
order, hence sorted when the voice is sorted, and there are none when the
start bound exceeds the end bound.  The function is a query: it returns no
staff. -/
theorem positions_in_range (s : Staff) (voice startPos endPos : Nat)
    (h : voice < NUM_STAFF_VOICES) :
    ∃ ptrs, s.GetPositionsInRange voice startPos endPos = .ok ptrs ∧
      (∀ ptr ∈ ptrs, ptr.voice = voice) ∧
      (ptrs.map (fun ptr => ptr.slot)).Pairwise (fun i j => i < j) ∧
      (∀ k, ({ voice := voice, slot := k } : PositionPtr) ∈ ptrs ↔
        ∃ p, (s.positionArrays ⟨voice, h⟩)[k]? = some p ∧
          startPos ≤ p.position ∧ p.position ≤ endPos) ∧
      ptrs.map s.deref =
        ((s.positionArrays ⟨voice, h⟩).filter
          (fun p => decide (p.position ≥ startPos) && decide (p.position ≤ endPos))).map some ∧
      (SortedByPosition (s.positionArrays ⟨voice, h⟩) →
        SortedByPosition ((s.positionArrays ⟨voice, h⟩).filter
          (fun p => decide (p.position ≥ startPos) && decide (p.position ≤ endPos)))) ∧
      (endPos < startPos → ptrs = []) := by
  refine ⟨_, by unfold GetPositionsInRange; rw [dif_pos h], ?_, ?_, ?_, ?_, ?_, ?_⟩
  · intro ptr hptr
    rw [List.mem_map] at hptr
    obtain ⟨i, _, rfl⟩ := hptr
    rfl
  · rw [List.map_map]
    have hid : ((fun ptr : PositionPtr => ptr.slot) ∘
        (fun i => ({ voice := voice, slot := i } : PositionPtr))) = id := rfl
    rw [hid, List.map_id]
    unfold slotsInRange
    exact List.Pairwise.filter _ (List.pairwise_lt_range _)
  · intro k
    rw [← mem_slotsInRange]
    constructor
    · intro hmem
      rw [List.mem_map] at hmem
      obtain ⟨i, hi, heq⟩ := hmem
      cases heq
      exact hi
    · intro hmem
      exact List.mem_map.2 ⟨k, hmem, rfl⟩
  · rw [List.map_map, ← slotsInRange_deref]
    apply List.map_congr_left
    intro i _
    simp [deref, voiceArray, h]
  · intro hsorted
    exact List.Pairwise.sublist (List.filter_sublist _) hsorted
  · intro hlt
    have hempty : slotsInRange (s.positionArrays ⟨voice, h⟩) startPos endPos = [] := by
      rw [List.eq_nil_iff_forall_not_mem]
      intro i hi
      obtain ⟨p, _, h1, h2⟩ := (mem_slotsInRange _ _ _ _).1 hi
      omega
    rw [hempty]
    rfl

/-- Witness of C15: the positions of voice 0 of the sample staff with position
index from 2 to 9 are those in slots 1 and 2. -/
theorem positions_in_range_witness :
    ∃ ptrs, sampleStaff.GetPositionsInRange 0 2 9 = .ok ptrs ∧
      ptrs.map sampleStaff.deref =
        [some { position := 4, notes := [{ string := 2, fretNumber := 5 }] },
         some { position := 9, durationType := 4 }] := by
  obtain ⟨ptrs, hres, _, _, _, hobj, _, _⟩ := positions_in_range sampleStaff 0 2 9 (by decide)
  exact ⟨ptrs, hres, hobj⟩

theorem foldl_largest_spec {α : Type} (key : α → Nat) (xs : List α) (x : α) :
    (xs.foldl (fun largest y => if key largest < key y then y else largest) x = x ∨
      xs.foldl (fun largest y => if key largest < key y then y else largest) x ∈ xs) ∧
    key x ≤ key (xs.foldl (fun largest y => if key largest < key y then y else largest) x) ∧
    ∀ y ∈ xs,
      key y ≤ key (xs.foldl (fun largest y => if key largest < key y then y else largest) x) := by
  induction xs generalizing x with
  | nil => simp
  | cons a as ih =>
    rw [List.foldl_cons]
    obtain ⟨h1, h2, h3⟩ := ih (if key x < key a then a else x)
    refine ⟨?_, ?_, ?_⟩
    · rcases h1 with h1 | h1
      · by_cases hlt : key x < key a
        · right
          rw [h1, if_pos hlt]
          exact List.mem_cons_self _ _
        · left
          rw [h1, if_neg hlt]
      · right
        exact List.mem_cons_of_mem _ h1
    · refine le_trans ?_ h2
      by_cases hlt : key x < key a
      · rw [if_pos hlt]; omega
      · rw [if_neg hlt]
    · intro y hy
      rcases List.mem_cons.1 hy with rfl | hy
      · refine le_trans ?_ h2
        by_cases hlt : key x < key y
        · rw [if_pos hlt]
        · rw [if_neg hlt]; omega
      · exact h3 y hy

theorem stdMaxElement_spec {α : Type} (key : α → Nat) (l : List α) :
    (stdMaxElement key l = none ↔ l = []) ∧
    ∀ r, stdMaxElement key l = some r → r ∈ l ∧ ∀ y ∈ l, key y ≤ key r := by
  cases l with
  | nil => simp [stdMaxElement]
  | cons x xs =>
    obtain ⟨h1, h2, h3⟩ := foldl_largest_spec key xs x
    refine ⟨by simp [stdMaxElement], ?_⟩
    intro r hr
    simp only [stdMaxElement, Option.some.injEq] at hr
    subst hr
    refine ⟨?_, ?_⟩
    · rcases h1 with h1 | h1
      · rw [h1]; exact List.mem_cons_self _ _
      · exact List.mem_cons_of_mem _ h1
    · intro y hy
      rcases List.mem_cons.1 hy with rfl | hy
      · exact h2
      · exact h3 y hy

theorem mem_lastPositions (s : Staff) (ptr : PositionPtr) :
    ptr ∈ s.lastPositions ↔
      ∃ i : Fin NUM_STAFF_VOICES, s.positionArrays i ≠ [] ∧
        ptr = { voice := i.val, slot := (s.positionArrays i).length - 1 } := by
  unfold lastPositions
  rw [List.mem_filterMap]
  constructor
  · rintro ⟨i, _, hi⟩
    by_cases hempty : s.positionArrays i = []
    · simp [hempty] at hi
    · refine ⟨i, hempty, ?_⟩
      have hne : (s.positionArrays i).isEmpty = false := by
        cases harr : s.positionArrays i with
        | nil => exact absurd harr hempty
        | cons a as => rfl
      rw [hne] at hi
      simp only [Bool.false_eq_true, if_false, Option.some.injEq] at hi
      exact hi.symm
  · rintro ⟨i, hne, rfl⟩
    refine ⟨i, List.mem_finRange i, ?_⟩
    have hne2 : (s.positionArrays i).isEmpty = false := by
      cases harr : s.positionArrays i with
      | nil => exact absurd harr hne
      | cons a as => rfl
    rw [hne2]
    rfl

theorem sorted_le_last (arr : List Position) (hsorted : SortedByPosition arr) (q : Position)
    (hq : q ∈ arr) (last : Position) (hlast : arr[arr.length - 1]? = some last) :
    q.position ≤ last.position := by
  obtain ⟨j, hj, rfl⟩ := List.getElem_of_mem hq
  rcases List.getElem?_eq_some_iff.1 hlast with ⟨hlt, rfl⟩
  rcases Nat.lt_or_ge j (arr.length - 1) with h1 | h1
  · exact (List.pairwise_iff_getElem.1 hsorted) j (arr.length - 1) hj hlt h1
  · have hje : j = arr.length - 1 := by omega
    subst hje
    exact Nat.le_refl _

/-- C16. Last position: `GetLastPosition` returns `NULL` exactly when every
voice is empty; when every voice vector is sorted ascending by position index,
a pointer it returns is to a stored position whose position index is at least
the position index of every position of every voice. -/
theorem last_position (s : Staff) :
    (s.GetLastPosition = none ↔ ∀ v, s.positionArrays v = []) ∧
    ((∀ v, SortedByPosition (s.positionArrays v)) → ∀ ptr, s.GetLastPosition = some ptr →
      ∃ p, s.deref ptr = some p ∧ ∀ v, ∀ q ∈ s.positionArrays v, q.position ≤ p.position) := by
  obtain ⟨hnone, hsome⟩ := stdMaxElement_spec s.positionOf s.lastPositions
  have hderef : ∀ i : Fin NUM_STAFF_VOICES,
      s.deref { voice := i.val, slot := (s.positionArrays i).length - 1 } =
        (s.positionArrays i)[(s.positionArrays i).length - 1]? := by
    intro i
    simp [deref, voiceArray, i.isLt]
  constructor
  · unfold GetLastPosition
    rw [hnone, List.eq_nil_iff_forall_not_mem]
    constructor
    · intro hno v
      by_contra hne
      exact hno _ ((mem_lastPositions s _).2 ⟨v, hne, rfl⟩)
    · intro hall ptr hptr
      obtain ⟨i, hne, _⟩ := (mem_lastPositions s ptr).1 hptr
      exact hne (hall i)
  · intro hsorted ptr hres
    obtain ⟨hmem, hmax⟩ := hsome ptr hres
    obtain ⟨i, hne, rfl⟩ := (mem_lastPositions s ptr).1 hmem
    have hlen : (s.positionArrays i).length - 1 < (s.positionArrays i).length := by
      cases harr : s.positionArrays i with
      | nil => exact absurd harr hne
      | cons a as => simp
    refine ⟨(s.positionArrays i)[(s.positionArrays i).length - 1], ?_, ?_⟩
    · rw [hderef, List.getElem?_eq_getElem hlen]
    · intro v q hq
      have hvne : s.positionArrays v ≠ [] := List.ne_nil_of_mem hq
      have hvlen : (s.positionArrays v).length - 1 < (s.positionArrays v).length := by
        cases harr : s.positionArrays v with
        | nil => exact absurd harr hvne
        | cons a as => simp
      have h1 := sorted_le_last _ (hsorted v) q hq _ (List.getElem?_eq_getElem hvlen)
      have h2 := hmax _ ((mem_lastPositions s _).2 ⟨v, hvne, rfl⟩)
      simp only [positionOf, hderef, List.getElem?_eq_getElem hvlen,
        List.getElem?_eq_getElem hlen] at h2
      exact le_trans h1 h2

/-- Witness of C16: the sample staff is sorted, and its last position is the
one at position index 9 in slot 2 of voice 0. -/
theorem last_position_witness :
    sampleStaff.GetLastPosition = some { voice := 0, slot := 2 } ∧
    ∃ p, sampleStaff.deref { voice := 0, slot := 2 } = some p ∧
      ∀ v, ∀ q ∈ sampleStaff.positionArrays v, q.position ≤ p.position :=
  ⟨by decide, (last_position sampleStaff).2 (by decide) { voice := 0, slot := 2 } (by decide)⟩

theorem toSizeT_spec (x : Int) :
    ((toSizeT x : Nat) : Int) = x % 2 ^ 64 ∧ toSizeT x < 2 ^ 64 ∧
      (0 ≤ x → x < 2 ^ 64 → ((toSizeT x : Nat) : Int) = x) := by
  unfold toSizeT
  have hnonneg : 0 ≤ x % 2 ^ 64 := Int.emod_nonneg x (by norm_num)
  have hlt : x % 2 ^ 64 < 2 ^ 64 := Int.emod_lt_of_pos x (by norm_num)
  refine ⟨Int.toNat_of_nonneg hnonneg, ?_, ?_⟩
  · have h1 : ((x % 2 ^ 64).toNat : Int) < ((2 ^ 64 : Nat) : Int) := by
      rw [Int.toNat_of_nonneg hnonneg]
      exact_mod_cast hlt
    exact_mod_cast h1
  · intro h0 h1
    rw [Int.toNat_of_nonneg hnonneg]
    exact Int.emod_eq_of_lt h0 h1

/-- C17. Next position index: for a valid voice and every system,
`GetIndexOfNextPosition` throws `out_of_range` when the given pointer is not to
a position stored in the voice; when it points to a slot that is not the last,
the result is the position index of the position in the next slot; when it
points to the last slot, the result is the position count of the system minus
one, converted to `size_t`: the natural number one below the count for every
count from 1 up to 2 to the power 64. -/
theorem next_position_index (s : Staff) (voice : Nat) (h : voice < NUM_STAFF_VOICES)
    (system : System) (position : PositionPtr) :
    (¬ (position.voice = voice ∧ position.slot < (s.positionArrays ⟨voice, h⟩).length) →
      s.GetIndexOfNextPosition voice system position = .error .out_of_range) ∧
    (position.voice = voice → ∀ next : Position,
      (s.positionArrays ⟨voice, h⟩)[position.slot + 1]? = some next →
      s.GetIndexOfNextPosition voice system position = .ok next.position) ∧
    (position.voice = voice → position.slot + 1 = (s.positionArrays ⟨voice, h⟩).length →
      s.GetIndexOfNextPosition voice system position =
        .ok (toSizeT ((system.positionCount : Int) - 1))) ∧
    ((toSizeT ((system.positionCount : Int) - 1) : Int) =
      ((system.positionCount : Int) - 1) % 2 ^ 64) ∧
    (0 < system.positionCount → system.positionCount ≤ 2 ^ 64 →
      toSizeT ((system.positionCount : Int) - 1) = system.positionCount - 1) := by
  refine ⟨?_, ?_, ?_, (toSizeT_spec _).1, ?_⟩
  · intro hnot
    unfold GetIndexOfNextPosition
    rw [dif_pos h]
    simp [stdFind, hnot]
  · intro hv next hnext
    unfold GetIndexOfNextPosition
    rw [dif_pos h]
    rcases List.getElem?_eq_some_iff.1 hnext with ⟨hlt, _⟩
    have hfind : stdFind (s.positionArrays ⟨voice, h⟩) voice position = some position.slot := by
      simp only [stdFind, hv, true_and]
      rw [if_pos (by omega)]
    rw [hfind]
    simp only []
    rw [if_neg (by omega), hnext]
  · intro hv hlast
    unfold GetIndexOfNextPosition
    rw [dif_pos h]
    have hfind : stdFind (s.positionArrays ⟨voice, h⟩) voice position = some position.slot := by
      simp only [stdFind, hv, true_and]
      rw [if_pos (by omega)]
    rw [hfind]
    simp only []
    rw [if_pos hlast]
  · intro hpos hle
    have hspec := (toSizeT_spec ((system.positionCount : Int) - 1)).2.2 (by omega)
      (by
        have h1 : ((system.positionCount : Nat) : Int) ≤ ((2 ^ 64 : Nat) : Int) := by
          exact_mod_cast hle
        push_cast at h1
        omega)
    omega

/-- Witness of C17: in voice 0 of the sample staff the position after slot 1 has
position index 9, and after the last slot comes column 8 of the sample
system, which has 9 columns. -/
theorem next_position_index_witness :
    sampleStaff.GetIndexOfNextPosition 0 sampleSystem { voice := 0, slot := 1 } = .ok 9 ∧
    sampleStaff.GetIndexOfNextPosition 0 sampleSystem { voice := 0, slot := 2 } = .ok 8 ∧
    sampleStaff.GetIndexOfNextPosition 0 sampleSystem { voice := 1, slot := 0 } =
      .error .out_of_range :=
  have w1 := next_position_index sampleStaff 0 (by decide) sampleSystem { voice := 0, slot := 1 }
  have w2 := next_position_index sampleStaff 0 (by decide) sampleSystem { voice := 0, slot := 2 }
  have w3 := next_position_index sampleStaff 0 (by decide) sampleSystem { voice := 1, slot := 0 }
  ⟨w1.2.1 rfl { position := 9, durationType := 4 } rfl,
    (w2.2.2.1 rfl rfl).trans (congrArg Except.ok (w2.2.2.2.2 (by decide) (by decide))),
    w3.1 (by decide)⟩

theorem distinct_slot_unique (arr : List Position) (hdistinct : DistinctPositions arr)
    (j k : Nat) (p q : Position) (hj : arr[j]? = some p) (hk : arr[k]? = some q)
    (heq : p.position = q.position) : j = k := by
  rcases List.getElem?_eq_some_iff.1 hj with ⟨hjlt, rfl⟩
  rcases List.getElem?_eq_some_iff.1 hk with ⟨hklt, rfl⟩
  rcases Nat.lt_trichotomy j k with hlt | heq2 | hgt
  · exact absurd heq ((List.pairwise_iff_getElem.1 hdistinct) j k hjlt hklt hlt)
  · exact heq2
  · exact absurd heq.symm ((List.pairwise_iff_getElem.1 hdistinct) k j hklt hjlt hgt)

/-- C18. Only position in bar: in a staff of the data model, where no two
positions of a voice share a position index, when the given pointer is into
the staff, the barline preceding its position index is in the barline list of
the system and a barline follows it in that list, `IsOnlyPositionInBar` returns
true exactly when voice 0 stores no position other than the given one whose
position index lies strictly between the position indices of those two
barlines. -/
theorem only_position_in_bar (s : Staff) (position : PositionPtr) (system : System)
    (p : Position) (startBar : Nat) (first second : Barline)
    (hp : s.deref position = some p)
    (hstart : system.GetPrecedingBarline p.position = some startBar)
    (hfirst : system.barlines[startBar]? = some first)
    (hsecond : system.barlines[startBar + 1]? = some second)
    (hdistinct : DistinctPositions (s.positionArrays ⟨0, by decide⟩)) :
    ∃ r, s.IsOnlyPositionInBar position system = .ok r ∧
      (r = true ↔ ∀ (k : Nat) (q : Position), (s.positionArrays ⟨0, by decide⟩)[k]? = some q →
        ({ voice := 0, slot := k } : PositionPtr) ≠ position →
        ¬ (first.position < q.position ∧ q.position < second.position)) := by
  have hres : s.IsOnlyPositionInBar position system =
      .ok ((List.range' (first.position + 1) (second.position - (first.position + 1))).all
        (s.onlyGivenAt position)) := by
    simp only [IsOnlyPositionInBar, hp, hstart, hfirst, hsecond]
  refine ⟨_, hres, ?_⟩
  rw [List.all_eq_true]
  constructor
  · intro hall k q hq hne hrange
    have hmem : q.position ∈ List.range' (first.position + 1)
        (second.position - (first.position + 1)) := by
      rw [List.mem_range'_1]
      omega
    have hgiven := hall _ hmem
    unfold onlyGivenAt at hgiven
    cases hfind : findSlotByPosition (s.positionArrays ⟨0, by decide⟩) q.position with
    | none =>
      exact (findSlotByPosition_eq_none _ _).1 hfind q (List.getElem?_mem hq) rfl
    | some k1 =>
      rw [hfind] at hgiven
      simp only [decide_eq_true_eq] at hgiven
      obtain ⟨hk1, hidx, _⟩ := findSlotByPosition_eq_some _ _ _ hfind
      have hsame := distinct_slot_unique _ hdistinct k1 k _ q
        (List.getElem?_eq_getElem hk1) hq hidx
      rw [hsame] at hgiven
      exact hne hgiven
  · intro hno i hi
    rw [List.mem_range'_1] at hi
    unfold onlyGivenAt
    cases hfind : findSlotByPosition (s.positionArrays ⟨0, by decide⟩) i with
    | none => rfl
    | some k =>
      obtain ⟨hk, hidx, _⟩ := findSlotByPosition_eq_some _ _ _ hfind
      simp only [decide_eq_true_eq]
      by_contra hne
      refine hno k _ (List.getElem?_eq_getElem hk) hne ?_
      rw [List.get_eq_getElem] at hidx
      rw [hidx]
      omega

/-- Witness of C18: in the sample staff the position in slot 1 of voice 0 is not
the only one of the bar of the sample system. -/
theorem only_position_in_bar_witness :
    ∃ r, sampleStaff.IsOnlyPositionInBar { voice := 0, slot := 1 } sampleSystem = .ok r ∧
      (r = true ↔ ∀ (k : Nat) (q : Position),
        (sampleStaff.positionArrays ⟨0, by decide⟩)[k]? = some q →
        ({ voice := 0, slot := k } : PositionPtr) ≠ { voice := 0, slot := 1 } →
        ¬ (0 < q.position ∧ q.position < 8)) :=
  only_position_in_bar sampleStaff { voice := 0, slot := 1 } sampleSystem
    { position := 4, notes := [{ string := 2, fretNumber := 5 }] } 0 { position := 0 }
    { position := 8 } rfl rfl rfl rfl (by decide)

/-- C19. Adjacent note lookup: the direction previous is -1 and next is +1; for
a valid voice `GetAdjacentNoteOnString` returns `NULL` when the pointer is not
to a position stored in the voice, when it points to the first slot and the
direction is previous, and when it points to the last slot and the direction
is next; otherwise it returns what `GetNoteByString` gives for the string of
the note at the position in the slot before (previous) or after (next), which
is `NULL` when that position has no note on the string.  It never throws for a
valid voice, and as a query it returns no staff. -/
theorem adjacent_note_lookup (s : Staff) (voice : Nat) (h : voice < NUM_STAFF_VOICES)
    (position : PositionPtr) (n : Note) :
    SearchDirection.PrevNote.toInt = -1 ∧ SearchDirection.NextNote.toInt = 1 ∧
    (¬ (position.voice = voice ∧ position.slot < (s.positionArrays ⟨voice, h⟩).length) →
      ∀ d, s.GetAdjacentNoteOnString d position n voice = .ok none) ∧
    (position.voice = voice → position.slot < (s.positionArrays ⟨voice, h⟩).length →
      (position.slot = 0 → s.GetAdjacentNoteOnString .PrevNote position n voice = .ok none) ∧
      (position.slot + 1 = (s.positionArrays ⟨voice, h⟩).length →
        s.GetAdjacentNoteOnString .NextNote position n voice = .ok none) ∧
      (∀ q : Position, position.slot ≠ 0 →
        (s.positionArrays ⟨voice, h⟩)[position.slot - 1]? = some q →
        s.GetAdjacentNoteOnString .PrevNote position n voice =
          .ok (GetNoteByString q n.string)) ∧
      (∀ q : Position, (s.positionArrays ⟨voice, h⟩)[position.slot + 1]? = some q →
        s.GetAdjacentNoteOnString .NextNote position n voice =
          .ok (GetNoteByString q n.string))) := by
  refine ⟨rfl, rfl, ?_, ?_⟩
  · intro hnot d
    unfold GetAdjacentNoteOnString
    rw [dif_pos h]
    simp [stdFind, hnot]
  · intro hv hlt
    have hfind : stdFind (s.positionArrays ⟨voice, h⟩) voice position = some position.slot := by
      simp only [stdFind, hv, true_and]
      rw [if_pos hlt]
    refine ⟨?_, ?_, ?_, ?_⟩
    · intro h0
      unfold GetAdjacentNoteOnString
      rw [dif_pos h, hfind]
      simp only [SearchDirection.toInt]
      rw [if_pos (by omega)]
    · intro hlast
      unfold GetAdjacentNoteOnString
      rw [dif_pos h, hfind]
      simp only [SearchDirection.toInt]
      rw [if_pos (by omega)]
    · intro q h0 hq
      unfold GetAdjacentNoteOnString
      rw [dif_pos h, hfind]
      simp only [SearchDirection.toInt]
      rw [if_neg (by omega)]
      have htoNat : ((position.slot : Int) + -1).toNat = position.slot - 1 := by omega
      rw [htoNat, hq]
    · intro q hq
      rcases List.getElem?_eq_some_iff.1 hq with ⟨hlt2, _⟩
      unfold GetAdjacentNoteOnString
      rw [dif_pos h, hfind]
      simp only [SearchDirection.toInt]
      rw [if_neg (by omega)]
      have htoNat : ((position.slot : Int) + 1).toNat = position.slot + 1 := by omega
      rw [htoNat, hq]

/-- Witness of C19: in voice 0 of the sample staff the note after the one in
slot 0 on string 2 is at fret 5, and nothing precedes slot 0. -/
theorem adjacent_note_lookup_witness :
    sampleStaff.GetAdjacentNoteOnString .NextNote { voice := 0, slot := 0 }
        { string := 2, fretNumber := 3 } 0 = .ok (some { string := 2, fretNumber := 5 }) ∧
    sampleStaff.GetAdjacentNoteOnString .PrevNote { voice := 0, slot := 0 }
        { string := 2, fretNumber := 3 } 0 = .ok none :=
  have w := (adjacent_note_lookup sampleStaff 0 (by decide) { voice := 0, slot := 0 }
    { string := 2, fretNumber := 3 }).2.2.2 rfl (by decide)
  ⟨w.2.2.2 { position := 4, notes := [{ string := 2, fretNumber := 5 }] } rfl, w.1 rfl⟩

/-- C20. Slide legality: for a position stored in voice 0 and a note,
`CanSlideBetweenNotes` returns a truth value; it is true exactly when the next
position of the vector exists and its note on the same string has a different
fret number, which is exactly when `CanHammerOn` or `CanPullOff` is true; it is
false when there is no such note and when the two fret numbers are equal. -/
theorem slide_legality (s : Staff) (k : Nat) (n : Note)
    (hk : k < (s.positionArrays ⟨0, by decide⟩).length) :
    (s.CanSlideBetweenNotes { voice := 0, slot := k } n = .ok true ∨
      s.CanSlideBetweenNotes { voice := 0, slot := k } n = .ok false) ∧
    (s.CanSlideBetweenNotes { voice := 0, slot := k } n = .ok true ↔
      ∃ q m, (s.positionArrays ⟨0, by decide⟩)[k + 1]? = some q ∧
        GetNoteByString q n.string = some m ∧ m.fretNumber ≠ n.fretNumber) ∧
    (s.CanSlideBetweenNotes { voice := 0, slot := k } n = .ok true ↔
      (s.CanHammerOn { voice := 0, slot := k } n = .ok true ∨
        s.CanPullOff { voice := 0, slot := k } n = .ok true)) ∧
    (((s.positionArrays ⟨0, by decide⟩)[k + 1]?).bind (fun q => GetNoteByString q n.string) =
        none → s.CanSlideBetweenNotes { voice := 0, slot := k } n = .ok false) ∧
    (∀ m, ((s.positionArrays ⟨0, by decide⟩)[k + 1]?).bind
        (fun q => GetNoteByString q n.string) = some m → m.fretNumber = n.fretNumber →
      s.CanSlideBetweenNotes { voice := 0, slot := k } n = .ok false) := by
  unfold CanSlideBetweenNotes CanHammerOn CanPullOff
  rw [compareWithNote_next s k n _ hk, compareWithNote_next s k n _ hk,
    compareWithNote_next s k n _ hk]
  cases hq : (s.positionArrays ⟨0, by decide⟩)[k + 1]? with
  | none => simp
  | some q =>
    cases hm : GetNoteByString q n.string with
    | none => simp [hm]
    | some m =>
      simp only [Option.some_bind, hm, Except.ok.injEq, decide_eq_true_eq, Option.some.injEq,
        exists_and_left, exists_eq_left', gt_iff_lt, decide_eq_false_iff_not, ne_eq,
        not_not, reduceCtorEq, false_implies, true_and]
      refine ⟨by omega, ⟨fun hne heq => hne heq.symm, fun hne heq => hne heq.symm⟩,
        by omega, ?_⟩
      intro m2 hm2 heq
      rw [← hm2] at heq
      exact heq.symm

/-- Witness of C20: in the sample staff a slide from fret 3 to fret 5 on string 2
is legal. -/
theorem slide_legality_witness :
    sampleStaff.CanSlideBetweenNotes { voice := 0, slot := 0 } { string := 2, fretNumber := 3 } =
      .ok true :=
  (slide_legality sampleStaff 0 { string := 2, fretNumber := 3 } (by decide)).2.1.2
    ⟨{ position := 4, notes := [{ string := 2, fretNumber := 5 }] },
      { string := 2, fretNumber := 5 }, rfl, rfl, by decide⟩

/-! ## Tie legality and slide steps -/

theorem getAdjacentNoteOnString_prev (s : Staff) (k : Nat) (n : Note)
    (hk : k < (s.positionArrays ⟨0, by decide⟩).length) :
    s.GetAdjacentNoteOnString .PrevNote { voice := 0, slot := k } n 0 =
      .ok (if k = 0 then none
        else ((s.positionArrays ⟨0, by decide⟩)[k - 1]?).bind
          (fun q => GetNoteByString q n.string)) := by
  unfold GetAdjacentNoteOnString
  rw [dif_pos (by decide : 0 < NUM_STAFF_VOICES), stdFind_stored _ _ _ hk]
  simp only [SearchDirection.toInt]
  by_cases h0 : k = 0
  · rw [if_pos (by omega), if_pos h0]
  · rw [if_neg (by omega), if_neg h0]
    have htoNat : ((k : Int) + -1).toNat = k - 1 := by omega
    rw [htoNat, List.getElem?_eq_getElem (by omega)]
    rfl

theorem compareWithNote_prev (s : Staff) (k : Nat) (n : Note) (comp : Nat → Nat → Bool)
    (hk : k < (s.positionArrays ⟨0, by decide⟩).length) :
    s.CompareWithNote .PrevNote { voice := 0, slot := k } n comp =
      .ok (match (if k = 0 then none
          else ((s.positionArrays ⟨0, by decide⟩)[k - 1]?).bind
            (fun q => GetNoteByString q n.string)) with
        | some m => comp n.fretNumber m.fretNumber
        | none => false) := by
  unfold CompareWithNote
  rw [getAdjacentNoteOnString_prev s k n hk]
  cases (if k = 0 then none
    else ((s.positionArrays ⟨0, by decide⟩)[k - 1]?).bind
      (fun q => GetNoteByString q n.string)) <;> rfl

/-- C21. Tie legality: for a position stored in voice 0 and a note,
`CanTieNote` returns a truth value; it is true exactly when the position in
the slot before exists and its note on the same string has the same fret
number; it is false for the first position of the voice, when the preceding
position has no note on the string, and when the two fret numbers differ. -/
theorem tie_legality (s : Staff) (k : Nat) (n : Note)
    (hk : k < (s.positionArrays ⟨0, by decide⟩).length) :
    (s.CanTieNote { voice := 0, slot := k } n = .ok true ∨
      s.CanTieNote { voice := 0, slot := k } n = .ok false) ∧
    (s.CanTieNote { voice := 0, slot := k } n = .ok true ↔
      ∃ i q m, k = i + 1 ∧ (s.positionArrays ⟨0, by decide⟩)[i]? = some q ∧
        GetNoteByString q n.string = some m ∧ m.fretNumber = n.fretNumber) ∧
    (k = 0 → s.CanTieNote { voice := 0, slot := k } n = .ok false) ∧
    (∀ i q, k = i + 1 → (s.positionArrays ⟨0, by decide⟩)[i]? = some q →
      GetNoteByString q n.string = none →
      s.CanTieNote { voice := 0, slot := k } n = .ok false) ∧
    (∀ i q m, k = i + 1 → (s.positionArrays ⟨0, by decide⟩)[i]? = some q →
      GetNoteByString q n.string = some m → m.fretNumber ≠ n.fretNumber →
      s.CanTieNote { voice := 0, slot := k } n = .ok false) := by
  unfold CanTieNote
  rw [compareWithNote_prev s k n _ hk]
  cases k with
  | zero => simp
  | succ i =>
    have hq0 : (s.positionArrays ⟨0, by decide⟩)[i]? =
        some ((s.positionArrays ⟨0, by decide⟩)[i]) := List.getElem?_eq_getElem (by omega)
    generalize (s.positionArrays ⟨0, by decide⟩)[i] = q0 at hq0
    rw [if_neg (Nat.succ_ne_zero i)]
    simp only [Nat.add_sub_cancel, hq0, Option.some_bind]
    have hinj : ∀ i2 q, i + 1 = i2 + 1 → (s.positionArrays ⟨0, by decide⟩)[i2]? = some q →
        q = q0 := by
      intro i2 q hi2 hq
      have h2 : i2 = i := by omega
      subst h2
      rw [hq0] at hq
      exact (Option.some.inj hq).symm
    cases hm : GetNoteByString q0 n.string with
    | none =>
      refine ⟨Or.inr rfl, ⟨fun h => (by cases h), ?_⟩, fun h => (by omega), fun _ _ _ _ _ => rfl,
        fun _ _ _ _ _ _ _ => rfl⟩
      rintro ⟨i2, q, m, hi2, hq, hm2, _⟩
      rw [hinj i2 q hi2 hq, hm] at hm2
      cases hm2
    | some m =>
      have hsame : ∀ i2 q m2, i + 1 = i2 + 1 → (s.positionArrays ⟨0, by decide⟩)[i2]? = some q →
          GetNoteByString q n.string = some m2 → m2 = m := by
        intro i2 q m2 hi2 hq hm2
        rw [hinj i2 q hi2 hq, hm] at hm2
        exact (Option.some.inj hm2).symm
      by_cases hfret : n.fretNumber = m.fretNumber
      · refine ⟨Or.inl (by simp [hfret]), ⟨fun _ => ⟨i, q0, m, rfl, hq0, hm, hfret.symm⟩,
          fun _ => (by simp [hfret])⟩, fun h => (by omega), ?_, ?_⟩
        · intro i2 q hi2 hq hnone
          rw [hinj i2 q hi2 hq, hm] at hnone
          cases hnone
        · intro i2 q m2 hi2 hq hm2 hne
          rw [hsame i2 q m2 hi2 hq hm2] at hne
          exact absurd hfret.symm hne
      · refine ⟨Or.inr (by simp [hfret]), ⟨fun h => (by simp [hfret] at h), ?_⟩,
          fun h => (by omega), fun _ _ _ _ _ => (by simp [hfret]),
          fun _ _ _ _ _ _ _ => by simp [hfret]⟩
        rintro ⟨i2, q, m2, hi2, hq, hm2, heq⟩
        rw [hsame i2 q m2 hi2 hq hm2] at heq
        exact absurd heq.symm hfret

/-- Witness of C21: in the sample staff the note at fret 5 on string 2 in slot 1
cannot be tied, the note before it being at fret 3. -/
theorem tie_legality_witness :
    sampleStaff.CanTieNote { voice := 0, slot := 1 } { string := 2, fretNumber := 5 } =
      .ok false :=
  (tie_legality sampleStaff 1 { string := 2, fretNumber := 5 } (by decide)).2.2.2.2 0
    { position := 1, notes := [{ string := 2, fretNumber := 3 }] }
    { string := 2, fretNumber := 3 } rfl rfl rfl (by decide)

theorem toInt8_spec (x : Int) :
    -128 ≤ toInt8 x ∧ toInt8 x ≤ 127 ∧ (toInt8 x - x) % 256 = 0 ∧
      (-128 ≤ x → x ≤ 127 → toInt8 x = x) := by
  unfold toInt8
  refine ⟨by omega, by omega, by omega, fun _ _ => by omega⟩

/-- C22. Slide steps: for a position stored in voice 0 and a note,
`GetSlideSteps` throws `std::logic_error` exactly when
`GetAdjacentNoteOnString` gives `NULL` for the next direction; otherwise it
returns the fret number of the following note on the string minus the fret
number of the note, converted to `int8_t`: a value from -128 to 127 congruent
to the difference modulo 256, which is the difference itself whenever that
lies between -128 and 127, in particular for frets from 0 to 24. -/
theorem slide_steps (s : Staff) (k : Nat) (n : Note)
    (hk : k < (s.positionArrays ⟨0, by decide⟩).length) :
    (s.GetSlideSteps { voice := 0, slot := k } n = .error .logic_error ↔
      s.GetAdjacentNoteOnString .NextNote { voice := 0, slot := k } n 0 = .ok none) ∧
    (∀ m, s.GetAdjacentNoteOnString .NextNote { voice := 0, slot := k } n 0 = .ok (some m) →
      ∃ steps : Int, s.GetSlideSteps { voice := 0, slot := k } n = .ok steps ∧
        -128 ≤ steps ∧ steps ≤ 127 ∧
        (steps - ((m.fretNumber : Int) - (n.fretNumber : Int))) % 256 = 0 ∧
        (-128 ≤ (m.fretNumber : Int) - (n.fretNumber : Int) →
          (m.fretNumber : Int) - (n.fretNumber : Int) ≤ 127 →
          steps = (m.fretNumber : Int) - (n.fretNumber : Int)) ∧
        (m.fretNumber ≤ 24 → n.fretNumber ≤ 24 →
          steps = (m.fretNumber : Int) - (n.fretNumber : Int))) ∧
    (∃ r, s.GetAdjacentNoteOnString .NextNote { voice := 0, slot := k } n 0 = .ok r) := by
  unfold GetSlideSteps
  rw [getAdjacentNoteOnString_next s k n hk]
  cases ((s.positionArrays ⟨0, by decide⟩)[k + 1]?).bind (fun q => GetNoteByString q n.string) with
  | none =>
    refine ⟨⟨fun _ => rfl, fun _ => rfl⟩, ?_, ⟨none, rfl⟩⟩
    intro m hm
    cases hm
  | some b =>
    refine ⟨⟨fun h => (by cases h), fun h => (by cases h)⟩, ?_, ⟨some b, rfl⟩⟩
    intro m hm
    cases hm
    have hspec := toInt8_spec ((b.fretNumber : Int) - (n.fretNumber : Int))
    exact ⟨_, rfl, hspec.1, hspec.2.1, hspec.2.2.1, hspec.2.2.2,
      fun h1 h2 => hspec.2.2.2 (by omega) (by omega)⟩

/-- Witness of C22: in the sample staff the slide from fret 3 in slot 0 to
fret 5 in slot 1 on string 2 is two steps up. -/
theorem slide_steps_witness :
    ∃ steps : Int, sampleStaff.GetSlideSteps { voice := 0, slot := 0 }
        { string := 2, fretNumber := 3 } = .ok steps ∧ steps = 2 := by
  obtain ⟨steps, hs, _, _, _, _, h24⟩ :=
    (slide_steps sampleStaff 0 { string := 2, fretNumber := 3 } (by decide)).2.1
      { string := 2, fretNumber := 5 } rfl
  exact ⟨steps, hs, h24 (by decide) (by decide)⟩

/-! ## Slide and tie repair -/

theorem repairHammerPull_slide (canPull canHammer : Bool) (n : Note) :
    (repairHammerPull canPull canHammer n).slideOutOfType = n.slideOutOfType ∧
    (repairHammerPull canPull canHammer n).slideOutOfSteps = n.slideOutOfSteps ∧
    (repairHammerPull canPull canHammer n).tied = n.tied := by
  unfold repairHammerPull
  split_ifs <;> exact ⟨rfl, rfl, rfl⟩

theorem updatedPrevious_slide (a b : Note) :
    (updatedPrevious a b).tied = a.tied ∧
    (a.slideOutOfType ≠ slideOutOfNone →
      (a.fretNumber = b.fretNumber →
        (updatedPrevious a b).slideOutOfType = slideOutOfNone ∧
          (updatedPrevious a b).slideOutOfSteps = 0) ∧
      (a.fretNumber ≠ b.fretNumber →
        (updatedPrevious a b).slideOutOfType = a.slideOutOfType ∧
          (updatedPrevious a b).slideOutOfSteps =
            toInt8 ((b.fretNumber : Int) - (a.fretNumber : Int)))) := by
  obtain ⟨h1, h2, h3⟩ := repairHammerPull_slide (decide (a.fretNumber > b.fretNumber))
    (decide (a.fretNumber < b.fretNumber)) a
  unfold updatedPrevious
  simp only []
  refine ⟨?_, ?_⟩
  · split_ifs <;> exact h3
  · intro hslide
    rw [← h1] at hslide
    rw [if_pos hslide]
    refine ⟨fun heq => ?_, fun hne => ?_⟩
    · rw [if_neg (not_not.2 heq)]
      exact ⟨rfl, rfl⟩
    · rw [if_pos hne]
      exact ⟨h1, rfl⟩

theorem updatedNext_cases (a b : Note) :
    (updatedNext a b = b ∨ updatedNext a b = { b with tied := false }) ∧
    ((updatedNext a b).tied = true ↔ (b.tied = true ∧ b.fretNumber = a.fretNumber)) := by
  unfold updatedNext
  by_cases h : (b.tied && b.fretNumber != a.fretNumber) = true
  · rw [if_pos h]
    refine ⟨Or.inr rfl, ?_⟩
    simp only [Bool.and_eq_true, bne_iff_ne, ne_eq] at h
    constructor
    · intro hc
      cases hc
    · intro hc
      exact absurd hc.2 h.2
  · rw [if_neg h]
    refine ⟨Or.inl rfl, ?_⟩
    simp only [Bool.and_eq_true, bne_iff_ne, ne_eq, not_and, not_not] at h
    exact ⟨fun ht => ⟨ht, h ht⟩, fun hc => hc.1⟩

theorem previousUpdated_slot_cases (arr : List Position) (k j : Nat) (p : Position) (n : Note)
    (hp : arr[k]? = some p) (hn : p.notes[j]? = some n) :
    ∃ n2, (previousUpdated arr k j)[k]? = some (withNote p j n2) ∧
      (n2 = n ∨ n2 = { n with tied := false }) := by
  have hself : arr[k]? = some (withNote p j n) := by rw [withNote_self p j n hn]; exact hp
  unfold previousUpdated
  rw [hp]
  simp only [hn]
  split
  · split
    · split
      · split
        · rename_i a _
          refine ⟨updatedNext a n, ?_, (updatedNext_cases a n).1⟩
          rcases List.getElem?_eq_some_iff.1 hp with ⟨hlt, _⟩
          simp [List.getElem?_set, hlt]
        · exact ⟨n, hself, Or.inl rfl⟩
      · exact ⟨n, hself, Or.inl rfl⟩
    · exact ⟨n, hself, Or.inl rfl⟩
  · exact ⟨n, hself, Or.inl rfl⟩

theorem nextUpdated_slot_tied (arr : List Position) (k j : Nat) (p : Position) (n : Note)
    (hp : arr[k]? = some p) (hn : p.notes[j]? = some n) :
    ∃ n3, (nextUpdated arr k j)[k]? = some (withNote p j n3) ∧ n3.tied = n.tied := by
  have hself : arr[k]? = some (withNote p j n) := by rw [withNote_self p j n hn]; exact hp
  unfold nextUpdated
  rw [hp]
  simp only [hn]
  split
  · split
    · split
      · rename_i b _
        refine ⟨updatedPrevious n b, ?_, (updatedPrevious_slide n b).1⟩
        rw [getElem?_set_other _ _ _ _ (by omega)]
        exact getElem?_set_same _ _ _ _ hp
      · exact ⟨n, hself, rfl⟩
    · exact ⟨n, hself, rfl⟩
  · exact ⟨n, hself, rfl⟩

theorem tabNumberUpdated_next (arr : List Position) (k j f jb : Nat) (p r : Position)
    (n b : Note) (hp : arr[k]? = some p) (hn : p.notes[j]? = some n)
    (hr : arr[k + 1]? = some r) (hslot : noteSlotByString r n.string = some jb)
    (hb : r.notes[jb]? = some b) :
    ∃ n2, (n2 = { n with fretNumber := f } ∨ n2 = { n with fretNumber := f, tied := false }) ∧
      (tabNumberUpdated arr k j f)[k]? = some (withNote p j (updatedPrevious n2 b)) ∧
      (tabNumberUpdated arr k j f)[k + 1]? = some (withNote r jb (updatedNext n2 b)) := by
  rw [tabNumberUpdated_eq arr k j f p n hp hn]
  obtain ⟨n2, hslot2, hcases⟩ := previousUpdated_slot_cases
    (arr.set k (withNote p j { n with fretNumber := f }))
    k j _ { n with fretNumber := f } (getElem?_set_same _ _ _ _ hp)
    (withNote_getElem?_same p j n _ hn)
  have hn2 : (withNote (withNote p j { n with fretNumber := f }) j n2).notes[j]? = some n2 :=
    withNote_getElem?_same _ j _ n2 (withNote_getElem?_same p j n _ hn)
  have hstr2 : n2.string = n.string := by
    rcases hcases with h | h <;> rw [h]
  have hr2 : (previousUpdated (arr.set k (withNote p j { n with fretNumber := f }))
      k j)[k + 1]? = some r := by
    rw [previousUpdated_getElem?_gt _ _ _ _ (by omega), getElem?_set_other _ _ _ _ (by omega)]
    exact hr
  have hpair := nextUpdated_pair _ k j jb _ r n2 b hslot2 hn2 hr2
    (by rw [hstr2]; exact hslot) hb
  rw [withNote_withNote, withNote_withNote] at hpair
  exact ⟨n2, hcases, hpair.1, hpair.2⟩

theorem tabNumberUpdated_tied (arr : List Position) (i j f ja : Nat) (p q : Position)
    (n a : Note) (hp : arr[i + 1]? = some p) (hn : p.notes[j]? = some n)
    (hq : arr[i]? = some q) (hslot : noteSlotByString q n.string = some ja)
    (ha : q.notes[ja]? = some a) :
    ∃ n3, (tabNumberUpdated arr (i + 1) j f)[i + 1]? = some (withNote p j n3) ∧
      n3.tied = (updatedNext a { n with fretNumber := f }).tied := by
  rw [tabNumberUpdated_eq arr (i + 1) j f p n hp hn]
  have hq1 : (arr.set (i + 1) (withNote p j { n with fretNumber := f }))[i]? = some q := by
    rw [getElem?_set_other _ _ _ _ (by omega)]
    exact hq
  have hprev := (previousUpdated_prev _ i j ja _ q { n with fretNumber := f } a
    (getElem?_set_same _ _ _ _ hp) (withNote_getElem?_same p j n _ hn) hq1 hslot ha).2
  obtain ⟨n3, hslot3, htied⟩ := nextUpdated_slot_tied _ (i + 1) j _
    (updatedNext a { n with fretNumber := f }) hprev
    (withNote_getElem?_same _ j _ _ (withNote_getElem?_same p j n _ hn))
  rw [withNote_withNote, withNote_withNote] at hslot3
  exact ⟨n3, hslot3, htied⟩

/-- C23 (as amended). Slide repair on update: after `UpdateTabNumber` sets the
fret of a note to `f`, for the pair formed with the same-string note of the
previous position and for the pair formed with the same-string note of the
next position, with `a` the earlier and `b` the later note of the pair, when
`a` had a slide out of it before the call: if the two frets are now equal the
slide is cleared (type none, 0 steps); otherwise the slide keeps its type and
its step count is the fret of `b` minus the fret of `a` converted to `int8_t`,
which is the difference itself whenever that lies between -128 and 127. -/
theorem update_slide_repair (s : Staff) (k j f : Nat) (p : Position) (n : Note)
    (hp : (s.positionArrays ⟨0, by decide⟩)[k]? = some p) (hn : p.notes[j]? = some n)
    (hfirst : noteSlotByString p n.string = some j) :
    ∃ s', s.UpdateTabNumber { voice := 0, slot := k }
        { owner := { voice := 0, slot := k }, slot := j } f = .ok s' ∧
      (∀ i q ja a, k = i + 1 → (s.positionArrays ⟨0, by decide⟩)[i]? = some q →
        noteSlotByString q n.string = some ja → q.notes[ja]? = some a →
        a.slideOutOfType ≠ slideOutOfNone →
        ∃ a', s'.derefNote { owner := { voice := 0, slot := i }, slot := ja } = some a' ∧
          (a.fretNumber = f → a'.slideOutOfType = slideOutOfNone ∧ a'.slideOutOfSteps = 0) ∧
          (a.fretNumber ≠ f → a'.slideOutOfType = a.slideOutOfType ∧
            a'.slideOutOfSteps = toInt8 ((f : Int) - (a.fretNumber : Int)) ∧
            (-128 ≤ (f : Int) - (a.fretNumber : Int) → (f : Int) - (a.fretNumber : Int) ≤ 127 →
              a'.slideOutOfSteps = (f : Int) - (a.fretNumber : Int)))) ∧
      (∀ r jb b, (s.positionArrays ⟨0, by decide⟩)[k + 1]? = some r →
        noteSlotByString r n.string = some jb → r.notes[jb]? = some b →
        n.slideOutOfType ≠ slideOutOfNone →
        ∃ n', s'.derefNote { owner := { voice := 0, slot := k }, slot := j } = some n' ∧
          (f = b.fretNumber → n'.slideOutOfType = slideOutOfNone ∧ n'.slideOutOfSteps = 0) ∧
          (f ≠ b.fretNumber → n'.slideOutOfType = n.slideOutOfType ∧
            n'.slideOutOfSteps = toInt8 ((b.fretNumber : Int) - (f : Int)) ∧
            (-128 ≤ (b.fretNumber : Int) - (f : Int) → (b.fretNumber : Int) - (f : Int) ≤ 127 →
              n'.slideOutOfSteps = (b.fretNumber : Int) - (f : Int)))) := by
  refine ⟨_, updateTabNumber_eq s k j f p n hp hn hfirst, ?_, ?_⟩
  · intro i q ja a hk hq hslot ha hslide
    subst hk
    have hFi := tabNumberUpdated_prev (s.positionArrays ⟨0, by decide⟩) i j f ja p q n a
      hp hn hq hslot ha
    have hfacts := (updatedPrevious_slide a { n with fretNumber := f }).2 hslide
    refine ⟨updatedPrevious a { n with fretNumber := f }, ?_, hfacts.1, ?_⟩
    · rw [derefNote_voice0, setVoiceArray_same, hFi]
      exact withNote_getElem?_same q ja a _ ha
    · intro hne
      obtain ⟨h1, h2⟩ := hfacts.2 hne
      refine ⟨h1, h2, fun hlo hhi => ?_⟩
      rw [h2]
      exact (toInt8_spec _).2.2.2 hlo hhi
  · intro r jb b hr hslot hb hslide
    obtain ⟨n2, hcases, hFk, -⟩ := tabNumberUpdated_next (s.positionArrays ⟨0, by decide⟩)
      k j f jb p r n b hp hn hr hslot hb
    have hfret : n2.fretNumber = f := by
      rcases hcases with h | h <;> rw [h]
    have htype : n2.slideOutOfType = n.slideOutOfType := by
      rcases hcases with h | h <;> rw [h]
    have hfacts := (updatedPrevious_slide n2 b).2 (by rw [htype]; exact hslide)
    rw [hfret, htype] at hfacts
    refine ⟨updatedPrevious n2 b, ?_, hfacts.1, ?_⟩
    · rw [derefNote_voice0, setVoiceArray_same, hFk]
      exact withNote_getElem?_same p j n _ hn
    · intro hne
      obtain ⟨h1, h2⟩ := hfacts.2 hne
      refine ⟨h1, h2, fun hlo hhi => ?_⟩
      rw [h2]
      exact (toInt8_spec _).2.2.2 hlo hhi

/-- Witness of C23: in the slide staff the second note is set to fret 7; the
slide out of the first note (fret 0) keeps its type and is now 7 steps. -/
theorem update_slide_repair_witness :
    ∃ s' a', slideStaff.UpdateTabNumber { voice := 0, slot := 1 }
        { owner := { voice := 0, slot := 1 }, slot := 0 } 7 = .ok s' ∧
      s'.derefNote { owner := { voice := 0, slot := 0 }, slot := 0 } = some a' ∧
      a'.slideOutOfType = 1 ∧ a'.slideOutOfSteps = 7 := by
  obtain ⟨s', hs, hprev, _⟩ := update_slide_repair slideStaff 1 0 7
    { position := 4, notes := [{ string := 2, fretNumber := 5 }] }
    { string := 2, fretNumber := 5 } rfl rfl rfl
  obtain ⟨a', ha, _, h2⟩ := hprev 0
    { position := 1,
      notes := [{ string := 2, fretNumber := 0, slideOutOfType := 1, slideOutOfSteps := 5 }] } 0
    { string := 2, fretNumber := 0, slideOutOfType := 1, slideOutOfSteps := 5 } rfl rfl rfl rfl
    (by decide)
  have h3 := h2 (by decide)
  exact ⟨s', a', hs, ha, h3.1, h3.2.2 (by decide) (by decide)⟩

/-- Counterexample to C23 as stated: in the slide staff the second note is set
to fret 200; the slide out of the first note (fret 0) then has -56 steps, not
the difference 200 of the two frets. -/
theorem update_slide_repair_counterexample :
    ((slideStaff.UpdateTabNumber { voice := 0, slot := 1 }
        { owner := { voice := 0, slot := 1 }, slot := 0 } 200).toOption.bind
      (fun s' => s'.derefNote { owner := { voice := 0, slot := 0 }, slot := 0 })) =
      some { string := 2, fretNumber := 0, slideOutOfType := 1, slideOutOfSteps := -56 } ∧
    ((slideStaff.UpdateTabNumber { voice := 0, slot := 1 }
        { owner := { voice := 0, slot := 1 }, slot := 0 } 200).toOption.bind
      (fun s' => s'.derefNote { owner := { voice := 0, slot := 1 }, slot := 0 })) =
      some { string := 2, fretNumber := 200 } ∧
    (200 : Int) - 0 ≠ -56 := by
  decide

/-- C24. Tie repair on update: after `UpdateTabNumber` sets the fret of a note
to `f`, the same-string note of the next position is tied afterwards exactly
when it was tied before and its fret is `f`, so its tie is cleared when the
frets differ and left set when they are equal; and when the previous position
has a note on the string, the note itself is tied afterwards exactly when it
was tied before and that note has fret `f`. -/
theorem update_tie_repair (s : Staff) (k j f : Nat) (p : Position) (n : Note)
    (hp : (s.positionArrays ⟨0, by decide⟩)[k]? = some p) (hn : p.notes[j]? = some n)
    (hfirst : noteSlotByString p n.string = some j) :
    ∃ s', s.UpdateTabNumber { voice := 0, slot := k }
        { owner := { voice := 0, slot := k }, slot := j } f = .ok s' ∧
      (∀ r jb b, (s.positionArrays ⟨0, by decide⟩)[k + 1]? = some r →
        noteSlotByString r n.string = some jb → r.notes[jb]? = some b →
        ∃ b', s'.derefNote { owner := { voice := 0, slot := k + 1 }, slot := jb } = some b' ∧
          (b'.tied = true ↔ (b.tied = true ∧ b.fretNumber = f)) ∧
          (b.tied = true → b.fretNumber ≠ f → b'.tied = false) ∧
          (b.tied = true → b.fretNumber = f → b'.tied = true)) ∧
      (∀ i q ja a, k = i + 1 → (s.positionArrays ⟨0, by decide⟩)[i]? = some q →
        noteSlotByString q n.string = some ja → q.notes[ja]? = some a →
        ∃ n', s'.derefNote { owner := { voice := 0, slot := k }, slot := j } = some n' ∧
          (n'.tied = true ↔ (n.tied = true ∧ a.fretNumber = f)) ∧
          (n.tied = true → a.fretNumber ≠ f → n'.tied = false) ∧
          (n.tied = true → a.fretNumber = f → n'.tied = true)) := by
  refine ⟨_, updateTabNumber_eq s k j f p n hp hn hfirst, ?_, ?_⟩
  · intro r jb b hr hslot hb
    obtain ⟨n2, hcases, -, hFk1⟩ := tabNumberUpdated_next (s.positionArrays ⟨0, by decide⟩)
      k j f jb p r n b hp hn hr hslot hb
    have hfret : n2.fretNumber = f := by
      rcases hcases with h | h <;> rw [h]
    have hiff := (updatedNext_cases n2 b).2
    rw [hfret] at hiff
    refine ⟨updatedNext n2 b, ?_, hiff, ?_, fun ht heq => hiff.2 ⟨ht, heq⟩⟩
    · rw [derefNote_voice0, setVoiceArray_same, hFk1]
      exact withNote_getElem?_same r jb b _ hb
    · intro _ hne
      cases htied : (updatedNext n2 b).tied with
      | false => rfl
      | true => exact absurd (hiff.1 htied).2 hne
  · intro i q ja a hk hq hslot ha
    subst hk
    obtain ⟨n3, hFk, htied3⟩ := tabNumberUpdated_tied (s.positionArrays ⟨0, by decide⟩)
      i j f ja p q n a hp hn hq hslot ha
    have hiff := (updatedNext_cases a { n with fretNumber := f }).2
    rw [← htied3] at hiff
    have hiff2 : n3.tied = true ↔ (n.tied = true ∧ a.fretNumber = f) :=
      hiff.trans ⟨fun h => ⟨h.1, h.2.symm⟩, fun h => ⟨h.1, h.2.symm⟩⟩
    refine ⟨n3, ?_, hiff2, ?_, fun ht heq => hiff2.2 ⟨ht, heq⟩⟩
    · rw [derefNote_voice0, setVoiceArray_same, hFk]
      exact withNote_getElem?_same p j n _ hn
    · intro _ hne
      cases htied : n3.tied with
      | false => rfl
      | true => exact absurd (hiff2.1 htied).2 hne

/-- Witness of C24: in the tied staff the middle note is set to fret 4; the tie
of the note after it and its own tie are both cleared. -/
theorem update_tie_repair_witness :
    ∃ s' b' n', tiedStaff.UpdateTabNumber { voice := 0, slot := 1 }
        { owner := { voice := 0, slot := 1 }, slot := 0 } 4 = .ok s' ∧
      s'.derefNote { owner := { voice := 0, slot := 2 }, slot := 0 } = some b' ∧
      s'.derefNote { owner := { voice := 0, slot := 1 }, slot := 0 } = some n' ∧
      b'.tied = false ∧ n'.tied = false := by
  obtain ⟨s', hs, hnext, hprev⟩ := update_tie_repair tiedStaff 1 0 4
    { position := 4, notes := [{ string := 2, fretNumber := 3, tied := true }] }
    { string := 2, fretNumber := 3, tied := true } rfl rfl rfl
  obtain ⟨b', hb, _, h1, _⟩ := hnext
    { position := 6, notes := [{ string := 2, fretNumber := 3, tied := true }] } 0
    { string := 2, fretNumber := 3, tied := true } rfl rfl rfl
  obtain ⟨n', hn', _, h2, _⟩ := hprev 0
    { position := 1, notes := [{ string := 2, fretNumber := 3 }] } 0
    { string := 2, fretNumber := 3 } rfl rfl rfl rfl
  exact ⟨s', b', n', hs, hb, hn', h1 rfl (by decide), h2 rfl (by decide)⟩

/-! ## Update frame -/

theorem sameButNote_refl (string : Nat) (q : Position) : SameButNote string q q :=
  ⟨rfl, rfl, fun _ _ => rfl⟩

theorem noteSlotByString_of_strings (q q' : Position) (string : Nat)
    (h : q'.notes.map (fun m => m.string) = q.notes.map (fun m => m.string)) :
    noteSlotByString q' string = noteSlotByString q string := by
  unfold noteSlotByString
  have h1 : List.findIdx? (fun x => x == string) (q'.notes.map (fun m => m.string)) =
      q'.notes.findIdx? ((fun x => x == string) ∘ (fun m => m.string)) :=
    List.findIdx?_map (fun m : Note => m.string) _
  have h2 : List.findIdx? (fun x => x == string) (q.notes.map (fun m => m.string)) =
      q.notes.findIdx? ((fun x => x == string) ∘ (fun m => m.string)) :=
    List.findIdx?_map (fun m : Note => m.string) _
  rw [h] at h1
  exact h1.symm.trans h2

theorem sameButNote_trans (string : Nat) (q1 q2 q3 : Position)
    (h12 : SameButNote string q1 q2) (h23 : SameButNote string q2 q3) :
    SameButNote string q1 q3 := by
  obtain ⟨ha, hb, hc⟩ := h12
  obtain ⟨ha2, hb2, hc2⟩ := h23
  refine ⟨?_, hb2.trans hb, ?_⟩
  · rw [← ha, ← ha2]
  · intro jj hjj
    rw [hc2 jj (by rw [noteSlotByString_of_strings q1 q2 string hb]; exact hjj), hc jj hjj]

theorem sameButNote_withNote (string : Nat) (q : Position) (jj : Nat) (m m2 : Note)
    (hm : q.notes[jj]? = some m) (hslot : noteSlotByString q string = some jj)
    (hstring : m2.string = m.string) : SameButNote string q (withNote q jj m2) := by
  refine ⟨rfl, ?_, ?_⟩
  · exact map_set_same (fun m => m.string) q.notes jj m2 (fun a ha => by
      rw [hm] at ha
      cases ha
      exact hstring)
  · intro j2 hj2
    have hne : jj ≠ j2 := by
      intro h
      apply hj2
      rw [← h]
      exact hslot
    exact getElem?_set_other _ _ _ _ hne

theorem frameAt_refl (string k : Nat) (arr : List Position) : FrameAt string k arr arr :=
  ⟨rfl, fun _ q hq => ⟨q, hq, sameButNote_refl string q, fun _ => rfl⟩⟩

theorem frameAt_trans (string k : Nat) (arr1 arr2 arr3 : List Position)
    (h12 : FrameAt string k arr1 arr2) (h23 : FrameAt string k arr2 arr3) :
    FrameAt string k arr1 arr3 := by
  refine ⟨h23.1.trans h12.1, ?_⟩
  intro i q hq
  obtain ⟨q2, hq2, hs2, hfar2⟩ := h12.2 i q hq
  obtain ⟨q3, hq3, hs3, hfar3⟩ := h23.2 i q2 hq2
  exact ⟨q3, hq3, sameButNote_trans string q q2 q3 hs2 hs3,
    fun hfar => (hfar3 hfar).trans (hfar2 hfar)⟩

theorem frameAt_set (string k i0 : Nat) (arr : List Position) (q0 q1 : Position)
    (hq0 : arr[i0]? = some q0) (hsame : SameButNote string q0 q1)
    (hnear : ¬ (i0 + 1 < k ∨ k + 1 < i0)) : FrameAt string k arr (arr.set i0 q1) := by
  refine ⟨by simp, ?_⟩
  intro i q hq
  by_cases hi : i0 = i
  · subst hi
    rw [hq0] at hq
    cases hq
    exact ⟨q1, getElem?_set_same _ _ _ _ hq0, hsame, fun hfar => absurd hfar hnear⟩
  · exact ⟨q, by rw [getElem?_set_other _ _ _ _ hi]; exact hq, sameButNote_refl string q,
      fun _ => rfl⟩

theorem previousUpdated_frame (arr : List Position) (k j : Nat) (p : Position) (n : Note)
    (hp : arr[k]? = some p) (hn : p.notes[j]? = some n)
    (hfirst : noteSlotByString p n.string = some j) :
    FrameAt n.string k arr (previousUpdated arr k j) := by
  cases k with
  | zero =>
    have h : previousUpdated arr 0 j = arr := by
      unfold previousUpdated
      rw [hp]
      simp only [hn, ne_eq, not_true_eq_false, if_false]
    rw [h]
    exact frameAt_refl _ _ _
  | succ i =>
    cases hq : arr[i]? with
    | none =>
      have h : previousUpdated arr (i + 1) j = arr := by
        unfold previousUpdated
        rw [hp]
        simp only [hn, Nat.add_sub_cancel, hq]
        split <;> rfl
      rw [h]
      exact frameAt_refl _ _ _
    | some q =>
      cases hslot : noteSlotByString q n.string with
      | none =>
        have h : previousUpdated arr (i + 1) j = arr := by
          unfold previousUpdated
          rw [hp]
          simp only [hn, Nat.add_sub_cancel, hq, hslot]
          split <;> rfl
        rw [h]
        exact frameAt_refl _ _ _
      | some ja =>
        obtain ⟨a, ha⟩ := noteSlotByString_valid q n.string ja hslot
        have h : previousUpdated arr (i + 1) j =
            (arr.set i (withNote q ja (updatedPrevious a n))).set (i + 1)
              (withNote p j (updatedNext a n)) := by
          unfold previousUpdated
          rw [hp]
          simp only [hn, Nat.add_sub_cancel, hq, hslot, ha, ne_eq, Nat.add_one_ne_zero,
            not_false_eq_true, if_true]
        rw [h]
        have hastr : a.string = n.string := noteSlotByString_string q _ _ _ hslot ha
        refine frameAt_trans _ _ _ _ _
          (frameAt_set n.string (i + 1) i arr q _ hq
            (sameButNote_withNote n.string q ja a _ ha hslot (updatedPrevious_string a n))
            (by omega)) ?_
        refine frameAt_set n.string (i + 1) (i + 1) _ p _ ?_
          (sameButNote_withNote n.string p j n _ hn hfirst (updatedNext_string a n)) (by omega)
        rw [getElem?_set_other _ _ _ _ (by omega)]
        exact hp

theorem nextUpdated_frame (arr : List Position) (k j : Nat) (p : Position) (n : Note)
    (hp : arr[k]? = some p) (hn : p.notes[j]? = some n)
    (hfirst : noteSlotByString p n.string = some j) :
    FrameAt n.string k arr (nextUpdated arr k j) := by
  cases hr : arr[k + 1]? with
  | none =>
    have h : nextUpdated arr k j = arr := by
      unfold nextUpdated
      rw [hp]
      simp only [hn, hr]
    rw [h]
    exact frameAt_refl _ _ _
  | some r =>
    cases hslot : noteSlotByString r n.string with
    | none =>
      have h : nextUpdated arr k j = arr := by
        unfold nextUpdated
        rw [hp]
        simp only [hn, hr, hslot]
      rw [h]
      exact frameAt_refl _ _ _
    | some jb =>
      obtain ⟨b, hb⟩ := noteSlotByString_valid r n.string jb hslot
      have h : nextUpdated arr k j =
          (arr.set k (withNote p j (updatedPrevious n b))).set (k + 1)
            (withNote r jb (updatedNext n b)) := by
        unfold nextUpdated
        rw [hp]
        simp only [hn, hr, hslot, hb]
      rw [h]
      refine frameAt_trans _ _ _ _ _
        (frameAt_set n.string k k arr p _ hp
          (sameButNote_withNote n.string p j n _ hn hfirst (updatedPrevious_string n b))
          (by omega)) ?_
      refine frameAt_set n.string k (k + 1) _ r _ ?_
        (sameButNote_withNote n.string r jb b _ hb hslot (updatedNext_string n b)) (by omega)
      rw [getElem?_set_other _ _ _ _ (by omega)]
      exact hr

theorem tabNumberUpdated_frame (arr : List Position) (k j f : Nat) (p : Position) (n : Note)
    (hp : arr[k]? = some p) (hn : p.notes[j]? = some n)
    (hfirst : noteSlotByString p n.string = some j) :
    FrameAt n.string k arr (tabNumberUpdated arr k j f) := by
  rw [tabNumberUpdated_eq arr k j f p n hp hn]
  have hp1 : (arr.set k (withNote p j { n with fretNumber := f }))[k]? =
      some (withNote p j { n with fretNumber := f }) := getElem?_set_same _ _ _ _ hp
  have hn1 : (withNote p j { n with fretNumber := f }).notes[j]? =
      some { n with fretNumber := f } := withNote_getElem?_same p j n _ hn
  have hfirst1 : noteSlotByString (withNote p j { n with fretNumber := f })
      ({ n with fretNumber := f } : Note).string = some j := by
    rw [noteSlotByString_withNote p j _ n { n with fretNumber := f } hn rfl]
    exact hfirst
  have hstep1 : FrameAt n.string k arr (arr.set k (withNote p j { n with fretNumber := f })) :=
    frameAt_set n.string k k arr p _ hp
      (sameButNote_withNote n.string p j n _ hn hfirst rfl) (by omega)
  have hstep2 := previousUpdated_frame _ k j _ { n with fretNumber := f } hp1 hn1 hfirst1
  obtain ⟨n2, hslot2, hstr2, -, -, -⟩ := previousUpdated_slot
    (arr.set k (withNote p j { n with fretNumber := f })) k j _ { n with fretNumber := f }
    hp1 hn1
  have hn2 : (withNote (withNote p j { n with fretNumber := f }) j n2).notes[j]? = some n2 :=
    withNote_getElem?_same _ j _ n2 hn1
  have hfirst2 : noteSlotByString (withNote (withNote p j { n with fretNumber := f }) j n2)
      n2.string = some j := by
    rw [noteSlotByString_withNote _ j _ { n with fretNumber := f } n2 hn1 hstr2, hstr2]
    exact hfirst1
  have hstep3 := nextUpdated_frame _ k j _ n2 hslot2 hn2 hfirst2
  rw [hstr2] at hstep3
  exact frameAt_trans _ _ _ _ _ (frameAt_trans _ _ _ _ _ hstep1 hstep2) hstep3

/-- C25. Update frame: `UpdateTabNumber` on a note of a position stored in
voice 0 returns, and afterwards the scalar fields of the staff, the vectors of
the other voices and the length of the vector of voice 0 are as before; every
position of voice 0 has kept all its attributes other than its notes (so the
order of the vector is as before) and the number of its notes; a note on
another string, and more generally every note other than the one
`GetNoteByString` finds on the string of the note, is unchanged; and a position
two or more slots away from the position is unchanged altogether. -/
theorem update_frame (s : Staff) (k j f : Nat) (p : Position) (n : Note)
    (hp : (s.positionArrays ⟨0, by decide⟩)[k]? = some p) (hn : p.notes[j]? = some n)
    (hfirst : noteSlotByString p n.string = some j) :
    ∃ s', s.UpdateTabNumber { voice := 0, slot := k }
        { owner := { voice := 0, slot := k }, slot := j } f = .ok s' ∧
      s'.m_data = s.m_data ∧
      s'.m_standardNotationStaffAboveSpacing = s.m_standardNotationStaffAboveSpacing ∧
      s'.m_standardNotationStaffBelowSpacing = s.m_standardNotationStaffBelowSpacing ∧
      s'.m_symbolSpacing = s.m_symbolSpacing ∧
      s'.m_tablatureStaffBelowSpacing = s.m_tablatureStaffBelowSpacing ∧
      (∀ v : Fin NUM_STAFF_VOICES, v ≠ ⟨0, by decide⟩ →
        s'.positionArrays v = s.positionArrays v) ∧
      (s'.positionArrays ⟨0, by decide⟩).length = (s.positionArrays ⟨0, by decide⟩).length ∧
      (∀ i q, (s.positionArrays ⟨0, by decide⟩)[i]? = some q →
        ∃ q', (s'.positionArrays ⟨0, by decide⟩)[i]? = some q' ∧
          { q' with notes := q.notes } = q ∧
          q'.notes.length = q.notes.length ∧
          (∀ (jj : Nat) (m : Note), q.notes[jj]? = some m → m.string ≠ n.string →
            q'.notes[jj]? = some m) ∧
          (∀ jj, noteSlotByString q n.string ≠ some jj → q'.notes[jj]? = q.notes[jj]?) ∧
          ((i + 1 < k ∨ k + 1 < i) → q' = q)) := by
  have hframe := tabNumberUpdated_frame (s.positionArrays ⟨0, by decide⟩) k j f p n hp hn hfirst
  refine ⟨_, updateTabNumber_eq s k j f p n hp hn hfirst, rfl, rfl, rfl, rfl, rfl, ?_, ?_, ?_⟩
  · intro v hv
    exact setVoiceArray_other _ _ _ _ hv
  · rw [setVoiceArray_same]
    exact hframe.1
  · intro i q hq
    rw [setVoiceArray_same]
    obtain ⟨q', hq', ⟨hattr, hstrings, hother⟩, hfar⟩ := hframe.2 i q hq
    refine ⟨q', hq', hattr, ?_, ?_, hother, hfar⟩
    · have := congrArg List.length hstrings
      simpa using this
    · intro jj m hm hne
      rw [hother jj, hm]
      intro hslot
      exact hne (noteSlotByString_string q _ _ _ hslot hm)

/-- Witness of C25: in the sample staff the note of slot 0 is set to fret 4;
the position in slot 2 is unchanged. -/
theorem update_frame_witness :
    ∃ s', sampleStaff.UpdateTabNumber { voice := 0, slot := 0 }
        { owner := { voice := 0, slot := 0 }, slot := 0 } 4 = .ok s' ∧
      (s'.positionArrays ⟨0, by decide⟩)[2]? = some { position := 9, durationType := 4 } := by
  obtain ⟨s', hs, _, _, _, _, _, _, _, hframe⟩ := update_frame sampleStaff 0 0 4
    { position := 1, notes := [{ string := 2, fretNumber := 3 }] }
    { string := 2, fretNumber := 3 } rfl rfl rfl
  obtain ⟨q', hq', _, _, _, _, hfar⟩ := hframe 2 { position := 9, durationType := 4 } rfl
  rw [hfar (Or.inr (by decide))] at hq'
  exact ⟨s', hs, hq'⟩

/-! ## Failure of the codec -/

theorem deserializeVoices_two (fmt : RecordFormat) (version : Nat) (s : Staff)
    (stream : PowerTabInputStream) :
    deserializeVoices fmt version NUM_STAFF_VOICES 0 s stream =
      if (stream.ReadVector fmt version (s.positionArrays ⟨0, by decide⟩)).2.good then
        if ((stream.ReadVector fmt version (s.positionArrays ⟨0, by decide⟩)).2.ReadVector
            fmt version (s.positionArrays ⟨1, by decide⟩)).2.good then
          (true,
            (s.setVoiceArray ⟨0, by decide⟩
              (stream.ReadVector fmt version (s.positionArrays ⟨0, by decide⟩)).1).setVoiceArray
              ⟨1, by decide⟩
              ((stream.ReadVector fmt version (s.positionArrays ⟨0, by decide⟩)).2.ReadVector
                fmt version (s.positionArrays ⟨1, by decide⟩)).1,
            ((stream.ReadVector fmt version (s.positionArrays ⟨0, by decide⟩)).2.ReadVector
              fmt version (s.positionArrays ⟨1, by decide⟩)).2)
        else
          (false,
            (s.setVoiceArray ⟨0, by decide⟩
              (stream.ReadVector fmt version (s.positionArrays ⟨0, by decide⟩)).1).setVoiceArray
              ⟨1, by decide⟩
              ((stream.ReadVector fmt version (s.positionArrays ⟨0, by decide⟩)).2.ReadVector
                fmt version (s.positionArrays ⟨1, by decide⟩)).1,
            ((stream.ReadVector fmt version (s.positionArrays ⟨0, by decide⟩)).2.ReadVector
              fmt version (s.positionArrays ⟨1, by decide⟩)).2)
      else
        (false,
          s.setVoiceArray ⟨0, by decide⟩
            (stream.ReadVector fmt version (s.positionArrays ⟨0, by decide⟩)).1,
          (stream.ReadVector fmt version (s.positionArrays ⟨0, by decide⟩)).2) := by
  have h0 : (0 : Nat) < NUM_STAFF_VOICES := by decide
  have h1 : (0 : Nat) + 1 < NUM_STAFF_VOICES := by decide
  have hother : ∀ l, (s.setVoiceArray ⟨0, h0⟩ l).positionArrays ⟨0 + 1, h1⟩ =
      s.positionArrays ⟨1, by decide⟩ := fun l =>
    setVoiceArray_other s ⟨0, h0⟩ ⟨1, by decide⟩ l
      (fun h => Nat.one_ne_zero (congrArg Fin.val h))
  show deserializeVoices fmt version (1 + 1) 0 s stream = _
  simp only [deserializeVoices, h0, h1, dite_true, hother]
  split_ifs with hg0 hg1
  · rw [hg1]
  · rfl
  · rfl

theorem serializeVoices_two (fmt : RecordFormat) (s : Staff) (stream : PowerTabOutputStream) :
    serializeVoices fmt s NUM_STAFF_VOICES 0 stream =
      if (stream.WriteVector fmt (s.positionArrays ⟨0, by decide⟩)).good then
        (((stream.WriteVector fmt (s.positionArrays ⟨0, by decide⟩)).WriteVector fmt
            (s.positionArrays ⟨1, by decide⟩)).good,
          (stream.WriteVector fmt (s.positionArrays ⟨0, by decide⟩)).WriteVector fmt
            (s.positionArrays ⟨1, by decide⟩))
      else (false, stream.WriteVector fmt (s.positionArrays ⟨0, by decide⟩)) := by
  have h0 : (0 : Nat) < NUM_STAFF_VOICES := by decide
  have h1 : (0 : Nat) + 1 < NUM_STAFF_VOICES := by decide
  show serializeVoices fmt s (1 + 1) 0 stream = _
  simp only [serializeVoices, h0, h1, dite_true]
  split_ifs with hg0 hg1
  · rw [hg1]
  · have hg1f : ((stream.WriteVector fmt (s.positionArrays ⟨0, by decide⟩)).WriteVector fmt
        (s.positionArrays ⟨1, by decide⟩)).good = false := by
      simpa using hg1
    rw [hg1f]
  · rfl

/-- C26. Failure propagation in the codec: `Deserialize` returns true only if
the stream state is good after the five scalar bytes, after the vector of voice
0 and after the vector of voice 1; when the state is bad after the scalar bytes
it returns false with the stream as the scalar reads left it and every voice
vector as it was; when the state is bad after reading voice 0 it returns false
with the stream as that read left it and the vector of voice 1 as it was;
otherwise it returns the state after reading voice 1.  `Serialize` returns
false with nothing written after the scalars when the state is bad after them,
false with voice 1 not written when the state is bad after writing voice 0,
and otherwise the state after writing voice 1. -/
theorem codec_failure (fmt : RecordFormat) (version : Nat) (s : Staff)
    (stream : PowerTabInputStream) (out : PowerTabOutputStream) :
    ((Deserialize fmt version s stream).1 = true →
      (scalarsRead stream).good = true ∧
      ((scalarsRead stream).ReadVector fmt version (s.positionArrays ⟨0, by decide⟩)).2.good =
        true ∧
      (((scalarsRead stream).ReadVector fmt version (s.positionArrays ⟨0, by decide⟩)).2.ReadVector
        fmt version (s.positionArrays ⟨1, by decide⟩)).2.good = true) ∧
    ((scalarsRead stream).good = false →
      (Deserialize fmt version s stream).1 = false ∧
      (Deserialize fmt version s stream).2.2 = scalarsRead stream ∧
      (Deserialize fmt version s stream).2.1.positionArrays = s.positionArrays) ∧
    ((scalarsRead stream).good = true →
      ((scalarsRead stream).ReadVector fmt version (s.positionArrays ⟨0, by decide⟩)).2.good =
        false →
      (Deserialize fmt version s stream).1 = false ∧
      (Deserialize fmt version s stream).2.2 =
        ((scalarsRead stream).ReadVector fmt version (s.positionArrays ⟨0, by decide⟩)).2 ∧
      (Deserialize fmt version s stream).2.1.positionArrays ⟨1, by decide⟩ =
        s.positionArrays ⟨1, by decide⟩) ∧
    ((scalarsRead stream).good = true →
      ((scalarsRead stream).ReadVector fmt version (s.positionArrays ⟨0, by decide⟩)).2.good =
        true →
      (Deserialize fmt version s stream).1 =
        (((scalarsRead stream).ReadVector fmt version
          (s.positionArrays ⟨0, by decide⟩)).2.ReadVector
          fmt version (s.positionArrays ⟨1, by decide⟩)).2.good ∧
      (Deserialize fmt version s stream).2.2 =
        (((scalarsRead stream).ReadVector fmt version
          (s.positionArrays ⟨0, by decide⟩)).2.ReadVector
          fmt version (s.positionArrays ⟨1, by decide⟩)).2) ∧
    ((scalarsWritten s out).good = false →
      s.Serialize fmt out = (false, scalarsWritten s out)) ∧
    ((scalarsWritten s out).good = true →
      ((scalarsWritten s out).WriteVector fmt (s.positionArrays ⟨0, by decide⟩)).good = false →
      s.Serialize fmt out =
        (false, (scalarsWritten s out).WriteVector fmt (s.positionArrays ⟨0, by decide⟩))) ∧
    ((scalarsWritten s out).good = true →
      ((scalarsWritten s out).WriteVector fmt (s.positionArrays ⟨0, by decide⟩)).good = true →
      s.Serialize fmt out =
        ((((scalarsWritten s out).WriteVector fmt (s.positionArrays ⟨0, by decide⟩)).WriteVector
            fmt (s.positionArrays ⟨1, by decide⟩)).good,
          ((scalarsWritten s out).WriteVector fmt (s.positionArrays ⟨0, by decide⟩)).WriteVector
            fmt (s.positionArrays ⟨1, by decide⟩))) := by
  obtain ⟨s1, hD, hs1⟩ : ∃ s1 : Staff,
      Deserialize fmt version s stream =
        (if (scalarsRead stream).good then
          deserializeVoices fmt version NUM_STAFF_VOICES 0 s1 (scalarsRead stream)
        else (false, s1, scalarsRead stream)) ∧
      s1.positionArrays = s.positionArrays := ⟨_, rfl, rfl⟩
  have hS : s.Serialize fmt out =
      if (scalarsWritten s out).good then
        serializeVoices fmt s NUM_STAFF_VOICES 0 (scalarsWritten s out)
      else (false, scalarsWritten s out) := rfl
  rw [hD, hS, deserializeVoices_two, serializeVoices_two, hs1]
  refine ⟨?_, ?_, ?_, ?_, ?_, ?_, ?_⟩
  · intro h
    split_ifs at h with hg5 hg0 hg1
    exact ⟨hg5, hg0, hg1⟩
  · intro hg5
    rw [if_neg (by rw [hg5]; decide)]
    exact ⟨rfl, rfl, hs1⟩
  · intro hg5 hg0
    rw [if_pos hg5, if_neg (by rw [hg0]; decide)]
    refine ⟨rfl, rfl, ?_⟩
    show (s1.setVoiceArray ⟨0, by decide⟩ _).positionArrays ⟨1, by decide⟩ = _
    rw [setVoiceArray_other _ _ _ _ (fun h => Nat.one_ne_zero (congrArg Fin.val h)), hs1]
  · intro hg5 hg0
    rw [if_pos hg5, if_pos hg0]
    split_ifs with hg1
    · exact ⟨hg1.symm, rfl⟩
    · refine ⟨?_, rfl⟩
      simpa using hg1
  · intro hg5
    rw [if_neg (by rw [hg5]; decide)]
  · intro hg5 hg0
    rw [if_pos hg5, if_neg (by rw [hg0]; decide)]
  · intro hg5 hg0
    rw [if_pos hg5, if_pos hg0]

/-- Witness of C26: a stream that ends after three bytes is bad after the
scalar reads; `Deserialize` returns false and no voice vector is read. -/
theorem codec_failure_witness :
    (Deserialize sampleFormat 0 plainStaff { bytes := [6, 9, 9], good := true }).1 = false ∧
    (Deserialize sampleFormat 0 plainStaff { bytes := [6, 9, 9], good := true }).2.2 =
      scalarsRead { bytes := [6, 9, 9], good := true } ∧
    (Deserialize sampleFormat 0 plainStaff
      { bytes := [6, 9, 9], good := true }).2.1.positionArrays = plainStaff.positionArrays :=
  (codec_failure sampleFormat 0 plainStaff { bytes := [6, 9, 9], good := true } {}).2.1
    (by decide)

/-! ## Packed clef and tablature staff type -/

theorem land_mod_byte (m c : Nat) (hc : c < 256) : m &&& c = (m % 256) &&& c := by
  apply Nat.eq_of_testBit_eq
  intro i
  rw [Nat.testBit_and, Nat.testBit_and, show (256 : Nat) = 2 ^ 8 from rfl,
    Nat.testBit_mod_two_pow]
  by_cases hi : i < 8
  · simp [hi]
  · have h28 : (2 : Nat) ^ 8 ≤ 2 ^ i :=
      Nat.pow_le_pow_right (by decide : 0 < 2) (by omega : 8 ≤ i)
    have hci : c.testBit i = false :=
      Nat.testBit_lt_two_pow (lt_of_lt_of_le (show c < 2 ^ 8 from hc) h28)
    simp [hci]

set_option maxRecDepth 100000 in
theorem setClef_byte : ∀ x, x < 256 → ∀ c, c < 2 →
    ((((x &&& (255 ^^^ clefMask)) ||| ((c <<< 4) % 256)) &&& clefMask) >>> 4 = c ∧
      ((x &&& (255 ^^^ clefMask)) ||| ((c <<< 4) % 256)) &&& tablatureStaffTypeMask =
        x &&& tablatureStaffTypeMask) := by
  decide

set_option maxRecDepth 100000 in
theorem setTablatureStaffType_byte : ∀ x, x < 256 → ∀ t, t < 8 →
    (((x &&& (255 ^^^ tablatureStaffTypeMask)) ||| t) &&& tablatureStaffTypeMask = t ∧
      (((x &&& (255 ^^^ tablatureStaffTypeMask)) ||| t) &&& clefMask) >>> 4 =
        (x &&& clefMask) >>> 4) := by
  decide

theorem setClef_get (s : Staff) (c : Nat) (hc : c ≤ 1) :
    (s.SetClef c).1 = true ∧ (s.SetClef c).2.GetClef = c ∧
    (s.SetClef c).2.GetTablatureStaffType = s.GetTablatureStaffType := by
  unfold SetClef
  rw [if_pos hc]
  refine ⟨rfl, ?_, ?_⟩
  · show (((s.m_data &&& (255 ^^^ clefMask)) ||| ((c <<< 4) % 256)) &&& clefMask) >>> 4 = c
    rw [land_mod_byte s.m_data (255 ^^^ clefMask) (by decide)]
    exact (setClef_byte (s.m_data % 256) (Nat.mod_lt _ (by decide)) c (by omega)).1
  · show ((s.m_data &&& (255 ^^^ clefMask)) ||| ((c <<< 4) % 256)) &&& tablatureStaffTypeMask =
      s.m_data &&& tablatureStaffTypeMask
    rw [land_mod_byte s.m_data (255 ^^^ clefMask) (by decide),
      land_mod_byte s.m_data tablatureStaffTypeMask (by decide)]
    exact (setClef_byte (s.m_data % 256) (Nat.mod_lt _ (by decide)) c (by omega)).2

theorem isValidStringCount_iff (t : Nat) : IsValidStringCount t = true ↔ (3 ≤ t ∧ t ≤ 7) := by
  simp [IsValidStringCount, MIN_STRING_COUNT, MAX_STRING_COUNT]

theorem setTablatureStaffType_get (s : Staff) (t : Nat) (h3 : 3 ≤ t) (h7 : t ≤ 7) :
    (s.SetTablatureStaffType t).1 = true ∧ (s.SetTablatureStaffType t).2.GetTablatureStaffType = t ∧
    (s.SetTablatureStaffType t).2.GetClef = s.GetClef := by
  unfold SetTablatureStaffType
  rw [if_pos ((isValidStringCount_iff t).2 ⟨h3, h7⟩)]
  refine ⟨rfl, ?_, ?_⟩
  · show ((s.m_data &&& (255 ^^^ tablatureStaffTypeMask)) ||| t) &&& tablatureStaffTypeMask = t
    rw [land_mod_byte s.m_data (255 ^^^ tablatureStaffTypeMask) (by decide)]
    exact (setTablatureStaffType_byte (s.m_data % 256) (Nat.mod_lt _ (by decide)) t (by omega)).1
  · show (((s.m_data &&& (255 ^^^ tablatureStaffTypeMask)) ||| t) &&& clefMask) >>> 4 =
      (s.m_data &&& clefMask) >>> 4
    rw [land_mod_byte s.m_data (255 ^^^ tablatureStaffTypeMask) (by decide),
      land_mod_byte s.m_data clefMask (by decide)]
    exact (setTablatureStaffType_byte (s.m_data % 256) (Nat.mod_lt _ (by decide)) t (by omega)).2

theorem setClef_frame (s : Staff) (c : Nat) :
    (s.SetClef c).2.m_standardNotationStaffAboveSpacing = s.m_standardNotationStaffAboveSpacing ∧
    (s.SetClef c).2.m_standardNotationStaffBelowSpacing = s.m_standardNotationStaffBelowSpacing ∧
    (s.SetClef c).2.m_symbolSpacing = s.m_symbolSpacing ∧
    (s.SetClef c).2.m_tablatureStaffBelowSpacing = s.m_tablatureStaffBelowSpacing ∧
    (s.SetClef c).2.positionArrays = s.positionArrays := by
  unfold SetClef
  split_ifs <;> exact ⟨rfl, rfl, rfl, rfl, rfl⟩

theorem setTablatureStaffType_frame (s : Staff) (t : Nat) :
    (s.SetTablatureStaffType t).2.m_standardNotationStaffAboveSpacing =
      s.m_standardNotationStaffAboveSpacing ∧
    (s.SetTablatureStaffType t).2.m_standardNotationStaffBelowSpacing =
      s.m_standardNotationStaffBelowSpacing ∧
    (s.SetTablatureStaffType t).2.m_symbolSpacing = s.m_symbolSpacing ∧
    (s.SetTablatureStaffType t).2.m_tablatureStaffBelowSpacing = s.m_tablatureStaffBelowSpacing ∧
    (s.SetTablatureStaffType t).2.positionArrays = s.positionArrays := by
  unfold SetTablatureStaffType
  split_ifs <;> exact ⟨rfl, rfl, rfl, rfl, rfl⟩

/-- C27. Packed clef and tablature type byte: for every staff, `SetClef` with
the treble or the bass clef returns true, after which `GetClef` gives that clef
and `GetTablatureStaffType` gives what it gave before; `SetTablatureStaffType`
with a type from 3 to 7 returns true, after which `GetTablatureStaffType` gives
that type and `GetClef` gives what it gave before; neither setter changes a
spacing field or a voice vector. -/
theorem packed_byte (s : Staff) :
    (∀ c, c = TREBLE_CLEF ∨ c = BASS_CLEF →
      (s.SetClef c).1 = true ∧ (s.SetClef c).2.GetClef = c ∧
      (s.SetClef c).2.GetTablatureStaffType = s.GetTablatureStaffType ∧
      (s.SetClef c).2.m_standardNotationStaffAboveSpacing =
        s.m_standardNotationStaffAboveSpacing ∧
      (s.SetClef c).2.m_standardNotationStaffBelowSpacing =
        s.m_standardNotationStaffBelowSpacing ∧
      (s.SetClef c).2.m_symbolSpacing = s.m_symbolSpacing ∧
      (s.SetClef c).2.m_tablatureStaffBelowSpacing = s.m_tablatureStaffBelowSpacing ∧
      (s.SetClef c).2.positionArrays = s.positionArrays) ∧
    (∀ t, 3 ≤ t → t ≤ 7 →
      (s.SetTablatureStaffType t).1 = true ∧
      (s.SetTablatureStaffType t).2.GetTablatureStaffType = t ∧
      (s.SetTablatureStaffType t).2.GetClef = s.GetClef ∧
      (s.SetTablatureStaffType t).2.m_standardNotationStaffAboveSpacing =
        s.m_standardNotationStaffAboveSpacing ∧
      (s.SetTablatureStaffType t).2.m_standardNotationStaffBelowSpacing =
        s.m_standardNotationStaffBelowSpacing ∧
      (s.SetTablatureStaffType t).2.m_symbolSpacing = s.m_symbolSpacing ∧
      (s.SetTablatureStaffType t).2.m_tablatureStaffBelowSpacing =
        s.m_tablatureStaffBelowSpacing ∧
      (s.SetTablatureStaffType t).2.positionArrays = s.positionArrays) := by
  constructor
  · intro c hc
    have hc1 : c ≤ 1 := by
      rcases hc with h | h <;> rw [h] <;> decide
    obtain ⟨h1, h2, h3⟩ := setClef_get s c hc1
    exact ⟨h1, h2, h3, setClef_frame s c⟩
  · intro t h3 h7
    obtain ⟨h1, h2, h4⟩ := setTablatureStaffType_get s t h3 h7
    exact ⟨h1, h2, h4, setTablatureStaffType_frame s t⟩

/-- Witness of C27: on the sample staff, setting the bass clef gives the bass
clef and keeps the six strings. -/
theorem packed_byte_witness :
    (sampleStaff.SetClef BASS_CLEF).2.GetClef = BASS_CLEF ∧
    (sampleStaff.SetClef BASS_CLEF).2.GetTablatureStaffType = 6 :=
  have w := (packed_byte sampleStaff).1 BASS_CLEF (Or.inr rfl)
  ⟨w.2.1, w.2.2.1⟩

theorem setClef_valid (s : Staff) (c : Nat)
    (h : IsValidClef s.GetClef = true ∧
      IsValidTablatureStaffType s.GetTablatureStaffType = true) :
    IsValidClef (s.SetClef c).2.GetClef = true ∧
      IsValidTablatureStaffType (s.SetClef c).2.GetTablatureStaffType = true := by
  by_cases hc : c ≤ 1
  · obtain ⟨-, h2, h3⟩ := setClef_get s c hc
    rw [h2, h3]
    refine ⟨?_, h.2⟩
    have hcases : c = 0 ∨ c = 1 := by omega
    rcases hcases with h0 | h0 <;> rw [h0] <;> decide
  · have hs : (s.SetClef c).2 = s := by
      unfold SetClef
      rw [if_neg hc]
    rw [hs]
    exact h

theorem setTablatureStaffType_valid (s : Staff) (t : Nat)
    (h : IsValidClef s.GetClef = true ∧
      IsValidTablatureStaffType s.GetTablatureStaffType = true) :
    IsValidClef (s.SetTablatureStaffType t).2.GetClef = true ∧
      IsValidTablatureStaffType (s.SetTablatureStaffType t).2.GetTablatureStaffType = true := by
  by_cases ht : 3 ≤ t ∧ t ≤ 7
  · obtain ⟨-, h2, h3⟩ := setTablatureStaffType_get s t ht.1 ht.2
    rw [h2, h3]
    refine ⟨h.1, ?_⟩
    simp [IsValidTablatureStaffType, MIN_TABULATURE_STAFF_TYPE, MAX_TABULATURE_STAFF_TYPE,
      MIN_STRING_COUNT, MAX_STRING_COUNT, ht.1, ht.2]
  · have hs : (s.SetTablatureStaffType t).2 = s := by
      unfold SetTablatureStaffType
      rw [if_neg (fun hv => ht ((isValidStringCount_iff t).1 hv))]
    rw [hs]
    exact h

theorem applySetters_valid (calls : List SetterCall) (s : Staff)
    (h : IsValidClef s.GetClef = true ∧
      IsValidTablatureStaffType s.GetTablatureStaffType = true) :
    IsValidClef (s.applySetters calls).GetClef = true ∧
      IsValidTablatureStaffType (s.applySetters calls).GetTablatureStaffType = true := by
  induction calls generalizing s with
  | nil => exact h
  | cons call rest ih =>
    show IsValidClef ((s.applySetter call).applySetters rest).GetClef = true ∧ _
    apply ih
    cases call with
    | setClef clef => exact setClef_valid s clef h
    | setTablatureStaffType type => exact setTablatureStaffType_valid s type h
    | setStandardNotationStaffAboveSpacing spacing => exact h
    | setStandardNotationStaffBelowSpacing spacing => exact h
    | setSymbolSpacing spacing => exact h
    | setTablatureStaffBelowSpacing spacing => exact h

/-- C28. Clef and tablature type invariant: `SetClef` returns false and leaves
the staff as it was exactly when the clef is greater than 1, and
`SetTablatureStaffType` exactly when the type is not from 3 to 7; the default
constructor gives the treble clef and six strings; and every staff made by the
default constructor or by the primary constructor with any arguments, followed
by any sequence of setter calls, has a valid clef and a valid tablature staff
type. -/
theorem clef_type_invariant :
    (∀ (s : Staff) (c : Nat), ((s.SetClef c).1 = false ∧ (s.SetClef c).2 = s) ↔ 1 < c) ∧
    (∀ (s : Staff) (t : Nat),
      ((s.SetTablatureStaffType t).1 = false ∧ (s.SetTablatureStaffType t).2 = s) ↔
        ¬ (3 ≤ t ∧ t ≤ 7)) ∧
    (defaultConstructor.GetClef = TREBLE_CLEF ∧ defaultConstructor.GetTablatureStaffType = 6) ∧
    (∀ calls : List SetterCall,
      IsValidClef (defaultConstructor.applySetters calls).GetClef = true ∧
        IsValidTablatureStaffType
          (defaultConstructor.applySetters calls).GetTablatureStaffType = true) ∧
    (∀ (tablatureStaffType clef : Nat) (calls : List SetterCall),
      IsValidClef ((primaryConstructor tablatureStaffType clef).applySetters calls).GetClef =
        true ∧
      IsValidTablatureStaffType
        ((primaryConstructor tablatureStaffType clef).applySetters calls).GetTablatureStaffType =
        true) := by
  have hdefault : IsValidClef defaultConstructor.GetClef = true ∧
      IsValidTablatureStaffType defaultConstructor.GetTablatureStaffType = true := by
    constructor <;> decide
  refine ⟨?_, ?_, ⟨by decide, by decide⟩, fun calls => applySetters_valid calls _ hdefault, ?_⟩
  · intro s c
    by_cases hc : c ≤ 1
    · constructor
      · intro h
        rw [(setClef_get s c hc).1] at h
        cases h.1
      · intro h
        omega
    · constructor
      · intro _
        omega
      · intro _
        unfold SetClef
        rw [if_neg hc]
        exact ⟨rfl, rfl⟩
  · intro s t
    by_cases ht : 3 ≤ t ∧ t ≤ 7
    · constructor
      · intro h
        rw [(setTablatureStaffType_get s t ht.1 ht.2).1] at h
        cases h.1
      · intro h
        exact absurd ht h
    · constructor
      · intro _
        exact ht
      · intro _
        unfold SetTablatureStaffType
        rw [if_neg (fun hv => ht ((isValidStringCount_iff t).1 hv))]
        exact ⟨rfl, rfl⟩
  · intro tablatureStaffType clef calls
    apply applySetters_valid
    unfold primaryConstructor
    exact setTablatureStaffType_valid _ _ (setClef_valid _ _ hdefault)

/-- Witness of C28: the primary constructor called with 9 strings and clef 5
keeps the defaults, and after a bass clef and two rejected calls the clef is
the bass clef and the type is still six strings. -/
theorem clef_type_invariant_witness :
    IsValidClef ((primaryConstructor 9 5).applySetters
      [.setClef 1, .setClef 2, .setTablatureStaffType 8]).GetClef = true ∧
    IsValidTablatureStaffType ((primaryConstructor 9 5).applySetters
      [.setClef 1, .setClef 2, .setTablatureStaffType 8]).GetTablatureStaffType = true :=
  clef_type_invariant.2.2.2.2 9 5 [.setClef 1, .setClef 2, .setTablatureStaffType 8]

/-! ## Copying -/

theorem operatorEq_self (s : Staff) : s.operatorEq s = true := by
  simp [operatorEq, stdEqual_self]

theorem map_cloneObject (l : List Position) : l.map Position.CloneObject = l := by
  induction l with
  | nil => rfl
  | cons p ps ih => rw [List.map_cons, ih]; rfl

theorem copyConstructor_eq (b : Staff) : copyConstructor b = b := by
  cases b
  simp [copyConstructor, operatorAssign, map_cloneObject]

/-- C29. Copying: the copy constructor gives a staff whose voices hold one
clone of each position of the source, in order, and nothing else, with the
scalar fields of the source, so the copy and the source are equal under
`operator==`, in both directions; so does an assignment to a staff whose
voices are empty.  An assignment `a = b` between distinct objects gives `a`
the scalar fields of `b` but appends the clones to what the voices of `a`
already hold: assigning the plain staff to the sample staff leaves the three
positions of voice 0 of the sample staff in front of the two clones, and the
two staffs are then not equal under `operator==`. -/
theorem copy_assignment_appends :
    (∀ b : Staff, ∀ v, (copyConstructor b).positionArrays v =
        (b.positionArrays v).map Position.CloneObject) ∧
    (∀ b : Staff, (copyConstructor b).operatorEq b = true ∧
      b.operatorEq (copyConstructor b) = true ∧ (CloneObject b).operatorEq b = true) ∧
    (∀ a b : Staff,
      (operatorAssign { a with positionArrays := fun _ => [] } b true).operatorEq b = true) ∧
    (∀ a b : Staff, ∀ v, (operatorAssign a b true).positionArrays v =
        a.positionArrays v ++ (b.positionArrays v).map Position.CloneObject) ∧
    (∀ a b : Staff, (operatorAssign a b true).m_data = b.m_data ∧
      (operatorAssign a b true).m_standardNotationStaffAboveSpacing =
        b.m_standardNotationStaffAboveSpacing ∧
      (operatorAssign a b true).m_standardNotationStaffBelowSpacing =
        b.m_standardNotationStaffBelowSpacing ∧
      (operatorAssign a b true).m_symbolSpacing = b.m_symbolSpacing ∧
      (operatorAssign a b true).m_tablatureStaffBelowSpacing = b.m_tablatureStaffBelowSpacing) ∧
    (operatorAssign sampleStaff plainStaff true).positionArrays ⟨0, by decide⟩ =
      [{ position := 1, notes := [{ string := 2, fretNumber := 3 }] },
       { position := 4, notes := [{ string := 2, fretNumber := 5 }] },
       { position := 9, durationType := 4 },
       { position := 1 }, { position := 4, durationType := 16 }] ∧
    (operatorAssign sampleStaff plainStaff true).operatorEq plainStaff = false ∧
    plainStaff.operatorEq (operatorAssign sampleStaff plainStaff true) = false := by
  refine ⟨fun b v => rfl, fun b => ?_, fun a b => ?_, fun a b v => rfl,
    fun a b => ⟨rfl, rfl, rfl, rfl, rfl⟩, by decide, by decide, by decide⟩
  · unfold CloneObject
    rw [copyConstructor_eq]
    exact ⟨operatorEq_self b, operatorEq_self b, operatorEq_self b⟩
  · have h : operatorAssign { a with positionArrays := fun _ => [] } b true = b := by
      cases b
      simp [operatorAssign, map_cloneObject]
    rw [h]
    exact operatorEq_self b

/-! ## Bar range of the beaming engine -/

theorem beamStep_clear (start : Nat) (ps : List Position) (i : Nat) :
    (beamStep start ps i).map ClearBeam = ps.map ClearBeam := by
  unfold beamStep
  split
  · exact modifyAt_map_same _ _ _ _ (fun a => rfl)
  · split
    · rename_i currentPos prevPos hcur hprev
      have hset : ∀ (P C : Position), ClearBeam P = ClearBeam prevPos →
          ClearBeam C = ClearBeam currentPos →
          ((ps.set (i - 1) P).set i C).map ClearBeam = ps.map ClearBeam := by
        intro P C hP hC
        rw [List.map_set, List.map_set]
        have h1 : (ps.map ClearBeam).set (i - 1) (ClearBeam P) = ps.map ClearBeam := by
          apply set_getElem?_self
          rw [List.getElem?_map, hprev, hP]
          rfl
        rw [h1]
        apply set_getElem?_self
        rw [List.getElem?_map, hcur, hC]
        rfl
      simp only []
      split_ifs <;> exact hset _ _ rfl rfl
    · rfl

theorem beamFold_clear (start : Nat) (steps : List Nat) (ps : List Position) :
    (steps.foldl (beamStep start) ps).map ClearBeam = ps.map ClearBeam := by
  induction steps generalizing ps with
  | nil => rfl
  | cons i rest ih =>
    rw [List.foldl_cons, ih, beamStep_clear]

theorem beamPass_clear (ps : List Position) (e : Nat) :
    (beamPass ps e).1.map ClearBeam = ps.map ClearBeam := by
  have hfold := beamFold_clear (findIf IsBeamable ps e)
    (List.range' (findIf IsBeamable ps e)
      (findIf (fun p => !IsBeamable p) ps (findIf IsBeamable ps e) - findIf IsBeamable ps e)) ps
  unfold beamPass
  simp only []
  split
  · rw [modifyAt_map_same ClearBeam _ _ (fun p => { p with beamEnd := true }) (fun a => rfl),
      modifyAt_map_same ClearBeam _ _ (fun p => { p with beamStart := true }) (fun a => rfl)]
    exact hfold
  · exact hfold

theorem beamLoop_clear : ∀ (fuel : Nat) (cur : List Position) (start e : Nat)
    (out : List Position), beamLoop fuel cur start e = some out →
    out.map ClearBeam = cur.map ClearBeam := by
  intro fuel
  induction fuel with
  | zero =>
    intro cur start e out h
    unfold beamLoop at h
    split_ifs at h
    cases h
    rfl
  | succ fuel ih =>
    intro cur start e out h
    unfold beamLoop at h
    split_ifs at h
    · rw [ih _ _ _ _ h, beamPass_clear]
    · cases h
      rfl

theorem clearBeam_clearBeam (p : Position) : ClearBeam (ClearBeam p) = ClearBeam p := rfl

theorem calculateBeamingForGroup_clear (positions out : List Position)
    (h : CalculateBeamingForGroup positions = some out) :
    out.map ClearBeam = positions.map ClearBeam := by
  unfold CalculateBeamingForGroup at h
  rw [beamLoop_clear _ _ _ _ _ h, List.map_map]
  apply List.map_congr_left
  intro p _
  rfl

theorem take_group_drop (positions : List Position) (a b : Nat) (hab : a ≤ b) :
    positions.take a ++ (positions.drop a).take (b - a) ++ positions.drop b = positions := by
  have h1 : positions.drop b = (positions.drop a).drop (b - a) := by
    rw [List.drop_drop]
    congr 1
    omega
  rw [h1, List.append_assoc, List.take_append_drop, List.take_append_drop]

theorem barLoop_clear (beamGroupPatterns : List Nat) (durations : List ℚ) :
    ∀ (fuel : Nat) (positions : List Position) (pattern : Nat) (groupBeginTime : ℚ)
      (groupEnd : Nat) (out : List Position),
      barLoop beamGroupPatterns durations fuel positions pattern groupBeginTime groupEnd =
        some (.ok out) →
      out.map ClearBeam = positions.map ClearBeam := by
  intro fuel
  induction fuel with
  | zero =>
    intro positions pattern groupBeginTime groupEnd out h
    unfold barLoop at h
    by_cases hge : groupEnd ≠ durations.length
    · rw [if_pos hge] at h
      cases h
    · rw [if_neg hge] at h
      cases h
      rfl
  | succ fuel ih =>
    intro positions pattern groupBeginTime groupEnd out h
    unfold barLoop at h
    by_cases hge : groupEnd ≠ durations.length
    · rw [if_pos hge] at h
      cases hpat : beamGroupPatterns[pattern]? with
      | none =>
        simp only [hpat] at h
        cases h
      | some entry =>
        simp only [hpat] at h
        obtain ⟨positionGroup, hgroup, -⟩ := calculateBeamingForGroup_flags
          ((positions.drop (lowerBound durations groupEnd groupBeginTime)).take
            (upperBound durations (lowerBound durations groupEnd groupBeginTime)
              ((entry : ℚ) * (1 / 2) + groupBeginTime) -
              lowerBound durations groupEnd groupBeginTime))
        simp only [hgroup] at h
        have hrec := ih _ _ _ _ _ h
        rw [hrec, List.map_append, List.map_append,
          calculateBeamingForGroup_clear _ _ hgroup, ← List.map_append, ← List.map_append,
          take_group_drop]
        unfold upperBound
        exact Nat.le_add_right _ _
    · rw [if_neg hge] at h
      cases h
      rfl

theorem getElem?_of_map_clear (l1 l2 : List Position)
    (h : l1.map ClearBeam = l2.map ClearBeam) (i : Nat) (p : Position) (hp : l2[i]? = some p) :
    ∃ q, l1[i]? = some q ∧ ClearBeam q = ClearBeam p := by
  have h1 := congrArg (fun l : List Position => l[i]?) h
  simp only [List.getElem?_map, hp, Option.map_some'] at h1
  cases hq : l1[i]? with
  | none => simp [hq] at h1
  | some q =>
    refine ⟨q, rfl, ?_⟩
    simpa [hq] using h1

theorem derefSlots_clear (arr1 arr2 : List Position)
    (h : arr1.map ClearBeam = arr2.map ClearBeam) (slots : List Nat) :
    (derefSlots arr1 slots).map ClearBeam = (derefSlots arr2 slots).map ClearBeam := by
  have hget : ∀ i : Nat, (arr1[i]?).map ClearBeam = (arr2[i]?).map ClearBeam := by
    intro i
    have h1 := congrArg (fun l : List Position => l[i]?) h
    simpa [List.getElem?_map] using h1
  unfold derefSlots
  induction slots with
  | nil => rfl
  | cons i rest ih =>
    have hi := hget i
    cases h1 : arr1[i]? with
    | none =>
      cases h2 : arr2[i]? with
      | none => simpa [List.filterMap_cons, h1, h2] using ih
      | some b => simp [h1, h2] at hi
    | some a =>
      cases h2 : arr2[i]? with
      | none => simp [h1, h2] at hi
      | some b =>
        have hab : ClearBeam a = ClearBeam b := by simpa [h1, h2] using hi
        simp only [List.filterMap_cons, h1, h2, List.map_cons, hab, ih]

theorem writeSlots_clear : ∀ (slots : List Nat) (result arr : List Position),
    (∀ i, i ∈ slots → i < arr.length) →
    result.map ClearBeam = (derefSlots arr slots).map ClearBeam →
    (writeSlots arr slots result).map ClearBeam = arr.map ClearBeam := by
  intro slots
  induction slots with
  | nil =>
    intro result arr _ _
    cases result <;> rfl
  | cons i rest ih =>
    intro result arr hvalid h
    cases result with
    | nil => rfl
    | cons p ps =>
      show (writeSlots (arr.set i p) rest ps).map ClearBeam = arr.map ClearBeam
      have hlt : i < arr.length := hvalid i (List.mem_cons_self i rest)
      obtain ⟨a, hi⟩ : ∃ a, arr[i]? = some a := ⟨arr[i], List.getElem?_eq_getElem hlt⟩
      have hd : derefSlots arr (i :: rest) = a :: derefSlots arr rest := by
        simp [derefSlots, List.filterMap_cons, hi]
      rw [hd, List.map_cons, List.map_cons] at h
      have hp : ClearBeam p = ClearBeam a := (List.cons.inj h).1
      have hps := (List.cons.inj h).2
      have hmap : (arr.set i p).map ClearBeam = arr.map ClearBeam :=
        map_set_same ClearBeam arr i p (fun b hb => by rw [hi] at hb; cases hb; exact hp)
      rw [ih ps (arr.set i p)
        (fun k hk => by rw [List.length_set]; exact hvalid k (List.mem_cons_of_mem i hk))
        (by rw [hps]; exact (derefSlots_clear _ _ hmap rest).symm), hmap]

theorem writeSlots_length : ∀ (slots : List Nat) (result arr : List Position),
    (writeSlots arr slots result).length = arr.length := by
  intro slots
  induction slots with
  | nil =>
    intro result arr
    cases result <;> rfl
  | cons i rest ih =>
    intro result arr
    cases result with
    | nil => rfl
    | cons p ps =>
      show (writeSlots (arr.set i p) rest ps).length = arr.length
      rw [ih, List.length_set]

theorem writeSlots_getElem?_not_mem : ∀ (slots : List Nat) (result arr : List Position) (k : Nat),
    k ∉ slots → (writeSlots arr slots result)[k]? = arr[k]? := by
  intro slots
  induction slots with
  | nil =>
    intro result arr k _
    cases result <;> rfl
  | cons i rest ih =>
    intro result arr k hk
    cases result with
    | nil => rfl
    | cons p ps =>
      show (writeSlots (arr.set i p) rest ps)[k]? = arr[k]?
      rw [ih ps (arr.set i p) k (fun h => hk (List.mem_cons_of_mem i h)),
        getElem?_set_other _ _ _ _ (fun h => hk (by rw [h]; exact List.mem_cons_self k rest))]

/-- C30 (as amended). Bar range of the beaming engine: `CalculateBeamingForBar`
collects the positions of voice 0 whose position index lies in the closed range
from the position of `startBar` to the position of `endBar`, both included; a
call that returns leaves the scalar fields, the other voices and the length of
voice 0 as they were, changes nothing but beaming attributes of any position,
and leaves every position outside the closed range as it was. -/
theorem beaming_bar_range (s : Staff) (fuel : Nat) (startBar endBar : Barline) (s' : Staff)
    (h : s.CalculateBeamingForBar fuel startBar endBar = some (.ok s')) :
    s.GetPositionsInRange 0 startBar.position endBar.position =
      .ok ((slotsInRange (s.positionArrays ⟨0, by decide⟩) startBar.position
        endBar.position).map (fun i => { voice := 0, slot := i })) ∧
    (∀ i, i ∈ slotsInRange (s.positionArrays ⟨0, by decide⟩) startBar.position
        endBar.position ↔
      ∃ p, (s.positionArrays ⟨0, by decide⟩)[i]? = some p ∧
        startBar.position ≤ p.position ∧ p.position ≤ endBar.position) ∧
    s'.m_data = s.m_data ∧
    s'.m_standardNotationStaffAboveSpacing = s.m_standardNotationStaffAboveSpacing ∧
    s'.m_standardNotationStaffBelowSpacing = s.m_standardNotationStaffBelowSpacing ∧
    s'.m_symbolSpacing = s.m_symbolSpacing ∧
    s'.m_tablatureStaffBelowSpacing = s.m_tablatureStaffBelowSpacing ∧
    (∀ v : Fin NUM_STAFF_VOICES, v ≠ ⟨0, by decide⟩ →
      s'.positionArrays v = s.positionArrays v) ∧
    (s'.positionArrays ⟨0, by decide⟩).length = (s.positionArrays ⟨0, by decide⟩).length ∧
    (∀ (i : Nat) (p : Position), (s.positionArrays ⟨0, by decide⟩)[i]? = some p →
      ∃ p', (s'.positionArrays ⟨0, by decide⟩)[i]? = some p' ∧ ClearBeam p' = ClearBeam p ∧
        (¬ (startBar.position ≤ p.position ∧ p.position ≤ endBar.position) → p' = p)) := by
  unfold CalculateBeamingForBar at h
  simp only [] at h
  split at h
  · cases h
  · cases h
  · rename_i result hres
    simp only [Option.some.injEq, Except.ok.injEq] at h
    subst h
    have hclear := barLoop_clear _ _ _ _ _ _ _ _ hres
    have hvalid : ∀ i, i ∈ slotsInRange (s.positionArrays ⟨0, by decide⟩) startBar.position
        endBar.position → i < (s.positionArrays ⟨0, by decide⟩).length := by
      intro i hi
      obtain ⟨p, hp, -⟩ := (mem_slotsInRange _ _ _ i).1 hi
      exact (List.getElem?_eq_some_iff.1 hp).1
    have hmap := writeSlots_clear _ result _ hvalid hclear
    refine ⟨?_, fun i => mem_slotsInRange _ _ _ i, rfl, rfl, rfl, rfl, rfl, ?_, ?_, ?_⟩
    · unfold GetPositionsInRange
      rw [dif_pos (by decide : 0 < NUM_STAFF_VOICES)]
    · intro v hv
      exact setVoiceArray_other _ _ _ _ hv
    · rw [setVoiceArray_same]
      exact writeSlots_length _ _ _
    · intro i p hp
      rw [setVoiceArray_same]
      obtain ⟨q, hq, hqp⟩ := getElem?_of_map_clear _ _ hmap i p hp
      refine ⟨q, hq, hqp, ?_⟩
      intro hout
      have hnot : i ∉ slotsInRange (s.positionArrays ⟨0, by decide⟩) startBar.position
          endBar.position := by
        intro hi
        obtain ⟨p2, hp2, hrange⟩ := (mem_slotsInRange _ _ _ i).1 hi
        rw [hp] at hp2
        cases hp2
        exact hout hrange
      rw [writeSlots_getElem?_not_mem _ _ _ i hnot, hp] at hq
      exact (Option.some.inj hq).symm

/-- Witness of C30: the four eighth notes at position indices 1 to 4 between
the barlines at 0 and 8 are beamed by a call that returns, and voice 0 still
has four positions. -/
theorem beaming_bar_range_witness :
    ∃ s', fourEighthsStaff.CalculateBeamingForBar 8 openingBar closingBar = some (.ok s') ∧
      (s'.positionArrays ⟨0, by decide⟩).length = 4 := by
  have hflags : beamFlags (fourEighthsStaff.CalculateBeamingForBar 8 openingBar closingBar) =
      some [(true, true, false), (true, false, false), (true, false, false),
        (true, false, true)] := by with_unfolding_all decide
  cases hres : fourEighthsStaff.CalculateBeamingForBar 8 openingBar closingBar with
  | none =>
    rw [hres] at hflags
    cases hflags
  | some r =>
    cases r with
    | error e =>
      rw [hres] at hflags
      cases hflags
    | ok s' =>
      exact ⟨s', rfl,
        (beaming_bar_range fourEighthsStaff 8 openingBar closingBar s' hres).2.2.2.2.2.2.2.2.1⟩

/-- Counterexample to C30 as stated: with the end barline at position index 4
the eighth note stored at position index 4 is collected with the three before
it, and it is the one that gets the beam-end flag, which it did not carry. -/
theorem beaming_bar_range_counterexample :
    (fourEighthsStaff.positionArrays ⟨0, by decide⟩)[3]? = some { position := 4 } ∧
    (fourEighthsStaff.GetPositionsInRange 0 openingBar.position 4).toOption =
      some [{ voice := 0, slot := 0 }, { voice := 0, slot := 1 }, { voice := 0, slot := 2 },
        { voice := 0, slot := 3 }] ∧
    beamFlags (fourEighthsStaff.CalculateBeamingForBar 8 openingBar { position := 4 }) =
      some [(true, true, false), (true, false, false), (true, false, false),
        (true, false, true)] := by
  refine ⟨by decide, by decide, by with_unfolding_all decide⟩

/-! ## Insertion followed by removal -/

theorem eq_of_perm_of_strictly_sorted (l1 l2 : List Position) (hperm : l1.Perm l2)
    (h1 : l1.Pairwise (fun a b => a.position < b.position))
    (h2 : l2.Pairwise (fun a b => a.position < b.position)) : l1 = l2 := by
  haveI : IsAntisymm Position (fun a b => a.position < b.position) :=
    ⟨fun _ _ hab hba => absurd hab (Nat.lt_asymm hba)⟩
  exact List.eq_of_perm_of_sorted hperm h1 h2

theorem strictly_sorted_of_sorted_distinct (l : List Position) (hs : SortedByPosition l)
    (hd : DistinctPositions l) : l.Pairwise (fun a b => a.position < b.position) := by
  unfold SortedByPosition at hs
  unfold DistinctPositions at hd
  exact (hs.and hd).imp (fun h => Nat.lt_of_le_of_ne h.1 h.2)

/-- C38. Insert then remove restores the store: when voice `voice` is sorted
with pairwise distinct position indices and holds no position at the index of
`position`, `InsertPosition` followed by `RemovePosition` at that index both
return true and leave every voice vector equal to what it was before the
insertion, after which `GetPositionByPosition` gives `NULL` for the index. -/
theorem insert_remove_restores (s : Staff) (voice : Nat) (h : voice < NUM_STAFF_VOICES)
    (position : Position)
    (hsorted : SortedByPosition (s.positionArrays ⟨voice, h⟩))
    (hdistinct : DistinctPositions (s.positionArrays ⟨voice, h⟩))
    (hfree : ∀ q ∈ s.positionArrays ⟨voice, h⟩, q.position ≠ position.position) :
    (s.InsertPosition voice position).1 = .ok true ∧
    ((s.InsertPosition voice position).2.RemovePosition voice position.position).1 = .ok true ∧
    (∀ v, ((s.InsertPosition voice position).2.RemovePosition voice
      position.position).2.positionArrays v = s.positionArrays v) ∧
    ((s.InsertPosition voice position).2.RemovePosition voice
      position.position).2.GetPositionByPosition voice position.position = .ok none := by
  have hnone := (findSlotByPosition_eq_none _ _).2 hfree
  have heq : s.InsertPosition voice position =
      (.ok true, s.setVoiceArray ⟨voice, h⟩ (stdSort (s.positionArrays ⟨voice, h⟩ ++ [position]))) := by
    unfold InsertPosition
    rw [dif_pos h, hnone]
  have hperm := stdSort_perm (s.positionArrays ⟨voice, h⟩ ++ [position])
  have hsorted1 := stdSort_sorted (s.positionArrays ⟨voice, h⟩ ++ [position])
  have hdistinct1 : DistinctPositions (stdSort (s.positionArrays ⟨voice, h⟩ ++ [position])) := by
    unfold DistinctPositions
    have hsymm : ∀ a b : Position, a.position ≠ b.position → b.position ≠ a.position :=
      fun _ _ hab => Ne.symm hab
    rw [hperm.pairwise_iff (fun {a b} hab => hsymm a b hab), List.pairwise_append]
    refine ⟨hdistinct, by simp, ?_⟩
    intro a ha b hb
    rw [List.mem_singleton] at hb
    subst hb
    exact hfree a ha
  have hstrict1 := strictly_sorted_of_sorted_distinct _ hsorted1 hdistinct1
  have hnodup : (stdSort (s.positionArrays ⟨voice, h⟩ ++ [position])).Nodup := by
    unfold List.Nodup
    exact hdistinct1.imp (fun hne heq => hne (congrArg Position.position heq))
  cases hfind : findSlotByPosition (stdSort (s.positionArrays ⟨voice, h⟩ ++ [position]))
      position.position with
  | none =>
    have := (findSlotByPosition_eq_none _ _).1 hfind position (hperm.symm.subset (by simp))
    exact absurd rfl this
  | some k =>
    obtain ⟨hk, hidx, _⟩ := findSlotByPosition_eq_some _ _ _ hfind
    have hget : (stdSort (s.positionArrays ⟨voice, h⟩ ++ [position]))[k] = position := by
      have hmem := hperm.subset (List.get_mem _ k hk)
      rw [List.mem_append, List.mem_singleton] at hmem
      rcases hmem with hmem | hmem
      · exact absurd hidx (hfree _ hmem)
      · exact hmem
    have herase : (stdSort (s.positionArrays ⟨voice, h⟩ ++ [position])).eraseIdx k =
        s.positionArrays ⟨voice, h⟩ := by
      apply eq_of_perm_of_strictly_sorted
      · rw [← hnodup.erase_getElem k hk, hget]
        have h1 := hperm.erase position
        have h2 : (s.positionArrays ⟨voice, h⟩ ++ [position]).erase position =
            s.positionArrays ⟨voice, h⟩ := by
          rw [List.erase_append_right _ (fun hmem => hfree position hmem rfl)]
          simp
        rw [h2] at h1
        exact h1
      · exact hstrict1.sublist (List.eraseIdx_sublist _ _)
      · exact strictly_sorted_of_sorted_distinct _ hsorted hdistinct
    have hrem : (s.setVoiceArray ⟨voice, h⟩
        (stdSort (s.positionArrays ⟨voice, h⟩ ++ [position]))).RemovePosition voice
          position.position = (.ok true, s) := by
      rw [removePosition_found _ voice h position.position k
        (by rw [setVoiceArray_same]; exact hfind)]
      rw [setVoiceArray_same, setVoiceArray_setVoiceArray, herase, setVoiceArray_self]
    rw [heq]
    simp only []
    rw [hrem]
    refine ⟨trivial, rfl, fun v => rfl, ?_⟩
    unfold GetPositionByPosition
    rw [dif_pos h, hnone]
    rfl

/-- Witness of C38: index 3 is free in voice 0 of the sample staff, which is
sorted with distinct indices; inserting a position there and removing it
again gives back the three positions of the voice. -/
theorem insert_remove_restores_witness :
    ((sampleStaff.InsertPosition 0 { position := 3 }).2.RemovePosition 0 3).2.positionArrays
        ⟨0, by decide⟩ =
      [{ position := 1, notes := [{ string := 2, fretNumber := 3 }] },
       { position := 4, notes := [{ string := 2, fretNumber := 5 }] },
       { position := 9, durationType := 4 }] :=
  (insert_remove_restores sampleStaff 0 (by decide) { position := 3 } (by decide) (by decide)
    (by decide)).2.2.1 ⟨0, by decide⟩

/-! ## Runs of one position -/

/-- C34 (as amended). A run of one position: after `CalculateBeamingForGroup` a
beamable position whose neighbours within the group are both non-beamable or
absent carries both the beam-start and the beam-end flag. -/
theorem single_run_flags (positions : List Position) (i : Nat) (p : Position)
    (hp : positions[i]? = some p) (hb : IsBeamable p = true)
    (hprev : i = 0 ∨ ∃ r, positions[i - 1]? = some r ∧ IsBeamable r = false)
    (hnext : i + 1 = positions.length ∨
      ∃ r, positions[i + 1]? = some r ∧ IsBeamable r = false) :
    ∃ out q, CalculateBeamingForGroup positions = some out ∧ out[i]? = some q ∧
      q.beamStart = true ∧ q.beamEnd = true := by
  obtain ⟨out, hout, hlen, -, -, hpt⟩ := calculateBeamingForGroup_flags positions
  have hi : i < positions.length := (List.getElem?_eq_some_iff.1 hp).1
  have hio : i < out.length := by omega
  obtain ⟨q, hq⟩ : ∃ q, out[i]? = some q := ⟨out[i], List.getElem?_eq_getElem hio⟩
  obtain ⟨-, hflags, -⟩ := hpt i q hq
  obtain ⟨hs, he⟩ := hflags hi
  have hbi : beamableAt positions i = true := by simp [beamableAt, hp, hb]
  refine ⟨out, q, hout, hq, hs.2 ⟨hbi, ?_⟩, he.2 ⟨hbi, ?_⟩⟩
  · rcases hprev with h0 | ⟨r, hr, hrb⟩
    · exact Or.inl h0
    · right
      simp [beamableAt, hr, hrb]
  · rcases hnext with hlast | ⟨r, hr, hrb⟩
    · exact beamableAt_of_length_le positions (i + 1) (by omega)
    · simp [beamableAt, hr, hrb]

/-- Witness of C34: the eighth note after the rest of the sample group is a run
of one position and gets both flags. -/
theorem single_run_flags_witness :
    ∃ out q, CalculateBeamingForGroup sampleGroup = some out ∧ out[3]? = some q ∧
      q.beamStart = true ∧ q.beamEnd = true :=
  single_run_flags sampleGroup 3 {} rfl rfl (Or.inr ⟨{ isRest := true }, rfl, rfl⟩)
    (Or.inl rfl)

/-- Counterexample to C34 as stated: a group of one eighth note is a run of
length one, and after the call the note carries the beam-start and the
beam-end flag. -/
theorem single_run_flags_counterexample :
    IsBeamable {} = true ∧
    CalculateBeamingForGroup [{}] = some [{ beamStart := true, beamEnd := true }] := by
  decide

/-! ## Closed form of the beaming of a run -/

theorem beamStep_pair (start k : Nat) (X : List Position) (prevPos currentPos : Position)
    (hk : k + 1 ≠ start) (hcur : X[k + 1]? = some currentPos) (hprev : X[k]? = some prevPos) :
    beamStep start X (k + 1) =
      (X.set k (stepPrev prevPos currentPos)).set (k + 1) (stepCur prevPos currentPos) := by
  unfold beamStep
  rw [if_neg hk]
  simp only [hcur, Nat.add_sub_cancel, hprev]
  unfold stepPrev stepCur setStub
  rcases Nat.lt_trichotomy currentPos.durationType prevPos.durationType with hlt | heq | hgt
  · have hne : currentPos.durationType ≠ prevPos.durationType := by omega
    have hngt : ¬ currentPos.durationType > prevPos.durationType := by omega
    cases hR : prevPos.fractionalRightBeam <;>
      simp [hlt, hne, hngt, hR]
  · have hngt : ¬ currentPos.durationType > prevPos.durationType := by omega
    have hnlt : ¬ currentPos.durationType < prevPos.durationType := by omega
    simp [heq]
  · have hne : currentPos.durationType ≠ prevPos.durationType := by omega
    have hnlt : ¬ currentPos.durationType < prevPos.durationType := by omega
    simp [hgt, hne, hnlt]

theorem stepPrev_setStub (prev0 cur0 : Position) (A : Bool) (d : Nat) :
    stepPrev (setStub prev0 false A d) cur0 =
      setStub prev0 (decide (cur0.durationType < prev0.durationType) && !A)
        (A && !decide (cur0.durationType = prev0.durationType)) d := by
  unfold stepPrev setStub
  rcases Nat.lt_trichotomy cur0.durationType prev0.durationType with hlt | heq | hgt
  · have hne : cur0.durationType ≠ prev0.durationType := by omega
    cases A <;> simp [hlt, hne]
  · cases A <;> simp [heq]
  · have hne : cur0.durationType ≠ prev0.durationType := by omega
    have hnlt : ¬ cur0.durationType < prev0.durationType := by omega
    cases A <;> simp [hne, hnlt]

theorem stepCur_clear (prevPos cur0 : Position) (hL : cur0.fractionalLeftBeam = false)
    (hR : cur0.fractionalRightBeam = false) :
    stepCur prevPos cur0 =
      setStub cur0 false (decide (cur0.durationType > prevPos.durationType))
        (if cur0.durationType ≠ prevPos.durationType then 8 else prevPos.durationType) := by
  unfold stepCur
  rw [hL, hR, Bool.false_or]

theorem runStep_durationType (ps : List Position) (start n j : Nat) (p : Position) :
    (runStep ps start n j p).durationType = p.durationType := by
  unfold runStep setStub
  split_ifs <;> rfl

theorem durAt_eq (ps : List Position) (j : Nat) (p : Position) (h : ps[j]? = some p) :
    durAt ps j = p.durationType := by
  simp [durAt, h]

theorem runStep_outside (ps : List Position) (start n j : Nat) (p : Position)
    (h : ¬ (start ≤ j ∧ j < start + n)) : runStep ps start n j p = p := by
  unfold runStep
  rw [if_neg h]

theorem runStep_inside (ps : List Position) (start n j : Nat) (p : Position)
    (h : start ≤ j ∧ j < start + n) :
    runStep ps start n j p =
      setStub p
        ((decide (j + 1 < start + n) && decide (durAt ps (j + 1) < durAt ps j)) &&
          !(decide (j ≠ start) && decide (durAt ps j > durAt ps (j - 1))))
        ((decide (j ≠ start) && decide (durAt ps j > durAt ps (j - 1))) &&
          !(decide (j + 1 < start + n) && decide (durAt ps (j + 1) = durAt ps j)))
        (if j = start then 0
          else if durAt ps j ≠ durAt ps (j - 1) then 8 else durAt ps (j - 1)) := by
  unfold runStep
  rw [if_pos h]

theorem setStub_self (p : Position) (hL : p.fractionalLeftBeam = false)
    (hR : p.fractionalRightBeam = false) (d : Nat) :
    { p with previousBeamDurationType := d } = setStub p false false d := by
  cases p
  simp_all [setStub]

theorem beamFold_runStep (ps : List Position) (start : Nat)
    (hclear : ∀ j p, start ≤ j → ps[j]? = some p →
      p.fractionalLeftBeam = false ∧ p.fractionalRightBeam = false) :
    ∀ n, start + n ≤ ps.length → ∀ j : Nat,
      ((List.range' start n).foldl (beamStep start) ps)[j]? =
        (ps[j]?).map (runStep ps start n j) := by
  intro n
  induction n with
  | zero =>
    intro _ j
    cases hp : ps[j]? with
    | none => simp [hp]
    | some p => simp [hp, runStep_outside ps start 0 j p (by omega)]
  | succ m ih =>
    intro hn j
    have ih' := ih (by omega)
    rw [List.range'_concat, List.foldl_append, List.foldl_cons, List.foldl_nil, Nat.one_mul]
    generalize (List.range' start m).foldl (beamStep start) ps = X at ih' ⊢
    cases m with
    | zero =>
      rw [Nat.add_zero]
      unfold beamStep
      rw [if_pos rfl, modifyAt_getElem?, ih' j, ih' start]
      obtain ⟨p0, hp0⟩ : ∃ p, ps[start]? = some p :=
        ⟨ps[start], List.getElem?_eq_getElem (by omega)⟩
      obtain ⟨hL, hR⟩ := hclear start p0 (Nat.le_refl _) hp0
      by_cases hj : j = start
      · subst hj
        rw [if_pos rfl, hp0]
        simp only [Option.map_some']
        rw [runStep_outside ps j 0 j p0 (by omega), setStub_self p0 hL hR,
          runStep_inside ps j 1 j p0 ⟨by omega, by omega⟩]
        simp
      · rw [if_neg hj]
        cases hp : ps[j]? with
        | none => rfl
        | some p =>
          simp only [Option.map_some']
          rw [runStep_outside ps start 0 j p (by omega),
            runStep_outside ps start 1 j p (by omega)]
    | succ m =>
      obtain ⟨cur0, hcur0⟩ : ∃ p, ps[start + m + 1]? = some p :=
        ⟨ps[start + m + 1], List.getElem?_eq_getElem (by omega)⟩
      obtain ⟨prev0, hprev0⟩ : ∃ p, ps[start + m]? = some p :=
        ⟨ps[start + m], List.getElem?_eq_getElem (by omega)⟩
      obtain ⟨hL, hR⟩ := hclear (start + m + 1) cur0 (by omega) hcur0
      have hXcur : X[start + m + 1]? = some cur0 := by
        rw [ih' (start + m + 1), hcur0]
        simp only [Option.map_some']
        rw [runStep_outside ps start (m + 1) _ cur0 (by omega)]
      have hXprev : X[start + m]? = some (runStep ps start (m + 1) (start + m) prev0) := by
        rw [ih' (start + m), hprev0]
        rfl
      have hdcur : durAt ps (start + m + 1) = cur0.durationType := durAt_eq _ _ _ hcur0
      have hdprev : durAt ps (start + m) = prev0.durationType := durAt_eq _ _ _ hprev0
      rw [show start + (m + 1) = start + m + 1 from rfl,
        beamStep_pair start (start + m) X _ cur0 (by omega) hXcur hXprev]
      by_cases hj1 : j = start + m + 1
      · subst hj1
        rw [getElem?_set_same _ _ _ _ (by
          rw [getElem?_set_other _ _ _ _ (by omega)]
          exact hXcur), hcur0]
        simp only [Option.map_some']
        rw [stepCur_clear _ cur0 hL hR, runStep_durationType,
          runStep_inside ps start (m + 1 + 1) _ cur0 ⟨by omega, by omega⟩]
        have h1 : ¬ (start + m + 1 + 1 < start + (m + 1 + 1)) := by omega
        have h2 : start + m + 1 ≠ start := by omega
        simp [h1, h2, hdcur, hdprev]
      · by_cases hj2 : j = start + m
        · subst hj2
          rw [getElem?_set_other _ _ _ _ (by omega), getElem?_set_same _ _ _ _ hXprev, hprev0]
          simp only [Option.map_some']
          rw [runStep_inside ps start (m + 1) _ prev0 ⟨by omega, by omega⟩,
            runStep_inside ps start (m + 1 + 1) _ prev0 ⟨by omega, by omega⟩]
          have h3 : ¬ (start + m + 1 < start + (m + 1)) := by omega
          have h4 : start + m + 1 < start + (m + 1 + 1) := by omega
          rw [decide_eq_false h3, decide_eq_true h4]
          simp only [Bool.false_and, Bool.not_false, Bool.and_true, Bool.true_and]
          rw [stepPrev_setStub, hdcur, hdprev]
        · rw [getElem?_set_other _ _ _ _ (fun h => hj1 h.symm),
            getElem?_set_other _ _ _ _ (fun h => hj2 h.symm), ih' j]
          cases hp : ps[j]? with
          | none => rfl
          | some p =>
            simp only [Option.map_some']
            by_cases hin : start ≤ j ∧ j < start + m
            · rw [runStep_inside ps start (m + 1) _ p ⟨by omega, by omega⟩,
                runStep_inside ps start (m + 1 + 1) _ p ⟨by omega, by omega⟩]
              have h5 : j + 1 < start + (m + 1) := by omega
              have h6 : j + 1 < start + (m + 1 + 1) := by omega
              rw [decide_eq_true h5, decide_eq_true h6]
            · rw [runStep_outside ps start (m + 1) _ p (by omega),
                runStep_outside ps start (m + 1 + 1) _ p (by omega)]

theorem durAt_of_clear (l1 l2 : List Position) (h : l1.map ClearBeam = l2.map ClearBeam)
    (i : Nat) : durAt l1 i = durAt l2 i := by
  have h1 := congrArg (fun l : List Position => (l[i]?).map (fun p => p.durationType)) h
  simp only [List.getElem?_map, Option.map_map] at h1
  unfold durAt
  cases ha : l1[i]? with
  | none =>
    cases hb : l2[i]? with
    | none => rfl
    | some b => simp [ha, hb] at h1
  | some a =>
    cases hb : l2[i]? with
    | none => simp [ha, hb] at h1
    | some b =>
      simp only [ha, hb, Option.map_some', Function.comp_apply, Option.some.injEq] at h1
      exact h1

theorem beamPass_stub (ps : List Position) (e : Nat) (he : e ≤ ps.length)
    (hclear : ∀ j p, e ≤ j → ps[j]? = some p →
      p.fractionalLeftBeam = false ∧ p.fractionalRightBeam = false)
    (j : Nat) (q : Position) (hq : (beamPass ps e).1[j]? = some q) :
    ∃ p, ps[j]? = some p ∧
      q.fractionalLeftBeam =
        (runStep ps (findIf IsBeamable ps e)
          (findIf (fun p => !IsBeamable p) ps (findIf IsBeamable ps e) - findIf IsBeamable ps e)
          j p).fractionalLeftBeam ∧
      q.fractionalRightBeam =
        (runStep ps (findIf IsBeamable ps e)
          (findIf (fun p => !IsBeamable p) ps (findIf IsBeamable ps e) - findIf IsBeamable ps e)
          j p).fractionalRightBeam ∧
      q.previousBeamDurationType =
        (runStep ps (findIf IsBeamable ps e)
          (findIf (fun p => !IsBeamable p) ps (findIf IsBeamable ps e) - findIf IsBeamable ps e)
          j p).previousBeamDurationType := by
  obtain ⟨hs1, hs2, -, -⟩ := findIf_spec IsBeamable ps e he
  obtain ⟨ht1, ht2, -, -⟩ := findIf_spec (fun p => !IsBeamable p) ps (findIf IsBeamable ps e) hs2
  have hfold := beamFold_runStep ps (findIf IsBeamable ps e)
    (fun j p hj hp => hclear j p (by omega) hp)
    (findIf (fun p => !IsBeamable p) ps (findIf IsBeamable ps e) - findIf IsBeamable ps e)
    (by omega) j
  unfold beamPass at hq
  simp only [] at hq
  generalize (List.range' (findIf IsBeamable ps e)
      (findIf (fun p => !IsBeamable p) ps (findIf IsBeamable ps e) -
        findIf IsBeamable ps e)).foldl (beamStep (findIf IsBeamable ps e)) ps = processed
    at hq hfold
  generalize findIf (fun p => !IsBeamable p) ps (findIf IsBeamable ps e) = stop at *
  generalize findIf IsBeamable ps e = start at *
  cases hp : ps[j]? with
  | none =>
    rw [hp] at hfold
    simp only [Option.map_none'] at hfold
    split_ifs at hq
    · rw [modifyAt_getElem?_map, modifyAt_getElem?_map, hfold] at hq
      cases hq
    · rw [hfold] at hq
      cases hq
  | some p =>
    rw [hp] at hfold
    simp only [Option.map_some'] at hfold
    refine ⟨p, rfl, ?_⟩
    split_ifs at hq
    · rw [modifyAt_getElem?_map, modifyAt_getElem?_map, hfold] at hq
      simp only [Option.map_some', Option.some.injEq] at hq
      subst hq
      split_ifs <;> exact ⟨rfl, rfl, rfl⟩
    · rw [hfold] at hq
      cases hq
      exact ⟨rfl, rfl, rfl⟩

theorem beamPass_bounds (orig cur : List Position) (e : Nat) (hinv : BeamInv orig cur e) :
    e ≤ findIf IsBeamable cur e ∧
    findIf IsBeamable cur e ≤ findIf (fun p => !IsBeamable p) cur (findIf IsBeamable cur e) ∧
    findIf (fun p => !IsBeamable p) cur (findIf IsBeamable cur e) ≤ orig.length ∧
    (∀ i, e ≤ i → i < findIf IsBeamable cur e → beamableAt orig i = false) ∧
    (∀ i, findIf IsBeamable cur e ≤ i →
      i < findIf (fun p => !IsBeamable p) cur (findIf IsBeamable cur e) →
      beamableAt orig i = true) ∧
    beamableAt orig (findIf (fun p => !IsBeamable p) cur (findIf IsBeamable cur e)) = false ∧
    (findIf IsBeamable cur e < findIf (fun p => !IsBeamable p) cur (findIf IsBeamable cur e) →
      findIf IsBeamable cur e = 0 ∨ beamableAt orig (findIf IsBeamable cur e - 1) = false) := by
  obtain ⟨hlen, he, hbound, hpt⟩ := hinv
  obtain ⟨hs1, hs2, hs3, hs4⟩ := findIf_spec IsBeamable cur e (by omega)
  obtain ⟨ht1, ht2, ht3, ht4⟩ := findIf_spec (fun p => !IsBeamable p) cur
    (findIf IsBeamable cur e) hs2
  generalize findIf (fun p => !IsBeamable p) cur (findIf IsBeamable cur e) = stop at *
  generalize findIf IsBeamable cur e = start at *
  have hget : ∀ i, i < orig.length → ∃ p, cur[i]? = some p ∧ IsBeamable p = beamableAt orig i := by
    intro i hi
    have hlt : i < cur.length := by omega
    exact ⟨cur[i], List.getElem?_eq_getElem hlt, (hpt i _ (List.getElem?_eq_getElem hlt)).1⟩
  have F1 : ∀ i, e ≤ i → i < start → beamableAt orig i = false := by
    intro i h1 h2
    obtain ⟨p, hp, hb⟩ := hget i (by omega)
    rw [← hb]
    exact hs3 i p h1 h2 hp
  have F3 : ∀ i, start ≤ i → i < stop → beamableAt orig i = true := by
    intro i h1 h2
    obtain ⟨p, hp, hb⟩ := hget i (by omega)
    rw [← hb]
    have := ht3 i p h1 h2 hp
    simpa using this
  have F4 : beamableAt orig stop = false := by
    by_cases h : stop < orig.length
    · obtain ⟨p, hp, hb⟩ := hget stop h
      rw [← hb]
      have := ht4 p hp
      simpa using this
    · exact beamableAt_of_length_le orig stop (by omega)
  refine ⟨hs1, ht1, by omega, F1, F3, F4, ?_⟩
  intro hlt
  rcases Nat.lt_or_ge e start with h3 | h3
  · right
    exact F1 (start - 1) (by omega) (by omega)
  · have hes : e = start := by omega
    rcases hbound with h0 | h0
    · left
      omega
    · rw [hes, F3 start (Nat.le_refl _) hlt] at h0
      cases h0

theorem beamPass_stubInv (orig cur : List Position) (e : Nat) (hinv : BeamInv orig cur e)
    (hstub : StubInv orig cur e) :
    StubInv orig (beamPass cur e).1 (beamPass cur e).2.2 := by
  obtain ⟨hb1, hb2, hb3, F1, F3, F4, F5⟩ := beamPass_bounds orig cur e hinv
  obtain ⟨hclearMap, hpt⟩ := hstub
  have hdur : ∀ i, durAt cur i = durAt orig i := durAt_of_clear cur orig hclearMap
  have hlen : cur.length = orig.length := hinv.1
  have hpass := beamPass_stub cur e (by rw [hlen]; exact hinv.2.1)
    (fun j p hj hp => ⟨((hpt j p hp).1 hj).1, ((hpt j p hp).1 hj).2.1⟩)
  rw [(beamPass_iterators cur e).2]
  generalize findIf (fun p => !IsBeamable p) cur (findIf IsBeamable cur e) = stop at *
  generalize findIf IsBeamable cur e = start at *
  refine ⟨by rw [beamPass_clear]; exact hclearMap, ?_⟩
  intro j q hq
  obtain ⟨p, hp, hL, hR, hD⟩ := hpass j q hq
  obtain ⟨hpge, hplt⟩ := hpt j p hp
  rw [hL, hR, hD]
  constructor
  · intro hj
    rw [runStep_outside cur start (stop - start) j p (by omega)]
    exact hpge (by omega)
  · intro hj
    rcases Nat.lt_or_ge j start with h1 | h1
    · rw [runStep_outside cur start (stop - start) j p (by omega)]
      rcases Nat.lt_or_ge j e with h2 | h2
      · exact hplt h2
      · obtain ⟨h3, h4, h5⟩ := hpge h2
        have hbj := F1 j h2 h1
        rw [h3, h4, h5]
        simp [expectedLeft, expectedRight, expectedPrevDuration, linkedToPrev, linkedToNext, hbj]
    · rw [runStep_inside cur start (stop - start) j p ⟨h1, by omega⟩]
      have hbj := F3 j h1 hj
      have hnext : decide (j + 1 < start + (stop - start)) = linkedToNext orig j := by
        unfold linkedToNext
        rw [hbj, Bool.true_and]
        rcases Nat.lt_or_ge (j + 1) stop with h2 | h2
        · rw [F3 (j + 1) (by omega) h2]
          exact decide_eq_true (by omega)
        · have hjs : j + 1 = stop := by omega
          rw [hjs, F4]
          exact decide_eq_false (by omega)
      have hprev : decide (j ≠ start) = linkedToPrev orig j := by
        unfold linkedToPrev
        rw [hbj, Bool.true_and]
        rcases Nat.lt_or_ge start j with h2 | h2
        · rw [F3 (j - 1) (by omega) (by omega)]
          simp only [Bool.and_true]
          rw [decide_eq_true (by omega : j ≠ start), decide_eq_true (by omega : j ≠ 0)]
        · have hjs : j = start := by omega
          rw [hjs]
          rcases F5 (by omega) with h0 | h0
          · simp [h0]
          · simp [h0]
      rw [hnext, hprev, hdur j, hdur (j + 1), hdur (j - 1)]
      refine ⟨rfl, rfl, ?_⟩
      unfold expectedPrevDuration setStub
      simp only []
      by_cases hjs : j = start
      · rw [if_pos hjs]
        have hl : linkedToPrev orig j = false := by
          rw [← hprev]
          exact decide_eq_false (by omega)
        rw [hl]
        rfl
      · rw [if_neg hjs]
        have hl : linkedToPrev orig j = true := by
          rw [← hprev]
          exact decide_eq_true hjs
        rw [hl, if_pos rfl]

theorem beamLoop_stubs (orig : List Position) :
    ∀ (fuel : Nat) (cur : List Position) (start e : Nat), BeamInv orig cur e →
      StubInv orig cur e →
      (start = cur.length → e = orig.length) →
      (start ≠ cur.length → orig.length - e + 1 ≤ fuel) →
      ∃ out, beamLoop fuel cur start e = some out ∧ BeamInv orig out orig.length ∧
        StubInv orig out orig.length := by
  intro fuel
  induction fuel with
  | zero =>
    intro cur start e hinv hstub hexit hfuel
    by_cases hstart : start ≠ cur.length
    · have := hfuel hstart
      omega
    · refine ⟨cur, by simp [beamLoop, hstart], ?_, ?_⟩
      · rw [← hexit (by omega)]
        exact hinv
      · rw [← hexit (by omega)]
        exact hstub
  | succ fuel ih =>
    intro cur start e hinv hstub hexit hfuel
    by_cases hstart : start ≠ cur.length
    · obtain ⟨hinv1, hexit1, hprog⟩ := beamPass_inv orig cur e hinv
      have hstub1 := beamPass_stubInv orig cur e hinv hstub
      have hlen1 : (beamPass cur e).1.length = orig.length := hinv1.1
      have hle1 : (beamPass cur e).2.2 ≤ orig.length := hinv1.2.1
      obtain ⟨out, hout, hfinal⟩ := ih (beamPass cur e).1 (beamPass cur e).2.1
        (beamPass cur e).2.2 hinv1 hstub1 (by rw [hlen1]; exact hexit1)
        (by
          rw [hlen1]
          intro h
          have h1 := hprog h
          have h2 := hfuel hstart
          omega)
      refine ⟨out, ?_, hfinal⟩
      simp only [beamLoop, hstart, ne_eq, not_false_eq_true, if_true]
      exact hout
    · refine ⟨cur, by simp [beamLoop, hstart], ?_, ?_⟩
      · rw [← hexit (by omega)]
        exact hinv
      · rw [← hexit (by omega)]
        exact hstub

theorem calculateBeamingForGroup_stubs (positions : List Position) :
    ∃ out, CalculateBeamingForGroup positions = some out ∧
      BeamInv positions out positions.length ∧ StubInv positions out positions.length := by
  unfold CalculateBeamingForGroup
  apply beamLoop_stubs positions
  · refine ⟨by simp, Nat.zero_le _, Or.inl rfl, ?_⟩
    intro i q hq
    rw [List.getElem?_map] at hq
    cases hp : positions[i]? with
    | none => rw [hp] at hq; simp at hq
    | some p =>
      rw [hp] at hq
      simp only [Option.map_some', Option.some.injEq] at hq
      subst hq
      refine ⟨?_, fun h => absurd h (Nat.not_lt_zero _), fun _ => ⟨rfl, rfl⟩⟩
      simp [beamableAt, hp, IsBeamable, ClearBeam]
  · refine ⟨?_, ?_⟩
    · rw [List.map_map]
      apply List.map_congr_left
      intro p _
      rfl
    · intro i q hq
      rw [List.getElem?_map] at hq
      cases hp : positions[i]? with
      | none => rw [hp] at hq; simp at hq
      | some p =>
        rw [hp] at hq
        simp only [Option.map_some', Option.some.injEq] at hq
        subst hq
        exact ⟨fun _ => ⟨rfl, rfl, rfl⟩, fun h => absurd h (Nat.not_lt_zero _)⟩
  · intro h
    simp only [List.length_map] at h
    omega
  · intro _
    omega

/-- C37. No position carries both stubs: `CalculateBeamingForGroup` returns for
every group, whatever beaming attributes its positions carried, and afterwards
no position of the group has both its fractional left beam and its fractional
right beam set. -/
theorem no_double_stub (positions : List Position) :
    ∃ out, CalculateBeamingForGroup positions = some out ∧
      out.length = positions.length ∧
      ∀ (i : Nat) (q : Position), out[i]? = some q →
        ¬ (q.fractionalLeftBeam = true ∧ q.fractionalRightBeam = true) := by
  obtain ⟨out, hout, hinv, -, hpt⟩ := calculateBeamingForGroup_stubs positions
  refine ⟨out, hout, hinv.1, ?_⟩
  intro i q hq
  have hi : i < positions.length := by
    rw [← hinv.1]
    exact (List.getElem?_eq_some_iff.1 hq).1
  obtain ⟨hL, hR, -⟩ := (hpt i q hq).2 hi
  rw [hL, hR]
  unfold expectedLeft expectedRight
  cases linkedToPrev positions i && decide (durAt positions i > durAt positions (i - 1)) <;>
    simp

/-! ## The windows of the bar loop -/

theorem barLoop_eq_windows (beamGroupPatterns : List Nat) (durations : List ℚ) :
    ∀ (fuel : Nat) (positions : List Position) (pattern : Nat) (groupBeginTime : ℚ)
      (groupEnd : Nat),
      barLoop beamGroupPatterns durations fuel positions pattern groupBeginTime groupEnd =
        match barWindows beamGroupPatterns durations fuel pattern groupBeginTime groupEnd with
        | none => none
        | some (.error e) => some (.error e)
        | some (.ok ws) => (beamWindows positions ws).map Except.ok := by
  intro fuel
  induction fuel with
  | zero =>
    intro positions pattern groupBeginTime groupEnd
    unfold barLoop barWindows
    by_cases hne : groupEnd ≠ durations.length
    · rw [if_pos hne, if_pos hne]
    · rw [if_neg hne, if_neg hne]
      rfl
  | succ fuel ih =>
    intro positions pattern groupBeginTime groupEnd
    unfold barLoop barWindows
    by_cases hne : groupEnd ≠ durations.length
    · rw [if_pos hne, if_pos hne]
      cases hpat : beamGroupPatterns[pattern]? with
      | none => rfl
      | some entry =>
        simp only []
        obtain ⟨out, hout, -⟩ := calculateBeamingForGroup_flags
          ((positions.drop (lowerBound durations groupEnd groupBeginTime)).take
            (upperBound durations (lowerBound durations groupEnd groupBeginTime)
              ((entry : ℚ) * (1 / 2) + groupBeginTime) -
              lowerBound durations groupEnd groupBeginTime))
        rw [hout]
        simp only []
        rw [ih]
        cases hw : barWindows beamGroupPatterns durations fuel
            (if pattern + 1 = beamGroupPatterns.length then 0 else pattern + 1)
            ((entry : ℚ) * (1 / 2) + groupBeginTime)
            (upperBound durations (lowerBound durations groupEnd groupBeginTime)
              ((entry : ℚ) * (1 / 2) + groupBeginTime)) with
        | none => rfl
        | some r =>
          cases r with
          | error e => rfl
          | ok ws =>
            simp only []
            show _ = Option.map Except.ok (beamWindows positions (_ :: ws))
            rw [beamWindows]
            simp only []
            rw [hout]
    · rw [if_neg hne, if_neg hne]
      rfl

theorem calculateBeamingForBar_eq_windows (s : Staff) (fuel : Nat) (startBar endBar : Barline) :
    s.CalculateBeamingForBar fuel startBar endBar =
      match CalculateBeamingForBar_windows s fuel startBar endBar with
      | none => none
      | some (.error e) => some (.error e)
      | some (.ok ws) =>
        (beamWindows (collectedPositions s startBar endBar) ws).map (fun result =>
          .ok (s.setVoiceArray ⟨0, by decide⟩
            (writeSlots (s.positionArrays ⟨0, by decide⟩)
              (slotsInRange (s.positionArrays ⟨0, by decide⟩) startBar.position
                endBar.position) result))) := by
  have h : s.CalculateBeamingForBar fuel startBar endBar =
      match barLoop (beamGroupPatternsOf startBar.timeSignature)
        (collectedTimestamps s startBar endBar) fuel (collectedPositions s startBar endBar)
        0 0 0 with
      | none => none
      | some (Except.error e) => some (Except.error e)
      | some (Except.ok result) =>
        some (Except.ok (s.setVoiceArray ⟨0, by decide⟩
          (writeSlots (s.positionArrays ⟨0, by decide⟩)
            (slotsInRange (s.positionArrays ⟨0, by decide⟩) startBar.position
              endBar.position) result))) := rfl
  rw [h, barLoop_eq_windows]
  unfold CalculateBeamingForBar_windows
  cases barWindows (beamGroupPatternsOf startBar.timeSignature)
      (collectedTimestamps s startBar endBar) fuel 0 0 0 with
  | none => rfl
  | some r =>
    cases r with
    | error e => rfl
    | ok ws =>
      simp only []
      cases beamWindows (collectedPositions s startBar endBar) ws with
      | none => rfl
      | some result => rfl

theorem barWindows_windowsFrom (beamGroupPatterns : List Nat) (durations : List ℚ) :
    ∀ (fuel pattern : Nat) (groupBeginTime : ℚ) (groupEnd : Nat) (ws : List BeamWindow),
      barWindows beamGroupPatterns durations fuel pattern groupBeginTime groupEnd = some (.ok ws) →
      WindowsFrom beamGroupPatterns durations pattern groupBeginTime groupEnd ws := by
  intro fuel
  induction fuel with
  | zero =>
    intro pattern groupBeginTime groupEnd ws h
    unfold barWindows at h
    by_cases hne : groupEnd ≠ durations.length
    · rw [if_pos hne] at h
      cases h
    · rw [if_neg hne] at h
      cases h
      exact not_not.1 hne
  | succ fuel ih =>
    intro pattern groupBeginTime groupEnd ws h
    unfold barWindows at h
    by_cases hne : groupEnd ≠ durations.length
    · rw [if_pos hne] at h
      cases hpat : beamGroupPatterns[pattern]? with
      | none =>
        rw [hpat] at h
        cases h
      | some entry =>
        rw [hpat] at h
        simp only [] at h
        cases hw : barWindows beamGroupPatterns durations fuel
            (if pattern + 1 = beamGroupPatterns.length then 0 else pattern + 1)
            ((entry : ℚ) * (1 / 2) + groupBeginTime)
            (upperBound durations (lowerBound durations groupEnd groupBeginTime)
              ((entry : ℚ) * (1 / 2) + groupBeginTime)) with
        | none =>
          rw [hw] at h
          cases h
        | some r =>
          rw [hw] at h
          cases r with
          | error e => cases h
          | ok ws1 =>
            simp only [Option.some.injEq, Except.ok.injEq] at h
            subst h
            exact ⟨hne, rfl, ⟨entry, hpat, rfl⟩, rfl, rfl, ih _ _ _ _ hw⟩
    · rw [if_neg hne] at h
      cases h
      exact not_not.1 hne

theorem findIdx_at {α : Type} (p : α → Bool) (xs : List α) (h : xs.findIdx p < xs.length) :
    ∃ x, xs[xs.findIdx p]? = some x ∧ p x = true :=
  ⟨xs[xs.findIdx p], List.getElem?_eq_getElem h, List.findIdx_getElem⟩

theorem findIdx_before {α : Type} (p : α → Bool) (xs : List α) (i : Nat) (x : α)
    (h : i < xs.findIdx p) (hx : xs[i]? = some x) : p x = false := by
  have hi : i < xs.length := Nat.lt_of_lt_of_le h (List.findIdx_le_length p)
  have hnot := List.not_of_lt_findIdx h
  rw [List.getElem?_eq_getElem hi] at hx
  cases hx
  exact hnot

theorem upperBound_ge (durations : List ℚ) (first : Nat) (value : ℚ) :
    first ≤ upperBound durations first value :=
  Nat.le_add_right _ _

theorem upperBound_le (durations : List ℚ) (first : Nat) (value : ℚ)
    (h : first ≤ durations.length) : upperBound durations first value ≤ durations.length := by
  unfold upperBound
  have hle : (durations.drop first).findIdx (fun d => decide (value < d)) ≤
      (durations.drop first).length := List.findIdx_le_length _
  rw [List.length_drop] at hle
  omega

theorem upperBound_at (durations : List ℚ) (first : Nat) (value : ℚ)
    (h : first ≤ durations.length) (hne : upperBound durations first value ≠ durations.length) :
    ∃ t, durations[upperBound durations first value]? = some t ∧ value < t := by
  have hle := upperBound_le durations first value h
  unfold upperBound at hne hle ⊢
  have hlt : (durations.drop first).findIdx (fun d => decide (value < d)) <
      (durations.drop first).length := by
    rw [List.length_drop]
    omega
  obtain ⟨t, ht, hp⟩ := findIdx_at _ _ hlt
  rw [List.getElem?_drop] at ht
  exact ⟨t, ht, of_decide_eq_true hp⟩

theorem upperBound_before (durations : List ℚ) (first : Nat) (value : ℚ) (i : Nat) (t : ℚ)
    (h1 : first ≤ i) (h2 : i < upperBound durations first value)
    (ht : durations[i]? = some t) : t ≤ value := by
  unfold upperBound at h2
  have hlt : i - first < (durations.drop first).findIdx (fun d => decide (value < d)) := by
    omega
  have hx : (durations.drop first)[i - first]? = some t := by
    rw [List.getElem?_drop, Nat.add_sub_cancel' h1]
    exact ht
  have hp := findIdx_before _ _ _ _ hlt hx
  exact not_lt.1 (of_decide_eq_false hp)

theorem lowerBound_self (durations : List ℚ) (first : Nat) (value t : ℚ)
    (ht : durations[first]? = some t) (h : value ≤ t) :
    lowerBound durations first value = first := by
  unfold lowerBound
  have hlt : first < durations.length := (List.getElem?_eq_some_iff.1 ht).1
  have hx : durations[first] = t := (List.getElem?_eq_some_iff.1 ht).2
  rw [List.drop_eq_getElem_cons hlt, List.findIdx_cons, hx,
    decide_eq_false (not_lt.2 h)]
  rfl

theorem sorted_getElem? (durations : List ℚ) (hs : durations.Pairwise (fun a b => a ≤ b))
    (i j : Nat) (a b : ℚ) (hij : i ≤ j) (ha : durations[i]? = some a)
    (hb : durations[j]? = some b) : a ≤ b := by
  obtain ⟨hi, hai⟩ := List.getElem?_eq_some_iff.1 ha
  obtain ⟨hj, hbj⟩ := List.getElem?_eq_some_iff.1 hb
  rcases Nat.lt_or_ge i j with hlt | hge
  · have := List.pairwise_iff_getElem.1 hs i j hi hj hlt
    rw [hai, hbj] at this
    exact this
  · have heq : i = j := by omega
    subst heq
    rw [ha] at hb
    cases hb
    exact le_refl _

theorem windowsFrom_chain (beamGroupPatterns : List Nat) (durations : List ℚ) :
    ∀ (ws : List BeamWindow) (pattern : Nat) (groupBeginTime : ℚ) (groupEnd : Nat),
      WindowsFrom beamGroupPatterns durations pattern groupBeginTime groupEnd ws →
      groupEnd ≤ durations.length →
      (∀ t, durations[groupEnd]? = some t → groupBeginTime ≤ t) →
      ChainFrom durations.length groupEnd ws := by
  intro ws
  induction ws with
  | nil =>
    intro pattern groupBeginTime groupEnd h _ _
    exact h
  | cons w ws ih =>
    intro pattern groupBeginTime groupEnd h hle hhead
    obtain ⟨hne, -, ⟨entry, -, -⟩, hgs, hge, hrest⟩ := h
    have hlt : groupEnd < durations.length := by omega
    have hstart : w.groupStart = groupEnd := by
      rw [hgs]
      exact lowerBound_self durations groupEnd groupBeginTime durations[groupEnd]
        (List.getElem?_eq_getElem hlt) (hhead _ (List.getElem?_eq_getElem hlt))
    have hle1 : w.groupStart ≤ durations.length := by omega
    have hend : w.groupEnd ≤ durations.length := by
      rw [hge]
      exact upperBound_le durations w.groupStart w.groupEndTime hle1
    refine ⟨hstart, ?_, hend, ih _ _ _ hrest hend ?_⟩
    · rw [hge]
      exact upperBound_ge durations w.groupStart w.groupEndTime
    · intro t ht
      have hne1 : w.groupEnd ≠ durations.length := by
        intro heq
        rw [heq, List.getElem?_eq_none (Nat.le_refl _)] at ht
        cases ht
      have hne2 : upperBound durations w.groupStart w.groupEndTime ≠ durations.length := by
        rw [← hge]
        exact hne1
      obtain ⟨t1, ht1, hlt1⟩ := upperBound_at durations w.groupStart w.groupEndTime hle1 hne2
      rw [← hge, ht] at ht1
      cases ht1
      exact le_of_lt hlt1

theorem windowsFrom_times (beamGroupPatterns : List Nat) (durations : List ℚ) :
    ∀ (ws : List BeamWindow) (pattern : Nat) (groupBeginTime : ℚ) (groupEnd : Nat),
      WindowsFrom beamGroupPatterns durations pattern groupBeginTime groupEnd ws →
      pattern < beamGroupPatterns.length →
      ∀ (k : Nat) (w : BeamWindow), ws[k]? = some w →
        (∃ entry, beamGroupPatterns[(pattern + k) % beamGroupPatterns.length]? = some entry ∧
          w.groupEndTime = (entry : ℚ) * (1 / 2) + w.groupBeginTime) ∧
        (k = 0 → w.groupBeginTime = groupBeginTime) ∧
        (∀ w1 : BeamWindow, ws[k + 1]? = some w1 → w1.groupBeginTime = w.groupEndTime) := by
  intro ws
  induction ws with
  | nil =>
    intro pattern groupBeginTime groupEnd _ _ k w hk
    simp at hk
  | cons w0 ws ih =>
    intro pattern groupBeginTime groupEnd h hpat k w hk
    obtain ⟨-, hb, ⟨entry, hentry, he⟩, -, -, hrest⟩ := h
    have hnext : (if pattern + 1 = beamGroupPatterns.length then 0 else pattern + 1) <
        beamGroupPatterns.length := by
      by_cases hp : pattern + 1 = beamGroupPatterns.length
      · rw [if_pos hp]
        omega
      · rw [if_neg hp]
        omega
    cases k with
    | zero =>
      simp only [List.getElem?_cons_zero, Option.some.injEq] at hk
      subst hk
      refine ⟨⟨entry, ?_, ?_⟩, fun _ => hb, ?_⟩
      · rw [Nat.add_zero, Nat.mod_eq_of_lt hpat]
        exact hentry
      · rw [he, hb]
      · intro w1 hw1
        simp only [List.getElem?_cons_succ] at hw1
        exact ((ih _ _ _ hrest hnext 0 w1 hw1).2.1 rfl)
    | succ k =>
      simp only [List.getElem?_cons_succ] at hk
      obtain ⟨⟨entry1, hentry1, he1⟩, -, hn1⟩ := ih _ _ _ hrest hnext k w hk
      refine ⟨⟨entry1, ?_, he1⟩, fun h0 => absurd h0 (Nat.succ_ne_zero k), ?_⟩
      · have hidx : (pattern + (k + 1)) % beamGroupPatterns.length =
            ((if pattern + 1 = beamGroupPatterns.length then 0 else pattern + 1) + k) %
              beamGroupPatterns.length := by
          by_cases hp : pattern + 1 = beamGroupPatterns.length
          · rw [if_pos hp]
            have : pattern + (k + 1) = beamGroupPatterns.length + k := by omega
            rw [this, Nat.add_mod_left, Nat.zero_add]
          · rw [if_neg hp]
            have : pattern + (k + 1) = pattern + 1 + k := by omega
            rw [this]
        rw [hidx]
        exact hentry1
      · intro w1 hw1
        simp only [List.getElem?_cons_succ] at hw1
        exact hn1 w1 hw1

theorem windowsFrom_member (beamGroupPatterns : List Nat) (durations : List ℚ)
    (hs : durations.Pairwise (fun a b => a ≤ b)) :
    ∀ (ws : List BeamWindow) (pattern : Nat) (groupBeginTime : ℚ) (groupEnd : Nat),
      WindowsFrom beamGroupPatterns durations pattern groupBeginTime groupEnd ws →
      groupEnd ≤ durations.length →
      (∀ (i : Nat) (t : ℚ), durations[i]? = some t → (i < groupEnd ↔ t ≤ groupBeginTime)) →
      ∀ w ∈ ws, ∀ (i : Nat) (t : ℚ), durations[i]? = some t →
        ((w.groupStart ≤ i ∧ i < w.groupEnd) ↔ (w.groupBeginTime < t ∧ t ≤ w.groupEndTime)) := by
  intro ws
  induction ws with
  | nil =>
    intro pattern groupBeginTime groupEnd _ _ _ w hw
    cases hw
  | cons w0 ws ih =>
    intro pattern groupBeginTime groupEnd h hle hhead w hw
    obtain ⟨hne, hb, ⟨entry, -, he⟩, hgs, hge, hrest⟩ := h
    have hlt : groupEnd < durations.length := by omega
    have hgt0 : groupBeginTime < durations[groupEnd] := by
      have := (hhead groupEnd _ (List.getElem?_eq_getElem hlt)).not
      exact not_le.1 (this.1 (Nat.lt_irrefl _))
    have hstart : w0.groupStart = groupEnd := by
      rw [hgs]
      exact lowerBound_self durations groupEnd groupBeginTime durations[groupEnd]
        (List.getElem?_eq_getElem hlt) (le_of_lt hgt0)
    have hle1 : w0.groupStart ≤ durations.length := by omega
    have hend : w0.groupEnd ≤ durations.length := by
      rw [hge]
      exact upperBound_le durations w0.groupStart w0.groupEndTime hle1
    have hbe : groupBeginTime ≤ w0.groupEndTime := by
      rw [he]
      have h0 : (0 : ℚ) ≤ (entry : ℚ) := Nat.cast_nonneg entry
      linarith
    have hbefore : ∀ (i : Nat) (t : ℚ), durations[i]? = some t → groupEnd ≤ i →
        i < w0.groupEnd → t ≤ w0.groupEndTime := by
      intro i t ht h1 h2
      rw [hge] at h2
      exact upperBound_before durations w0.groupStart w0.groupEndTime i t (by omega) h2 ht
    have hafter : ∀ (i : Nat) (t : ℚ), durations[i]? = some t → t ≤ w0.groupEndTime →
        i < w0.groupEnd := by
      intro i t ht hte
      by_contra hcon
      have hi : i < durations.length := (List.getElem?_eq_some_iff.1 ht).1
      have hne2 : upperBound durations w0.groupStart w0.groupEndTime ≠ durations.length := by
        rw [← hge]
        omega
      obtain ⟨t1, ht1, hlt1⟩ := upperBound_at durations w0.groupStart w0.groupEndTime hle1 hne2
      rw [← hge] at ht1
      have := sorted_getElem? durations hs w0.groupEnd i t1 t (by omega) ht1 ht
      linarith
    rcases List.mem_cons.1 hw with rfl | hw
    · intro i t ht
      rw [hstart, hb]
      constructor
      · rintro ⟨h1, h2⟩
        refine ⟨?_, hbefore i t ht h1 h2⟩
        have := (hhead i t ht).not
        exact not_le.1 (this.1 (by omega))
      · rintro ⟨h1, h2⟩
        refine ⟨?_, hafter i t ht h2⟩
        have := (hhead i t ht).not
        exact Nat.le_of_not_lt (this.2 (not_le.2 h1))
    · refine ih _ _ _ hrest hend ?_ w hw
      intro i t ht
      constructor
      · intro h1
        rcases Nat.lt_or_ge i groupEnd with h2 | h2
        · exact le_trans ((hhead i t ht).1 h2) hbe
        · exact hbefore i t ht h2 h1
      · exact hafter i t ht

theorem barWindows_terminates (beamGroupPatterns : List Nat) (durations : List ℚ) (M : ℚ)
    (hpos : ∀ x ∈ beamGroupPatterns, x ≠ 0) (hM : ∀ t ∈ durations, t ≤ M) :
    ∀ (fuel pattern : Nat) (groupBeginTime : ℚ) (groupEnd : Nat),
      pattern < beamGroupPatterns.length → groupEnd ≤ durations.length →
      (groupEnd ≠ durations.length → groupBeginTime ≤ M) →
      (M - groupBeginTime) * 2 + 1 ≤ (fuel : ℚ) →
      ∃ ws, barWindows beamGroupPatterns durations fuel pattern groupBeginTime groupEnd =
        some (.ok ws) := by
  intro fuel
  induction fuel with
  | zero =>
    intro pattern groupBeginTime groupEnd _ _ hinv hfuel
    unfold barWindows
    have heq : ¬ groupEnd ≠ durations.length := by
      intro hne
      have := hinv hne
      simp only [Nat.cast_zero] at hfuel
      linarith
    rw [if_neg heq]
    exact ⟨[], rfl⟩
  | succ fuel ih =>
    intro pattern groupBeginTime groupEnd hpat hle hinv hfuel
    unfold barWindows
    by_cases hne : groupEnd ≠ durations.length
    · rw [if_pos hne]
      have hentry : beamGroupPatterns[pattern]? = some beamGroupPatterns[pattern] :=
        List.getElem?_eq_getElem hpat
      rw [hentry]
      simp only []
      have hge1 : (1 : ℚ) ≤ (beamGroupPatterns[pattern] : ℚ) := by
        have hne0 := hpos _ (List.getElem_mem hpat)
        exact_mod_cast Nat.one_le_iff_ne_zero.2 hne0
      have hnext : (if pattern + 1 = beamGroupPatterns.length then 0 else pattern + 1) <
          beamGroupPatterns.length := by
        by_cases hp : pattern + 1 = beamGroupPatterns.length
        · rw [if_pos hp]
          omega
        · rw [if_neg hp]
          omega
      have hlow : lowerBound durations groupEnd groupBeginTime ≤ durations.length := by
        unfold lowerBound
        have hl : (durations.drop groupEnd).findIdx (fun d => !decide (d < groupBeginTime)) ≤
            (durations.drop groupEnd).length := List.findIdx_le_length _
        rw [List.length_drop] at hl
        omega
      obtain ⟨ws, hws⟩ := ih
        (if pattern + 1 = beamGroupPatterns.length then 0 else pattern + 1)
        ((beamGroupPatterns[pattern] : ℚ) * (1 / 2) + groupBeginTime)
        (upperBound durations (lowerBound durations groupEnd groupBeginTime)
          ((beamGroupPatterns[pattern] : ℚ) * (1 / 2) + groupBeginTime))
        hnext (upperBound_le _ _ _ hlow)
        (fun hne1 => by
          obtain ⟨t, ht, hlt⟩ := upperBound_at _ _ _ hlow hne1
          have := hM t (List.mem_iff_getElem?.2 ⟨_, ht⟩)
          linarith)
        (by
          push_cast at hfuel
          linarith)
      rw [hws]
      exact ⟨_, rfl⟩
    · rw [if_neg hne]
      exact ⟨[], rfl⟩

theorem chainFrom_lower (n : Nat) :
    ∀ (ws : List BeamWindow) (first : Nat), ChainFrom n first ws →
      first ≤ n ∧ ∀ w ∈ ws, first ≤ w.groupStart ∧ w.groupStart ≤ w.groupEnd ∧ w.groupEnd ≤ n := by
  intro ws
  induction ws with
  | nil =>
    intro first h
    have h1 : first = n := h
    exact ⟨by omega, fun w hw => by cases hw⟩
  | cons w0 ws ih =>
    intro first h
    obtain ⟨h1, h2, h3, hrest⟩ := h
    obtain ⟨-, hall⟩ := ih _ hrest
    refine ⟨by omega, ?_⟩
    intro w hw
    rcases List.mem_cons.1 hw with rfl | hw
    · exact ⟨by omega, h2, h3⟩
    · obtain ⟨h4, h5, h6⟩ := hall w hw
      exact ⟨by omega, h5, h6⟩

theorem chainFrom_pairwise (n : Nat) :
    ∀ (ws : List BeamWindow) (first : Nat), ChainFrom n first ws →
      ws.Pairwise (fun w1 w2 => w1.groupEnd ≤ w2.groupStart) := by
  intro ws
  induction ws with
  | nil =>
    intro first _
    exact List.Pairwise.nil
  | cons w0 ws ih =>
    intro first h
    obtain ⟨-, -, -, hrest⟩ := h
    exact List.Pairwise.cons (fun w hw => ((chainFrom_lower n ws _ hrest).2 w hw).1)
      (ih _ hrest)

theorem chainFrom_next (n : Nat) :
    ∀ (ws : List BeamWindow) (first : Nat), ChainFrom n first ws →
      (∀ w : BeamWindow, ws[0]? = some w → w.groupStart = first) ∧
      (∀ (k : Nat) (w w1 : BeamWindow), ws[k]? = some w → ws[k + 1]? = some w1 →
        w1.groupStart = w.groupEnd) ∧
      (∀ w : BeamWindow, ws.getLast? = some w → w.groupEnd = n) := by
  intro ws
  induction ws with
  | nil =>
    intro first _
    refine ⟨?_, ?_, ?_⟩
    · intro w hw
      simp at hw
    · intro k w w1 hw
      simp at hw
    · intro w hw
      simp at hw
  | cons w0 ws ih =>
    intro first h
    obtain ⟨h1, -, -, hrest⟩ := h
    obtain ⟨ih0, ihk, ihl⟩ := ih _ hrest
    refine ⟨?_, ?_, ?_⟩
    · intro w hw
      simp only [List.getElem?_cons_zero, Option.some.injEq] at hw
      subst hw
      exact h1
    · intro k w w1 hw hw1
      simp only [List.getElem?_cons_succ] at hw1
      cases k with
      | zero =>
        simp only [List.getElem?_cons_zero, Option.some.injEq] at hw
        subst hw
        exact ih0 w1 hw1
      | succ k =>
        simp only [List.getElem?_cons_succ] at hw
        exact ihk k w w1 hw hw1
    · intro w hw
      cases ws with
      | nil =>
        simp only [List.getLast?_singleton, Option.some.injEq] at hw
        subst hw
        exact hrest
      | cons w1 ws1 =>
        rw [List.getLast?_cons_cons] at hw
        exact ihl w hw

theorem chainFrom_flatten {α : Type} (l : List α) :
    ∀ (ws : List BeamWindow) (first : Nat), ChainFrom l.length first ws →
      (ws.map (fun w => (l.drop w.groupStart).take (w.groupEnd - w.groupStart))).flatten =
        l.drop first := by
  intro ws
  induction ws with
  | nil =>
    intro first h
    have h1 : first = l.length := h
    rw [h1, List.drop_length]
    rfl
  | cons w0 ws ih =>
    intro first h
    obtain ⟨h1, h2, -, hrest⟩ := h
    rw [List.map_cons, List.flatten_cons, ih _ hrest, ← h1]
    have hdrop : l.drop w0.groupEnd = (l.drop w0.groupStart).drop (w0.groupEnd - w0.groupStart) := by
      rw [List.drop_drop, Nat.add_sub_cancel' h2]
    rw [hdrop, List.take_append_drop]

theorem chainFrom_cover (n : Nat) :
    ∀ (ws : List BeamWindow) (first : Nat), ChainFrom n first ws →
      ∀ i, first ≤ i → i < n →
        ∃ (k : Nat) (w : BeamWindow), ws[k]? = some w ∧ w.groupStart ≤ i ∧ i < w.groupEnd := by
  intro ws
  induction ws with
  | nil =>
    intro first h i h1 h2
    have h3 : first = n := h
    omega
  | cons w0 ws ih =>
    intro first h i h1 h2
    obtain ⟨h3, -, -, hrest⟩ := h
    rcases Nat.lt_or_ge i w0.groupEnd with h4 | h4
    · exact ⟨0, w0, List.getElem?_cons_zero, by omega, h4⟩
    · obtain ⟨k, w, hk, h5, h6⟩ := ih _ hrest i h4 h2
      exact ⟨k + 1, w, (List.getElem?_cons_succ).trans hk, h5, h6⟩

theorem chainFrom_unique (n : Nat) (ws : List BeamWindow) (first : Nat)
    (h : ChainFrom n first ws) (i : Nat) (h1 : first ≤ i) (h2 : i < n) :
    ∃! k : Nat, ∃ w : BeamWindow, ws[k]? = some w ∧ w.groupStart ≤ i ∧ i < w.groupEnd := by
  obtain ⟨k, w, hk, h3, h4⟩ := chainFrom_cover n ws first h i h1 h2
  refine ⟨k, ⟨w, hk, h3, h4⟩, ?_⟩
  rintro k1 ⟨w1, hk1, h5, h6⟩
  have hpair := List.pairwise_iff_getElem.1 (chainFrom_pairwise n ws first h)
  obtain ⟨hlt, hw⟩ := List.getElem?_eq_some_iff.1 hk
  obtain ⟨hlt1, hw1⟩ := List.getElem?_eq_some_iff.1 hk1
  rcases Nat.lt_trichotomy k1 k with hc | hc | hc
  · have := hpair k1 k hlt1 hlt hc
    rw [hw, hw1] at this
    omega
  · exact hc
  · have := hpair k k1 hlt hlt1 hc
    rw [hw, hw1] at this
    omega

theorem beamWindows_some :
    ∀ (ws : List BeamWindow) (positions : List Position),
      ∃ result, beamWindows positions ws = some result := by
  intro ws
  induction ws with
  | nil =>
    intro positions
    exact ⟨positions, rfl⟩
  | cons w ws ih =>
    intro positions
    obtain ⟨out, hout, -⟩ := calculateBeamingForGroup_flags
      ((positions.drop w.groupStart).take (w.groupEnd - w.groupStart))
    obtain ⟨result, hresult⟩ := ih (positions.take w.groupStart ++ out ++ positions.drop w.groupEnd)
    refine ⟨result, ?_⟩
    rw [beamWindows, hout]
    exact hresult

theorem partialSums_length : ∀ (ds : List ℚ) (acc : ℚ), (partialSums acc ds).length = ds.length := by
  intro ds
  induction ds with
  | nil =>
    intro acc
    rfl
  | cons d ds ih =>
    intro acc
    show (partialSums (acc + d) ds).length + 1 = ds.length + 1
    rw [ih]

theorem partialSums_gt : ∀ (ds : List ℚ) (acc : ℚ), (∀ x ∈ ds, 0 < x) →
    ∀ t ∈ partialSums acc ds, acc < t := by
  intro ds
  induction ds with
  | nil =>
    intro acc _ t ht
    cases ht
  | cons d ds ih =>
    intro acc hpos t ht
    have hd := hpos d (List.mem_cons_self d ds)
    rcases List.mem_cons.1 ht with rfl | ht
    · linarith
    · have := ih (acc + d) (fun x hx => hpos x (List.mem_cons_of_mem d hx)) t ht
      linarith

theorem partialSums_sorted : ∀ (ds : List ℚ) (acc : ℚ), (∀ x ∈ ds, 0 < x) →
    (partialSums acc ds).Pairwise (fun a b => a ≤ b) := by
  intro ds
  induction ds with
  | nil =>
    intro acc _
    exact List.Pairwise.nil
  | cons d ds ih =>
    intro acc hpos
    have hrest : ∀ x ∈ ds, 0 < x := fun x hx => hpos x (List.mem_cons_of_mem d hx)
    exact List.Pairwise.cons (fun t ht => le_of_lt (partialSums_gt ds (acc + d) hrest t ht))
      (ih (acc + d) hrest)

theorem partialSums_le (c : ℚ) : ∀ (ds : List ℚ) (acc : ℚ), (∀ x ∈ ds, 0 ≤ x ∧ x ≤ c) →
    ∀ t ∈ partialSums acc ds, t ≤ acc + c * (ds.length : ℚ) := by
  intro ds
  induction ds with
  | nil =>
    intro acc _ t ht
    cases ht
  | cons d ds ih =>
    intro acc hb t ht
    obtain ⟨hd0, hdc⟩ := hb d (List.mem_cons_self d ds)
    have hc : 0 ≤ c := le_trans hd0 hdc
    have hlen : (0 : ℚ) ≤ (ds.length : ℚ) := Nat.cast_nonneg _
    have hmul : 0 ≤ c * (ds.length : ℚ) := mul_nonneg hc hlen
    simp only [List.length_cons, Nat.cast_add, Nat.cast_one]
    rcases List.mem_cons.1 ht with rfl | ht
    · nlinarith
    · have := ih (acc + d) (fun x hx => hb x (List.mem_cons_of_mem d hx)) t ht
      nlinarith

theorem getDuration_bounds (p : Position) : 0 ≤ GetDuration p ∧ GetDuration p ≤ 4 := by
  unfold GetDuration
  rcases Nat.eq_zero_or_pos p.durationType with h0 | hpos
  · rw [h0]
    norm_num
  · have h1 : (1 : ℚ) ≤ (p.durationType : ℚ) := by exact_mod_cast hpos
    have h2 : (0 : ℚ) < (p.durationType : ℚ) := by linarith
    constructor
    · positivity
    · rw [div_le_iff₀ h2]
      nlinarith

theorem getDuration_pos (p : Position) (h : p.durationType ≠ 0) : 0 < GetDuration p := by
  unfold GetDuration
  have h1 : (0 : ℚ) < (p.durationType : ℚ) := by exact_mod_cast Nat.pos_of_ne_zero h
  positivity

theorem collectedTimestamps_length (s : Staff) (startBar endBar : Barline) :
    (collectedTimestamps s startBar endBar).length =
      (collectedPositions s startBar endBar).length := by
  unfold collectedTimestamps
  rw [partialSums_length, List.length_map]

theorem mem_beamGroupPatternsOf (timeSig : TimeSignature) :
    ∀ x ∈ beamGroupPatternsOf timeSig, x ≠ 0 := by
  intro x hx
  unfold beamGroupPatternsOf at hx
  have := (List.mem_filter.1 hx).2
  simpa using this

theorem beamGroupPatternsOf_pos (timeSig : TimeSignature)
    (h : timeSig.beamingPattern1 ≠ 0 ∨ timeSig.beamingPattern2 ≠ 0 ∨
      timeSig.beamingPattern3 ≠ 0 ∨ timeSig.beamingPattern4 ≠ 0) :
    0 < (beamGroupPatternsOf timeSig).length := by
  apply List.length_pos_of_mem (a := if timeSig.beamingPattern1 ≠ 0 then timeSig.beamingPattern1
    else if timeSig.beamingPattern2 ≠ 0 then timeSig.beamingPattern2
    else if timeSig.beamingPattern3 ≠ 0 then timeSig.beamingPattern3
    else timeSig.beamingPattern4)
  unfold beamGroupPatternsOf
  rw [List.mem_filter]
  by_cases h1 : timeSig.beamingPattern1 ≠ 0
  · rw [if_pos h1]
    exact ⟨by simp, by simpa using h1⟩
  · rw [if_neg h1]
    by_cases h2 : timeSig.beamingPattern2 ≠ 0
    · rw [if_pos h2]
      exact ⟨by simp, by simpa using h2⟩
    · rw [if_neg h2]
      by_cases h3 : timeSig.beamingPattern3 ≠ 0
      · rw [if_pos h3]
        exact ⟨by simp, by simpa using h3⟩
      · rw [if_neg h3]
        have h4 : timeSig.beamingPattern4 ≠ 0 := by
          rcases h with h | h | h | h
          · exact absurd h h1
          · exact absurd h h2
          · exact absurd h h3
          · exact h
        exact ⟨by simp, by simpa using h4⟩

theorem bar_windows_exist (s : Staff) (fuel : Nat) (startBar endBar : Barline)
    (hpattern : startBar.timeSignature.beamingPattern1 ≠ 0 ∨
      startBar.timeSignature.beamingPattern2 ≠ 0 ∨
      startBar.timeSignature.beamingPattern3 ≠ 0 ∨
      startBar.timeSignature.beamingPattern4 ≠ 0)
    (hfuel : 8 * (collectedPositions s startBar endBar).length + 1 ≤ fuel) :
    ∃ ws, CalculateBeamingForBar_windows s fuel startBar endBar = some (.ok ws) ∧
      WindowsFrom (beamGroupPatternsOf startBar.timeSignature)
        (collectedTimestamps s startBar endBar) 0 0 0 ws ∧
      ∃ result, beamWindows (collectedPositions s startBar endBar) ws = some result ∧
        s.CalculateBeamingForBar fuel startBar endBar =
          some (.ok (s.setVoiceArray ⟨0, by decide⟩
            (writeSlots (s.positionArrays ⟨0, by decide⟩)
              (slotsInRange (s.positionArrays ⟨0, by decide⟩) startBar.position
                endBar.position) result))) := by
  have hM : ∀ t ∈ collectedTimestamps s startBar endBar,
      t ≤ 4 * ((collectedPositions s startBar endBar).length : ℚ) := by
    intro t ht
    have := partialSums_le 4 ((collectedPositions s startBar endBar).map GetDuration) 0
      (fun x hx => by
        obtain ⟨p, -, rfl⟩ := List.mem_map.1 hx
        exact getDuration_bounds p) t ht
    rw [List.length_map] at this
    linarith
  have hlen : (0 : ℚ) ≤ ((collectedPositions s startBar endBar).length : ℚ) := Nat.cast_nonneg _
  obtain ⟨ws, hws⟩ := barWindows_terminates (beamGroupPatternsOf startBar.timeSignature)
    (collectedTimestamps s startBar endBar)
    (4 * ((collectedPositions s startBar endBar).length : ℚ))
    (mem_beamGroupPatternsOf _) hM fuel 0 0 0 (beamGroupPatternsOf_pos _ hpattern)
    (Nat.zero_le _) (fun _ => by linarith)
    (by
      have hc : ((8 * (collectedPositions s startBar endBar).length + 1 : Nat) : ℚ) ≤
          (fuel : ℚ) := by exact_mod_cast hfuel
      push_cast at hc
      linarith)
  obtain ⟨result, hresult⟩ := beamWindows_some ws (collectedPositions s startBar endBar)
  refine ⟨ws, hws, barWindows_windowsFrom _ _ _ _ _ _ _ hws, result, hresult, ?_⟩
  rw [calculateBeamingForBar_eq_windows]
  unfold CalculateBeamingForBar_windows
  rw [hws]
  simp only []
  rw [hresult]
  rfl

/-! ## Windows, partition and termination of the bar loop -/

/-- C31 (as amended). Beam window membership: for a bar whose beaming pattern
has a non-zero entry and whose collected positions all have positive duration,
`CalculateBeamingForBar` returns with enough fuel, its result is that of the
calls of `CalculateBeamingForGroup` on the windows it forms, every window ends
one pattern entry times one half after its begin time, and the positions
passed for a window are exactly the collected positions whose cumulative
timestamp `t` satisfies `groupBeginTime < t` and `t ≤ groupEndTime`. -/
theorem beam_window_membership (s : Staff) (fuel : Nat) (startBar endBar : Barline)
    (hpattern : startBar.timeSignature.beamingPattern1 ≠ 0 ∨
      startBar.timeSignature.beamingPattern2 ≠ 0 ∨
      startBar.timeSignature.beamingPattern3 ≠ 0 ∨
      startBar.timeSignature.beamingPattern4 ≠ 0)
    (hduration : ∀ p ∈ collectedPositions s startBar endBar, 0 < GetDuration p)
    (hfuel : 8 * (collectedPositions s startBar endBar).length + 1 ≤ fuel) :
    ∃ ws, CalculateBeamingForBar_windows s fuel startBar endBar = some (.ok ws) ∧
      (∃ result, beamWindows (collectedPositions s startBar endBar) ws = some result ∧
        s.CalculateBeamingForBar fuel startBar endBar =
          some (.ok (s.setVoiceArray ⟨0, by decide⟩
            (writeSlots (s.positionArrays ⟨0, by decide⟩)
              (slotsInRange (s.positionArrays ⟨0, by decide⟩) startBar.position
                endBar.position) result)))) ∧
      ∀ w ∈ ws,
        (∃ entry ∈ beamGroupPatternsOf startBar.timeSignature,
          w.groupEndTime = w.groupBeginTime + (entry : ℚ) * (1 / 2)) ∧
        ∀ (i : Nat) (t : ℚ), (collectedTimestamps s startBar endBar)[i]? = some t →
          ((w.groupStart ≤ i ∧ i < w.groupEnd) ↔
            (w.groupBeginTime < t ∧ t ≤ w.groupEndTime)) := by
  obtain ⟨ws, hws, hfrom, hresult⟩ := bar_windows_exist s fuel startBar endBar hpattern hfuel
  have hpos : ∀ x ∈ (collectedPositions s startBar endBar).map GetDuration, (0 : ℚ) < x := by
    intro x hx
    obtain ⟨p, hp, rfl⟩ := List.mem_map.1 hx
    exact hduration p hp
  have hsorted : (collectedTimestamps s startBar endBar).Pairwise (fun a b => a ≤ b) :=
    partialSums_sorted _ 0 hpos
  have hhead : ∀ (i : Nat) (t : ℚ), (collectedTimestamps s startBar endBar)[i]? = some t →
      (i < 0 ↔ t ≤ 0) := by
    intro i t ht
    have hgt := partialSums_gt _ 0 hpos t (List.mem_iff_getElem?.2 ⟨i, ht⟩)
    constructor
    · intro h
      exact absurd h (Nat.not_lt_zero i)
    · intro h
      linarith
  refine ⟨ws, hws, hresult, ?_⟩
  intro w hw
  refine ⟨?_, windowsFrom_member _ _ hsorted ws 0 0 0 hfrom (Nat.zero_le _) hhead w hw⟩
  obtain ⟨k, hk⟩ := List.mem_iff_getElem?.1 hw
  obtain ⟨⟨entry, hentry, he⟩, -, -⟩ := windowsFrom_times _ _ ws 0 0 0 hfrom
    (beamGroupPatternsOf_pos _ hpattern) k w hk
  exact ⟨entry, List.mem_iff_getElem?.2 ⟨_, hentry⟩, by rw [he, add_comm]⟩

/-- Witness of C31: the bar of two eighths, a quarter and two eighths with the
pattern (4, 4): every window the call forms selects the positions whose
timestamp lies after its begin time and not after its end time. -/
theorem beam_window_membership_witness :
    ∃ ws, CalculateBeamingForBar_windows splitBarStaff 41 openingBar closingBar =
        some (.ok ws) ∧
      ∀ w ∈ ws, ∀ (i : Nat) (t : ℚ),
        (collectedTimestamps splitBarStaff openingBar closingBar)[i]? = some t →
        ((w.groupStart ≤ i ∧ i < w.groupEnd) ↔
          (w.groupBeginTime < t ∧ t ≤ w.groupEndTime)) := by
  obtain ⟨ws, hws, -, hall⟩ := beam_window_membership splitBarStaff 41 openingBar closingBar
    (Or.inl (by decide))
    (by
      intro p hp
      have hne : p.durationType ≠ 0 := by
        have hall : ∀ q ∈ collectedPositions splitBarStaff openingBar closingBar,
            q.durationType ≠ 0 := by decide
        exact hall p hp
      exact getDuration_pos p hne)
    (by decide)
  exact ⟨ws, hws, fun w hw => (hall w hw).2⟩

/-- Counterexample to C31 as stated: for the bar of four eighth notes with the
pattern (4, 4) the loop forms the one window from time 0 to time 2 and passes
all four positions; the fourth has timestamp 2, which is not before the end
time of the window. -/
theorem beam_window_membership_counterexample :
    (CalculateBeamingForBar_windows fourEighthsStaff 33 openingBar closingBar).bind
        Except.toOption =
      some [{ groupBeginTime := 0, groupEndTime := 2, groupStart := 0, groupEnd := 4 }] ∧
    (collectedTimestamps fourEighthsStaff openingBar closingBar)[3]? = some 2 ∧
    ¬ ((2 : ℚ) < 2) := by
  refine ⟨by with_unfolding_all decide, by with_unfolding_all decide, by norm_num⟩

/-- C35. Beam groups partition the bar: for a bar whose beaming pattern has a
non-zero entry and whose collected positions all have positive duration,
`CalculateBeamingForBar` returns with enough fuel, its result is that of the
calls of `CalculateBeamingForGroup` on the windows it forms, and the windows
are consecutive ranges of offsets of the collected positions: the first starts
at offset 0, each next one starts where the one before ends, the last ends at
the end of the list, they are pairwise disjoint, the concatenation of the
slices is the whole list, and every collected position lies in exactly one
window. -/
theorem beam_groups_partition (s : Staff) (fuel : Nat) (startBar endBar : Barline)
    (hpattern : startBar.timeSignature.beamingPattern1 ≠ 0 ∨
      startBar.timeSignature.beamingPattern2 ≠ 0 ∨
      startBar.timeSignature.beamingPattern3 ≠ 0 ∨
      startBar.timeSignature.beamingPattern4 ≠ 0)
    (hduration : ∀ p ∈ collectedPositions s startBar endBar, 0 < GetDuration p)
    (hfuel : 8 * (collectedPositions s startBar endBar).length + 1 ≤ fuel) :
    ∃ ws, CalculateBeamingForBar_windows s fuel startBar endBar = some (.ok ws) ∧
      (∃ result, beamWindows (collectedPositions s startBar endBar) ws = some result ∧
        s.CalculateBeamingForBar fuel startBar endBar =
          some (.ok (s.setVoiceArray ⟨0, by decide⟩
            (writeSlots (s.positionArrays ⟨0, by decide⟩)
              (slotsInRange (s.positionArrays ⟨0, by decide⟩) startBar.position
                endBar.position) result)))) ∧
      (∀ w : BeamWindow, ws[0]? = some w → w.groupStart = 0) ∧
      (∀ (k : Nat) (w w1 : BeamWindow), ws[k]? = some w → ws[k + 1]? = some w1 →
        w1.groupStart = w.groupEnd) ∧
      (∀ w : BeamWindow, ws.getLast? = some w →
        w.groupEnd = (collectedPositions s startBar endBar).length) ∧
      (∀ w ∈ ws, w.groupStart ≤ w.groupEnd ∧
        w.groupEnd ≤ (collectedPositions s startBar endBar).length) ∧
      ws.Pairwise (fun w1 w2 => w1.groupEnd ≤ w2.groupStart) ∧
      (ws.map (fun w => ((collectedPositions s startBar endBar).drop w.groupStart).take
        (w.groupEnd - w.groupStart))).flatten = collectedPositions s startBar endBar ∧
      ∀ i, i < (collectedPositions s startBar endBar).length →
        ∃! k : Nat, ∃ w : BeamWindow, ws[k]? = some w ∧ w.groupStart ≤ i ∧ i < w.groupEnd := by
  obtain ⟨ws, hws, hfrom, hresult⟩ := bar_windows_exist s fuel startBar endBar hpattern hfuel
  have hpos : ∀ x ∈ (collectedPositions s startBar endBar).map GetDuration, (0 : ℚ) < x := by
    intro x hx
    obtain ⟨p, hp, rfl⟩ := List.mem_map.1 hx
    exact hduration p hp
  have hchain := windowsFrom_chain _ _ ws 0 0 0 hfrom (Nat.zero_le _)
    (fun t ht => le_of_lt (partialSums_gt _ 0 hpos t (List.mem_iff_getElem?.2 ⟨0, ht⟩)))
  rw [collectedTimestamps_length] at hchain
  obtain ⟨hfirst, hnext, hlast⟩ := chainFrom_next _ ws 0 hchain
  refine ⟨ws, hws, hresult, hfirst, hnext, hlast, ?_, chainFrom_pairwise _ ws 0 hchain, ?_, ?_⟩
  · intro w hw
    exact ((chainFrom_lower _ ws 0 hchain).2 w hw).2
  · exact chainFrom_flatten (collectedPositions s startBar endBar) ws 0 hchain
  · intro i hi
    exact chainFrom_unique _ ws 0 hchain i (Nat.zero_le _) hi

/-- Witness of C35: the bar of two eighths, a quarter and two eighths with the
pattern (4, 4) is cut into windows whose slices make up the five collected
positions. -/
theorem beam_groups_partition_witness :
    ∃ ws, CalculateBeamingForBar_windows splitBarStaff 41 openingBar closingBar =
        some (.ok ws) ∧
      (ws.map (fun w => ((collectedPositions splitBarStaff openingBar closingBar).drop
        w.groupStart).take (w.groupEnd - w.groupStart))).flatten =
        collectedPositions splitBarStaff openingBar closingBar := by
  obtain ⟨ws, hws, -, -, -, -, -, -, hflat, -⟩ :=
    beam_groups_partition splitBarStaff 41 openingBar closingBar
      (Or.inl (by decide))
      (by
        intro p hp
        have hne : p.durationType ≠ 0 := by
          have hall : ∀ q ∈ collectedPositions splitBarStaff openingBar closingBar,
              q.durationType ≠ 0 := by decide
          exact hall p hp
        exact getDuration_pos p hne)
      (by decide)
  exact ⟨ws, hws, hflat⟩

/-- C36. Beaming terminates: for a time signature whose beaming pattern has a
non-zero entry and any staff, the loop of `CalculateBeamingForBar` given eight
passes per collected position and one more returns a staff, the pattern vector
it reads is not empty, and the window of pass `k` is as wide as one half of the
non-zero pattern entry at offset `k` modulo the number of non-zero entries;
`CalculateBeamingForGroup` returns on every group, the empty group included.
Durations are rationals here, hence finite. -/
theorem beaming_terminates (s : Staff) (fuel : Nat) (startBar endBar : Barline)
    (hpattern : startBar.timeSignature.beamingPattern1 ≠ 0 ∨
      startBar.timeSignature.beamingPattern2 ≠ 0 ∨
      startBar.timeSignature.beamingPattern3 ≠ 0 ∨
      startBar.timeSignature.beamingPattern4 ≠ 0)
    (hfuel : 8 * (collectedPositions s startBar endBar).length + 1 ≤ fuel) :
    (∃ s1, s.CalculateBeamingForBar fuel startBar endBar = some (.ok s1)) ∧
    beamGroupPatternsOf startBar.timeSignature ≠ [] ∧
    (∃ ws, CalculateBeamingForBar_windows s fuel startBar endBar = some (.ok ws) ∧
      (∀ w : BeamWindow, ws[0]? = some w → w.groupBeginTime = 0) ∧
      (∀ (k : Nat) (w w1 : BeamWindow), ws[k]? = some w → ws[k + 1]? = some w1 →
        w1.groupBeginTime = w.groupEndTime) ∧
      ∀ (k : Nat) (w : BeamWindow), ws[k]? = some w →
        ∃ entry, (beamGroupPatternsOf startBar.timeSignature)[
            k % (beamGroupPatternsOf startBar.timeSignature).length]? = some entry ∧
          entry ≠ 0 ∧ w.groupEndTime - w.groupBeginTime = (entry : ℚ) * (1 / 2)) ∧
    (∀ positions : List Position, ∃ out, CalculateBeamingForGroup positions = some out ∧
      out.length = positions.length) ∧
    CalculateBeamingForGroup [] = some [] := by
  obtain ⟨ws, hws, hfrom, result, -, hcall⟩ :=
    bar_windows_exist s fuel startBar endBar hpattern hfuel
  have hlen := beamGroupPatternsOf_pos _ hpattern
  refine ⟨⟨_, hcall⟩, List.ne_nil_of_length_pos hlen, ⟨ws, hws, ?_, ?_, ?_⟩, ?_, rfl⟩
  · intro w hw
    exact (windowsFrom_times _ _ ws 0 0 0 hfrom hlen 0 w hw).2.1 rfl
  · intro k w w1 hw hw1
    exact (windowsFrom_times _ _ ws 0 0 0 hfrom hlen k w hw).2.2 w1 hw1
  · intro k w hw
    obtain ⟨⟨entry, hentry, he⟩, -, -⟩ := windowsFrom_times _ _ ws 0 0 0 hfrom hlen k w hw
    rw [Nat.zero_add] at hentry
    refine ⟨entry, hentry, mem_beamGroupPatternsOf _ entry (List.mem_iff_getElem?.2 ⟨_, hentry⟩),
      ?_⟩
    rw [he]
    ring
  · intro positions
    obtain ⟨out, hout, hinv⟩ := calculateBeamingForGroup_flags positions
    exact ⟨out, hout, hinv.1⟩

/-- Witness of C36: the call on the bar of two eighths, a quarter and two
eighths with the pattern (4, 4) returns a staff with 41 passes of fuel. -/
theorem beaming_terminates_witness :
    ∃ s1, splitBarStaff.CalculateBeamingForBar 41 openingBar closingBar = some (.ok s1) :=
  (beaming_terminates splitBarStaff 41 openingBar closingBar (Or.inl (by decide))
    (by decide)).1

end Staff

end PowerTab
